import Mathlib

/-!
# Instrumented integer sorting algorithms

A shallow embedding of `SortingAlgorithms.h` / `SortingAlgorithms.cpp`.

* A `std::vector<int>` is a `List Int`.  Element reads and writes go through
  `rd` / `wr`, which return `none` on an index outside `0 .. size-1`, so a
  result `some _` certifies that every access was in range.
* `int` indices are `Int` (they do become `-1` in the source).  The differences of
  element values in `CountingSort`, which can leave the 32-bit range, are wrapped with
  `wrap32`; the step `exp *= 10` of `RadixSort::sort` yields `none` when its product is
  not representable in `int`.
* The counters of `SortStats` are carried explicitly through every function.
* Loops and recursions are structurally recursive on an iteration budget
  computed at the call site; running out of budget yields `none`.
-/

/-- Counters of `struct SortStats`; `time_ms` and `algorithm_name` are never touched by the
sorting code and are left out. -/
structure SortStats where
  comparisons : Nat
  swaps : Nat
deriving DecidableEq, Repr

namespace SortStats

/-- The constructor `SortStats()`. -/
def zero : SortStats := ⟨0, 0⟩

/-- The method `SortStats::reset`. -/
def reset (_s : SortStats) : SortStats := ⟨0, 0⟩

end SortStats

/-- Read `arr[i]`; `none` when `i` is out of range. -/
def rd (arr : List Int) (i : Int) : Option Int :=
  if 0 ≤ i then arr[i.toNat]? else none

/-- Write `arr[i] = v`; `none` when `i` is out of range. -/
def wr (arr : List Int) (i : Int) (v : Int) : Option (List Int) :=
  if 0 ≤ i ∧ i < arr.length then some (arr.set i.toNat v) else none

/-- Two's-complement wrap-around of a 32-bit `int` result. -/
def wrap32 (x : Int) : Int := (x + 2147483648) % 4294967296 - 2147483648

/-- Values representable in a 32-bit `int`. -/
def isInt32 (x : Int) : Prop := -2147483648 ≤ x ∧ x ≤ 2147483647

instance (x : Int) : Decidable (isInt32 x) := by unfold isInt32; infer_instance

namespace SortingAlgorithm

/-- The instrumented comparison `SortingAlgorithm::compare`: one more comparison, answer `a < b`. -/
def compare (s : SortStats) (a b : Int) : Bool × SortStats :=
  (decide (a < b), { s with comparisons := s.comparisons + 1 })

/-- The instrumented exchange `SortingAlgorithm::swap` applied to `arr[i]` and `arr[j]`. -/
def swap (s : SortStats) (arr : List Int) (i j : Int) : Option (List Int × SortStats) := do
  let a ← rd arr i
  let b ← rd arr j
  let arr1 ← wr arr i b
  let arr2 ← wr arr1 j a
  pure (arr2, { s with swaps := s.swaps + 1 })

end SortingAlgorithm

open SortingAlgorithm

namespace InsertionSort

/-- The inner `while (j >= left && compare(key, arr[j]))` loop of `sortRange`;
returns the array, the counters and the final `j`. -/
def shiftLoop (left key : Int) : Nat → List Int → SortStats → Int → Option (List Int × SortStats × Int)
  | 0, _, _, _ => none
  | fuel + 1, arr, s, j =>
    if left ≤ j then do
      let aj ← rd arr j
      let c := compare s key aj
      if c.1 then do
        let arr1 ← wr arr (j + 1) aj
        shiftLoop left key fuel arr1 { c.2 with swaps := c.2.swaps + 1 } (j - 1)
      else pure (arr, c.2, j)
    else pure (arr, s, j)

/-- The `for (int i = left + 1; i <= right; i++)` loop of `sortRange`. -/
def sortRangeLoop (left right : Int) : Nat → List Int → SortStats → Int → Option (List Int × SortStats)
  | 0, _, _, _ => none
  | fuel + 1, arr, s, i =>
    if i ≤ right then do
      let key ← rd arr i
      let r ← shiftLoop left key ((i - left).toNat + 1) arr s (i - 1)
      let arr2 ← wr r.1 (r.2.2 + 1) key
      sortRangeLoop left right fuel arr2 r.2.1 (i + 1)
    else pure (arr, s)

/-- The method `InsertionSort::sortRange`. -/
def sortRange (s : SortStats) (arr : List Int) (left right : Int) : Option (List Int × SortStats) :=
  sortRangeLoop left right ((right - left).toNat + 1) arr s (left + 1)

/-- The method `InsertionSort::sort`; `arr.size() - 1` converted to `int` is `-1` on empty input. -/
def sort (s : SortStats) (arr : List Int) : Option (List Int × SortStats) :=
  sortRange s arr 0 ((arr.length : Int) - 1)

end InsertionSort

/-- The elements at positions `left .. right` (inclusive) of `arr`. -/
def seg (arr : List Int) (left right : Int) : List Int :=
  (arr.drop left.toNat).take (right + 1 - left).toNat

/-- C++ integer division (truncation toward zero). -/
def cdiv (a b : Int) : Int := Int.tdiv a b

/-- C++ integer remainder (sign of the dividend). -/
def cmod (a b : Int) : Int := Int.tmod a b

namespace MergeSort

/-- The test `compare(a, b) || !compare(b, a)` with short-circuit evaluation. -/
def leftFirst (s : SortStats) (a b : Int) : Bool × SortStats :=
  let c1 := compare s a b
  if c1.1 then (true, c1.2)
  else
    let c2 := compare c1.2 b a
    (!c2.1, c2.2)

/-- The loop `while (i <= mid && j <= right)` of `merge`; returns `temp`, counters, `i`, `j`, `k`. -/
def mergeLoop (mid right : Int) :
    Nat → List Int → List Int → SortStats → Int → Int → Int →
      Option (List Int × SortStats × Int × Int × Int)
  | 0, _, _, _, _, _, _ => none
  | fuel + 1, arr, temp, s, i, j, k =>
    if i ≤ mid ∧ j ≤ right then do
      let ai ← rd arr i
      let aj ← rd arr j
      let t := leftFirst s ai aj
      if t.1 then do
        let temp1 ← wr temp k ai
        mergeLoop mid right fuel arr temp1 t.2 (i + 1) j (k + 1)
      else do
        let temp1 ← wr temp k aj
        mergeLoop mid right fuel arr temp1 t.2 i (j + 1) (k + 1)
    else pure (temp, s, i, j, k)

/-- The loops `while (i <= mid) temp[k++] = arr[i++];` and
`while (j <= right) temp[k++] = arr[j++];` of `merge` (`bound` is `mid`, resp. `right`);
returns `temp` and the final `k`. -/
def copyRest (bound : Int) : Nat → List Int → List Int → Int → Int → Option (List Int × Int)
  | 0, _, _, _, _ => none
  | fuel + 1, arr, temp, i, k =>
    if i ≤ bound then do
      let ai ← rd arr i
      let temp1 ← wr temp k ai
      copyRest bound fuel arr temp1 (i + 1) (k + 1)
    else pure (temp, k)

/-- The loop `for (int i = left; i <= right; i++) { arr[i] = temp[i]; stats.swaps++; }`. -/
def copyBack (right : Int) : Nat → List Int → List Int → SortStats → Int →
    Option (List Int × SortStats)
  | 0, _, _, _, _ => none
  | fuel + 1, arr, temp, s, i =>
    if i ≤ right then do
      let ti ← rd temp i
      let arr1 ← wr arr i ti
      copyBack right fuel arr1 temp { s with swaps := s.swaps + 1 } (i + 1)
    else pure (arr, s)

/-- The method `MergeSort::merge`; returns `arr`, `temp` and the counters. -/
def merge (s : SortStats) (arr : List Int) (left mid right : Int) (temp : List Int) :
    Option (List Int × List Int × SortStats) := do
  let fuel := (right - left).toNat + 2
  let r ← mergeLoop mid right fuel arr temp s left (mid + 1) left
  let r2 ← copyRest mid fuel arr r.1 r.2.2.1 r.2.2.2.2
  let r3 ← copyRest right fuel arr r2.1 r.2.2.2.1 r2.2
  let r4 ← copyBack right fuel arr r3.1 r.2.1 left
  pure (r4.1, r3.1, r4.2)

/-- The method `MergeSort::mergeSort`; the budget bounds the recursion depth. -/
def mergeSort : Nat → SortStats → List Int → Int → Int → List Int →
    Option (List Int × List Int × SortStats)
  | 0, _, _, _, _, _ => none
  | fuel + 1, s, arr, left, right, temp =>
    if left < right then do
      let mid := left + cdiv (right - left) 2
      let r1 ← mergeSort fuel s arr left mid temp
      let r2 ← mergeSort fuel r1.2.2 r1.1 (mid + 1) right r1.2.1
      merge r2.2.2 r2.1 left mid right r2.2.1
    else pure (arr, temp, s)

/-- The method `MergeSort::sort`. -/
def sort (s : SortStats) (arr : List Int) : Option (List Int × SortStats) :=
  if arr.length ≤ 1 then some (arr, s)
  else do
    let temp := List.replicate arr.length (0 : Int)
    let r ← mergeSort (arr.length + 1) s arr 0 ((arr.length : Int) - 1) temp
    pure (r.1, r.2.2)

end MergeSort

namespace QuickSort

/-- The loop `for (int j = left; j < right; j++)` of `partition`; returns `arr`, counters, `i`. -/
def partitionLoop (pivot right : Int) : Nat → List Int → SortStats → Int → Int →
    Option (List Int × SortStats × Int)
  | 0, _, _, _, _ => none
  | fuel + 1, arr, s, i, j =>
    if j < right then do
      let aj ← rd arr j
      let c := compare s aj pivot
      if c.1 then do
        let r ← swap c.2 arr (i + 1) j
        partitionLoop pivot right fuel r.1 r.2 (i + 1) (j + 1)
      else partitionLoop pivot right fuel arr c.2 i (j + 1)
    else pure (arr, s, i)

/-- The method `QuickSort::partition`; returns `arr`, counters and the pivot index. -/
def partition (s : SortStats) (arr : List Int) (left right : Int) :
    Option (List Int × SortStats × Int) := do
  let pivot ← rd arr right
  let r ← partitionLoop pivot right ((right - left).toNat + 1) arr s (left - 1) left
  let r2 ← swap r.2.1 r.1 (r.2.2 + 1) right
  pure (r2.1, r2.2, r.2.2 + 1)

/-- The method `QuickSort::quickSort`; the budget bounds the recursion depth. -/
def quickSort : Nat → SortStats → List Int → Int → Int → Option (List Int × SortStats)
  | 0, _, _, _, _ => none
  | fuel + 1, s, arr, left, right =>
    if left < right then do
      let p ← partition s arr left right
      let r1 ← quickSort fuel p.2.1 p.1 left (p.2.2 - 1)
      quickSort fuel r1.2 r1.1 (p.2.2 + 1) right
    else pure (arr, s)

/-- The method `QuickSort::sort`. -/
def sort (s : SortStats) (arr : List Int) : Option (List Int × SortStats) :=
  if arr.length ≤ 1 then some (arr, s)
  else quickSort (arr.length + 1) s arr 0 ((arr.length : Int) - 1)

end QuickSort

namespace HeapSort

/-- One of the two tests `if (c < n && compare(arr[largest], arr[c])) largest = c;` of
`heapify`; returns the new `largest` and the counters. -/
def pickLarger (s : SortStats) (arr : List Int) (n largest c : Int) : Option (Int × SortStats) :=
  if c < n then do
    let a ← rd arr largest
    let b ← rd arr c
    let t := compare s a b
    pure (if t.1 then c else largest, t.2)
  else pure (largest, s)

/-- The method `HeapSort::heapify`; the budget bounds the recursion depth. -/
def heapify : Nat → SortStats → List Int → Int → Int → Option (List Int × SortStats)
  | 0, _, _, _, _ => none
  | fuel + 1, s, arr, n, i => do
    let l1 ← pickLarger s arr n i (2 * i + 1)
    let l2 ← pickLarger l1.2 arr n l1.1 (2 * i + 2)
    if l2.1 ≠ i then do
      let r ← swap l2.2 arr i l2.1
      heapify fuel r.2 r.1 n l2.1
    else pure (arr, l2.2)

/-- The loop `for (int i = n / 2 - 1; i >= 0; i--) heapify(arr, n, i);` of `sort`. -/
def buildLoop (n : Int) : Nat → SortStats → List Int → Int → Option (List Int × SortStats)
  | 0, _, _, _ => none
  | fuel + 1, s, arr, i =>
    if 0 ≤ i then do
      let r ← heapify (n.toNat + 1) s arr n i
      buildLoop n fuel r.2 r.1 (i - 1)
    else pure (arr, s)

/-- The body `swap(arr[0], arr[i]); heapify(arr, i, 0);` of the second loop of `sort`. -/
def extractStep (s : SortStats) (arr : List Int) (i : Int) : Option (List Int × SortStats) := do
  let r ← swap s arr 0 i
  heapify (i.toNat + 1) r.2 r.1 i 0

/-- The loop `for (int i = n - 1; i > 0; i--) { swap(arr[0], arr[i]); heapify(arr, i, 0); }`. -/
def extractLoop : Nat → SortStats → List Int → Int → Option (List Int × SortStats)
  | 0, _, _, _ => none
  | fuel + 1, s, arr, i =>
    if 0 < i then do
      let r ← extractStep s arr i
      extractLoop fuel r.2 r.1 (i - 1)
    else pure (arr, s)

/-- The first phase of `sort`: build the heap. -/
def build (s : SortStats) (arr : List Int) : Option (List Int × SortStats) :=
  buildLoop arr.length (arr.length + 1) s arr (cdiv arr.length 2 - 1)

/-- The method `HeapSort::sort`. -/
def sort (s : SortStats) (arr : List Int) : Option (List Int × SortStats) := do
  let r ← build s arr
  extractLoop (arr.length + 1) r.2 r.1 ((arr.length : Int) - 1)

end HeapSort

/-- An `IntroSort` object: its own counters and those of its two private sub-instances. -/
structure IntroSortState where
  stats : SortStats
  insertionSort : SortStats
  heapSort : SortStats
deriving DecidableEq, Repr

namespace IntroSort

/-- A guarded exchange `if (compare(arr[a], arr[b])) swap(arr[c], arr[d]);` of `partition`. -/
def condSwap (s : SortStats) (arr : List Int) (a b c d : Int) : Option (List Int × SortStats) := do
  let x ← rd arr a
  let y ← rd arr b
  let t := compare s x y
  if t.1 then swap t.2 arr c d else pure (arr, t.2)

/-- The scan `while (compare(arr[++i], pivot)) {}`; returns the counters and the final `i`. -/
def scanUp (pivot : Int) (arr : List Int) : Nat → SortStats → Int → Option (SortStats × Int)
  | 0, _, _ => none
  | fuel + 1, s, i => do
    let a ← rd arr (i + 1)
    let t := compare s a pivot
    if t.1 then scanUp pivot arr fuel t.2 (i + 1) else pure (t.2, i + 1)

/-- The scan `while (compare(pivot, arr[--j])) {}`; returns the counters and the final `j`. -/
def scanDown (pivot : Int) (arr : List Int) : Nat → SortStats → Int → Option (SortStats × Int)
  | 0, _, _ => none
  | fuel + 1, s, j => do
    let a ← rd arr (j - 1)
    let t := compare s pivot a
    if t.1 then scanDown pivot arr fuel t.2 (j - 1) else pure (t.2, j - 1)

/-- The `while (true)` loop of `partition`; returns `arr`, counters and the final `i`. -/
def partitionLoop (pivot : Int) : Nat → SortStats → List Int → Int → Int →
    Option (List Int × SortStats × Int)
  | 0, _, _, _, _ => none
  | fuel + 1, s, arr, i, j => do
    let u ← scanUp pivot arr (arr.length + 1) s i
    let d ← scanDown pivot arr (arr.length + 1) u.1 j
    if u.2 ≥ d.2 then pure (arr, d.1, u.2)
    else do
      let r ← swap d.1 arr u.2 d.2
      partitionLoop pivot fuel r.2 r.1 u.2 d.2

/-- The method `IntroSort::partition`; returns `arr`, counters and the pivot index. -/
def partition (s : SortStats) (arr : List Int) (left right : Int) :
    Option (List Int × SortStats × Int) := do
  let mid := left + cdiv (right - left) 2
  let r1 ← condSwap s arr right left left right
  let r2 ← condSwap r1.2 r1.1 mid left left mid
  let r3 ← condSwap r2.2 r2.1 right mid mid right
  let pivot ← rd r3.1 mid
  let r4 ← swap r3.2 r3.1 mid (right - 1)
  let r5 ← partitionLoop pivot (arr.length + 1) r4.2 r4.1 left (right - 1)
  let r6 ← swap r5.2.1 r5.1 r5.2.2 (right - 1)
  pure (r6.1, r6.2, r5.2.2)

/-- The value of `static_cast<int>(std::log2(n))` for `1 <= n`: the number of halvings
that bring `n` below 2. -/
def floorLog2 : Nat → Nat → Nat
  | 0, _ => 0
  | fuel + 1, n => if n < 2 then 0 else floorLog2 fuel (n / 2) + 1

/-- The method `IntroSort::getMaxDepth`. -/
def getMaxDepth (n : Nat) : Int := 2 * (floorLog2 n n : Int)

/-- The loop `for (int i = 0; i < temp.size(); i++) arr[left + i] = temp[i];`. -/
def copyIn (left : Int) (temp : List Int) : Nat → List Int → Int → Option (List Int)
  | 0, _, _ => none
  | fuel + 1, arr, i =>
    if i < temp.length then do
      let t ← rd temp i
      let arr1 ← wr arr (left + i) t
      copyIn left temp fuel arr1 (i + 1)
    else pure arr

/-- The method `IntroSort::introSort`; the budget bounds the recursion depth. -/
def introSort : Nat → IntroSortState → List Int → Int → Int → Int →
    Option (List Int × IntroSortState)
  | 0, _, _, _, _, _ => none
  | fuel + 1, st, arr, left, right, depthLimit =>
    let size := right - left + 1
    if size ≤ 16 then do
      let r ← InsertionSort.sortRange st.insertionSort arr left right
      pure (r.1, { st with
        stats := ⟨st.stats.comparisons + r.2.comparisons, st.stats.swaps + r.2.swaps⟩,
        insertionSort := r.2.reset })
    else if depthLimit = 0 then do
      let temp ← if 0 ≤ left ∧ right < arr.length then some (seg arr left right) else none
      let h ← HeapSort.sort st.heapSort temp
      let arr1 ← copyIn left h.1 (h.1.length + 1) arr 0
      pure (arr1, { st with
        stats := ⟨st.stats.comparisons + h.2.comparisons, st.stats.swaps + h.2.swaps⟩,
        heapSort := h.2.reset })
    else do
      let p ← partition st.stats arr left right
      let r1 ← introSort fuel { st with stats := p.2.1 } p.1 left (p.2.2 - 1) (depthLimit - 1)
      introSort fuel r1.2 r1.1 (p.2.2 + 1) right (depthLimit - 1)

/-- The method `IntroSort::sort`. -/
def sort (st : IntroSortState) (arr : List Int) : Option (List Int × IntroSortState) :=
  if arr.length ≤ 1 then some (arr, st)
  else introSort (arr.length + 1) st arr 0 ((arr.length : Int) - 1) (getMaxDepth arr.length)

end IntroSort

/-- A `TimSort` object: its own counters and those of its private `InsertionSort`. -/
structure TimSortState where
  stats : SortStats
  insertionSort : SortStats
deriving DecidableEq, Repr

namespace TimSort

/-- The constant `MIN_MERGE`. -/
def MIN_MERGE : Nat := 32

/-- The loop of `calcMinRun` on a non-negative `n`. -/
def calcMinRunLoop : Nat → Nat → Nat → Nat
  | 0, n, r => n + r
  | fuel + 1, n, r =>
    if n ≥ MIN_MERGE then calcMinRunLoop fuel (n >>> 1) (r ||| (n &&& 1)) else n + r

/-- The method `TimSort::calcMinRun` (its argument is a size, hence non-negative). -/
def calcMinRun (n : Nat) : Nat := calcMinRunLoop n n 0

/-- The loops `for (int i = 0; i < len; i++) dst[i] = arr[start + i];` of `merge`. -/
def copyOut (src : List Int) (start len : Int) : Nat → List Int → Int → Option (List Int)
  | 0, _, _ => none
  | fuel + 1, dst, i =>
    if i < len then do
      let a ← rd src (start + i)
      let dst1 ← wr dst i a
      copyOut src start len fuel dst1 (i + 1)
    else pure dst

/-- The loop `while (i < len1 && j < len2)` of `merge`; returns `arr`, counters, `i`, `j`, `k`. -/
def mergeLoop (leftArr rightArr : List Int) (len1 len2 : Int) :
    Nat → List Int → SortStats → Int → Int → Int → Option (List Int × SortStats × Int × Int × Int)
  | 0, _, _, _, _, _ => none
  | fuel + 1, arr, s, i, j, k =>
    if i < len1 ∧ j < len2 then do
      let a ← rd leftArr i
      let b ← rd rightArr j
      let t := MergeSort.leftFirst s a b
      if t.1 then do
        let arr1 ← wr arr k a
        mergeLoop leftArr rightArr len1 len2 fuel arr1
          { t.2 with swaps := t.2.swaps + 1 } (i + 1) j (k + 1)
      else do
        let arr1 ← wr arr k b
        mergeLoop leftArr rightArr len1 len2 fuel arr1
          { t.2 with swaps := t.2.swaps + 1 } i (j + 1) (k + 1)
    else pure (arr, s, i, j, k)

/-- The loops `while (i < len) { arr[k++] = buf[i++]; stats.swaps++; }` of `merge`;
returns `arr`, counters and the final `k`. -/
def drain (buf : List Int) (len : Int) : Nat → List Int → SortStats → Int → Int →
    Option (List Int × SortStats × Int)
  | 0, _, _, _, _ => none
  | fuel + 1, arr, s, i, k =>
    if i < len then do
      let a ← rd buf i
      let arr1 ← wr arr k a
      drain buf len fuel arr1 { s with swaps := s.swaps + 1 } (i + 1) (k + 1)
    else pure (arr, s, k)

/-- The method `TimSort::merge`; a negative length makes the vector constructor throw. -/
def merge (s : SortStats) (arr : List Int) (left mid right : Int) : Option (List Int × SortStats) :=
  let len1 := mid - left + 1
  let len2 := right - mid
  if len1 < 0 ∨ len2 < 0 then none
  else do
    let fuel := (right - left).toNat + 2
    let leftArr ← copyOut arr left len1 fuel (List.replicate len1.toNat 0) 0
    let rightArr ← copyOut arr (mid + 1) len2 fuel (List.replicate len2.toNat 0) 0
    let r ← mergeLoop leftArr rightArr len1 len2 fuel arr s 0 0 left
    let r2 ← drain leftArr len1 fuel r.1 r.2.1 r.2.2.1 r.2.2.2.2
    let r3 ← drain rightArr len2 fuel r2.1 r2.2.1 r.2.2.2.1 r2.2.2
    pure (r3.1, r3.2.1)

/-- The loop `for (int start = 0; start < n; start += minRun)` of `timSort`. -/
def runLoop (n minRun : Int) : Nat → TimSortState → List Int → Int →
    Option (List Int × TimSortState)
  | 0, _, _, _ => none
  | fuel + 1, st, arr, start =>
    if start < n then do
      let e := min (start + minRun - 1) (n - 1)
      let r ← InsertionSort.sortRange st.insertionSort arr start e
      runLoop n minRun fuel
        { stats := ⟨st.stats.comparisons + r.2.comparisons, st.stats.swaps + r.2.swaps⟩,
          insertionSort := r.2.reset } r.1 (start + minRun)
    else pure (arr, st)

/-- The loop `for (int left = 0; left < n; left += 2 * size)` of `timSort`. -/
def mergePass (n size : Int) : Nat → SortStats → List Int → Int → Option (List Int × SortStats)
  | 0, _, _, _ => none
  | fuel + 1, s, arr, left =>
    if left < n then do
      let mid := left + size - 1
      let right := min (left + 2 * size - 1) (n - 1)
      let r ← if mid < right then merge s arr left mid right else pure (arr, s)
      mergePass n size fuel r.2 r.1 (left + 2 * size)
    else pure (arr, s)

/-- The loop `for (int size = minRun; size < n; size *= 2)` of `timSort`. -/
def sizeLoop (n : Int) : Nat → SortStats → List Int → Int → Option (List Int × SortStats)
  | 0, _, _, _ => none
  | fuel + 1, s, arr, size =>
    if size < n then do
      let r ← mergePass n size (arr.length + 1) s arr 0
      sizeLoop n fuel r.2 r.1 (size * 2)
    else pure (arr, s)

/-- The method `TimSort::timSort`. -/
def timSort (st : TimSortState) (arr : List Int) : Option (List Int × TimSortState) := do
  let n : Int := arr.length
  let minRun : Int := calcMinRun arr.length
  let r ← runLoop n minRun (arr.length + 1) st arr 0
  let r2 ← sizeLoop n (arr.length + 1) r.2.stats r.1 minRun
  pure (r2.1, { r.2 with stats := r2.2 })

/-- The method `TimSort::sort`. -/
def sort (st : TimSortState) (arr : List Int) : Option (List Int × TimSortState) :=
  timSort st arr

end TimSort

namespace ShellSort

/-- The loop `for (j = i; j >= gap && compare(temp, arr[j - gap]); j -= gap)`;
returns `arr`, counters and the final `j`. -/
def shiftLoop (gap temp : Int) : Nat → SortStats → List Int → Int →
    Option (List Int × SortStats × Int)
  | 0, _, _, _ => none
  | fuel + 1, s, arr, j =>
    if j ≥ gap then do
      let a ← rd arr (j - gap)
      let t := compare s temp a
      if t.1 then do
        let arr1 ← wr arr j a
        shiftLoop gap temp fuel { t.2 with swaps := t.2.swaps + 1 } arr1 (j - gap)
      else pure (arr, t.2, j)
    else pure (arr, s, j)

/-- The loop `for (int i = gap; i < n; i++)`: one gapped pass. -/
def passLoop (gap n : Int) : Nat → SortStats → List Int → Int → Option (List Int × SortStats)
  | 0, _, _, _ => none
  | fuel + 1, s, arr, i =>
    if i < n then do
      let temp ← rd arr i
      let r ← shiftLoop gap temp (arr.length + 1) s arr i
      let arr2 ← wr r.1 r.2.2 temp
      passLoop gap n fuel r.2.1 arr2 (i + 1)
    else pure (arr, s)

/-- One gapped pass over the array, from `i = gap`. -/
def pass (s : SortStats) (arr : List Int) (gap : Int) : Option (List Int × SortStats) :=
  passLoop gap arr.length (arr.length + 1) s arr gap

/-- The loop `for (int gap = n / 2; gap > 0; gap /= 2)`. -/
def gapLoop : Nat → SortStats → List Int → Int → Option (List Int × SortStats)
  | 0, _, _, _ => none
  | fuel + 1, s, arr, gap =>
    if gap > 0 then do
      let r ← pass s arr gap
      gapLoop fuel r.2 r.1 (cdiv gap 2)
    else pure (arr, s)

/-- The method `ShellSort::sort`. -/
def sort (s : SortStats) (arr : List Int) : Option (List Int × SortStats) :=
  gapLoop (arr.length + 1) s arr (cdiv arr.length 2)

end ShellSort

/-- The value `*std::min_element(arr.begin(), arr.end())`; `none` on an empty vector. -/
def minElement : List Int → Option Int
  | [] => none
  | a :: t => some (t.foldl (fun m x => if x < m then x else m) a)

/-- The value `*std::max_element(arr.begin(), arr.end())`; `none` on an empty vector. -/
def maxElement : List Int → Option Int
  | [] => none
  | a :: t => some (t.foldl (fun m x => if m < x then x else m) a)

/-! The loops shared, up to the index expression `key`, by `CountingSort::sort` and
`RadixSort::countingSort`. -/

namespace CountPass

/-- The loop `for (i = 0; i < n; i++) { count[key(arr[i])]++; stats.comparisons++; }`. -/
def histLoop (key : Int → Int) (arr : List Int) : Nat → List Int → SortStats → Int →
    Option (List Int × SortStats)
  | 0, _, _, _ => none
  | fuel + 1, count, s, i =>
    if i < arr.length then do
      let a ← rd arr i
      let c ← rd count (key a)
      let count1 ← wr count (key a) (c + 1)
      histLoop key arr fuel count1 { s with comparisons := s.comparisons + 1 } (i + 1)
    else pure (count, s)

/-- The loop `for (int i = 1; i < bound; i++) count[i] += count[i - 1];`. -/
def prefixLoop (bound : Int) : Nat → List Int → Int → Option (List Int)
  | 0, _, _ => none
  | fuel + 1, count, i =>
    if i < bound then do
      let c ← rd count i
      let c0 ← rd count (i - 1)
      let count1 ← wr count i (c + c0)
      prefixLoop bound fuel count1 (i + 1)
    else pure count

/-- The loop `for (i = n - 1; i >= 0; i--) { output[count[key(arr[i])] - 1] = arr[i];
count[key(arr[i])]--; stats.swaps++; }`.  The last component of the result lists the
destination indices in the order in which they were written. -/
def placeLoop (key : Int → Int) (arr : List Int) :
    Nat → List Int → List Int → SortStats → Int → List Int →
      Option (List Int × List Int × SortStats × List Int)
  | 0, _, _, _, _, _ => none
  | fuel + 1, count, output, s, i, written =>
    if i ≥ 0 then do
      let a ← rd arr i
      let c ← rd count (key a)
      let output1 ← wr output (c - 1) a
      let count1 ← wr count (key a) (c - 1)
      placeLoop key arr fuel count1 output1 { s with swaps := s.swaps + 1 } (i - 1)
        (written ++ [c - 1])
    else pure (output, count, s, written)

/-- The loop `for (int i = 0; i < n; i++) arr[i] = output[i];`. -/
def copyLoop (output : List Int) (n : Int) : Nat → List Int → Int → Option (List Int)
  | 0, _, _ => none
  | fuel + 1, arr, i =>
    if i < n then do
      let o ← rd output i
      let arr1 ← wr arr i o
      copyLoop output n fuel arr1 (i + 1)
    else pure arr

/-- The four loops in sequence, on a zeroed `count` of length `range`; a negative `range`
makes the vector constructor throw. -/
def run (key : Int → Int) (range : Int) (s : SortStats) (arr : List Int) :
    Option (List Int × SortStats × List Int) :=
  if range < 0 then none
  else do
    let n : Int := arr.length
    let count := List.replicate range.toNat (0 : Int)
    let output := List.replicate arr.length (0 : Int)
    let h ← histLoop key arr (arr.length + 1) count s 0
    let count1 ← prefixLoop range (range.toNat + 1) h.1 1
    let p ← placeLoop key arr (arr.length + 1) count1 output h.2 (n - 1) []
    let arr1 ← copyLoop p.1 n (arr.length + 1) arr 0
    pure (arr1, p.2.2.1, p.2.2.2)

end CountPass

namespace CountingSort

/-- The index expression `arr[i] - minVal`. -/
def key (minVal : Int) (a : Int) : Int := wrap32 (a - minVal)

/-- The body of `CountingSort::sort`, returning also the destinations written by the
placement loop. -/
def sortTrace (s : SortStats) (arr : List Int) : Option (List Int × SortStats × List Int) :=
  if arr.isEmpty then some (arr, s, [])
  else do
    let minVal ← minElement arr
    let maxVal ← maxElement arr
    let range := wrap32 (wrap32 (maxVal - minVal) + 1)
    CountPass.run (key minVal) range s arr

/-- The method `CountingSort::sort`. -/
def sort (s : SortStats) (arr : List Int) : Option (List Int × SortStats) :=
  (sortTrace s arr).map fun r => (r.1, r.2.1)

end CountingSort

namespace RadixSort

/-- The index expression `(arr[i] / exp) % 10`. -/
def digit (exp : Int) (a : Int) : Int := cmod (cdiv a exp) 10

/-- The method `RadixSort::countingSort`. -/
def countingSort (s : SortStats) (arr : List Int) (exp : Int) : Option (List Int × SortStats) :=
  (CountPass.run (digit exp) 10 s arr).map fun r => (r.1, r.2.1)

/-- The loop `for (int exp = 1; maxVal / exp > 0; exp *= 10)`.  A zero divisor is a fault, and
so is a step `exp *= 10` whose product is not representable in `int`: signed overflow is
undefined behaviour, so no result is attributed to the code from there on. -/
def sortLoop (maxVal : Int) : Nat → SortStats → List Int → Int → Option (List Int × SortStats)
  | 0, _, _, _ => none
  | fuel + 1, s, arr, exp =>
    if exp = 0 then none
    else if cdiv maxVal exp > 0 then do
      let r ← countingSort s arr exp
      if isInt32 (exp * 10) then sortLoop maxVal fuel r.2 r.1 (exp * 10) else none
    else pure (arr, s)

/-- The method `RadixSort::sort`. -/
def sort (s : SortStats) (arr : List Int) : Option (List Int × SortStats) :=
  if arr.isEmpty then some (arr, s)
  else do
    let maxVal ← maxElement arr
    sortLoop maxVal 16 s arr 1

end RadixSort

/-! ## Vocabulary of the specifications -/

/-- The array `a` with the values at positions `i` and `j` exchanged. -/
def swapL (a : List Int) (i j : Nat) : List Int :=
  (a.set i (a.getD j 0)).set j (a.getD i 0)

/-- The position `c` is a child of `p` in the implicit binary tree of a heap. -/
def IsChild (c p : Nat) : Prop := c = 2 * p + 1 ∨ c = 2 * p + 2

/-- Among the first `n` elements of `a`, no child of a parent at position `lo` or later
exceeds its parent. -/
def HeapFrom (a : List Int) (n lo : Nat) : Prop :=
  ∀ p c : Nat, lo ≤ p → IsChild c p → c < n → a.getD c 0 ≤ a.getD p 0

/-- The first `n` elements of `a` form a max-heap. -/
def IsMaxHeap (a : List Int) (n : Nat) : Prop := HeapFrom a n 0

/-- The invariant of the extraction phase of heap sort: the first `m` elements form a max-heap,
the rest is sorted, and no element of the rest is smaller than an element of the heap. -/
def ExtractInv (a : List Int) (m : Nat) : Prop :=
  IsMaxHeap a m ∧ List.Sorted (· ≤ ·) (a.drop m) ∧ ∀ x ∈ a.take m, ∀ y ∈ a.drop m, x ≤ y

/-- The array `b` is a rearrangement of `a` that agrees with `a` outside positions `lo .. hi`. -/
def SameOutside (a b : List Int) (lo hi : Nat) : Prop :=
  b.length = a.length ∧ b.Perm a ∧ ∀ k, (k < lo ∨ hi < k) → b.getD k 0 = a.getD k 0

/-- Every block of `size` consecutive elements of `l`, counted from the start, is sorted. -/
def Runs (size : Nat) (l : List Int) : Prop :=
  ∀ k : Nat, List.Sorted (· ≤ ·) ((l.drop (k * size)).take size)

/-- The stable distribution of `arr` into the buckets `0 .. m-1` of `key`: the elements of key
`0` in their original order, then those of key `1`, and so on. -/
def bucketSort (key : Int → Int) (m : Nat) (arr : List Int) : List Int :=
  (List.range m).flatMap (fun (d : Nat) => arr.filter (fun x => key x = (d : Int)))

/-- The number of elements of `l` with key `d`. -/
def cntEq (key : Int → Int) (l : List Int) (d : Int) : Nat := l.countP (fun x => key x = d)

/-- The number of elements of `l` with key below `d`. -/
def cntLt (key : Int → Int) (l : List Int) (d : Int) : Nat := l.countP (fun x => key x < d)

/-- The histogram of the keys `0 .. m-1` over `l`. -/
def histOf (key : Int → Int) (m : Nat) (l : List Int) : List Int :=
  (List.range m).map (fun (d : Nat) => ((cntEq key l d : Nat) : Int))

/-- The count array while the placement loop runs: the elements of `pre` are still to be
placed. -/
def placeOf (key : Int → Int) (m : Nat) (arr pre : List Int) : List Int :=
  (List.range m).map (fun (d : Nat) => ((cntLt key arr d : Nat) : Int) + (cntEq key pre d : Nat))

/-- The count array while the prefix-sum loop runs: the entries below `i` are summed. -/
def prefixOf (key : Int → Int) (m : Nat) (arr : List Int) (i : Nat) : List Int :=
  (List.range m).map (fun (d : Nat) =>
    if d < i then ((cntLt key arr d : Nat) : Int) + (cntEq key arr d : Nat)
    else ((cntEq key arr d : Nat) : Int))

namespace RadixSort

/-- The passes `countingSort(arr, exp)`, `countingSort(arr, exp * 10)`, ... taken `k` times. -/
def passesFrom : Nat → SortStats → List Int → Int → Option (List Int × SortStats)
  | 0, s, arr, _ => some (arr, s)
  | k + 1, s, arr, exp => do
    let r ← countingSort s arr exp
    passesFrom k r.2 r.1 (exp * 10)

end RadixSort

namespace IntroSort

/-- A newly constructed `IntroSort`: the `SortStats()` constructors of the instance and of
its two private sub-instances zero all counters. -/
def fresh : IntroSortState := ⟨SortStats.zero, SortStats.zero, SortStats.zero⟩

/-- The inherited method `resetStats`: it resets the member `stats` and nothing else. -/
def resetStats (st : IntroSortState) : IntroSortState := { st with stats := st.stats.reset }

/-- Successive calls of `sort` on one instance, one for each of the given vectors. -/
def sortCalls : IntroSortState → List (List Int) → Option IntroSortState
  | st, [] => some st
  | st, arr :: rest => do
    let r ← sort st arr
    sortCalls r.2 rest

end IntroSort

namespace TimSort

/-- A newly constructed `TimSort`: the `SortStats()` constructors of the instance and of its
private sub-instance zero all counters. -/
def fresh : TimSortState := ⟨SortStats.zero, SortStats.zero⟩

/-- The inherited method `resetStats`: it resets the member `stats` and nothing else. -/
def resetStats (st : TimSortState) : TimSortState := { st with stats := st.stats.reset }

/-- Successive calls of `sort` on one instance, one for each of the given vectors. -/
def sortCalls : TimSortState → List (List Int) → Option TimSortState
  | st, [] => some st
  | st, arr :: rest => do
    let r ← sort st arr
    sortCalls r.2 rest

end TimSort

namespace IntroSort

/-- The method `introSort` together with a ghost counter of the executions of `partition`. -/
def introSortCount : Nat → IntroSortState → List Int → Int → Int → Int →
    Option (List Int × IntroSortState × Nat)
  | 0, _, _, _, _, _ => none
  | fuel + 1, st, arr, left, right, depthLimit =>
    let size := right - left + 1
    if size ≤ 16 then do
      let r ← InsertionSort.sortRange st.insertionSort arr left right
      pure (r.1, { st with
        stats := ⟨st.stats.comparisons + r.2.comparisons, st.stats.swaps + r.2.swaps⟩,
        insertionSort := r.2.reset }, 0)
    else if depthLimit = 0 then do
      let temp ← if 0 ≤ left ∧ right < arr.length then some (seg arr left right) else none
      let h ← HeapSort.sort st.heapSort temp
      let arr1 ← copyIn left h.1 (h.1.length + 1) arr 0
      pure (arr1, { st with
        stats := ⟨st.stats.comparisons + h.2.comparisons, st.stats.swaps + h.2.swaps⟩,
        heapSort := h.2.reset }, 0)
    else do
      let p ← partition st.stats arr left right
      let r1 ← introSortCount fuel { st with stats := p.2.1 } p.1 left (p.2.2 - 1)
        (depthLimit - 1)
      let r2 ← introSortCount fuel r1.2.1 r1.1 (p.2.2 + 1) right (depthLimit - 1)
      pure (r2.1, r2.2.1, 1 + r1.2.2 + r2.2.2)

/-- The method `IntroSort::sort` together with the ghost counter of `introSortCount`. -/
def sortCount (st : IntroSortState) (arr : List Int) : Option (List Int × IntroSortState × Nat) :=
  if arr.length ≤ 1 then some (arr, st, 0)
  else introSortCount (arr.length + 1) st arr 0 ((arr.length : Int) - 1)
    (getMaxDepth arr.length)

end IntroSort

namespace TimSort

/-- The first loop of `timSort` together with a ghost log of the bounds `(start, end)` of the
runs handed to `sortRange`. -/
def runLoopTrace (n minRun : Int) : Nat → TimSortState → List Int → Int → List (Int × Int) →
    Option (List Int × TimSortState × List (Int × Int))
  | 0, _, _, _, _ => none
  | fuel + 1, st, arr, start, log =>
    if start < n then do
      let e := min (start + minRun - 1) (n - 1)
      let r ← InsertionSort.sortRange st.insertionSort arr start e
      runLoopTrace n minRun fuel
        { stats := ⟨st.stats.comparisons + r.2.comparisons, st.stats.swaps + r.2.swaps⟩,
          insertionSort := r.2.reset } r.1 (start + minRun) (log ++ [(start, e)])
    else pure (arr, st, log)

end TimSort

/-- Read `arr[i]` under the additional requirement that `i` lies in `lo .. hi`. -/
def rdIn (lo hi : Int) (arr : List Int) (i : Int) : Option Int :=
  if lo ≤ i ∧ i ≤ hi then rd arr i else none

/-- The value `v` is the median of `x`, `y`, `z`: it is one of them and lies between the
other two. -/
def IsMedian3 (v x y z : Int) : Prop :=
  (v = x ∧ ((y ≤ v ∧ v ≤ z) ∨ (z ≤ v ∧ v ≤ y))) ∨
  (v = y ∧ ((x ≤ v ∧ v ≤ z) ∨ (z ≤ v ∧ v ≤ x))) ∨
  (v = z ∧ ((x ≤ v ∧ v ≤ y) ∨ (y ≤ v ∧ v ≤ x)))

namespace IntroSort

/-- The scan `while (compare(arr[++i], pivot)) {}` with every read checked against the range
`lo .. hi`. -/
def scanUpIn (lo hi pivot : Int) (arr : List Int) : Nat → SortStats → Int →
    Option (SortStats × Int)
  | 0, _, _ => none
  | fuel + 1, s, i => do
    let a ← rdIn lo hi arr (i + 1)
    let t := compare s a pivot
    if t.1 then scanUpIn lo hi pivot arr fuel t.2 (i + 1) else pure (t.2, i + 1)

/-- The scan `while (compare(pivot, arr[--j])) {}` with every read checked against the range
`lo .. hi`. -/
def scanDownIn (lo hi pivot : Int) (arr : List Int) : Nat → SortStats → Int →
    Option (SortStats × Int)
  | 0, _, _ => none
  | fuel + 1, s, j => do
    let a ← rdIn lo hi arr (j - 1)
    let t := compare s pivot a
    if t.1 then scanDownIn lo hi pivot arr fuel t.2 (j - 1) else pure (t.2, j - 1)

/-- The `while (true)` loop of `partition` with range-checked scans. -/
def partitionLoopIn (lo hi pivot : Int) : Nat → SortStats → List Int → Int → Int →
    Option (List Int × SortStats × Int)
  | 0, _, _, _, _ => none
  | fuel + 1, s, arr, i, j => do
    let u ← scanUpIn lo hi pivot arr (arr.length + 1) s i
    let d ← scanDownIn lo hi pivot arr (arr.length + 1) u.1 j
    if u.2 ≥ d.2 then pure (arr, d.1, u.2)
    else do
      let r ← swap d.1 arr u.2 d.2
      partitionLoopIn lo hi pivot fuel r.2 r.1 u.2 d.2

/-- The method `IntroSort::partition` with the reads of its two scans checked against the
range `left .. right`. -/
def partitionIn (s : SortStats) (arr : List Int) (left right : Int) :
    Option (List Int × SortStats × Int) := do
  let mid := left + cdiv (right - left) 2
  let r1 ← condSwap s arr right left left right
  let r2 ← condSwap r1.2 r1.1 mid left left mid
  let r3 ← condSwap r2.2 r2.1 right mid mid right
  let pivot ← rd r3.1 mid
  let r4 ← swap r3.2 r3.1 mid (right - 1)
  let r5 ← partitionLoopIn left right pivot (arr.length + 1) r4.2 r4.1 left (right - 1)
  let r6 ← swap r5.2.1 r5.1 r5.2.2 (right - 1)
  pure (r6.1, r6.2, r5.2.2)

end IntroSort

/-- The number `S(n)` of exchanges of the specification of merge sort: `S(n) = 0` for
`n ≤ 1` and `S(n) = n + S(ceil(n/2)) + S(floor(n/2))` for `n ≥ 2`; the first argument
bounds the depth of the recursion. -/
def mergeExchangesRec : Nat → Nat → Nat
  | 0, _ => 0
  | fuel + 1, n =>
    if n ≤ 1 then 0
    else n + mergeExchangesRec fuel ((n + 1) / 2) + mergeExchangesRec fuel (n / 2)

/-- The number `S(n)`, with a recursion depth that suffices for `n`. -/
def mergeExchanges (n : Nat) : Nat := mergeExchangesRec n n

/-- The integer part of the binary logarithm, `0` for `n = 0`. -/
def ilog2 (n : Nat) : Nat := IntroSort.floorLog2 n n

/-- The closed form `n * floor(log2 n) + 2n - 2^(floor(log2 n) + 1)`. -/
def mergeExchangesClosed (n : Nat) : Nat := n * ilog2 n + 2 * n - 2 ^ (ilog2 n + 1)

/-- The number of pairs `(i, j)` with `left ≤ i < j ≤ right` and `arr[i] > arr[j]`: for each
`j` in `left .. right`, the number of `i` in `left .. j-1` with `arr[j] < arr[i]`. -/
def inversionCount (arr : List Int) (left right : Nat) : Nat :=
  ((List.range' left (right + 1 - left)).map (fun (j : Nat) =>
    (List.range' left (j - left)).countP (fun (i : Nat) =>
      decide (arr.getD j 0 < arr.getD i 0)))).sum

/-- The number of pairs formed by an element of `rest` and an element greater than it which
stands before it, either in `seen` or in `rest` itself. -/
def inversionsAfter : List Int → List Int → Nat
  | _, [] => 0
  | seen, key :: rest =>
    seen.countP (fun b => decide (key < b)) + inversionsAfter (seen ++ [key]) rest

namespace ShellSort

/-- The gap loop of `sort` with a ghost log: before each pass, the gap, the counters and the
array the pass starts from are appended to the log. -/
def gapLoopTrace : Nat → SortStats → List Int → Int → List (Int × SortStats × List Int) →
    Option (List Int × SortStats × List (Int × SortStats × List Int))
  | 0, _, _, _, _ => none
  | fuel + 1, s, arr, gap, log =>
    if gap > 0 then do
      let r ← pass s arr gap
      gapLoopTrace fuel r.2 r.1 (cdiv gap 2) (log ++ [(gap, s, arr)])
    else pure (arr, s, log)

/-- The method `ShellSort::sort` with the ghost log of the passes it runs. -/
def sortTrace (s : SortStats) (arr : List Int) :
    Option (List Int × SortStats × List (Int × SortStats × List Int)) :=
  gapLoopTrace (arr.length + 1) s arr (cdiv arr.length 2) []

/-- The gaps `g, g/2, g/4, ..., 1` obtained from `g` by integer halving (at most `fuel` of
them). -/
def halvings : Nat → Nat → List Int
  | 0, _ => []
  | fuel + 1, g => if g = 0 then [] else (g : Int) :: halvings fuel (g / 2)

end ShellSort

/-! ## Basic facts about reads and writes -/

theorem rd_append_cons (A C : List Int) (x : Int) (i : Int) (h : i = (A.length : Int)) :
    rd (A ++ x :: C) i = some x := by
  subst h
  have h1 : (A ++ x :: C)[A.length]? = some x := by
    rw [List.getElem?_append_right (le_refl _)]
    simp
  simpa [rd] using h1

theorem wr_append_cons (A C : List Int) (x v : Int) (i : Int) (h : i = (A.length : Int)) :
    wr (A ++ x :: C) i v = some (A ++ v :: C) := by
  subst h
  have : (0 : Int) ≤ (A.length : Int) ∧ (A.length : Int) < ((A ++ x :: C).length : Int) := by
    constructor
    · omega
    · simp
  simp [wr]

/-- Splitting an array around the index range `left .. right`. -/
theorem split3 (arr : List Int) (left right : Int) (h0 : 0 ≤ left) (h1 : left ≤ right + 1)
    (h2 : right < arr.length) :
    arr = arr.take left.toNat ++ seg arr left right ++ arr.drop (right + 1).toNat ∧
      ((arr.take left.toNat).length : Int) = left ∧
      ((seg arr left right).length : Int) = right + 1 - left := by
  refine ⟨?_, ?_, ?_⟩
  · unfold seg
    have h3 : (right + 1).toNat = left.toNat + (right + 1 - left).toNat := by omega
    rw [h3, ← List.drop_drop, List.append_assoc, List.take_append_drop, List.take_append_drop]
  · rw [List.length_take]; omega
  · unfold seg
    rw [List.length_take, List.length_drop]; omega

theorem seg_append (A B C : List Int) (left right : Int) (hA : (A.length : Int) = left)
    (hB : (B.length : Int) = right + 1 - left) : seg (A ++ B ++ C) left right = B := by
  unfold seg
  have h1 : left.toNat = A.length := by omega
  have h2 : (right + 1 - left).toNat = B.length := by omega
  rw [h1, h2, List.append_assoc, List.drop_left, List.take_left]

theorem rd_outside (A B B1 C : List Int) (left right : Int) (hA : (A.length : Int) = left)
    (hB : (B.length : Int) = right + 1 - left) (hB1 : B1.length = B.length) (k : Int)
    (hk : k < left ∨ right < k) : rd (A ++ B1 ++ C) k = rd (A ++ B ++ C) k := by
  unfold rd
  split
  · rename_i hk0
    rcases hk with hk | hk
    · have h : k.toNat < A.length := by omega
      simp only [List.append_assoc]
      rw [List.getElem?_append_left h, List.getElem?_append_left h]
    · have h : (A ++ B1).length ≤ k.toNat := by simp; omega
      have h3 : (A ++ B).length ≤ k.toNat := by simp; omega
      rw [List.getElem?_append_right h, List.getElem?_append_right h3]
      simp [hB1]
  · rfl

theorem seg_split (arr : List Int) (left mid right : Int) (h0 : 0 ≤ left) (h1 : left ≤ mid + 1)
    (h2 : mid ≤ right) : seg arr left right = seg arr left mid ++ seg arr (mid + 1) right := by
  unfold seg
  have e1 : (right + 1 - left).toNat = (mid + 1 - left).toNat + (right + 1 - (mid + 1)).toNat := by
    omega
  have e2 : (mid + 1).toNat = left.toNat + (mid + 1 - left).toNat := by omega
  rw [e1, List.take_add, List.drop_drop, ← e2]

theorem seg_single (arr : List Int) (i : Int) (h0 : 0 ≤ i) (h1 : i < arr.length) :
    ∃ v, rd arr i = some v ∧ seg arr i i = [v] := by
  have hlt : i.toNat < arr.length := by omega
  refine ⟨arr[i.toNat], ?_, ?_⟩
  · simp [rd, h0, List.getElem?_eq_getElem hlt]
  · unfold seg
    have e : (i + 1 - i).toNat = 1 := by omega
    rw [e, List.drop_eq_getElem_cons hlt]
    rfl

/-- Inserting `key` between a sorted `P` whose last element is not above it and a `Q` whose
elements are all above it keeps the list sorted. -/
theorem sorted_insert_mid (P Q : List Int) (key : Int) (hs : List.Sorted (· ≤ ·) (P ++ Q))
    (hQ : ∀ q ∈ Q, key < q) (hP : ∀ p, P.getLast? = some p → ¬ key < p) :
    List.Sorted (· ≤ ·) (P ++ key :: Q) := by
  unfold List.Sorted at hs ⊢
  rw [List.pairwise_append] at hs ⊢
  obtain ⟨hP1, hQ1, hPQ⟩ := hs
  have hPk : ∀ a ∈ P, a ≤ key := by
    intro a ha
    rcases List.eq_nil_or_concat P with h | ⟨P1, p, h⟩
    · subst h; simp at ha
    · rw [List.concat_eq_append] at h
      subst h
      have hp : ¬ key < p := hP p (by simp)
      rw [List.pairwise_append] at hP1
      rcases List.mem_append.1 ha with h | h
      · have := hP1.2.2 a h p (by simp)
        omega
      · simp at h; omega
  refine ⟨hP1, ?_, ?_⟩
  · rw [List.pairwise_cons]
    exact ⟨fun q hq => le_of_lt (hQ q hq), hQ1⟩
  · intro a ha b hb
    rcases List.mem_cons.1 hb with h | h
    · subst h; exact hPk a ha
    · exact hPQ a ha b h

/-! ## Insertion sort -/

namespace InsertionSort

/-- The shifting loop started just left of a hole: the already sorted block `B1` is split as
`P ++ Q`, the elements of `Q` (all greater than `key`) move one place right, and the loop stops
at the last element of `P`, which is not greater than `key`. -/
theorem shiftLoop_spec (left key : Int) (fuel : Nat) :
    ∀ (A B1 B2 C : List Int) (x : Int) (s : SortStats) (j : Int),
      (A.length : Int) = left → j = left + B1.length - 1 → B1.length < fuel →
      (∀ b ∈ B2, key < b) →
      ∃ P Q x1 s1, B1 = P ++ Q ∧ (∀ b ∈ Q ++ B2, key < b) ∧
        (∀ p, P.getLast? = some p → ¬ key < p) ∧
        shiftLoop left key fuel (A ++ B1 ++ x :: B2 ++ C) s j
          = some (A ++ P ++ x1 :: (Q ++ B2) ++ C, s1, left + P.length - 1) := by
  induction fuel with
  | zero => intro A B1 B2 C x s j _ _ h; omega
  | succ fuel ih =>
    intro A B1 B2 C x s j hA hj hf hB2
    rcases List.eq_nil_or_concat B1 with hB1 | ⟨B1a, b, hB1⟩
    · subst hB1
      refine ⟨[], [], x, s, rfl, by simpa using hB2, by simp, ?_⟩
      have hlt : ¬ left ≤ j := by simp at hj; omega
      simp [shiftLoop, hlt, hj]
    · rw [List.concat_eq_append] at hB1
      subst hB1
      have hle : left ≤ j := by simp at hj; omega
      have hrd : rd (A ++ (B1a ++ [b]) ++ x :: B2 ++ C) j = some b := by
        have := rd_append_cons (A ++ B1a) (x :: B2 ++ C) b j (by simp at hj ⊢; omega)
        simpa using this
      by_cases hc : key < b
      · have hwr : wr (A ++ (B1a ++ [b]) ++ x :: B2 ++ C) (j + 1) b
            = some (A ++ B1a ++ b :: (b :: B2) ++ C) := by
          have := wr_append_cons (A ++ B1a ++ [b]) (B2 ++ C) x b (j + 1) (by simp at hj ⊢; omega)
          simpa using this
        obtain ⟨P, Q, x1, s1, hPQ, hQ, hP, hrun⟩ :=
          ih A B1a (b :: B2) C b { (SortingAlgorithm.compare s key b).2 with
              swaps := (SortingAlgorithm.compare s key b).2.swaps + 1 }
            (j - 1) hA (by simp at hj; omega) (by simp at hf; omega)
            (by intro y hy; rcases List.mem_cons.1 hy with h | h; · subst h; exact hc
                · exact hB2 y h)
        refine ⟨P, Q ++ [b], x1, s1, by simp [hPQ], ?_, hP, ?_⟩
        · intro y hy
          apply hQ
          simpa using hy
        · simp only [shiftLoop, if_pos hle, hrd, Option.bind_eq_bind, Option.some_bind]
          have hc1 : (SortingAlgorithm.compare s key b).1 = true := by
            simp [SortingAlgorithm.compare, hc]
          simp only [hc1, if_true, hwr, Option.some_bind]
          rw [hrun]
          simp
      · refine ⟨B1a ++ [b], [], x, (SortingAlgorithm.compare s key b).2, by simp,
          by simpa using hB2, ?_, ?_⟩
        · intro p hp
          simp at hp
          subst hp
          exact hc
        · simp only [shiftLoop, if_pos hle, hrd, Option.bind_eq_bind, Option.some_bind]
          have hc1 : (SortingAlgorithm.compare s key b).1 = false := by
            simp [SortingAlgorithm.compare, hc]
          simp only [hc1, Bool.false_eq_true, if_false]
          simp [hj]

/-- The outer loop extends the sorted block `B` over the rest `C1` of the range. -/
theorem sortRangeLoop_spec (left right : Int) (fuel : Nat) :
    ∀ (A B C1 C2 : List Int) (s : SortStats) (i : Int),
      (A.length : Int) = left → i = left + B.length → right = left + B.length + C1.length - 1 →
      C1.length < fuel → List.Sorted (· ≤ ·) B →
      ∃ B1 s1, sortRangeLoop left right fuel (A ++ B ++ C1 ++ C2) s i = some (A ++ B1 ++ C2, s1) ∧
        List.Sorted (· ≤ ·) B1 ∧ B1.Perm (B ++ C1) := by
  induction fuel with
  | zero => intro A B C1 C2 s i _ _ _ h; omega
  | succ fuel ih =>
    intro A B C1 C2 s i hA hi hr hf hB
    cases C1 with
    | nil =>
      refine ⟨B, s, ?_, hB, by simp⟩
      have hlt : ¬ i ≤ right := by simp at hr; omega
      simp [sortRangeLoop, hlt]
    | cons key C1 =>
      have hle : i ≤ right := by simp at hr; omega
      have hrd : rd (A ++ B ++ key :: C1 ++ C2) i = some key := by
        have := rd_append_cons (A ++ B) (C1 ++ C2) key i (by simp; omega)
        simpa using this
      obtain ⟨P, Q, x1, s1, hPQ, hQ, hP, hrun⟩ :=
        shiftLoop_spec left key ((i - left).toNat + 1) A B [] (C1 ++ C2) key s (i - 1) hA
          (by omega) (by omega) (by simp)
      have hwr : wr (A ++ P ++ x1 :: (Q ++ []) ++ (C1 ++ C2)) (left + P.length - 1 + 1) key
          = some (A ++ (P ++ key :: Q) ++ C1 ++ C2) := by
        have := wr_append_cons (A ++ P) (Q ++ (C1 ++ C2)) x1 key (left + P.length - 1 + 1)
          (by simp; omega)
        simpa using this
      have hB1 : List.Sorted (· ≤ ·) (P ++ key :: Q) :=
        sorted_insert_mid P Q key (hPQ ▸ hB) (fun q hq => hQ q (by simpa using hq)) hP
      obtain ⟨B1, s2, hrun2, hs2, hp2⟩ :=
        ih A (P ++ key :: Q) C1 C2 s1 (i + 1) hA
          (by subst hPQ; simp at hi ⊢; omega) (by subst hPQ; simp at hr ⊢; omega)
          (by simp at hf; omega) hB1
      refine ⟨B1, s2, ?_, hs2, ?_⟩
      · have hrun1 : shiftLoop left key ((i - left).toNat + 1) (A ++ B ++ key :: C1 ++ C2) s (i - 1)
            = some (A ++ P ++ x1 :: (Q ++ []) ++ (C1 ++ C2), s1, left + P.length - 1) := by
          rw [← hrun]; simp
        simp only [sortRangeLoop, if_pos hle, hrd, Option.bind_eq_bind, Option.some_bind, hrun1,
          hwr]
        exact hrun2
      · refine hp2.trans ?_
        subst hPQ
        simp only [List.append_assoc, List.cons_append]
        exact List.Perm.append_left P List.perm_middle.symm

/-- Specification of `sortRange` on a valid range. -/
theorem sortRange_spec (s : SortStats) (arr : List Int) (left right : Int)
    (h0 : 0 ≤ left) (h1 : left ≤ right) (h2 : right < arr.length) :
    ∃ B s1, sortRange s arr left right
        = some (arr.take left.toNat ++ B ++ arr.drop (right + 1).toNat, s1) ∧
      List.Sorted (· ≤ ·) B ∧ B.Perm (seg arr left right) := by
  obtain ⟨hsplit, hlenA, hlenB⟩ := split3 arr left right h0 (by omega) h2
  cases hB : seg arr left right with
  | nil => rw [hB] at hlenB; simp at hlenB; omega
  | cons b0 C1 =>
    rw [hB] at hsplit hlenB
    obtain ⟨B1, s1, hrun, hs, hp⟩ :=
      sortRangeLoop_spec left right ((right - left).toNat + 1) (arr.take left.toNat) [b0] C1
        (arr.drop (right + 1).toNat) s (left + 1) hlenA (by simp) (by simp at hlenB ⊢; omega)
        (by simp at hlenB; omega) (by simp)
    refine ⟨B1, s1, ?_, hs, by simpa using hp⟩
    unfold sortRange
    rw [← hrun]
    congr 1
    simpa using hsplit

end InsertionSort

namespace InsertionSort

/-- Specification of `sortRange` in terms of positions. -/
theorem sortRange_positions (s : SortStats) (arr : List Int) (left right : Int)
    (h0 : 0 ≤ left) (h1 : left ≤ right) (h2 : right < arr.length) :
    ∃ out s1, sortRange s arr left right = some (out, s1) ∧ out.length = arr.length ∧
      List.Sorted (· ≤ ·) (seg out left right) ∧
      (seg out left right).Perm (seg arr left right) ∧
      ∀ k : Int, (k < left ∨ right < k) → rd out k = rd arr k := by
  obtain ⟨B, s1, hrun, hs, hp⟩ := sortRange_spec s arr left right h0 h1 h2
  obtain ⟨hsplit, hlenA, hlenB⟩ := split3 arr left right h0 (by omega) h2
  have hlen : (B.length : Int) = right + 1 - left := by rw [hp.length_eq]; exact hlenB
  have hseg : seg (arr.take left.toNat ++ B ++ arr.drop (right + 1).toNat) left right = B :=
    seg_append _ _ _ left right hlenA hlen
  refine ⟨_, s1, hrun, ?_, ?_, ?_, ?_⟩
  · conv_rhs => rw [hsplit]
    simp only [List.length_append, hp.length_eq]
  · rw [hseg]; exact hs
  · rw [hseg]; exact hp
  · intro k hk
    conv_rhs => rw [hsplit]
    exact rd_outside _ _ _ _ left right hlenA hlenB hp.length_eq k hk

/-- Specification of `sort`: the whole array becomes a sorted permutation of itself. -/
theorem sort_spec (s : SortStats) (arr : List Int) :
    ∃ out s1, sort s arr = some (out, s1) ∧ List.Sorted (· ≤ ·) out ∧ out.Perm arr := by
  cases arr with
  | nil => exact ⟨[], s, by simp [sort, sortRange, sortRangeLoop], by simp, by simp⟩
  | cons a t =>
    obtain ⟨B, s1, hrun, hs, hp⟩ :=
      sortRange_spec s (a :: t) 0 (((a :: t).length : Int) - 1) (by omega) (by simp)
        (by omega)
    have h1 : seg (a :: t) 0 (((a :: t).length : Int) - 1) = a :: t := by
      simp [seg]
    have h2 : (((a :: t).length : Int) - 1 + 1).toNat = (a :: t).length := by omega
    rw [h1] at hp
    rw [h2] at hrun
    refine ⟨B, s1, ?_, hs, hp⟩
    unfold sort
    rw [hrun]
    simp

end InsertionSort

/-- C1: `InsertionSort::sortRange` on a valid range `0 <= left <= right < arr.size()` returns,
leaves positions `left..right` a non-decreasing permutation of what they held, changes no other
position and keeps the length; `InsertionSort::sort` turns every input `inp`, the empty and
the one-element vectors included, into a non-decreasing permutation of itself, and
`[5,2,4,6,1,3]` becomes `[1,2,3,4,5,6]`. -/
theorem insertionSort_sortRange_correct (s : SortStats) (inp arr : List Int) (left right : Int)
    (h0 : 0 ≤ left) (h1 : left ≤ right) (h2 : right < arr.length) :
    (∃ out s1, InsertionSort.sortRange s arr left right = some (out, s1) ∧
      out.length = arr.length ∧
      List.Sorted (· ≤ ·) (seg out left right) ∧
      (seg out left right).Perm (seg arr left right) ∧
      ∀ k : Int, (k < left ∨ right < k) → rd out k = rd arr k) ∧
    (∃ out s1, InsertionSort.sort s inp = some (out, s1) ∧ out.length = inp.length ∧
      List.Sorted (· ≤ ·) out ∧ out.Perm inp) ∧
    (InsertionSort.sort SortStats.zero [5, 2, 4, 6, 1, 3]).map Prod.fst
      = some [1, 2, 3, 4, 5, 6] := by
  refine ⟨InsertionSort.sortRange_positions s arr left right h0 h1 h2, ?_, by decide⟩
  obtain ⟨out, s1, hrun, hs, hp⟩ := InsertionSort.sort_spec s inp
  exact ⟨out, s1, hrun, hp.length_eq, hs, hp⟩

theorem insertionSort_sortRange_correct_witness :
    ((0 : Int) ≤ 1 ∧ (1 : Int) ≤ 3 ∧ (3 : Int) < ([9, 7, 5, 3, 1] : List Int).length) ∧
    ((∃ out s1, InsertionSort.sortRange SortStats.zero [9, 7, 5, 3, 1] 1 3 = some (out, s1) ∧
      out.length = ([9, 7, 5, 3, 1] : List Int).length ∧
      List.Sorted (· ≤ ·) (seg out 1 3) ∧
      (seg out 1 3).Perm (seg [9, 7, 5, 3, 1] 1 3) ∧
      ∀ k : Int, (k < 1 ∨ 3 < k) → rd out k = rd [9, 7, 5, 3, 1] k) ∧
    (∃ out s1, InsertionSort.sort SortStats.zero [] = some (out, s1) ∧
      out.length = ([] : List Int).length ∧
      List.Sorted (· ≤ ·) out ∧ out.Perm []) ∧
    (InsertionSort.sort SortStats.zero [5, 2, 4, 6, 1, 3]).map Prod.fst
      = some [1, 2, 3, 4, 5, 6]) :=
  ⟨by decide, insertionSort_sortRange_correct SortStats.zero [] [9, 7, 5, 3, 1] 1 3
    (by decide) (by decide) (by decide)⟩

/-! ## Merge sort -/

theorem cdiv_of_nonneg (a b : Int) (ha : 0 ≤ a) (hb : 0 ≤ b) : cdiv a b = a / b :=
  Int.tdiv_eq_ediv ha hb

theorem cmod_of_nonneg (a b : Int) (ha : 0 ≤ a) (hb : 0 ≤ b) : cmod a b = a % b :=
  Int.tmod_eq_emod ha hb

namespace MergeSort

theorem leftFirst_fst (s : SortStats) (a b : Int) : (leftFirst s a b).1 = decide (a ≤ b) := by
  unfold leftFirst
  by_cases h1 : a < b
  · have h2 : a ≤ b := le_of_lt h1
    simp [SortingAlgorithm.compare, h1, h2]
  · by_cases h2 : b < a
    · have h3 : ¬ a ≤ b := not_le.2 h2
      simp [SortingAlgorithm.compare, h1, h2, h3]
    · have h3 : a ≤ b := not_lt.1 h2
      simp [SortingAlgorithm.compare, h1, h2, h3]

/-- The copying loops append the rest `X` of a run to the part of `temp` already written. -/
theorem copyRest_spec (bound : Int) (fuel : Nat) :
    ∀ (P X Q TP T : List Int) (i k : Int),
      i = (P.length : Int) → bound = i + X.length - 1 → k = (TP.length : Int) →
      X.length ≤ T.length → X.length < fuel →
      copyRest bound fuel (P ++ X ++ Q) (TP ++ T) i k
        = some (TP ++ X ++ T.drop X.length, k + X.length) := by
  induction fuel with
  | zero => intro P X Q TP T i k _ _ _ _ h; omega
  | succ fuel ih =>
    intro P X Q TP T i k hi hb hk hT hf
    cases X with
    | nil =>
      have hlt : ¬ i ≤ bound := by simp at hb; omega
      simp [copyRest, hlt]
    | cons x X =>
      have hle : i ≤ bound := by simp at hb; omega
      cases T with
      | nil => simp at hT
      | cons t T =>
        have hrd : rd (P ++ x :: X ++ Q) i = some x := by
          have := rd_append_cons P (X ++ Q) x i hi
          simpa using this
        have hwr : wr (TP ++ t :: T) k x = some (TP ++ [x] ++ T) := by
          have := wr_append_cons TP T t x k hk
          simpa using this
        have h := ih (P ++ [x]) X Q (TP ++ [x]) T (i + 1) (k + 1) (by simp; omega)
          (by simp at hb ⊢; omega) (by simp; omega) (by simp at hT; omega) (by simp at hf; omega)
        simp only [copyRest, if_pos hle, hrd, Option.bind_eq_bind, Option.some_bind, hwr]
        have e1 : P ++ x :: X ++ Q = P ++ [x] ++ X ++ Q := by simp
        rw [e1, h]
        simp
        omega

/-- The copy-back loop overwrites the range with the merged run held by `temp`. -/
theorem copyBack_spec (right : Int) (fuel : Nat) :
    ∀ (P X C TP Mg TC : List Int) (s : SortStats) (i : Int),
      i = (P.length : Int) → TP.length = P.length → Mg.length = X.length →
      right = i + X.length - 1 → X.length < fuel →
      ∃ s1, copyBack right fuel (P ++ X ++ C) (TP ++ Mg ++ TC) s i = some (P ++ Mg ++ C, s1) := by
  induction fuel with
  | zero => intro P X C TP Mg TC s i _ _ _ _ h; omega
  | succ fuel ih =>
    intro P X C TP Mg TC s i hi hTP hMg hr hf
    cases X with
    | nil =>
      have hlt : ¬ i ≤ right := by simp at hr; omega
      have hM : Mg = [] := List.length_eq_zero.1 (by simpa using hMg)
      subst hM
      exact ⟨s, by simp [copyBack, hlt]⟩
    | cons x X =>
      have hle : i ≤ right := by simp at hr; omega
      cases Mg with
      | nil => simp at hMg
      | cons m Mg =>
        have hrd : rd (TP ++ m :: Mg ++ TC) i = some m := by
          have := rd_append_cons TP (Mg ++ TC) m i (by omega)
          simpa using this
        have hwr : wr (P ++ x :: X ++ C) i m = some (P ++ [m] ++ X ++ C) := by
          have := wr_append_cons P (X ++ C) x m i hi
          simpa using this
        obtain ⟨s1, h⟩ := ih (P ++ [m]) X C (TP ++ [m]) Mg TC { s with swaps := s.swaps + 1 }
          (i + 1) (by simp; omega) (by simp; omega) (by simpa using hMg)
          (by simp at hr ⊢; omega) (by simp at hf; omega)
        refine ⟨s1, ?_⟩
        simp only [copyBack, if_pos hle, hrd, Option.bind_eq_bind, Option.some_bind, hwr]
        have e1 : TP ++ m :: Mg ++ TC = TP ++ [m] ++ Mg ++ TC := by simp
        rw [e1, h]
        simp

/-- The main merge loop writes a prefix `M` of the merge of the two runs and stops when one
run is used up; what is left of the runs is the rest of the merge. -/
theorem mergeLoop_spec (mid right : Int) (fuel : Nat) :
    ∀ (P L2 G R2 Q TP T : List Int) (s : SortStats) (i j k : Int),
      i = (P.length : Int) → mid = i + L2.length - 1 → j = i + L2.length + G.length →
      right = j + R2.length - 1 → k = (TP.length : Int) →
      L2.length + R2.length ≤ T.length → L2.length + R2.length < fuel →
      ∃ M La L3 Ra R3 s1, L2 = La ++ L3 ∧ R2 = Ra ++ R3 ∧ (L3 = [] ∨ R3 = []) ∧
        M ++ L3 ++ R3 = L2.merge R2 (fun a b => decide (a ≤ b)) ∧
        M.length = La.length + Ra.length ∧
        mergeLoop mid right fuel (P ++ L2 ++ G ++ R2 ++ Q) (TP ++ T) s i j k
          = some (TP ++ M ++ T.drop M.length, s1, i + La.length, j + Ra.length, k + M.length) := by
  induction fuel with
  | zero => intro P L2 G R2 Q TP T s i j k _ _ _ _ _ _ h; omega
  | succ fuel ih =>
    intro P L2 G R2 Q TP T s i j k hi hmid hj hr hk hT hf
    cases L2 with
    | nil =>
      refine ⟨[], [], [], [], R2, s, rfl, rfl, Or.inl rfl, by simp, rfl, ?_⟩
      have hlt : ¬ (i ≤ mid ∧ j ≤ right) := by (try simp only [List.length_append, List.length_cons, List.length_nil, List.length_drop, List.length_take] at *); omega
      simp [mergeLoop, hlt]
    | cons a L2 =>
      cases R2 with
      | nil =>
        refine ⟨[], [], a :: L2, [], [], s, rfl, rfl, Or.inr rfl, by simp, rfl, ?_⟩
        have hlt : ¬ (i ≤ mid ∧ j ≤ right) := by (try simp only [List.length_append, List.length_cons, List.length_nil, List.length_drop, List.length_take] at *); omega
        simp [mergeLoop, hlt]
      | cons b R2 =>
        have hle : i ≤ mid ∧ j ≤ right := by
          (try simp only [List.length_append, List.length_cons, List.length_nil, List.length_drop, List.length_take] at *); omega
        cases T with
        | nil => simp at hT
        | cons t T =>
          have hrdi : rd (P ++ a :: L2 ++ G ++ b :: R2 ++ Q) i = some a := by
            have := rd_append_cons P (L2 ++ G ++ b :: R2 ++ Q) a i hi
            simpa using this
          have hrdj : rd (P ++ a :: L2 ++ G ++ b :: R2 ++ Q) j = some b := by
            have := rd_append_cons (P ++ a :: L2 ++ G) (R2 ++ Q) b j (by (try simp only [List.length_append, List.length_cons, List.length_nil, List.length_drop, List.length_take] at *); omega)
            simpa using this
          by_cases hab : a ≤ b
          · have hwr : wr (TP ++ t :: T) k a = some (TP ++ [a] ++ T) := by
              have := wr_append_cons TP T t a k hk
              simpa using this
            obtain ⟨M, La, L3, Ra, R3, s1, hL, hR, hor, hM, hlen, hrun⟩ :=
              ih (P ++ [a]) L2 G (b :: R2) Q (TP ++ [a]) T (leftFirst s a b).2 (i + 1) j (k + 1)
                (by (try simp only [List.length_append, List.length_cons, List.length_nil, List.length_drop, List.length_take] at *); omega) (by (try simp only [List.length_append, List.length_cons, List.length_nil, List.length_drop, List.length_take] at *); omega) (by (try simp only [List.length_append, List.length_cons, List.length_nil, List.length_drop, List.length_take] at *); omega)
                (by (try simp only [List.length_append, List.length_cons, List.length_nil, List.length_drop, List.length_take] at *); omega) (by (try simp only [List.length_append, List.length_cons, List.length_nil, List.length_drop, List.length_take] at *); omega) (by (try simp only [List.length_append, List.length_cons, List.length_nil, List.length_drop, List.length_take] at *); omega)
                (by (try simp only [List.length_append, List.length_cons, List.length_nil, List.length_drop, List.length_take] at *); omega)
            refine ⟨a :: M, a :: La, L3, Ra, R3, s1, by simp [hL], hR, hor, ?_, by (try simp only [List.length_append, List.length_cons, List.length_nil, List.length_drop, List.length_take] at *); omega,
              ?_⟩
            · rw [List.cons_merge_cons]
              simp only [hab, decide_True, if_true]
              rw [← hM]; simp
            · simp only [mergeLoop, if_pos hle, hrdi, hrdj, Option.bind_eq_bind, Option.some_bind,
                leftFirst_fst, hab, decide_True, if_true, hwr]
              have e1 : P ++ a :: L2 ++ G ++ b :: R2 ++ Q = P ++ [a] ++ L2 ++ G ++ b :: R2 ++ Q := by
                simp
              rw [e1, hrun]
              simp
              omega
          · have hwr : wr (TP ++ t :: T) k b = some (TP ++ [b] ++ T) := by
              have := wr_append_cons TP T t b k hk
              simpa using this
            obtain ⟨M, La, L3, Ra, R3, s1, hL, hR, hor, hM, hlen, hrun⟩ :=
              ih P (a :: L2) (G ++ [b]) R2 Q (TP ++ [b]) T (leftFirst s a b).2 i (j + 1) (k + 1)
                hi (by (try simp only [List.length_append, List.length_cons, List.length_nil, List.length_drop, List.length_take] at *); omega) (by (try simp only [List.length_append, List.length_cons, List.length_nil, List.length_drop, List.length_take] at *); omega)
                (by (try simp only [List.length_append, List.length_cons, List.length_nil, List.length_drop, List.length_take] at *); omega) (by (try simp only [List.length_append, List.length_cons, List.length_nil, List.length_drop, List.length_take] at *); omega) (by (try simp only [List.length_append, List.length_cons, List.length_nil, List.length_drop, List.length_take] at *); omega)
                (by (try simp only [List.length_append, List.length_cons, List.length_nil, List.length_drop, List.length_take] at *); omega)
            refine ⟨b :: M, La, L3, b :: Ra, R3, s1, hL, by simp [hR], hor, ?_,
              by (try simp only [List.length_append, List.length_cons, List.length_nil, List.length_drop, List.length_take] at *); omega, ?_⟩
            · rw [List.cons_merge_cons]
              simp only [hab, decide_False, Bool.false_eq_true, if_false]
              rw [← hM]; simp
            · simp only [mergeLoop, if_pos hle, hrdi, hrdj, Option.bind_eq_bind, Option.some_bind,
                leftFirst_fst, hab, decide_False, Bool.false_eq_true, if_false, hwr]
              have e1 : P ++ a :: L2 ++ G ++ b :: R2 ++ Q = P ++ a :: L2 ++ (G ++ [b]) ++ R2 ++ Q := by
                simp
              rw [e1, hrun]
              simp
              omega

/-- The method `merge` replaces two adjacent runs by their merge, in `arr` and in `temp`. -/
theorem merge_spec (s : SortStats) (A L R C TA T : List Int) (left mid right : Int)
    (hleft : left = (A.length : Int)) (hmid : mid = left + L.length - 1)
    (hright : right = mid + R.length) (hTA : TA.length = A.length)
    (hT : L.length + R.length ≤ T.length) :
    ∃ s1, merge s (A ++ L ++ R ++ C) left mid right (TA ++ T)
      = some (A ++ L.merge R (fun a b => decide (a ≤ b)) ++ C,
          TA ++ L.merge R (fun a b => decide (a ≤ b)) ++ T.drop (L.length + R.length), s1) := by
  have hfuel : L.length + R.length < (right - left).toNat + 2 := by omega
  obtain ⟨M, La, L3, Ra, R3, s1, hL, hR, hor, hM, hlen, hrun⟩ :=
    mergeLoop_spec mid right ((right - left).toNat + 2) A L [] R C TA T s left (mid + 1) left
      hleft (by omega) (by (try simp only [List.length_append, List.length_cons, List.length_nil, List.length_drop, List.length_take] at *); omega) (by omega) (by omega) hT hfuel
  have hrun1 : mergeLoop mid right ((right - left).toNat + 2) (A ++ L ++ R ++ C) (TA ++ T) s left
      (mid + 1) left
      = some (TA ++ M ++ T.drop M.length, s1, left + La.length, mid + 1 + Ra.length,
          left + M.length) := by
    rw [← hrun]; simp
  have hc1 := copyRest_spec mid ((right - left).toNat + 2) (A ++ La) L3 (R ++ C) (TA ++ M)
    (T.drop M.length) (left + La.length) (left + M.length) (by (try simp only [List.length_append, List.length_cons, List.length_nil, List.length_drop, List.length_take] at *); omega)
    (by subst hL; (try simp only [List.length_append, List.length_cons, List.length_nil, List.length_drop, List.length_take] at *); omega) (by (try simp only [List.length_append, List.length_cons, List.length_nil, List.length_drop, List.length_take] at *); omega) (by subst hL; subst hR; (try simp only [List.length_append, List.length_cons, List.length_nil, List.length_drop, List.length_take] at *); omega) (by subst hL; subst hR; (try simp only [List.length_append, List.length_cons, List.length_nil, List.length_drop, List.length_take] at *); omega)
  have hc2 := copyRest_spec right ((right - left).toNat + 2) (A ++ L ++ Ra) R3 C
    (TA ++ M ++ L3) ((T.drop M.length).drop L3.length) (mid + 1 + Ra.length)
    (left + M.length + L3.length) (by (try simp only [List.length_append, List.length_cons, List.length_nil, List.length_drop, List.length_take] at *); omega)
    (by subst hL; subst hR; (try simp only [List.length_append, List.length_cons, List.length_nil, List.length_drop, List.length_take] at *); omega) (by (try simp only [List.length_append, List.length_cons, List.length_nil, List.length_drop, List.length_take] at *); omega) (by subst hL; subst hR; (try simp only [List.length_append, List.length_cons, List.length_nil, List.length_drop, List.length_take] at *); omega)
    (by subst hL; subst hR; (try simp only [List.length_append, List.length_cons, List.length_nil, List.length_drop, List.length_take] at *); omega)
  have hMlen : (L.merge R (fun a b => decide (a ≤ b))).length = (L ++ R).length :=
    (List.perm_merge _ L R).length_eq
  have hMlen2 : M.length + L3.length + R3.length = L.length + R.length := by
    have := congrArg List.length hM
    rw [hMlen] at this
    simpa [Nat.add_assoc] using this
  obtain ⟨s2, hc3⟩ := copyBack_spec right ((right - left).toNat + 2) A (L ++ R) C TA
    (L.merge R (fun a b => decide (a ≤ b))) (T.drop (L.length + R.length)) s1 left hleft hTA
    hMlen (by (try simp only [List.length_append, List.length_cons, List.length_nil, List.length_drop, List.length_take] at *); omega) (by (try simp only [List.length_append, List.length_cons, List.length_nil, List.length_drop, List.length_take] at *); omega)
  refine ⟨s2, ?_⟩
  have e1 : A ++ L ++ R ++ C = A ++ La ++ L3 ++ (R ++ C) := by subst hL; simp
  have e2 : A ++ L ++ R ++ C = A ++ L ++ Ra ++ R3 ++ C := by subst hR; simp
  have e3 : TA ++ M ++ L3 ++ R3 ++ ((T.drop M.length).drop L3.length).drop R3.length
      = TA ++ L.merge R (fun a b => decide (a ≤ b)) ++ T.drop (L.length + R.length) := by
    rw [← hM, List.drop_drop, List.drop_drop, ← hMlen2]
    simp [Nat.add_comm, Nat.add_left_comm, Nat.add_assoc]
  rw [← e1] at hc1
  rw [← e2] at hc2
  rw [← List.append_assoc A L R] at hc3
  unfold merge
  simp only [Option.bind_eq_bind, hrun1, Option.some_bind, hc1, hc2, e3, hc3]
  rfl

/-- The recursion sorts the range it is given and touches nothing else of `arr`. -/
theorem mergeSort_spec (fuel : Nat) :
    ∀ (s : SortStats) (A X C temp : List Int) (left right : Int),
      left = (A.length : Int) → right = left + X.length - 1 →
      temp.length = (A ++ X ++ C).length → X.length < fuel →
      ∃ X1 temp1 s1, mergeSort fuel s (A ++ X ++ C) left right temp = some (A ++ X1 ++ C, temp1, s1) ∧
        List.Sorted (· ≤ ·) X1 ∧ X1.Perm X ∧ temp1.length = temp.length := by
  induction fuel with
  | zero => intro s A X C temp left right _ _ _ h; omega
  | succ fuel ih =>
    intro s A X C temp left right hleft hright htemp hf
    by_cases hlt : left < right
    · have hd : cdiv (right - left) 2 = (right - left) / 2 :=
        cdiv_of_nonneg _ _ (by omega) (by omega)
      obtain ⟨h, hh⟩ : ∃ h : Nat, (h : Int) = (right - left) / 2 + 1 :=
        ⟨((right - left) / 2 + 1).toNat, by omega⟩
      have hX : X = X.take h ++ X.drop h := (List.take_append_drop h X).symm
      have hl1 : (X.take h).length = h := by rw [List.length_take]; omega
      have hl2 : (X.drop h).length = X.length - h := by rw [List.length_drop]
      obtain ⟨Y1, temp1, s1, hrun1, hs1, hp1, ht1⟩ :=
        ih s A (X.take h) (X.drop h ++ C) temp left (left + (right - left) / 2) hleft
          (by omega) (by rw [htemp]; (try simp only [List.length_append, List.length_cons, List.length_nil, List.length_drop, List.length_take] at *); omega)
          (by omega)
      have hY1 : Y1.length = h := by rw [hp1.length_eq, hl1]
      obtain ⟨Y2, temp2, s2, hrun2, hs2, hp2, ht2⟩ :=
        ih s1 (A ++ Y1) (X.drop h) C temp1 (left + (right - left) / 2 + 1) right
          (by (try simp only [List.length_append, List.length_cons, List.length_nil, List.length_drop, List.length_take] at *); omega) (by omega)
          (by rw [ht1, htemp]; (try simp only [List.length_append, List.length_cons, List.length_nil, List.length_drop, List.length_take] at *); omega)
          (by omega)
      have hY2 : Y2.length = X.length - h := by rw [hp2.length_eq, hl2]
      obtain ⟨s3, hrun3⟩ := merge_spec s2 A Y1 Y2 C (temp2.take A.length) (temp2.drop A.length)
        left (left + (right - left) / 2) right hleft (by omega) (by omega)
        (by rw [List.length_take, ht2, ht1, htemp]; simp)
        (by rw [List.length_drop, ht2, ht1, htemp]; simp only [List.length_append]; omega)
      rw [List.take_append_drop] at hrun3
      refine ⟨Y1.merge Y2 (fun a b => decide (a ≤ b)),
        temp2.take A.length ++ Y1.merge Y2 (fun a b => decide (a ≤ b)) ++
          (temp2.drop A.length).drop (Y1.length + Y2.length), s3, ?_, hs1.merge hs2, ?_, ?_⟩
      · have e1 : A ++ X ++ C = A ++ X.take h ++ (X.drop h ++ C) := by
          rw [List.append_assoc A (X.take h), ← List.append_assoc (X.take h),
            List.take_append_drop, ← List.append_assoc]
        have e2 : A ++ Y1 ++ (X.drop h ++ C) = A ++ Y1 ++ X.drop h ++ C := by simp
        rw [← e1] at hrun1
        rw [e2] at hrun1
        simp only [mergeSort, if_pos hlt, hd, Option.bind_eq_bind, hrun1, Option.some_bind,
          hrun2, hrun3]
      · refine (List.perm_merge _ Y1 Y2).trans ?_
        conv_rhs => rw [hX]
        exact hp1.append hp2
      · simp only [List.length_append, List.length_take, List.length_drop,
          (List.perm_merge (fun a b => decide (a ≤ b)) Y1 Y2).length_eq]
        rw [← ht1, ← ht2] at htemp
        simp only [List.length_append] at htemp
        omega
    · refine ⟨X, temp, s, by simp [mergeSort, hlt], ?_, List.Perm.refl _, rfl⟩
      have hlen : X.length ≤ 1 := by omega
      match X, hlen with
      | [], _ => simp
      | [x], _ => simp

/-- Specification of `MergeSort::sort`. -/
theorem msort_spec (s : SortStats) (arr : List Int) :
    ∃ out s1, sort s arr = some (out, s1) ∧ List.Sorted (· ≤ ·) out ∧ out.Perm arr := by
  by_cases h : arr.length ≤ 1
  · refine ⟨arr, s, by simp [sort, h], ?_, List.Perm.refl _⟩
    match arr, h with
    | [], _ => simp
    | [x], _ => simp
  · obtain ⟨X1, temp1, s1, hrun, hs, hp, _⟩ :=
      mergeSort_spec (arr.length + 1) s [] arr [] (List.replicate arr.length 0) 0
        ((arr.length : Int) - 1) (by simp) (by omega) (by simp) (by omega)
    refine ⟨X1, s1, ?_, hs, hp⟩
    simp only [List.nil_append, List.append_nil] at hrun
    simp [sort, h, hrun]

/-- Specification of `merge` in terms of positions. -/
theorem merge_positions (s : SortStats) (arr temp : List Int) (left mid right : Int)
    (h0 : 0 ≤ left) (h1 : left ≤ mid) (h2 : mid < right) (h3 : right < arr.length)
    (ht : temp.length = arr.length)
    (hs1 : List.Sorted (· ≤ ·) (seg arr left mid))
    (hs2 : List.Sorted (· ≤ ·) (seg arr (mid + 1) right)) :
    ∃ out temp1 s1, merge s arr left mid right temp = some (out, temp1, s1) ∧
      out.length = arr.length ∧ List.Sorted (· ≤ ·) (seg out left right) ∧
      (seg out left right).Perm (seg arr left mid ++ seg arr (mid + 1) right) ∧
      ∀ k : Int, (k < left ∨ right < k) → rd out k = rd arr k := by
  obtain ⟨hsplit, hlenA, hlenB⟩ := split3 arr left right h0 (by omega) h3
  have hseg := seg_split arr left mid right h0 (by omega) (by omega)
  obtain ⟨_, _, hlenL⟩ := split3 arr left mid h0 (by omega) (by omega)
  obtain ⟨_, _, hlenR⟩ := split3 arr (mid + 1) right (by omega) (by omega) h3
  have hTA : (temp.take left.toNat).length = (arr.take left.toNat).length := by
    simp only [List.length_take, ht]
  obtain ⟨s1, hrun⟩ := merge_spec s (arr.take left.toNat) (seg arr left mid)
    (seg arr (mid + 1) right) (arr.drop (right + 1).toNat) (temp.take left.toNat)
    (temp.drop left.toNat) left mid right hlenA.symm (by omega) (by omega) hTA
    (by rw [List.length_drop, ht]; omega)
  rw [List.take_append_drop, List.append_assoc (arr.take left.toNat), ← hseg, ← hsplit] at hrun
  have hp := List.perm_merge (fun a b : Int => decide (a ≤ b)) (seg arr left mid)
    (seg arr (mid + 1) right)
  have hlenM : (((seg arr left mid).merge (seg arr (mid + 1) right)
      (fun a b => decide (a ≤ b))).length : Int) = right + 1 - left := by
    rw [hp.length_eq, ← hseg]; exact hlenB
  have hsegout := seg_append (arr.take left.toNat) _ (arr.drop (right + 1).toNat) left right
    hlenA hlenM
  refine ⟨_, _, s1, hrun, ?_, ?_, ?_, ?_⟩
  · conv_rhs => rw [hsplit]
    simp only [List.length_append, hp.length_eq, ← hseg]
  · rw [hsegout]; exact hs1.merge hs2
  · rw [hsegout]; exact hp
  · intro k hk
    conv_rhs => rw [hsplit]
    exact rd_outside _ _ _ _ left right hlenA hlenB (by rw [hp.length_eq, ← hseg]) k hk

end MergeSort

/-- C6: `MergeSort::sort` returns on every input `inp`, the empty and the one-element vectors
included, and leaves the sequence a non-decreasing permutation of its input;
`merge(left, mid, right)` applied to a range of a vector `arr` whose halves `left..mid` and
`mid+1..right` are sorted returns, leaves `left..right` a sorted permutation of the two halves
and changes nothing outside `left..right`. -/
theorem mergeSort_correct (s : SortStats) (inp arr temp : List Int) (left mid right : Int)
    (h0 : 0 ≤ left) (h1 : left ≤ mid) (h2 : mid < right) (h3 : right < arr.length)
    (ht : temp.length = arr.length)
    (hs1 : List.Sorted (· ≤ ·) (seg arr left mid))
    (hs2 : List.Sorted (· ≤ ·) (seg arr (mid + 1) right)) :
    (∃ out s1, MergeSort.sort s inp = some (out, s1) ∧ out.length = inp.length ∧
      List.Sorted (· ≤ ·) out ∧ out.Perm inp) ∧
    (∃ out temp1 s1, MergeSort.merge s arr left mid right temp = some (out, temp1, s1) ∧
      out.length = arr.length ∧ List.Sorted (· ≤ ·) (seg out left right) ∧
      (seg out left right).Perm (seg arr left mid ++ seg arr (mid + 1) right) ∧
      ∀ k : Int, (k < left ∨ right < k) → rd out k = rd arr k) := by
  refine ⟨?_, MergeSort.merge_positions s arr temp left mid right h0 h1 h2 h3 ht hs1 hs2⟩
  obtain ⟨out, s1, hrun, hs, hp⟩ := MergeSort.msort_spec s inp
  exact ⟨out, s1, hrun, hp.length_eq, hs, hp⟩

theorem mergeSort_correct_witness :
    ((0 : Int) ≤ 1 ∧ (1 : Int) ≤ 2 ∧ (2 : Int) < 4 ∧ (4 : Int) < ([9, 2, 7, 1, 3, 0] : List Int).length ∧
      ([0, 0, 0, 0, 0, 0] : List Int).length = ([9, 2, 7, 1, 3, 0] : List Int).length ∧
      List.Sorted (· ≤ ·) (seg [9, 2, 7, 1, 3, 0] 1 2) ∧
      List.Sorted (· ≤ ·) (seg [9, 2, 7, 1, 3, 0] (2 + 1) 4)) ∧
    ((∃ out s1, MergeSort.sort SortStats.zero [4] = some (out, s1) ∧
      out.length = ([4] : List Int).length ∧
      List.Sorted (· ≤ ·) out ∧ out.Perm [4]) ∧
    (∃ out temp1 s1, MergeSort.merge SortStats.zero [9, 2, 7, 1, 3, 0] 1 2 4 [0, 0, 0, 0, 0, 0]
        = some (out, temp1, s1) ∧
      out.length = ([9, 2, 7, 1, 3, 0] : List Int).length ∧
      List.Sorted (· ≤ ·) (seg out 1 4) ∧
      (seg out 1 4).Perm (seg [9, 2, 7, 1, 3, 0] 1 2 ++ seg [9, 2, 7, 1, 3, 0] (2 + 1) 4) ∧
      ∀ k : Int, (k < 1 ∨ 4 < k) → rd out k = rd [9, 2, 7, 1, 3, 0] k)) :=
  ⟨by decide, mergeSort_correct SortStats.zero [4] [9, 2, 7, 1, 3, 0] [0, 0, 0, 0, 0, 0] 1 2 4
    (by decide) (by decide) (by decide) (by decide) (by decide) (by decide) (by decide)⟩

/-! ## Quick sort -/

/-- Exchanging a position with itself changes nothing but the counter. -/
theorem swap_self_decomp (s : SortStats) (A C : List Int) (x : Int) (i : Int)
    (hi : i = (A.length : Int)) :
    SortingAlgorithm.swap s (A ++ x :: C) i i
      = some (A ++ x :: C, { s with swaps := s.swaps + 1 }) := by
  simp [SortingAlgorithm.swap, rd_append_cons A C x i hi, wr_append_cons A C x x i hi]

/-- Exchanging two different positions, on a decomposition of the array. -/
theorem swap_decomp (s : SortStats) (A B C : List Int) (x y : Int) (i j : Int)
    (hi : i = (A.length : Int)) (hj : j = i + 1 + B.length) :
    SortingAlgorithm.swap s (A ++ x :: B ++ y :: C) i j
      = some (A ++ y :: B ++ x :: C, { s with swaps := s.swaps + 1 }) := by
  have h1 : rd (A ++ x :: B ++ y :: C) i = some x := by
    have := rd_append_cons A (B ++ y :: C) x i hi
    simpa using this
  have h2 : rd (A ++ x :: B ++ y :: C) j = some y := by
    have := rd_append_cons (A ++ x :: B) C y j (by simp; omega)
    simpa using this
  have h3 : wr (A ++ x :: B ++ y :: C) i y = some (A ++ y :: B ++ y :: C) := by
    have := wr_append_cons A (B ++ y :: C) x y i hi
    simpa using this
  have h4 : wr (A ++ y :: B ++ y :: C) j x = some (A ++ y :: B ++ x :: C) := by
    have := wr_append_cons (A ++ y :: B) C y x j (by simp; omega)
    simpa using this
  simp only [SortingAlgorithm.swap, h1, h2, h3, h4, Option.bind_eq_bind, Option.some_bind]
  rfl

namespace QuickSort

/-- Invariant of the Lomuto loop: `S` holds the elements below the pivot, `G` the others seen
so far, `U` the elements not yet examined. -/
theorem qpartitionLoop_spec (pivot right : Int) (fuel : Nat) :
    ∀ (A S G U C : List Int) (s : SortStats) (i j : Int),
      i = (A.length : Int) + S.length - 1 → j = i + 1 + G.length → right = j + U.length →
      U.length < fuel → (∀ x ∈ S, x < pivot) → (∀ x ∈ G, pivot ≤ x) →
      ∃ S1 G1 s1, partitionLoop pivot right fuel (A ++ S ++ G ++ U ++ pivot :: C) s i j
          = some (A ++ S1 ++ G1 ++ pivot :: C, s1, (A.length : Int) + S1.length - 1) ∧
        (S1 ++ G1).Perm (S ++ G ++ U) ∧ (∀ x ∈ S1, x < pivot) ∧ (∀ x ∈ G1, pivot ≤ x) := by
  induction fuel with
  | zero => intro A S G U C s i j _ _ _ h; omega
  | succ fuel ih =>
    intro A S G U C s i j hi hj hr hf hS hG
    cases U with
    | nil =>
      refine ⟨S, G, s, ?_, by simp, hS, hG⟩
      have hlt : ¬ j < right := by simp at hr; omega
      simp [partitionLoop, hlt, hi]
    | cons u U =>
      have hlt : j < right := by simp at hr; omega
      have hrd : rd (A ++ S ++ G ++ u :: U ++ pivot :: C) j = some u := by
        have := rd_append_cons (A ++ S ++ G) (U ++ pivot :: C) u j (by simp; omega)
        simpa using this
      by_cases hc : u < pivot
      · have hc1 : (SortingAlgorithm.compare s u pivot).1 = true := by
          simp [SortingAlgorithm.compare, hc]
        have hS1 : ∀ x ∈ S ++ [u], x < pivot := by
          intro x hx
          rcases List.mem_append.1 hx with h | h
          · exact hS x h
          · simp at h; subst h; exact hc
        cases G with
        | nil =>
          have hsw := swap_self_decomp (SortingAlgorithm.compare s u pivot).2 (A ++ S)
            (U ++ pivot :: C) u (i + 1) (by simp; omega)
          obtain ⟨S1, G1, s1, hrun, hp, h1, h2⟩ :=
            ih A (S ++ [u]) [] U C
              { (SortingAlgorithm.compare s u pivot).2 with
                swaps := (SortingAlgorithm.compare s u pivot).2.swaps + 1 }
              (i + 1) (j + 1) (by simp; omega) (by simp at hj ⊢; omega)
              (by simp at hr ⊢; omega) (by simp at hf; omega) hS1 (by simp)
          refine ⟨S1, G1, s1, ?_, ?_, h1, h2⟩
          · have hj1 : j = i + 1 := by simp at hj; omega
            subst hj1
            simp only [partitionLoop, if_pos hlt, hrd, Option.bind_eq_bind, Option.some_bind,
              hc1, if_true]
            have e1 : A ++ S ++ [] ++ u :: U ++ pivot :: C = A ++ S ++ u :: (U ++ pivot :: C) := by
              simp
            rw [e1, hsw]
            simp only [Option.some_bind]
            rw [← hrun]
            simp
          · refine hp.trans ?_
            simp
        | cons g G =>
          have hsw := swap_decomp (SortingAlgorithm.compare s u pivot).2 (A ++ S) G
            (U ++ pivot :: C) g u (i + 1) j (by simp; omega) (by simp at hj; omega)
          obtain ⟨S1, G1, s1, hrun, hp, h1, h2⟩ :=
            ih A (S ++ [u]) (G ++ [g]) U C
              { (SortingAlgorithm.compare s u pivot).2 with
                swaps := (SortingAlgorithm.compare s u pivot).2.swaps + 1 }
              (i + 1) (j + 1) (by simp; omega) (by simp at hj ⊢; omega)
              (by simp at hr ⊢; omega) (by simp at hf; omega) hS1
              (by intro x hx
                  rcases List.mem_append.1 hx with h | h
                  · exact hG x (List.mem_cons_of_mem _ h)
                  · simp at h; subst h; exact hG x (List.mem_cons_self _ _))
          refine ⟨S1, G1, s1, ?_, ?_, h1, h2⟩
          · simp only [partitionLoop, if_pos hlt, hrd, Option.bind_eq_bind, Option.some_bind,
              hc1, if_true]
            have e1 : A ++ S ++ g :: G ++ u :: U ++ pivot :: C
                = A ++ S ++ g :: G ++ u :: (U ++ pivot :: C) := by simp
            rw [e1, hsw]
            simp only [Option.some_bind]
            rw [← hrun]
            simp
          · refine hp.trans ?_
            simp only [List.append_assoc, List.cons_append, List.nil_append]
            refine List.Perm.append_left S ?_
            have h3 : (G ++ g :: U).Perm (g :: G ++ U) := List.perm_middle
            have h4 : (u :: (G ++ g :: U)).Perm (u :: (g :: G ++ U)) := List.Perm.cons u h3
            refine h4.trans ?_
            refine (List.Perm.swap g u (G ++ U)).trans ?_
            refine List.Perm.cons g ?_
            exact List.perm_middle.symm
      · have hc1 : (SortingAlgorithm.compare s u pivot).1 = false := by
          simp [SortingAlgorithm.compare, hc]
        obtain ⟨S1, G1, s1, hrun, hp, h1, h2⟩ :=
          ih A S (G ++ [u]) U C (SortingAlgorithm.compare s u pivot).2 i (j + 1) hi
            (by simp at hj ⊢; omega) (by simp at hr ⊢; omega) (by simp at hf; omega) hS
            (by intro x hx
                rcases List.mem_append.1 hx with h | h
                · exact hG x h
                · simp at h; subst h; exact not_lt.1 hc)
        refine ⟨S1, G1, s1, ?_, ?_, h1, h2⟩
        · simp only [partitionLoop, if_pos hlt, hrd, Option.bind_eq_bind, Option.some_bind,
            hc1, Bool.false_eq_true, if_false]
          rw [← hrun]
          simp
        · refine hp.trans ?_
          simp

/-- The method `partition` on a decomposition of the array. -/
theorem qpartition_spec (s : SortStats) (A X C : List Int) (pivot : Int) (left right : Int)
    (hleft : left = (A.length : Int)) (hright : right = left + X.length) :
    ∃ S G s1, partition s (A ++ X ++ pivot :: C) left right
        = some (A ++ S ++ pivot :: G ++ C, s1, left + S.length) ∧
      (S ++ G).Perm X ∧ (∀ x ∈ S, x < pivot) ∧ (∀ x ∈ G, pivot ≤ x) := by
  have hrd : rd (A ++ X ++ pivot :: C) right = some pivot :=
    rd_append_cons (A ++ X) C pivot right (by (try simp only [List.length_append, List.length_cons, List.length_nil, List.length_drop, List.length_take] at *); omega)
  obtain ⟨S1, G1, s1, hrun, hp, h1, h2⟩ :=
    qpartitionLoop_spec pivot right ((right - left).toNat + 1) A [] [] X C s (left - 1) left
      (by (try simp only [List.length_append, List.length_cons, List.length_nil, List.length_drop, List.length_take] at *); omega) (by (try simp only [List.length_append, List.length_cons, List.length_nil, List.length_drop, List.length_take] at *); omega) (by omega) (by omega) (by simp) (by simp)
  have hrun1 : partitionLoop pivot right ((right - left).toNat + 1) (A ++ X ++ pivot :: C) s
      (left - 1) left = some (A ++ S1 ++ G1 ++ pivot :: C, s1, (A.length : Int) + S1.length - 1) := by
    rw [← hrun]; simp
  have hlen := hp.length_eq
  cases G1 with
  | nil =>
    have hsw := swap_self_decomp s1 (A ++ S1) C pivot ((A.length : Int) + S1.length - 1 + 1)
      (by (try simp only [List.length_append, List.length_cons, List.length_nil, List.length_drop, List.length_take] at *); omega)
    have e : (A.length : Int) + S1.length - 1 + 1 = right := by (try simp only [List.length_append, List.length_cons, List.length_nil, List.length_drop, List.length_take] at *); omega
    rw [e] at hsw
    refine ⟨S1, [], { s1 with swaps := s1.swaps + 1 }, ?_, by simpa using hp, h1, by simp⟩
    simp only [partition, hrd, Option.bind_eq_bind, Option.some_bind, hrun1, e,
      List.append_nil, hsw]
    simp [hleft]
    omega
  | cons g G =>
    have hsw := swap_decomp s1 (A ++ S1) G C g pivot ((A.length : Int) + S1.length - 1 + 1) right
      (by (try simp only [List.length_append, List.length_cons, List.length_nil, List.length_drop, List.length_take] at *); omega) (by (try simp only [List.length_append, List.length_cons, List.length_nil, List.length_drop, List.length_take] at *); omega)
    refine ⟨S1, G ++ [g], { s1 with swaps := s1.swaps + 1 }, ?_, ?_, h1, ?_⟩
    · have e1 : A ++ S1 ++ (g :: G) ++ pivot :: C = A ++ S1 ++ g :: G ++ pivot :: C := by simp
      simp only [partition, hrd, Option.bind_eq_bind, Option.some_bind, hrun1, e1, hsw]
      simp [hleft]
    · refine List.Perm.trans ?_ hp
      refine List.Perm.append_left S1 ?_
      exact (List.perm_append_singleton g G)
    · intro x hx
      apply h2
      rcases List.mem_append.1 hx with h | h
      · exact List.mem_cons_of_mem _ h
      · simp at h; subst h; exact List.mem_cons_self _ _

/-- The recursion sorts the range it is given and touches nothing else. -/
theorem quickSort_spec (fuel : Nat) :
    ∀ (s : SortStats) (A X C : List Int) (left right : Int),
      left = (A.length : Int) → right = left + X.length - 1 → X.length < fuel →
      ∃ X1 s1, quickSort fuel s (A ++ X ++ C) left right = some (A ++ X1 ++ C, s1) ∧
        List.Sorted (· ≤ ·) X1 ∧ X1.Perm X := by
  induction fuel with
  | zero => intro s A X C left right _ _ h; omega
  | succ fuel ih =>
    intro s A X C left right hleft hright hf
    by_cases hlt : left < right
    · rcases List.eq_nil_or_concat X with hX | ⟨X0, pivot, hX⟩
      · subst hX; simp at hright; omega
      · rw [List.concat_eq_append] at hX
        subst hX
        obtain ⟨S, G, s1, hrun1, hp, hS, hG⟩ :=
          qpartition_spec s A X0 C pivot left right hleft (by (try simp only [List.length_append, List.length_cons, List.length_nil, List.length_drop, List.length_take] at *); omega)
        have hlen := hp.length_eq
        obtain ⟨S1, s2, hrun2, hs2, hp2⟩ :=
          ih s1 A S (pivot :: G ++ C) left (left + S.length - 1) hleft rfl (by (try simp only [List.length_append, List.length_cons, List.length_nil, List.length_drop, List.length_take] at *); omega)
        obtain ⟨G1, s3, hrun3, hs3, hp3⟩ :=
          ih s2 (A ++ S1 ++ [pivot]) G C (left + S.length + 1) right
            (by have := hp2.length_eq; (try simp only [List.length_append, List.length_cons, List.length_nil, List.length_drop, List.length_take] at *); omega) (by (try simp only [List.length_append, List.length_cons, List.length_nil, List.length_drop, List.length_take] at *); omega) (by (try simp only [List.length_append, List.length_cons, List.length_nil, List.length_drop, List.length_take] at *); omega)
        refine ⟨S1 ++ pivot :: G1, s3, ?_, ?_, ?_⟩
        · have e1 : A ++ (X0 ++ [pivot]) ++ C = A ++ X0 ++ pivot :: C := by simp
          have e2 : A ++ S ++ pivot :: G ++ C = A ++ S ++ (pivot :: G ++ C) := by simp
          have e3 : A ++ S1 ++ (pivot :: G ++ C) = A ++ S1 ++ [pivot] ++ G ++ C := by simp
          have e4 : A ++ S1 ++ [pivot] ++ G1 ++ C = A ++ (S1 ++ pivot :: G1) ++ C := by simp
          rw [e2] at hrun1
          rw [e3] at hrun2
          rw [e4] at hrun3
          simp only [quickSort, if_pos hlt, e1, hrun1, Option.bind_eq_bind, Option.some_bind,
            add_sub_cancel_right, hrun2, hrun3]
        · unfold List.Sorted
          rw [List.pairwise_append]
          refine ⟨hs2, ?_, ?_⟩
          · rw [List.pairwise_cons]
            exact ⟨fun x hx => hG x (hp3.subset hx), hs3⟩
          · intro a ha b hb
            have h1 : a < pivot := hS a (hp2.subset ha)
            rcases List.mem_cons.1 hb with h | h
            · subst h; exact le_of_lt h1
            · have := hG b (hp3.subset h)
              omega
        · have h1 : (S1 ++ pivot :: G1).Perm (S ++ pivot :: G) :=
            hp2.append (List.Perm.cons pivot hp3)
          refine h1.trans ?_
          refine List.perm_middle.trans ?_
          refine List.Perm.trans ?_ (List.perm_append_singleton pivot X0).symm
          exact List.Perm.cons pivot hp
    · refine ⟨X, s, by simp [quickSort, hlt], ?_, List.Perm.refl _⟩
      have hlen : X.length ≤ 1 := by omega
      match X, hlen with
      | [], _ => simp
      | [x], _ => simp

/-- Specification of `QuickSort::sort`. -/
theorem qsort_spec (s : SortStats) (arr : List Int) :
    ∃ out s1, sort s arr = some (out, s1) ∧ List.Sorted (· ≤ ·) out ∧ out.Perm arr := by
  by_cases h : arr.length ≤ 1
  · refine ⟨arr, s, by simp [sort, h], ?_, List.Perm.refl _⟩
    match arr, h with
    | [], _ => simp
    | [x], _ => simp
  · obtain ⟨X1, s1, hrun, hs, hp⟩ :=
      quickSort_spec (arr.length + 1) s [] arr [] 0 ((arr.length : Int) - 1) (by simp)
        (by omega) (by omega)
    refine ⟨X1, s1, ?_, hs, hp⟩
    simp only [List.nil_append, List.append_nil] at hrun
    simp [sort, h, hrun]

/-- Specification of `partition` in terms of positions. -/
theorem qpartition_positions (s : SortStats) (arr : List Int) (left right : Int)
    (h0 : 0 ≤ left) (h1 : left ≤ right) (h2 : right < arr.length) :
    ∃ out s1 p pivot, rd arr right = some pivot ∧ partition s arr left right = some (out, s1, p) ∧
      left ≤ p ∧ p ≤ right ∧ rd out p = some pivot ∧
      (∀ x ∈ seg out left (p - 1), x < pivot) ∧ (∀ x ∈ seg out (p + 1) right, pivot ≤ x) ∧
      (seg out left right).Perm (seg arr left right) ∧ out.length = arr.length ∧
      ∀ k : Int, (k < left ∨ right < k) → rd out k = rd arr k := by
  obtain ⟨hsplit, hlenA, hlenB⟩ := split3 arr left right h0 (by omega) h2
  obtain ⟨pivot, hrd, hsingle⟩ := seg_single arr right (by omega) h2
  have hseg := seg_split arr left (right - 1) right h0 (by omega) (by omega)
  rw [show right - 1 + 1 = right by omega, hsingle] at hseg
  obtain ⟨_, _, hlenX⟩ := split3 arr left (right - 1) h0 (by omega) (by omega)
  obtain ⟨S, G, s1, hrun, hp, hS, hG⟩ :=
    qpartition_spec s (arr.take left.toNat) (seg arr left (right - 1))
      (arr.drop (right + 1).toNat) pivot left right hlenA.symm (by omega)
  have e1 : arr.take left.toNat ++ seg arr left (right - 1) ++ pivot :: arr.drop (right + 1).toNat
      = arr := by
    conv_rhs => rw [hsplit, hseg]
    simp
  rw [e1] at hrun
  have hlen := hp.length_eq
  have hsegS : seg (arr.take left.toNat ++ S ++ pivot :: G ++ arr.drop (right + 1).toNat) left
      (left + S.length - 1) = S := by
    have := seg_append (arr.take left.toNat) S (pivot :: G ++ arr.drop (right + 1).toNat) left
      (left + S.length - 1) hlenA (by omega)
    simpa using this
  have hsegG : seg (arr.take left.toNat ++ S ++ pivot :: G ++ arr.drop (right + 1).toNat)
      (left + S.length + 1) right = G := by
    have := seg_append (arr.take left.toNat ++ S ++ [pivot]) G (arr.drop (right + 1).toNat)
      (left + S.length + 1) right (by (try simp only [List.length_append, List.length_cons, List.length_nil, List.length_drop, List.length_take] at *); omega) (by (try simp only [List.length_append, List.length_cons, List.length_nil, List.length_drop, List.length_take] at *); omega)
    simpa using this
  have hsegAll : seg (arr.take left.toNat ++ S ++ pivot :: G ++ arr.drop (right + 1).toNat) left
      right = S ++ pivot :: G := by
    have := seg_append (arr.take left.toNat) (S ++ pivot :: G) (arr.drop (right + 1).toNat) left
      right hlenA (by (try simp only [List.length_append, List.length_cons, List.length_nil, List.length_drop, List.length_take] at *); omega)
    simpa using this
  refine ⟨_, s1, left + S.length, pivot, hrd, hrun, by omega, by (try simp only [List.length_append, List.length_cons, List.length_nil, List.length_drop, List.length_take] at *); omega, ?_, ?_, ?_, ?_, ?_, ?_⟩
  · have := rd_append_cons (arr.take left.toNat ++ S) (G ++ arr.drop (right + 1).toNat) pivot
      (left + S.length) (by (try simp only [List.length_append, List.length_cons, List.length_nil, List.length_drop, List.length_take] at *); omega)
    simpa using this
  · rw [hsegS]; exact hS
  · rw [hsegG]; exact hG
  · rw [hsegAll, hseg]
    refine List.perm_middle.trans ?_
    refine List.Perm.trans ?_ (List.perm_append_singleton pivot _).symm
    exact List.Perm.cons pivot hp
  · conv_rhs => rw [hsplit, hseg]
    simp only [List.length_append, List.length_cons, List.length_nil]
    simp only [List.length_append] at hlen
    omega
  · intro k hk
    conv_rhs => rw [hsplit, hseg]
    have := rd_outside (arr.take left.toNat) (seg arr left (right - 1) ++ [pivot])
      (S ++ pivot :: G) (arr.drop (right + 1).toNat) left right hlenA (by (try simp only [List.length_append, List.length_cons, List.length_nil, List.length_drop, List.length_take] at *); omega) (by (try simp only [List.length_append, List.length_cons, List.length_nil, List.length_drop, List.length_take] at *); omega) k hk
    simpa using this

end QuickSort

/-- C5: `QuickSort::sort` returns on every input `inp`, the empty and the one-element vectors
included, and leaves the sequence a non-decreasing permutation of its input; on a valid range
of a vector `arr`, `partition(left, right)` takes the rightmost element as pivot and
returns an index `p` in `[left, right]` with `arr[p]` the pivot, every element of `left..p-1`
strictly less than it and every element of `p+1..right` not less than it, keeping the content
of the range and everything outside it; the ranges `left..p-1` and `p+1..right` of the two
recursive calls are strictly shorter than `left..right`. -/
theorem quickSort_correct (s : SortStats) (inp arr : List Int) (left right : Int)
    (h0 : 0 ≤ left) (h1 : left ≤ right) (h2 : right < arr.length) :
    (∃ out s1, QuickSort.sort s inp = some (out, s1) ∧ out.length = inp.length ∧
      List.Sorted (· ≤ ·) out ∧ out.Perm inp) ∧
    (∃ out s1 p pivot, rd arr right = some pivot ∧
      QuickSort.partition s arr left right = some (out, s1, p) ∧
      left ≤ p ∧ p ≤ right ∧ rd out p = some pivot ∧
      (∀ x ∈ seg out left (p - 1), x < pivot) ∧ (∀ x ∈ seg out (p + 1) right, pivot ≤ x) ∧
      (seg out left right).Perm (seg arr left right) ∧ out.length = arr.length ∧
      (∀ k : Int, (k < left ∨ right < k) → rd out k = rd arr k) ∧
      (p - 1) - left + 1 < right - left + 1 ∧ right - (p + 1) + 1 < right - left + 1) := by
  constructor
  · obtain ⟨out, s1, hrun, hs, hp⟩ := QuickSort.qsort_spec s inp
    exact ⟨out, s1, hrun, hp.length_eq, hs, hp⟩
  · obtain ⟨out, s1, p, pivot, hrd, hrun, hp1, hp2, hrdp, hlo, hhi, hperm, hlen, hout⟩ :=
      QuickSort.qpartition_positions s arr left right h0 h1 h2
    exact ⟨out, s1, p, pivot, hrd, hrun, hp1, hp2, hrdp, hlo, hhi, hperm, hlen, hout,
      by omega, by omega⟩

theorem quickSort_correct_witness :
    ((0 : Int) ≤ 1 ∧ (1 : Int) ≤ 4 ∧ (4 : Int) < ([9, 2, 7, 1, 3, 0] : List Int).length) ∧
    ((∃ out s1, QuickSort.sort SortStats.zero [] = some (out, s1) ∧
      out.length = ([] : List Int).length ∧
      List.Sorted (· ≤ ·) out ∧ out.Perm []) ∧
    (∃ out s1 p pivot, rd [9, 2, 7, 1, 3, 0] 4 = some pivot ∧
      QuickSort.partition SortStats.zero [9, 2, 7, 1, 3, 0] 1 4 = some (out, s1, p) ∧
      1 ≤ p ∧ p ≤ 4 ∧ rd out p = some pivot ∧
      (∀ x ∈ seg out 1 (p - 1), x < pivot) ∧ (∀ x ∈ seg out (p + 1) 4, pivot ≤ x) ∧
      (seg out 1 4).Perm (seg [9, 2, 7, 1, 3, 0] 1 4) ∧
      out.length = ([9, 2, 7, 1, 3, 0] : List Int).length ∧
      (∀ k : Int, (k < 1 ∨ 4 < k) → rd out k = rd [9, 2, 7, 1, 3, 0] k) ∧
      (p - 1) - 1 + 1 < (4 : Int) - 1 + 1 ∧ 4 - (p + 1) + 1 < (4 : Int) - 1 + 1)) :=
  ⟨by decide, quickSort_correct SortStats.zero [] [9, 2, 7, 1, 3, 0] 1 4
    (by decide) (by decide) (by decide)⟩

/-! ## Reads, writes and exchanges by position -/

theorem rd_eq_getD (a : List Int) (i : Int) (h0 : 0 ≤ i) (h1 : i < a.length) :
    rd a i = some (a.getD i.toNat 0) := by
  have hlt : i.toNat < a.length := by omega
  simp [rd, h0, List.getD_eq_getElem?_getD, List.getElem?_eq_getElem hlt]

theorem wr_eq_set (a : List Int) (i v : Int) (h0 : 0 ≤ i) (h1 : i < a.length) :
    wr a i v = some (a.set i.toNat v) := by
  simp [wr, h0, h1]

theorem swap_eq_swapL (s : SortStats) (a : List Int) (i j : Int) (hi0 : 0 ≤ i)
    (hi : i < a.length) (hj0 : 0 ≤ j) (hj : j < a.length) :
    SortingAlgorithm.swap s a i j
      = some (swapL a i.toNat j.toNat, { s with swaps := s.swaps + 1 }) := by
  simp only [SortingAlgorithm.swap, rd_eq_getD a i hi0 hi, rd_eq_getD a j hj0 hj,
    wr_eq_set a i _ hi0 hi, Option.bind_eq_bind, Option.some_bind]
  rw [wr_eq_set _ j _ hj0 (by simpa using hj)]
  rfl

theorem length_swapL (a : List Int) (i j : Nat) : (swapL a i j).length = a.length := by
  simp [swapL]

theorem getD_swapL (a : List Int) (i j k : Nat) (hi : i < a.length) (hj : j < a.length) :
    (swapL a i j).getD k 0
      = if k = j then a.getD i 0 else if k = i then a.getD j 0 else a.getD k 0 := by
  simp only [swapL, List.getD_eq_getElem?_getD, List.getElem?_set, List.length_set]
  by_cases h1 : k = j
  · subst h1; simp [hj]
  · by_cases h2 : k = i
    · subst h2
      have : ¬ j = k := fun h => h1 h.symm
      simp [this, hi, h1]
    · have h3 : ¬ j = k := fun h => h1 h.symm
      have h4 : ¬ i = k := fun h => h2 h.symm
      simp [h1, h2, h3, h4]

theorem getD_ext (a b : List Int) (hlen : a.length = b.length)
    (h : ∀ k, k < b.length → a.getD k 0 = b.getD k 0) : a = b := by
  apply List.ext_getElem hlen
  intro k h1 h2
  have := h k h2
  rw [List.getD_eq_getElem?_getD, List.getD_eq_getElem?_getD, List.getElem?_eq_getElem h1,
    List.getElem?_eq_getElem h2] at this
  simpa using this

theorem swapL_self (a : List Int) (i : Nat) (hi : i < a.length) : swapL a i i = a := by
  apply getD_ext _ _ (length_swapL a i i)
  intro k _
  rw [getD_swapL a i i k hi hi]
  by_cases hki : k = i
  · subst hki; simp
  · simp [hki]

theorem swapL_comm (a : List Int) (i j : Nat) (hi : i < a.length) (hj : j < a.length) :
    swapL a i j = swapL a j i := by
  apply getD_ext _ _ (by rw [length_swapL, length_swapL])
  intro k _
  rw [getD_swapL a i j k hi hj, getD_swapL a j i k hj hi]
  by_cases h1 : k = j
  · subst h1
    by_cases h2 : k = i
    · subst h2; simp
    · simp [h2]
  · simp [h1]

theorem swapL_decomp (A B C : List Int) (x y : Int) :
    swapL (A ++ x :: B ++ y :: C) A.length (A.length + 1 + B.length)
      = A ++ y :: B ++ x :: C := by
  have h1 := swap_decomp SortStats.zero A B C x y A.length ((A.length : Int) + 1 + B.length) rfl
    rfl
  have h2 := swap_eq_swapL SortStats.zero (A ++ x :: B ++ y :: C) A.length
    ((A.length : Int) + 1 + B.length) (by omega) (by simp; omega) (by omega)
    (by simp; omega)
  rw [h1] at h2
  have e1 : ((A.length : Int)).toNat = A.length := by omega
  have e2 : ((A.length : Int) + 1 + B.length).toNat = A.length + 1 + B.length := by omega
  rw [e1, e2] at h2
  simp only [Option.some.injEq, Prod.mk.injEq] at h2
  exact h2.1.symm

theorem perm_swapL (a : List Int) (i j : Nat) (hi : i < a.length) (hj : j < a.length) :
    (swapL a i j).Perm a := by
  have key : ∀ i j : Nat, i < j → j < a.length → (swapL a i j).Perm a := by
    intro i j hij hj
    have hi : i < a.length := by omega
    have e1 : a = a.take i ++ a[i] :: (a.drop (i + 1)).take (j - i - 1) ++ a[j] :: a.drop (j + 1) := by
      have h1 : a.drop j = a[j] :: a.drop (j + 1) := List.drop_eq_getElem_cons hj
      have h2 : (a.drop (i + 1)).drop (j - i - 1) = a.drop j := by
        rw [List.drop_drop]; congr 1; omega
      have h3 : a.drop (i + 1) = (a.drop (i + 1)).take (j - i - 1) ++ a[j] :: a.drop (j + 1) := by
        rw [← h1, ← h2, List.take_append_drop]
      have h4 : a.drop i = a[i] :: a.drop (i + 1) := List.drop_eq_getElem_cons hi
      calc a = a.take i ++ a.drop i := (List.take_append_drop i a).symm
        _ = a.take i ++ a[i] :: a.drop (i + 1) := by rw [h4]
        _ = _ := by
          conv_lhs => rw [h3]
          simp
    have hl1 : (a.take i).length = i := by rw [List.length_take]; omega
    have hl2 : ((a.drop (i + 1)).take (j - i - 1)).length = j - i - 1 := by
      rw [List.length_take, List.length_drop]; omega
    have h5 := swapL_decomp (a.take i) ((a.drop (i + 1)).take (j - i - 1)) (a.drop (j + 1))
      a[i] a[j]
    rw [← e1, hl1, hl2, show i + 1 + (j - i - 1) = j by omega] at h5
    rw [h5]
    conv_rhs => rw [e1]
    simp only [List.append_assoc, List.cons_append]
    refine List.Perm.append_left _ ?_
    have h6 : ∀ (u v : Int) (B C : List Int), (u :: (B ++ v :: C)).Perm (v :: (B ++ u :: C)) := by
      intro u v B C
      have h7 : (B ++ v :: C).Perm (v :: (B ++ C)) := List.perm_middle
      refine (List.Perm.cons u h7).trans ?_
      refine (List.Perm.swap v u (B ++ C)).trans ?_
      exact List.Perm.cons v List.perm_middle.symm
    exact h6 _ _ _ _
  rcases Nat.lt_trichotomy i j with h | h | h
  · exact key i j h hj
  · subst h; rw [swapL_self a i hi]
  · rw [swapL_comm a i j hi hj]; exact key j i h hi

/-! ## Heap sort -/

namespace HeapSort

theorem pickLarger_spec (s : SortStats) (a : List Int) (n lg c : Nat) (nI lgI cI : Int)
    (hnI : nI = n) (hlgI : lgI = lg) (hcI : cI = c) (hn : n ≤ a.length) (hlg : lg < n) :
    ∃ s1, pickLarger s a nI lgI cI
      = some (((if c < n ∧ a.getD lg 0 < a.getD c 0 then c else lg : Nat) : Int), s1) := by
  subst hnI hlgI hcI
  unfold pickLarger
  by_cases hc : c < n
  · have h1 : ((c : Int) < (n : Int)) := by omega
    have e1 : ((lg : Int)).toNat = lg := by omega
    have e2 : ((c : Int)).toNat = c := by omega
    simp only [h1, if_true, rd_eq_getD a lg (by omega) (by omega),
      rd_eq_getD a c (by omega) (by omega), Option.bind_eq_bind, Option.some_bind, e1, e2]
    refine ⟨(SortingAlgorithm.compare s (a.getD lg 0) (a.getD c 0)).2, ?_⟩
    by_cases hv : a.getD lg 0 < a.getD c 0
    · simp only [SortingAlgorithm.compare, hv, hc, and_self, decide_True, if_true]
      rfl
    · simp only [SortingAlgorithm.compare, hv, and_false, decide_False, if_false,
        Bool.false_eq_true]
      rfl
  · have h1 : ¬ ((c : Int) < (n : Int)) := by omega
    exact ⟨s, by simp [h1, hc]⟩

/-- What the two tests of `heapify` select. -/
theorem pick_facts (a : List Int) (n i : Nat) :
    let l1 := if 2 * i + 1 < n ∧ a.getD i 0 < a.getD (2 * i + 1) 0 then 2 * i + 1 else i
    let l2 := if 2 * i + 2 < n ∧ a.getD l1 0 < a.getD (2 * i + 2) 0 then 2 * i + 2 else l1
    i < n → (l1 < n ∧ l2 < n ∧ (l2 = i ∨ l2 = 2 * i + 1 ∨ l2 = 2 * i + 2) ∧
      (2 * i + 1 < n → a.getD (2 * i + 1) 0 ≤ a.getD l2 0) ∧
      (2 * i + 2 < n → a.getD (2 * i + 2) 0 ≤ a.getD l2 0) ∧
      (l2 ≠ i → a.getD i 0 < a.getD l2 0)) := by
  intro l1 l2 hi
  by_cases h1 : 2 * i + 1 < n ∧ a.getD i 0 < a.getD (2 * i + 1) 0
  · have e1 : l1 = 2 * i + 1 := if_pos h1
    by_cases h2 : 2 * i + 2 < n ∧ a.getD l1 0 < a.getD (2 * i + 2) 0
    · have e2 : l2 = 2 * i + 2 := if_pos h2
      rw [e1] at h2
      rw [e2, e1]
      refine ⟨h1.1, h2.1, by omega, ?_, ?_, ?_⟩ <;> intros <;> omega
    · have e2 : l2 = l1 := if_neg h2
      rw [e1] at h2
      rw [e2, e1]
      refine ⟨h1.1, h1.1, by omega, ?_, ?_, ?_⟩ <;> intros <;> omega
  · have e1 : l1 = i := if_neg h1
    by_cases h2 : 2 * i + 2 < n ∧ a.getD l1 0 < a.getD (2 * i + 2) 0
    · have e2 : l2 = 2 * i + 2 := if_pos h2
      rw [e1] at h2
      rw [e2, e1]
      refine ⟨hi, h2.1, by omega, ?_, ?_, ?_⟩ <;> intros <;> omega
    · have e2 : l2 = l1 := if_neg h2
      rw [e1] at h2
      rw [e2, e1]
      refine ⟨hi, hi, by omega, ?_, ?_, ?_⟩ <;> intros <;> omega

end HeapSort

namespace HeapSort

/-- Sifting down at `i` repairs the heap: if the heap property holds among the parents from
`lo` on except possibly at `i`, and the parent of `i` dominates the children of `i`, then
afterwards it holds among all parents from `lo` on. -/
theorem heapify_spec (fuel : Nat) :
    ∀ (s : SortStats) (a : List Int) (n i lo : Nat),
      n ≤ a.length → i < n → lo ≤ i → n - i ≤ fuel →
      (∀ p c : Nat, lo ≤ p → p ≠ i → IsChild c p → c < n → a.getD c 0 ≤ a.getD p 0) →
      (∀ p c : Nat, lo ≤ p → IsChild i p → IsChild c i → c < n → a.getD c 0 ≤ a.getD p 0) →
      ∃ a1 s1, heapify fuel s a n i = some (a1, s1) ∧ a1.Perm a ∧ a1.length = a.length ∧
        (∀ k, (k < i ∨ n ≤ k) → a1.getD k 0 = a.getD k 0) ∧ HeapFrom a1 n lo := by
  induction fuel with
  | zero => intro s a n i lo _ h _ h2; omega
  | succ fuel ih =>
    intro s a n i lo hn hi hlo hf hpre1 hpre2
    obtain ⟨s1, hl1⟩ := pickLarger_spec s a n i (2 * i + 1) n i (2 * (i : Int) + 1) rfl rfl
      (by omega) hn hi
    obtain ⟨hL1, hL2, hcases, hc1, hc2, hgt⟩ := pick_facts a n i hi
    obtain ⟨s2, hl2⟩ := pickLarger_spec s1 a n
      (if 2 * i + 1 < n ∧ a.getD i 0 < a.getD (2 * i + 1) 0 then 2 * i + 1 else i) (2 * i + 2)
      n _ (2 * (i : Int) + 2) rfl rfl (by omega) hn hL1
    generalize hl1def :
      (if 2 * i + 1 < n ∧ a.getD i 0 < a.getD (2 * i + 1) 0 then 2 * i + 1 else i) = l1 at *
    generalize hl2def :
      (if 2 * i + 2 < n ∧ a.getD l1 0 < a.getD (2 * i + 2) 0 then 2 * i + 2 else l1) = l2 at *
    by_cases hL : l2 = i
    · refine ⟨a, s2, ?_, List.Perm.refl _, rfl, fun _ _ => rfl, ?_⟩
      · have hne : ¬ ((l2 : Int) ≠ (i : Int)) := by omega
        simp only [heapify, hl1, hl2, Option.bind_eq_bind, Option.some_bind]
        rw [if_neg hne]
        rfl
      · intro p c hp hchild hc
        by_cases hpi : p = i
        · subst hpi
          rcases hchild with h | h
          · have := hc1 (by omega); rw [hL] at this; rw [h]; exact this
          · have := hc2 (by omega); rw [hL] at this; rw [h]; exact this
        · exact hpre1 p c hp hpi hchild hc
    · have hgt1 := hgt hL
      have hl2i : i < l2 := by omega
      have hsw := swap_eq_swapL s2 a i l2 (by omega) (by omega) (by omega) (by omega)
      have e1 : ((i : Int)).toNat = i := by omega
      have e2 : ((l2 : Int)).toNat = l2 := by omega
      rw [e1, e2] at hsw
      have hv : ∀ k, (swapL a i l2).getD k 0
          = if k = l2 then a.getD i 0 else if k = i then a.getD l2 0 else a.getD k 0 :=
        fun k => getD_swapL a i l2 k (by omega) (by omega)
      obtain ⟨a1, s3, hrun, hperm, hlen, hsame, hheap⟩ :=
        ih { s2 with swaps := s2.swaps + 1 } (swapL a i l2) n l2 lo
          (by rw [length_swapL]; exact hn) hL2 (by omega) (by omega)
          (by
            intro p c hp hpl hchild hc
            rw [hv c, hv p]
            simp only [hpl, if_false]
            by_cases hpi : p = i
            · subst hpi
              simp only [if_true]
              by_cases hcl : c = l2
              · simp only [hcl, if_true]; omega
              · have hcp : c ≠ p := by unfold IsChild at hchild; omega
                simp only [hcl, hcp, if_false]
                rcases hchild with h | h
                · rw [h]; exact hc1 (by omega)
                · rw [h]; exact hc2 (by omega)
            · simp only [hpi, if_false]
              have hcl : c ≠ l2 := by unfold IsChild at hchild; omega
              simp only [hcl, if_false]
              by_cases hci : c = i
              · subst hci
                simp only [if_true]
                exact hpre2 p l2 hp hchild (by unfold IsChild; omega) hL2
              · simp only [hci, if_false]
                exact hpre1 p c hp hpi hchild hc)
          (by
            intro p c hp hchild1 hchild2 hc
            have hpi : p = i := by unfold IsChild at hchild1; omega
            subst hpi
            have hcl : c ≠ l2 := by unfold IsChild at hchild2; omega
            have hcp : c ≠ p := by unfold IsChild at hchild2; omega
            rw [hv c, hv p]
            simp only [hcl, hcp, hL, if_false, if_true]
            have hpl : p ≠ l2 := fun h => hL h.symm
            simp only [hpl, if_false]
            exact hpre1 l2 c (by omega) hL hchild2 hc)
      refine ⟨a1, s3, ?_, hperm.trans (perm_swapL a i l2 (by omega) (by omega)),
        by rw [hlen, length_swapL], ?_, hheap⟩
      · have hne : ((l2 : Int) ≠ (i : Int)) := by omega
        simp only [heapify, hl1, hl2, Option.bind_eq_bind, Option.some_bind, hsw]
        rw [if_pos hne]
        exact hrun
      · intro k hk
        rw [hsame k (by omega), hv k]
        have h1 : k ≠ l2 := by omega
        have h2 : k ≠ i := by omega
        simp only [h1, h2, if_false]

end HeapSort

namespace HeapSort

/-- The build loop establishes the heap property from the current index on. -/
theorem buildLoop_spec (fuel : Nat) :
    ∀ (s : SortStats) (a : List Int) (n : Nat) (i : Int),
      n = a.length → -1 ≤ i → i < n → (i + 1).toNat < fuel →
      HeapFrom a n (i + 1).toNat →
      ∃ a1 s1, buildLoop n fuel s a i = some (a1, s1) ∧ a1.Perm a ∧ IsMaxHeap a1 n := by
  induction fuel with
  | zero => intro s a n i _ _ _ h; omega
  | succ fuel ih =>
    intro s a n i hn hi0 hin hf hheap
    by_cases hi : 0 ≤ i
    · obtain ⟨k, hk⟩ : ∃ k : Nat, i = k := ⟨i.toNat, by omega⟩
      subst hk
      have hkn : k < n := by omega
      obtain ⟨a1, s1, hrun, hperm, hlen, _, hheap1⟩ :=
        heapify_spec ((n : Int).toNat + 1) s a n k k (by omega) hkn (le_refl _) (by omega)
          (by
            intro p c hp hpk hchild hc
            exact hheap p c (by omega) hchild hc)
          (by
            intro p c hp hchild
            unfold IsChild at hchild
            omega)
      obtain ⟨a2, s2, hrun2, hperm2, hheap2⟩ :=
        ih s1 a1 n ((k : Int) - 1) (by rw [hlen]; exact hn) (by omega) (by omega) (by omega)
          (by
            have e : ((k : Int) - 1 + 1).toNat = k := by omega
            rw [e]; exact hheap1)
      refine ⟨a2, s2, ?_, hperm2.trans hperm, hheap2⟩
      simp only [buildLoop, if_pos hi, hrun, Option.bind_eq_bind, Option.some_bind]
      exact hrun2
    · refine ⟨a, s, by simp [buildLoop, hi], List.Perm.refl _, ?_⟩
      have e : (i + 1).toNat = 0 := by omega
      rw [e] at hheap
      exact hheap

/-- The first phase of `sort` makes the whole array a max-heap. -/
theorem build_spec (s : SortStats) (a : List Int) :
    ∃ a1 s1, build s a = some (a1, s1) ∧ a1.Perm a ∧ IsMaxHeap a1 a.length := by
  have hd : cdiv (a.length : Int) 2 = (a.length : Int) / 2 :=
    cdiv_of_nonneg _ _ (by omega) (by omega)
  unfold build
  rw [hd]
  apply buildLoop_spec (a.length + 1) s a a.length ((a.length : Int) / 2 - 1) rfl (by omega)
    (by omega) (by omega)
  intro p c hp hchild hc
  unfold IsChild at hchild
  omega

/-- The root of a max-heap is its largest element. -/
theorem heap_root_max (a : List Int) (n : Nat) (h : IsMaxHeap a n) :
    ∀ k, k < n → a.getD k 0 ≤ a.getD 0 0 := by
  intro k
  induction k using Nat.strong_induction_on with
  | _ k ih =>
    intro hk
    by_cases hk0 : k = 0
    · subst hk0; exact le_refl _
    · have h1 : a.getD k 0 ≤ a.getD ((k - 1) / 2) 0 :=
        h ((k - 1) / 2) k (Nat.zero_le _) (by unfold IsChild; omega) hk
      have h2 := ih ((k - 1) / 2) (by omega) (by omega)
      omega

end HeapSort

theorem mem_take_getD (a : List Int) (n : Nat) (x : Int) (h : x ∈ a.take n) :
    ∃ k, k < n ∧ k < a.length ∧ a.getD k 0 = x := by
  obtain ⟨k, hk⟩ := List.mem_iff_getElem?.1 h
  rw [List.getElem?_take] at hk
  by_cases hkn : k < n
  · rw [if_pos hkn] at hk
    have hlt : k < a.length := by
      by_contra hc
      rw [List.getElem?_eq_none (by omega)] at hk
      simp at hk
    exact ⟨k, hkn, hlt, by rw [List.getD_eq_getElem?_getD, hk]; rfl⟩
  · rw [if_neg hkn] at hk; simp at hk

theorem getD_mem_take (a : List Int) (n k : Nat) (hk : k < n) (hlt : k < a.length) :
    a.getD k 0 ∈ a.take n := by
  apply List.mem_iff_getElem?.2
  refine ⟨k, ?_⟩
  rw [List.getElem?_take, if_pos hk, List.getD_eq_getElem?_getD, List.getElem?_eq_getElem hlt]
  rfl

theorem getD_drop (a : List Int) (n k : Nat) : (a.drop n).getD k 0 = a.getD (n + k) 0 := by
  simp [List.getD_eq_getElem?_getD, List.getElem?_drop]

theorem drop_eq_of_getD (a b : List Int) (n : Nat) (hlen : a.length = b.length)
    (h : ∀ k, n ≤ k → a.getD k 0 = b.getD k 0) : a.drop n = b.drop n := by
  apply getD_ext _ _ (by simp [hlen])
  intro k _
  rw [getD_drop, getD_drop]
  exact h _ (by omega)

theorem take_perm_of_drop_eq (a b : List Int) (n : Nat) (hp : a.Perm b)
    (hd : a.drop n = b.drop n) : (a.take n).Perm (b.take n) := by
  have h1 : (a.take n ++ a.drop n).Perm (b.take n ++ b.drop n) := by
    rw [List.take_append_drop, List.take_append_drop]; exact hp
  rw [hd] at h1
  exact (List.perm_append_right_iff _).1 h1

theorem sorted_of_take_drop (a : List Int) (n : Nat) (h1 : List.Sorted (· ≤ ·) (a.take n))
    (h2 : List.Sorted (· ≤ ·) (a.drop n)) (h3 : ∀ x ∈ a.take n, ∀ y ∈ a.drop n, x ≤ y) :
    List.Sorted (· ≤ ·) a := by
  rw [← List.take_append_drop n a]
  unfold List.Sorted
  rw [List.pairwise_append]
  exact ⟨h1, h2, h3⟩

namespace HeapSort

/-- One extraction step moves the root behind the heap and keeps the invariant. -/
theorem extractStep_spec (s : SortStats) (a : List Int) (k : Nat) (hk0 : 0 < k)
    (hk : k < a.length) (hinv : ExtractInv a (k + 1)) :
    ∃ a1 s1, extractStep s a k = some (a1, s1) ∧ a1.Perm a ∧ ExtractInv a1 k := by
  obtain ⟨hheap, hsorted, hcross⟩ := hinv
  have hsw := swap_eq_swapL s a 0 k (by omega) (by omega) (by omega) (by omega)
  have e2 : ((k : Int)).toNat = k := by omega
  rw [e2, show (0 : Int).toNat = 0 from rfl] at hsw
  have hv : ∀ j, (swapL a 0 k).getD j 0
      = if j = k then a.getD 0 0 else if j = 0 then a.getD k 0 else a.getD j 0 :=
    fun j => getD_swapL a 0 k j (by omega) (by omega)
  obtain ⟨a1, s1, hrun, hperm, hlen, hsame, hheap1⟩ :=
    heapify_spec (k + 1) { s with swaps := s.swaps + 1 } (swapL a 0 k) k 0 0
      (by rw [length_swapL]; omega) hk0 (le_refl _) (by omega)
      (by
        intro p c _ hp hchild hc
        rw [hv c, hv p]
        have h1 : c ≠ k := by omega
        have h2 : c ≠ 0 := by unfold IsChild at hchild; omega
        have h3 : p ≠ k := by unfold IsChild at hchild; omega
        simp only [h1, h2, h3, hp, if_false]
        exact hheap p c (Nat.zero_le _) hchild (by omega))
      (by
        intro p c _ hchild
        unfold IsChild at hchild
        omega)
  have hlen1 : a1.length = a.length := by rw [hlen, length_swapL]
  have hperm1 : a1.Perm a := hperm.trans (perm_swapL a 0 k (by omega) (by omega))
  have hdrop1 : a1.drop k = (swapL a 0 k).drop k :=
    drop_eq_of_getD _ _ k hlen (fun j hj => hsame j (Or.inr hj))
  have hdrop2 : (swapL a 0 k).drop k = a.getD 0 0 :: a.drop (k + 1) := by
    have hlt : k < (swapL a 0 k).length := by rw [length_swapL]; exact hk
    rw [List.drop_eq_getElem_cons hlt]
    congr 1
    · have := hv k
      rw [List.getD_eq_getElem?_getD, List.getElem?_eq_getElem hlt] at this
      simpa using this
    · apply drop_eq_of_getD _ _ _ (length_swapL a 0 k)
      intro j hj
      rw [hv j]
      have h1 : j ≠ k := by omega
      have h2 : j ≠ 0 := by omega
      simp only [h1, h2, if_false]
  have hroot := heap_root_max a (k + 1) hheap
  have htake : ∀ x ∈ a1.take k, x ∈ a.take (k + 1) := by
    intro x hx
    have h1 := (take_perm_of_drop_eq a1 (swapL a 0 k) k hperm hdrop1).subset hx
    obtain ⟨j, hjk, hjl, hjx⟩ := mem_take_getD _ _ _ h1
    rw [hv j] at hjx
    have h2 : j ≠ k := by omega
    simp only [h2, if_false] at hjx
    by_cases hj0 : j = 0
    · simp only [hj0, if_true] at hjx
      rw [← hjx]
      exact getD_mem_take a (k + 1) k (by omega) hk
    · simp only [hj0, if_false] at hjx
      rw [← hjx]
      exact getD_mem_take a (k + 1) j (by omega) (by omega)
  have hmax : ∀ x ∈ a.take (k + 1), x ≤ a.getD 0 0 := by
    intro x hx
    obtain ⟨j, hjk, _, hjx⟩ := mem_take_getD _ _ _ hx
    rw [← hjx]
    exact hroot j hjk
  have h0mem : a.getD 0 0 ∈ a.take (k + 1) := getD_mem_take a (k + 1) 0 (by omega) (by omega)
  refine ⟨a1, s1, ?_, hperm1, hheap1, ?_, ?_⟩
  · simp only [extractStep, hsw, Option.bind_eq_bind, Option.some_bind, e2]
    exact hrun
  · rw [hdrop1, hdrop2]
    unfold List.Sorted
    rw [List.pairwise_cons]
    exact ⟨fun y hy => hcross _ h0mem y hy, hsorted⟩
  · intro x hx y hy
    rw [hdrop1, hdrop2] at hy
    rcases List.mem_cons.1 hy with h | h
    · rw [h]; exact hmax x (htake x hx)
    · exact hcross x (htake x hx) y h

/-- The extraction loop sorts an array that satisfies its invariant. -/
theorem extractLoop_spec (fuel : Nat) :
    ∀ (s : SortStats) (a : List Int) (i : Int),
      -1 ≤ i → i < a.length → i.toNat < fuel → ExtractInv a (i + 1).toNat →
      ∃ a1 s1, extractLoop fuel s a i = some (a1, s1) ∧ a1.Perm a ∧ List.Sorted (· ≤ ·) a1 := by
  induction fuel with
  | zero => intro s a i _ _ h; omega
  | succ fuel ih =>
    intro s a i hi0 hi hf hinv
    by_cases hpos : 0 < i
    · obtain ⟨k, hk⟩ : ∃ k : Nat, i = k := ⟨i.toNat, by omega⟩
      subst hk
      have e : ((k : Int) + 1).toNat = k + 1 := by omega
      rw [e] at hinv
      obtain ⟨a1, s1, hrun, hperm, hinv1⟩ := extractStep_spec s a k (by omega) (by omega) hinv
      obtain ⟨a2, s2, hrun2, hperm2, hs2⟩ :=
        ih s1 a1 ((k : Int) - 1) (by omega) (by rw [hperm.length_eq]; omega) (by omega)
          (by
            have e1 : ((k : Int) - 1 + 1).toNat = k := by omega
            rw [e1]; exact hinv1)
      refine ⟨a2, s2, ?_, hperm2.trans hperm, hs2⟩
      simp only [extractLoop, if_pos hpos, hrun, Option.bind_eq_bind, Option.some_bind]
      exact hrun2
    · refine ⟨a, s, by simp [extractLoop, hpos], List.Perm.refl _, ?_⟩
      obtain ⟨_, hsorted, hcross⟩ := hinv
      refine sorted_of_take_drop a (i + 1).toNat ?_ hsorted hcross
      have hlen : (a.take (i + 1).toNat).length ≤ 1 := by
        rw [List.length_take]; omega
      match a.take (i + 1).toNat, hlen with
      | [], _ => simp
      | [x], _ => simp

/-- Specification of `HeapSort::sort`. -/
theorem hsort_spec (s : SortStats) (a : List Int) :
    ∃ out s1, sort s a = some (out, s1) ∧ List.Sorted (· ≤ ·) out ∧ out.Perm a := by
  obtain ⟨a1, s1, hrun, hperm, hheap⟩ := build_spec s a
  obtain ⟨a2, s2, hrun2, hperm2, hs2⟩ :=
    extractLoop_spec (a.length + 1) s1 a1 ((a.length : Int) - 1) (by omega)
      (by rw [hperm.length_eq]; omega) (by omega)
      (by
        have e : ((a.length : Int) - 1 + 1).toNat = a1.length := by rw [hperm.length_eq]; omega
        rw [e]
        refine ⟨by rw [hperm.length_eq]; exact hheap, by simp, ?_⟩
        intro x _ y hy
        simp at hy)
  refine ⟨a2, s2, ?_, hs2, hperm2.trans hperm⟩
  simp only [sort, hrun, Option.bind_eq_bind, Option.some_bind]
  exact hrun2

end HeapSort

/-- C4: `HeapSort::sort` returns and leaves the sequence a non-decreasing permutation of its
input; the build phase makes the whole array a max-heap; an extraction step at position `k`
(exchange the root with position `k`, then `heapify` the prefix of length `k`) turns an array
whose first `k+1` elements form a max-heap, followed by a sorted rest not smaller than the
heap, into one whose first `k` elements form a max-heap followed by a sorted rest not smaller
than the heap. -/
theorem heapSort_correct (s : SortStats) (arr a : List Int) (k : Nat) (hk0 : 0 < k)
    (hk : k < a.length) (hinv : ExtractInv a (k + 1)) :
    (∃ out s1, HeapSort.sort s arr = some (out, s1) ∧ out.length = arr.length ∧
      List.Sorted (· ≤ ·) out ∧ out.Perm arr) ∧
    (∃ h s1, HeapSort.build s arr = some (h, s1) ∧ h.Perm arr ∧ IsMaxHeap h arr.length) ∧
    (∃ a1 s1, HeapSort.extractStep s a k = some (a1, s1) ∧ a1.Perm a ∧ ExtractInv a1 k) := by
  refine ⟨?_, HeapSort.build_spec s arr, HeapSort.extractStep_spec s a k hk0 hk hinv⟩
  obtain ⟨out, s1, hrun, hs, hp⟩ := HeapSort.hsort_spec s arr
  exact ⟨out, s1, hrun, hp.length_eq, hs, hp⟩

theorem heapSort_correct_witness :
    (0 < 2 ∧ 2 < ([5, 3, 4, 7, 9] : List Int).length ∧ ExtractInv [5, 3, 4, 7, 9] (2 + 1)) ∧
    ((∃ out s1, HeapSort.sort SortStats.zero [3, 1, 2] = some (out, s1) ∧
      out.length = ([3, 1, 2] : List Int).length ∧
      List.Sorted (· ≤ ·) out ∧ out.Perm [3, 1, 2]) ∧
    (∃ h s1, HeapSort.build SortStats.zero [3, 1, 2] = some (h, s1) ∧ h.Perm [3, 1, 2] ∧
      IsMaxHeap h ([3, 1, 2] : List Int).length) ∧
    (∃ a1 s1, HeapSort.extractStep SortStats.zero [5, 3, 4, 7, 9] (2 : Nat) = some (a1, s1) ∧
      a1.Perm [5, 3, 4, 7, 9] ∧ ExtractInv a1 2)) :=
  have hinv : ExtractInv [5, 3, 4, 7, 9] (2 + 1) := by
    refine ⟨?_, by decide, by decide⟩
    intro p c _ hchild hc
    unfold IsChild at hchild
    have hp : p = 0 := by omega
    subst hp
    rcases hchild with h | h <;> subst h <;> decide
  ⟨⟨by decide, by decide, hinv⟩,
    heapSort_correct SortStats.zero [3, 1, 2] [5, 3, 4, 7, 9] 2 (by decide) (by decide) hinv⟩

/-! ## Introsort -/

namespace IntroSort

theorem condSwap_spec (s : SortStats) (a : List Int) (x y c d : Nat) (hx : x < a.length)
    (hy : y < a.length) (hc : c < a.length) (hd : d < a.length) :
    ∃ s1, condSwap s a x y c d
      = some (if a.getD x 0 < a.getD y 0 then swapL a c d else a, s1) := by
  have e1 : ((x : Int)).toNat = x := by omega
  have e2 : ((y : Int)).toNat = y := by omega
  have e3 : ((c : Int)).toNat = c := by omega
  have e4 : ((d : Int)).toNat = d := by omega
  unfold condSwap
  simp only [rd_eq_getD a x (by omega) (by omega), rd_eq_getD a y (by omega) (by omega),
    Option.bind_eq_bind, Option.some_bind, e1, e2]
  by_cases h : a.getD x 0 < a.getD y 0
  · have hc1 : (SortingAlgorithm.compare s (a.getD x 0) (a.getD y 0)).1 = true := by
      simp only [SortingAlgorithm.compare, h, decide_True]
    simp only [hc1, if_true, h,
      swap_eq_swapL _ a c d (by omega) (by omega) (by omega) (by omega), e3, e4]
    exact ⟨_, rfl⟩
  · have hc1 : (SortingAlgorithm.compare s (a.getD x 0) (a.getD y 0)).1 = false := by
      simp only [SortingAlgorithm.compare, h, decide_False]
    simp only [hc1, Bool.false_eq_true, if_false, h]
    exact ⟨_, rfl⟩

/-- The upward scan stops at the first position after `i` whose element is not below the
pivot, at the latest at a position `j` known to hold such an element. -/
theorem scanUp_spec (pivot : Int) (a : List Int) (fuel : Nat) :
    ∀ (s : SortStats) (i j : Nat), i < j → j < a.length → pivot ≤ a.getD j 0 → j - i ≤ fuel →
      ∃ s1 i1, scanUp pivot a fuel s i = some (s1, ((i1 : Nat) : Int)) ∧ i < i1 ∧ i1 ≤ j ∧
        pivot ≤ a.getD i1 0 ∧ ∀ k, i < k → k < i1 → a.getD k 0 < pivot := by
  induction fuel with
  | zero => intro s i j h _ _ h2; omega
  | succ fuel ih =>
    intro s i j hij hj hpj hf
    have e1 : ((i : Int) + 1).toNat = i + 1 := by omega
    have hrd := rd_eq_getD a ((i : Int) + 1) (by omega) (by omega)
    rw [e1] at hrd
    by_cases h : a.getD (i + 1) 0 < pivot
    · have hne : i + 1 ≠ j := by
        intro h1; rw [h1] at h; omega
      obtain ⟨s1, i1, hrun, h1, h2, h3, h4⟩ :=
        ih (SortingAlgorithm.compare s (a.getD (i + 1) 0) pivot).2 (i + 1) j (by omega) hj hpj
          (by omega)
      refine ⟨s1, i1, ?_, by omega, h2, h3, ?_⟩
      · have hc1 : (SortingAlgorithm.compare s (a.getD (i + 1) 0) pivot).1 = true := by
          simp only [SortingAlgorithm.compare, h, decide_True]
        simp only [scanUp, hrd, Option.bind_eq_bind, Option.some_bind, hc1, if_true]
        rw [← hrun]
        norm_cast
      · intro k hk1 hk2
        by_cases hk : k = i + 1
        · rw [hk]; exact h
        · exact h4 k (by omega) hk2
    · refine ⟨(SortingAlgorithm.compare s (a.getD (i + 1) 0) pivot).2, i + 1, ?_, by omega,
        by omega, by omega, ?_⟩
      · have hc1 : (SortingAlgorithm.compare s (a.getD (i + 1) 0) pivot).1 = false := by
          simp only [SortingAlgorithm.compare, h, decide_False]
        simp only [scanUp, hrd, Option.bind_eq_bind, Option.some_bind, hc1,
          Bool.false_eq_true, if_false]
        norm_cast
      · intro k hk1 hk2; omega

/-- The downward scan stops at the first position before `j` whose element is not above the
pivot, at the latest at a position `i` known to hold such an element. -/
theorem scanDown_spec (pivot : Int) (a : List Int) (fuel : Nat) :
    ∀ (s : SortStats) (i j : Nat), i < j → j ≤ a.length → a.getD i 0 ≤ pivot → j - i ≤ fuel →
      ∃ s1 j1, scanDown pivot a fuel s j = some (s1, ((j1 : Nat) : Int)) ∧ i ≤ j1 ∧ j1 < j ∧
        a.getD j1 0 ≤ pivot ∧ ∀ k, j1 < k → k < j → pivot < a.getD k 0 := by
  induction fuel with
  | zero => intro s i j h _ _ h2; omega
  | succ fuel ih =>
    intro s i j hij hj hpi hf
    have e1 : ((j : Int) - 1).toNat = j - 1 := by omega
    have hrd := rd_eq_getD a ((j : Int) - 1) (by omega) (by omega)
    rw [e1] at hrd
    by_cases h : pivot < a.getD (j - 1) 0
    · have hne : j - 1 ≠ i := by
        intro h1; rw [h1] at h; omega
      obtain ⟨s1, j1, hrun, h1, h2, h3, h4⟩ :=
        ih (SortingAlgorithm.compare s pivot (a.getD (j - 1) 0)).2 i (j - 1) (by omega)
          (by omega) hpi (by omega)
      refine ⟨s1, j1, ?_, h1, by omega, h3, ?_⟩
      · have hc1 : (SortingAlgorithm.compare s pivot (a.getD (j - 1) 0)).1 = true := by
          simp only [SortingAlgorithm.compare, h, decide_True]
        simp only [scanDown, hrd, Option.bind_eq_bind, Option.some_bind, hc1, if_true]
        rw [← hrun]
        have e2 : ((j : Int) - 1) = ((j - 1 : Nat) : Int) := by omega
        rw [e2]
      · intro k hk1 hk2
        by_cases hk : k = j - 1
        · rw [hk]; exact h
        · exact h4 k hk1 (by omega)
    · refine ⟨(SortingAlgorithm.compare s pivot (a.getD (j - 1) 0)).2, j - 1, ?_, by omega,
        by omega, by omega, ?_⟩
      · have hc1 : (SortingAlgorithm.compare s pivot (a.getD (j - 1) 0)).1 = false := by
          simp only [SortingAlgorithm.compare, h, decide_False]
        simp only [scanDown, hrd, Option.bind_eq_bind, Option.some_bind, hc1,
          Bool.false_eq_true, if_false]
        have e2 : ((j : Int) - 1) = ((j - 1 : Nat) : Int) := by omega
        rw [e2]
        rfl
      · intro k hk1 hk2; omega

end IntroSort

theorem sameOutside_refl (a : List Int) (lo hi : Nat) : SameOutside a a lo hi :=
  ⟨rfl, List.Perm.refl _, fun _ _ => rfl⟩

theorem sameOutside_trans (a b c : List Int) (lo hi : Nat) (h1 : SameOutside a b lo hi)
    (h2 : SameOutside b c lo hi) : SameOutside a c lo hi :=
  ⟨h2.1.trans h1.1, h2.2.1.trans h1.2.1, fun k hk => (h2.2.2 k hk).trans (h1.2.2 k hk)⟩

theorem sameOutside_swapL (a : List Int) (lo hi i j : Nat) (hi1 : lo ≤ i) (hi2 : i ≤ hi)
    (hj1 : lo ≤ j) (hj2 : j ≤ hi) (hlen : hi < a.length) : SameOutside a (swapL a i j) lo hi := by
  refine ⟨length_swapL a i j, perm_swapL a i j (by omega) (by omega), ?_⟩
  intro k hk
  rw [getD_swapL a i j k (by omega) (by omega)]
  have h1 : k ≠ j := by omega
  have h2 : k ≠ i := by omega
  simp only [h1, h2, if_false]

/-- A guarded exchange puts the smaller of two elements at `x` and the larger at `y`. -/
theorem cswap_facts (a : List Int) (x y : Nat) (hxy : x ≠ y) (hx : x < a.length)
    (hy : y < a.length) :
    let b := if a.getD y 0 < a.getD x 0 then swapL a x y else a
    b.getD x 0 ≤ b.getD y 0 ∧ (b.getD x 0 = a.getD x 0 ∨ b.getD x 0 = a.getD y 0) ∧
      b.getD x 0 ≤ a.getD x 0 ∧ b.getD x 0 ≤ a.getD y 0 ∧
      a.getD x 0 ≤ b.getD y 0 ∧ a.getD y 0 ≤ b.getD y 0 ∧
      (∀ k, k ≠ x → k ≠ y → b.getD k 0 = a.getD k 0) ∧ b.length = a.length ∧ b.Perm a := by
  intro b
  by_cases h : a.getD y 0 < a.getD x 0
  · have hb : b = swapL a x y := if_pos h
    have hv := fun k => getD_swapL a x y k hx hy
    have hvx := hv x
    have hvy := hv y
    simp only [hxy, if_false, if_true] at hvx hvy
    rw [hb, hvx, hvy]
    refine ⟨by omega, Or.inr rfl, by omega, by omega, by omega, by omega, ?_,
      length_swapL a x y, perm_swapL a x y hx hy⟩
    intro k hk1 hk2
    rw [hv k]
    simp only [hk1, hk2, if_false]
  · have hb : b = a := if_neg h
    rw [hb]
    exact ⟨by omega, Or.inl rfl, by omega, by omega, by omega, by omega, fun _ _ _ => rfl, rfl,
      List.Perm.refl _⟩

namespace IntroSort

/-- Invariant of the crossing-pointers loop: everything up to `i` is at most the pivot,
everything from `j` on is at least the pivot, and the pivot sits at `r - 1`. -/
theorem ipartitionLoop_spec (pivot : Int) (l r : Nat) (fuel : Nat) :
    ∀ (s : SortStats) (a : List Int) (i j : Nat),
      l ≤ i → i < j → j + 1 ≤ r → r < a.length → a.getD (r - 1) 0 = pivot →
      (∀ k, l ≤ k → k ≤ i → a.getD k 0 ≤ pivot) →
      (∀ k, j ≤ k → k ≤ r → pivot ≤ a.getD k 0) → j - i ≤ fuel →
      ∃ a1 s1 p, partitionLoop pivot fuel s a i j = some (a1, s1, ((p : Nat) : Int)) ∧
        SameOutside a a1 l r ∧ l < p ∧ p + 1 ≤ r ∧ a1.getD (r - 1) 0 = pivot ∧
        (∀ k, l ≤ k → k < p → a1.getD k 0 ≤ pivot) ∧ pivot ≤ a1.getD p 0 ∧
        (∀ k, p < k → k ≤ r → pivot ≤ a1.getD k 0) := by
  induction fuel with
  | zero => intro s a i j _ h _ _ _ _ _ h2; omega
  | succ fuel ih =>
    intro s a i j hli hij hjr hr hpv hlo hhi hf
    obtain ⟨s1, i1, hup, hu1, hu2, hu3, hu4⟩ :=
      scanUp_spec pivot a (a.length + 1) s i j hij (by omega) (hhi j (le_refl _) (by omega))
        (by omega)
    obtain ⟨s2, j1, hdown, hd1, hd2, hd3, hd4⟩ :=
      scanDown_spec pivot a (a.length + 1) s1 i j hij (by omega) (hlo i hli (le_refl _))
        (by omega)
    by_cases hcross : j1 ≤ i1
    · refine ⟨a, s2, i1, ?_, sameOutside_refl a l r, by omega, by omega, hpv, ?_, hu3, ?_⟩
      · have hge : ((i1 : Int) ≥ (j1 : Int)) := by omega
        simp only [partitionLoop, hup, hdown, Option.bind_eq_bind, Option.some_bind]
        rw [if_pos hge]
        rfl
      · intro k hk1 hk2
        by_cases hk : k ≤ i
        · exact hlo k hk1 hk
        · exact le_of_lt (hu4 k (by omega) hk2)
      · intro k hk1 hk2
        by_cases hk : j ≤ k
        · exact hhi k hk hk2
        · exact le_of_lt (hd4 k (by omega) (by omega))
    · have hv := fun k => getD_swapL a i1 j1 k (by omega) (by omega)
      have hsw := swap_eq_swapL s2 a i1 j1 (by omega) (by omega) (by omega) (by omega)
      have e1 : ((i1 : Int)).toNat = i1 := by omega
      have e2 : ((j1 : Int)).toNat = j1 := by omega
      rw [e1, e2] at hsw
      obtain ⟨a1, s3, p, hrun, hso, hp1, hp2, hp3, hp4, hp5, hp6⟩ :=
        ih { s2 with swaps := s2.swaps + 1 } (swapL a i1 j1) i1 j1 (by omega) (by omega)
          (by omega) (by rw [length_swapL]; exact hr)
          (by
            rw [hv (r - 1)]
            have h1 : r - 1 ≠ j1 := by omega
            have h2 : r - 1 ≠ i1 := by omega
            simp only [h1, h2, if_false]
            exact hpv)
          (by
            intro k hk1 hk2
            rw [hv k]
            have h1 : k ≠ j1 := by omega
            simp only [h1, if_false]
            by_cases h2 : k = i1
            · simp only [h2, if_true]; exact hd3
            · simp only [h2, if_false]
              by_cases hk : k ≤ i
              · exact hlo k hk1 hk
              · exact le_of_lt (hu4 k (by omega) (by omega)))
          (by
            intro k hk1 hk2
            rw [hv k]
            by_cases h1 : k = j1
            · simp only [h1, if_true]; exact hu3
            · have h2 : k ≠ i1 := by omega
              simp only [h1, h2, if_false]
              by_cases hk : j ≤ k
              · exact hhi k hk hk2
              · exact le_of_lt (hd4 k (by omega) (by omega)))
          (by omega)
      refine ⟨a1, s3, p, ?_, ?_, hp1, hp2, hp3, hp4, hp5, hp6⟩
      · have hlt : ¬ ((i1 : Int) ≥ (j1 : Int)) := by omega
        simp only [partitionLoop, hup, hdown, Option.bind_eq_bind, Option.some_bind]
        rw [if_neg hlt]
        simp only [hsw, Option.bind_eq_bind, Option.some_bind]
        exact hrun
      · exact sameOutside_trans a _ a1 l r
          (sameOutside_swapL a l r i1 j1 (by omega) (by omega) (by omega) (by omega) hr) hso

end IntroSort

namespace IntroSort

/-- Specification of `IntroSort::partition` on a range of at least three elements. -/
theorem ipartition_spec (s : SortStats) (a : List Int) (l r : Nat) (hlr : l + 2 ≤ r)
    (hr : r < a.length) :
    ∃ a1 s1 p, partition s a l r = some (a1, s1, ((p : Nat) : Int)) ∧ SameOutside a a1 l r ∧
      l < p ∧ p < r ∧ (∀ k, l ≤ k → k < p → a1.getD k 0 ≤ a1.getD p 0) ∧
      (∀ k, p < k → k ≤ r → a1.getD p 0 ≤ a1.getD k 0) := by
  obtain ⟨m, hm⟩ : ∃ m : Nat, m = l + (r - l) / 2 := ⟨_, rfl⟩
  have hmid : (l : Int) + cdiv ((r : Int) - l) 2 = (m : Int) := by
    rw [cdiv_of_nonneg _ _ (by omega) (by omega)]; omega
  have hlm : l < m := by omega
  have hmr : m < r := by omega
  -- the three guarded exchanges
  obtain ⟨s1, h1⟩ := condSwap_spec s a r l l r (by omega) (by omega) (by omega) (by omega)
  have f1 := cswap_facts a l r (by omega) (by omega) (by omega)
  generalize (if a.getD r 0 < a.getD l 0 then swapL a l r else a) = a1 at h1 f1
  obtain ⟨g1, -, -, -, -, -, g7, g8, g9⟩ := f1
  obtain ⟨s2, h2⟩ := condSwap_spec s1 a1 m l l m (by omega) (by omega) (by omega) (by omega)
  have f2 := cswap_facts a1 l m (by omega) (by omega) (by omega)
  generalize (if a1.getD m 0 < a1.getD l 0 then swapL a1 l m else a1) = a2 at h2 f2
  obtain ⟨k1, -, k3, -, -, -, k7, k8, k9⟩ := f2
  obtain ⟨s3, h3⟩ := condSwap_spec s2 a2 r m m r (by omega) (by omega) (by omega) (by omega)
  have f3 := cswap_facts a2 m r (by omega) (by omega) (by omega)
  generalize (if a2.getD r 0 < a2.getD m 0 then swapL a2 m r else a2) = a3 at h3 f3
  obtain ⟨m1, m2, -, -, -, -, m7, m8, m9⟩ := f3
  have hl3 : a3.getD l 0 ≤ a3.getD m 0 := by
    have e1 : a3.getD l 0 = a2.getD l 0 := m7 l (by omega) (by omega)
    have e2 : a2.getD r 0 = a1.getD r 0 := k7 r (by omega) (by omega)
    rcases m2 with h | h <;> omega
  have hso3 : SameOutside a a3 l r := by
    refine ⟨by omega, (m9.trans k9).trans g9, ?_⟩
    intro k hk
    rw [m7 k (by omega) (by omega), k7 k (by omega) (by omega), g7 k (by omega) (by omega)]
  -- the pivot goes to `r - 1`
  have hrd : rd a3 (m : Int) = some (a3.getD m 0) := by
    have := rd_eq_getD a3 m (by omega) (by omega)
    rwa [show ((m : Int)).toNat = m by omega] at this
  have hsw4 := swap_eq_swapL s3 a3 m ((r : Int) - 1) (by omega) (by omega) (by omega) (by omega)
  rw [show ((m : Int)).toNat = m by omega, show ((r : Int) - 1).toNat = r - 1 by omega] at hsw4
  have hv4 := fun k => getD_swapL a3 m (r - 1) k (by omega) (by omega)
  obtain ⟨a5, s5, p, hrun, hso5, hp1, hp2, hp3, hp4, hp5, hp6⟩ :=
    ipartitionLoop_spec (a3.getD m 0) l r (a.length + 1) { s3 with swaps := s3.swaps + 1 }
      (swapL a3 m (r - 1)) l (r - 1) (le_refl _) (by omega) (by omega)
      (by rw [length_swapL]; omega)
      (by rw [hv4 (r - 1)]; simp only [if_true])
      (by
        intro k hk1 hk2
        have hk : k = l := by omega
        rw [hk, hv4 l]
        have e1 : l ≠ r - 1 := by omega
        have e2 : l ≠ m := by omega
        simp only [e1, e2, if_false]
        exact hl3)
      (by
        intro k hk1 hk2
        rw [hv4 k]
        by_cases e1 : k = r - 1
        · simp only [e1, if_true]; exact le_refl _
        · have e2 : k = r := by omega
          have e3 : r ≠ r - 1 := by omega
          have e4 : r ≠ m := by omega
          simp only [e2, e3, e4, if_false]
          exact m1)
      (by omega)
  have hlen5 : a5.length = a.length := by rw [hso5.1, length_swapL]; omega
  have hsw6 := swap_eq_swapL s5 a5 p ((r : Int) - 1) (by omega) (by omega) (by omega) (by omega)
  rw [show ((p : Int)).toNat = p by omega, show ((r : Int) - 1).toNat = r - 1 by omega] at hsw6
  have hv6 := fun k => getD_swapL a5 p (r - 1) k (by omega) (by omega)
  have hpp : (swapL a5 p (r - 1)).getD p 0 = a3.getD m 0 := by
    rw [hv6 p]
    by_cases e : p = r - 1
    · rw [if_pos e]; rw [e]; exact hp3
    · simp only [e, if_false, if_true]; exact hp3
  refine ⟨swapL a5 p (r - 1), { s5 with swaps := s5.swaps + 1 }, p, ?_, ?_, hp1, by omega, ?_, ?_⟩
  · have e5 : (r : Int) - 1 = ((r - 1 : Nat) : Int) := by omega
    rw [e5] at hsw4 hsw6
    simp only [partition, hmid, h1, h2, h3, Option.bind_eq_bind, Option.some_bind, hrd, hsw4, e5,
      hso3.1, hrun, hsw6]
    rfl
  · refine sameOutside_trans a a3 _ l r hso3 ?_
    refine sameOutside_trans a3 (swapL a3 m (r - 1)) _ l r
      (sameOutside_swapL a3 l r m (r - 1) (by omega) (by omega) (by omega) (by omega)
        (by omega)) ?_
    refine sameOutside_trans _ a5 _ l r hso5 ?_
    exact sameOutside_swapL a5 l r p (r - 1) (by omega) (by omega) (by omega) (by omega)
      (by omega)
  · intro k hk1 hk2
    rw [hpp, hv6 k]
    have e1 : k ≠ r - 1 := by omega
    have e2 : k ≠ p := by omega
    simp only [e1, e2, if_false]
    exact hp4 k hk1 hk2
  · intro k hk1 hk2
    rw [hpp, hv6 k]
    by_cases e1 : k = r - 1
    · simp only [e1, if_true]; exact hp5
    · have e2 : k ≠ p := by omega
      simp only [e1, e2, if_false]
      exact hp6 k hk1 hk2

end IntroSort

theorem take_eq_of_getD (a b : List Int) (n : Nat) (hlen : a.length = b.length)
    (h : ∀ k, k < n → a.getD k 0 = b.getD k 0) : a.take n = b.take n := by
  apply List.ext_getElem?
  intro k
  rw [List.getElem?_take, List.getElem?_take]
  by_cases hk : k < n
  · rw [if_pos hk, if_pos hk]
    by_cases hkl : k < a.length
    · have h1 := h k hk
      rw [List.getD_eq_getElem?_getD, List.getD_eq_getElem?_getD,
        List.getElem?_eq_getElem hkl, List.getElem?_eq_getElem (hlen ▸ hkl)] at h1
      rw [List.getElem?_eq_getElem hkl, List.getElem?_eq_getElem (hlen ▸ hkl)]
      simpa using h1
    · rw [List.getElem?_eq_none (by omega), List.getElem?_eq_none (by omega)]
  · rw [if_neg hk, if_neg hk]

theorem mem_seg_getD (a : List Int) (l r : Int) (x : Int) (h0 : 0 ≤ l) (h : x ∈ seg a l r) :
    ∃ k : Nat, l ≤ k ∧ (k : Int) ≤ r ∧ k < a.length ∧ a.getD k 0 = x := by
  unfold seg at h
  obtain ⟨k, hk1, hk2, hk3⟩ := mem_take_getD _ _ _ h
  rw [getD_drop] at hk3
  rw [List.length_drop] at hk2
  exact ⟨l.toNat + k, by omega, by omega, by omega, hk3⟩

/-- An array that agrees with `a` outside `l .. r` is `a` with the range replaced. -/
theorem decomp_of_sameOutside (a a1 : List Int) (l r : Nat) (hlr : l ≤ r + 1) (hr : r < a.length)
    (h : SameOutside a a1 l r) :
    a1 = a.take l ++ seg a1 l r ++ a.drop (r + 1) ∧ (seg a1 l r).Perm (seg a l r) := by
  obtain ⟨hlen, hperm, hout⟩ := h
  have s1 := (split3 a1 l r (by omega) (by omega) (by omega)).1
  have s2 := (split3 a l r (by omega) (by omega) (by omega)).1
  have e1 : ((l : Int)).toNat = l := by omega
  have e2 : ((r : Int) + 1).toNat = r + 1 := by omega
  rw [e1, e2] at s1 s2
  have ht : a1.take l = a.take l := take_eq_of_getD _ _ l hlen (fun k hk => hout k (Or.inl hk))
  have hd : a1.drop (r + 1) = a.drop (r + 1) :=
    drop_eq_of_getD _ _ (r + 1) hlen (fun k hk => hout k (Or.inr (by omega)))
  rw [ht, hd] at s1
  refine ⟨s1, ?_⟩
  have h3 : (a.take l ++ seg a1 l r ++ a.drop (r + 1)).Perm
      (a.take l ++ seg a l r ++ a.drop (r + 1)) := by
    rw [← s1, ← s2]; exact hperm
  have h4 := (List.perm_append_right_iff _).1 h3
  exact (List.perm_append_left_iff _).1 h4

namespace IntroSort

/-- The copy loop of the heap-sort branch overwrites the range with the sorted buffer. -/
theorem copyIn_spec (left : Int) (fuel : Nat) :
    ∀ (P X C TP H : List Int) (i : Int),
      i = (TP.length : Int) → left + i = (P.length : Int) → H.length = X.length →
      H.length < fuel →
      copyIn left (TP ++ H) fuel (P ++ X ++ C) i = some (P ++ H ++ C) := by
  induction fuel with
  | zero => intro P X C TP H i _ _ _ h; omega
  | succ fuel ih =>
    intro P X C TP H i hi hP hlen hf
    cases H with
    | nil =>
      have hX : X = [] := List.length_eq_zero.1 hlen.symm
      subst hX
      have hlt : ¬ i < (TP.length : Int) := by omega
      simp [copyIn, hlt]
    | cons h H =>
      cases X with
      | nil => simp at hlen
      | cons x X =>
        have hlt : i < ((TP ++ h :: H).length : Int) := by simp; omega
        have hrd : rd (TP ++ h :: H) i = some h := rd_append_cons TP H h i hi
        have hwr : wr (P ++ x :: X ++ C) (left + i) h = some (P ++ [h] ++ X ++ C) := by
          have := wr_append_cons P (X ++ C) x h (left + i) hP
          simpa using this
        have hrec := ih (P ++ [h]) X C (TP ++ [h]) H (i + 1) (by simp; omega) (by simp; omega)
          (by simpa using hlen) (by simp at hf; omega)
        have e1 : TP ++ h :: H = TP ++ [h] ++ H := by simp
        simp only [copyIn, if_pos hlt, hrd, Option.bind_eq_bind, Option.some_bind, hwr]
        rw [e1, hrec]
        simp

end IntroSort

namespace IntroSort

/-- The recursion sorts the range it is given, whatever the depth budget, and touches nothing
else. -/
theorem introSort_spec (fuel : Nat) :
    ∀ (st : IntroSortState) (A X C : List Int) (left right depthLimit : Int),
      left = (A.length : Int) → right = left + X.length - 1 → 1 ≤ X.length → X.length < fuel →
      ∃ X1 st1, introSort fuel st (A ++ X ++ C) left right depthLimit
          = some (A ++ X1 ++ C, st1) ∧
        List.Sorted (· ≤ ·) X1 ∧ X1.Perm X := by
  induction fuel with
  | zero => intro st A X C left right d _ _ _ h; omega
  | succ fuel ih =>
    intro st A X C left right depthLimit hleft hright hX1 hf
    have hsegX : seg (A ++ X ++ C) left right = X :=
      seg_append A X C left right hleft.symm (by omega)
    have htake : (A ++ X ++ C).take left.toNat = A := by
      rw [show left.toNat = A.length by omega, List.append_assoc, List.take_left]
    have hdrop : (A ++ X ++ C).drop (right + 1).toNat = C := by
      rw [show (right + 1).toNat = (A ++ X).length by simp; omega, List.drop_left]
    have hlen : ((A ++ X ++ C).length : Int) = left + X.length + C.length := by
      simp only [List.length_append]; omega
    by_cases hsize : right - left + 1 ≤ 16
    · obtain ⟨B, s1, hrun, hs, hp⟩ :=
        InsertionSort.sortRange_spec st.insertionSort (A ++ X ++ C) left right (by omega)
          (by omega) (by omega)
      rw [htake, hdrop] at hrun
      rw [hsegX] at hp
      refine ⟨B, { st with
        stats := ⟨st.stats.comparisons + s1.comparisons, st.stats.swaps + s1.swaps⟩,
        insertionSort := s1.reset }, ?_, hs, hp⟩
      simp only [introSort, if_pos hsize, hrun, Option.bind_eq_bind, Option.some_bind]
      rfl
    · by_cases hd : depthLimit = 0
      · obtain ⟨H, s1, hrun, hs, hp⟩ := HeapSort.hsort_spec st.heapSort X
        have hguard : 0 ≤ left ∧ right < ((A ++ X ++ C).length : Int) := by omega
        have hcopy := copyIn_spec left (H.length + 1) A X C [] H 0 rfl (by omega)
          hp.length_eq (by omega)
        rw [List.nil_append] at hcopy
        refine ⟨H, { st with
          stats := ⟨st.stats.comparisons + s1.comparisons, st.stats.swaps + s1.swaps⟩,
          heapSort := s1.reset }, ?_, hs, hp⟩
        simp only [introSort, if_neg hsize, hd, if_true, if_pos hguard, hsegX,
          Option.bind_eq_bind, Option.some_bind, hrun, hcopy]
        rfl
      · obtain ⟨l, hl⟩ : ∃ l : Nat, l = A.length := ⟨_, rfl⟩
        obtain ⟨r, hr⟩ : ∃ r : Nat, r = A.length + X.length - 1 := ⟨_, rfl⟩
        have hlI : (l : Int) = left := by omega
        have hrI : (r : Int) = right := by omega
        obtain ⟨a1, s1, p, hpart, hso, hp1, hp2, hp3, hp4⟩ :=
          ipartition_spec st.stats (A ++ X ++ C) l r (by omega) (by omega)
        rw [hlI, hrI] at hpart
        obtain ⟨hdec, hperm⟩ := decomp_of_sameOutside (A ++ X ++ C) a1 l r (by omega) (by omega)
          hso
        rw [hlI, hrI, hsegX] at hperm
        rw [hlI, hrI, show l = left.toNat by omega, show r + 1 = (right + 1).toNat by omega,
          htake, hdrop] at hdec
        have hlen1 : a1.length = (A ++ X ++ C).length := hso.1
        obtain ⟨v, hv1, hv2⟩ := seg_single a1 p (by omega) (by omega)
        have hv : v = a1.getD p 0 := by
          have := rd_eq_getD a1 p (by omega) (by omega)
          rw [hv1, show ((p : Int)).toNat = p by omega] at this
          exact Option.some.inj this
        have hsp1 := seg_split a1 left ((p : Int) - 1) right (by omega) (by omega) (by omega)
        have hsp2 := seg_split a1 p p right (by omega) (by omega) (by omega)
        rw [show (p : Int) - 1 + 1 = p by omega, hsp2, hv2] at hsp1
        have hlS := (split3 a1 left ((p : Int) - 1) (by omega) (by omega) (by omega)).2.2
        have hlG := (split3 a1 ((p : Int) + 1) right (by omega) (by omega) (by omega)).2.2
        have hS : ∀ x ∈ seg a1 left ((p : Int) - 1), x ≤ v := by
          intro x hx
          obtain ⟨k, hk1, hk2, _, hk4⟩ := mem_seg_getD a1 left _ x (by omega) hx
          rw [← hk4, hv]
          exact hp3 k (by omega) (by omega)
        have hG : ∀ x ∈ seg a1 ((p : Int) + 1) right, v ≤ x := by
          intro x hx
          obtain ⟨k, hk1, hk2, _, hk4⟩ := mem_seg_getD a1 _ right x (by omega) hx
          rw [← hk4, hv]
          exact hp4 k (by omega) (by omega)
        generalize seg a1 left ((p : Int) - 1) = S at hsp1 hlS hS
        generalize seg a1 ((p : Int) + 1) right = G at hsp1 hlG hG
        have ha1 : a1 = A ++ S ++ (v :: G ++ C) := hdec.trans (by rw [hsp1]; simp)
        have hXlen : X.length = S.length + 1 + G.length := by
          rw [← hperm.length_eq, hsp1]; simp; omega
        obtain ⟨S1, st1, hrun1, hs1, hperm1⟩ :=
          ih { st with stats := s1 } A S (v :: G ++ C) left ((p : Int) - 1) (depthLimit - 1)
            hleft (by omega) (by omega) (by omega)
        obtain ⟨G1, st2, hrun2, hs2, hperm2⟩ :=
          ih st1 (A ++ S1 ++ [v]) G C ((p : Int) + 1) right (depthLimit - 1)
            (by have := hperm1.length_eq; simp only [List.length_append, List.length_cons,
                  List.length_nil]; omega)
            (by omega) (by omega) (by omega)
        refine ⟨S1 ++ v :: G1, st2, ?_, ?_, ?_⟩
        · have e3 : A ++ S1 ++ (v :: G ++ C) = A ++ S1 ++ [v] ++ G ++ C := by simp
          have e4 : A ++ S1 ++ [v] ++ G1 ++ C = A ++ (S1 ++ v :: G1) ++ C := by simp
          rw [e3] at hrun1
          rw [e4] at hrun2
          rw [← ha1] at hrun1
          simp only [introSort, if_neg hsize, if_neg hd, hpart, Option.bind_eq_bind,
            Option.some_bind, hrun1, hrun2]
        · unfold List.Sorted
          rw [List.pairwise_append]
          refine ⟨hs1, ?_, ?_⟩
          · rw [List.pairwise_cons]
            exact ⟨fun x hx => hG x (hperm2.subset hx), hs2⟩
          · intro x hx y hy
            have h1 : x ≤ v := hS x (hperm1.subset hx)
            rcases List.mem_cons.1 hy with h | h
            · rw [h]; exact h1
            · have := hG y (hperm2.subset h)
              omega
        · refine List.Perm.trans ?_ hperm
          rw [hsp1]
          exact hperm1.append (List.Perm.cons v hperm2)

/-- Specification of `IntroSort::sort`. -/
theorem introsort_sort_spec (st : IntroSortState) (arr : List Int) :
    ∃ out st1, sort st arr = some (out, st1) ∧ List.Sorted (· ≤ ·) out ∧ out.Perm arr := by
  by_cases h : arr.length ≤ 1
  · refine ⟨arr, st, by simp [sort, h], ?_, List.Perm.refl _⟩
    match arr, h with
    | [], _ => simp
    | [x], _ => simp
  · obtain ⟨X1, st1, hrun, hs, hp⟩ :=
      introSort_spec (arr.length + 1) st [] arr [] 0 ((arr.length : Int) - 1)
        (getMaxDepth arr.length) (by simp) (by omega) (by omega) (by omega)
    refine ⟨X1, st1, ?_, hs, hp⟩
    simp only [List.nil_append, List.append_nil] at hrun
    simp [sort, h, hrun]

end IntroSort

/-- C2: `IntroSort::sort` returns on every input and leaves the sequence a non-decreasing
permutation of its input with the same length; the same holds for `introSort` on the whole
array with an arbitrary depth budget, that is, whichever of the three regimes (insertion sort,
heap sort on a copy, median-of-three partition) the sub-ranges go through. -/
theorem introSort_correct (st : IntroSortState) (arr : List Int) (depthLimit : Int) :
    (∃ out st1, IntroSort.sort st arr = some (out, st1) ∧ out.length = arr.length ∧
      List.Sorted (· ≤ ·) out ∧ out.Perm arr) ∧
    (∃ out st1, IntroSort.introSort (arr.length + 1) st arr 0 ((arr.length : Int) - 1) depthLimit
        = some (out, st1) ∧ out.length = arr.length ∧
      List.Sorted (· ≤ ·) out ∧ out.Perm arr) := by
  constructor
  · obtain ⟨out, st1, hrun, hs, hp⟩ := IntroSort.introsort_sort_spec st arr
    exact ⟨out, st1, hrun, hp.length_eq, hs, hp⟩
  · cases arr with
    | nil =>
      refine ⟨[], { st with
        stats := ⟨st.stats.comparisons + st.insertionSort.comparisons,
          st.stats.swaps + st.insertionSort.swaps⟩,
        insertionSort := st.insertionSort.reset }, ?_, rfl, by simp, List.Perm.refl _⟩
      simp [IntroSort.introSort, InsertionSort.sortRange, InsertionSort.sortRangeLoop]
    | cons a t =>
      obtain ⟨X1, st1, hrun, hs, hp⟩ :=
        IntroSort.introSort_spec ((a :: t).length + 1) st [] (a :: t) [] 0
          (((a :: t).length : Int) - 1) depthLimit (by simp) (by omega) (by simp) (by omega)
      simp only [List.nil_append, List.append_nil] at hrun
      exact ⟨X1, st1, hrun, hp.length_eq, hs, hp⟩

/-! ## Run-based merge sort -/

theorem runs_nil (size : Nat) : Runs size [] := by
  intro k; simp

theorem runs_take (size : Nat) (l : List Int) (h : Runs size l) :
    List.Sorted (· ≤ ·) (l.take size) := by
  have := h 0
  simpa using this

theorem runs_drop (size : Nat) (l : List Int) (h : Runs size l) : Runs size (l.drop size) := by
  intro k
  have := h (k + 1)
  rw [List.drop_drop]
  rwa [show (k + 1) * size = size + k * size by ring] at this

theorem runs_cons_block (size : Nat) (M R : List Int) (hM : List.Sorted (· ≤ ·) M)
    (hlen : M.length = size ∨ (R = [] ∧ M.length ≤ size)) (hR : Runs size R) :
    Runs size (M ++ R) := by
  intro k
  rcases hlen with hlen | ⟨hR0, hlen⟩
  · cases k with
    | zero =>
      rw [Nat.zero_mul, List.drop_zero, ← hlen, List.take_left]
      exact hM
    | succ k =>
      have e : (k + 1) * size = M.length + k * size := by rw [hlen]; ring
      rw [e, ← List.drop_drop, List.drop_left]
      exact hR k
  · subst hR0
    rw [List.append_nil]
    cases k with
    | zero =>
      rw [Nat.zero_mul, List.drop_zero, List.take_of_length_le hlen]
      exact hM
    | succ k =>
      have e : M.length ≤ (k + 1) * size := by
        have : size ≤ (k + 1) * size := Nat.le_mul_of_pos_left size (Nat.succ_pos k)
        omega
      rw [List.drop_eq_nil_of_le e]
      simp

theorem runs_sorted (size : Nat) (l : List Int) (h : Runs size l) (hlen : l.length ≤ size) :
    List.Sorted (· ≤ ·) l := by
  have := runs_take size l h
  rwa [List.take_of_length_le hlen] at this

namespace TimSort

theorem calcMinRunLoop_pos (fuel : Nat) : ∀ n r : Nat, 1 ≤ n → 1 ≤ calcMinRunLoop fuel n r := by
  induction fuel with
  | zero => intro n r h; simp only [calcMinRunLoop]; omega
  | succ fuel ih =>
    intro n r h
    simp only [calcMinRunLoop]
    by_cases h32 : n ≥ MIN_MERGE
    · rw [if_pos h32]
      apply ih
      unfold MIN_MERGE at h32
      rw [Nat.shiftRight_eq_div_pow]
      omega
    · rw [if_neg h32]; omega

theorem calcMinRun_pos (n : Nat) (h : 1 ≤ n) : 1 ≤ calcMinRun n :=
  calcMinRunLoop_pos n n 0 h

/-- The copy-out loops fill the buffer with the elements of the source range. -/
theorem copyOut_spec (start len : Int) (fuel : Nat) :
    ∀ (SP X SQ DP Z : List Int) (i : Int),
      i = (DP.length : Int) → start + i = (SP.length : Int) → Z.length = X.length →
      len = i + X.length → X.length < fuel →
      copyOut (SP ++ X ++ SQ) start len fuel (DP ++ Z) i = some (DP ++ X) := by
  induction fuel with
  | zero => intro SP X SQ DP Z i _ _ _ _ h; omega
  | succ fuel ih =>
    intro SP X SQ DP Z i hi hS hlen hl hf
    cases X with
    | nil =>
      have hZ : Z = [] := List.length_eq_zero.1 hlen
      subst hZ
      have hlt : ¬ i < len := by simp at hl; omega
      simp [copyOut, hlt]
    | cons x X =>
      cases Z with
      | nil => simp at hlen
      | cons z Z =>
        have hlt : i < len := by simp at hl; omega
        have hrd : rd (SP ++ x :: X ++ SQ) (start + i) = some x := by
          have := rd_append_cons SP (X ++ SQ) x (start + i) hS
          simpa using this
        have hwr : wr (DP ++ z :: Z) i x = some (DP ++ [x] ++ Z) := by
          have := wr_append_cons DP Z z x i hi
          simpa using this
        have hrec := ih (SP ++ [x]) X SQ (DP ++ [x]) Z (i + 1) (by simp; omega) (by simp; omega)
          (by simpa using hlen) (by simp at hl ⊢; omega) (by simp at hf; omega)
        have e1 : SP ++ x :: X ++ SQ = SP ++ [x] ++ X ++ SQ := by simp
        simp only [copyOut, if_pos hlt, hrd, Option.bind_eq_bind, Option.some_bind, hwr]
        rw [e1, hrec]
        simp

/-- The draining loops append the rest `X` of a buffer to the part of `arr` already written. -/
theorem drain_spec (len : Int) (fuel : Nat) :
    ∀ (BP X AP T : List Int) (s : SortStats) (i k : Int),
      i = (BP.length : Int) → len = i + X.length → k = (AP.length : Int) →
      X.length ≤ T.length → X.length < fuel →
      ∃ s1, drain (BP ++ X) len fuel (AP ++ T) s i k
        = some (AP ++ X ++ T.drop X.length, s1, k + X.length) := by
  induction fuel with
  | zero => intro BP X AP T s i k _ _ _ _ h; omega
  | succ fuel ih =>
    intro BP X AP T s i k hi hl hk hT hf
    cases X with
    | nil =>
      have hlt : ¬ i < len := by simp at hl; omega
      exact ⟨s, by simp [drain, hlt]⟩
    | cons x X =>
      have hlt : i < len := by simp at hl; omega
      cases T with
      | nil => simp at hT
      | cons t T =>
        have hrd : rd (BP ++ x :: X) i = some x := rd_append_cons BP X x i hi
        have hwr : wr (AP ++ t :: T) k x = some (AP ++ [x] ++ T) := by
          have := wr_append_cons AP T t x k hk
          simpa using this
        obtain ⟨s1, hrec⟩ := ih (BP ++ [x]) X (AP ++ [x]) T { s with swaps := s.swaps + 1 }
          (i + 1) (k + 1) (by simp; omega) (by simp at hl ⊢; omega) (by simp; omega)
          (by simp at hT; omega) (by simp at hf; omega)
        refine ⟨s1, ?_⟩
        have e1 : BP ++ x :: X = BP ++ [x] ++ X := by simp
        simp only [drain, if_pos hlt, hrd, Option.bind_eq_bind, Option.some_bind, hwr]
        rw [e1, hrec]
        simp
        omega

end TimSort

namespace TimSort

/-- The main merge loop writes a prefix `M` of the merge of the two buffers into `arr` and
stops when one buffer is used up. -/
theorem tmergeLoop_spec (len1 len2 : Int) (fuel : Nat) :
    ∀ (L1 L2 R1 R2 AP T : List Int) (s : SortStats) (i j k : Int),
      i = (L1.length : Int) → len1 = i + L2.length → j = (R1.length : Int) →
      len2 = j + R2.length → k = (AP.length : Int) →
      L2.length + R2.length ≤ T.length → L2.length + R2.length < fuel →
      ∃ M La L3 Ra R3 s1, L2 = La ++ L3 ∧ R2 = Ra ++ R3 ∧ (L3 = [] ∨ R3 = []) ∧
        M ++ L3 ++ R3 = L2.merge R2 (fun a b => decide (a ≤ b)) ∧
        M.length = La.length + Ra.length ∧
        mergeLoop (L1 ++ L2) (R1 ++ R2) len1 len2 fuel (AP ++ T) s i j k
          = some (AP ++ M ++ T.drop M.length, s1, i + La.length, j + Ra.length, k + M.length) := by
  induction fuel with
  | zero => intro L1 L2 R1 R2 AP T s i j k _ _ _ _ _ _ h; omega
  | succ fuel ih =>
    intro L1 L2 R1 R2 AP T s i j k hi hl1 hj hl2 hk hT hf
    cases L2 with
    | nil =>
      refine ⟨[], [], [], [], R2, s, rfl, rfl, Or.inl rfl, by simp, rfl, ?_⟩
      have hlt : ¬ (i < len1 ∧ j < len2) := by (try simp only [List.length_append, List.length_cons, List.length_nil, List.length_drop, List.length_take] at *); omega
      simp [mergeLoop, hlt]
    | cons a L2 =>
      cases R2 with
      | nil =>
        refine ⟨[], [], a :: L2, [], [], s, rfl, rfl, Or.inr rfl, by simp, rfl, ?_⟩
        have hlt : ¬ (i < len1 ∧ j < len2) := by (try simp only [List.length_append, List.length_cons, List.length_nil, List.length_drop, List.length_take] at *); omega
        simp [mergeLoop, hlt]
      | cons b R2 =>
        have hle : i < len1 ∧ j < len2 := by (try simp only [List.length_append, List.length_cons, List.length_nil, List.length_drop, List.length_take] at *); omega
        cases T with
        | nil => simp at hT
        | cons t T =>
          have hrdi : rd (L1 ++ a :: L2) i = some a := rd_append_cons L1 L2 a i hi
          have hrdj : rd (R1 ++ b :: R2) j = some b := rd_append_cons R1 R2 b j hj
          by_cases hab : a ≤ b
          · have hwr : wr (AP ++ t :: T) k a = some (AP ++ [a] ++ T) := by
              have := wr_append_cons AP T t a k hk
              simpa using this
            obtain ⟨M, La, L3, Ra, R3, s1, hL, hR, hor, hM, hlen, hrun⟩ :=
              ih (L1 ++ [a]) L2 R1 (b :: R2) (AP ++ [a]) T
                { (MergeSort.leftFirst s a b).2 with
                  swaps := (MergeSort.leftFirst s a b).2.swaps + 1 }
                (i + 1) j (k + 1)
                (by (try simp only [List.length_append, List.length_cons, List.length_nil, List.length_drop, List.length_take] at *); omega) (by (try simp only [List.length_append, List.length_cons, List.length_nil, List.length_drop, List.length_take] at *); omega) hj (by (try simp only [List.length_append, List.length_cons, List.length_nil, List.length_drop, List.length_take] at *); omega) (by (try simp only [List.length_append, List.length_cons, List.length_nil, List.length_drop, List.length_take] at *); omega) (by (try simp only [List.length_append, List.length_cons, List.length_nil, List.length_drop, List.length_take] at *); omega)
                (by (try simp only [List.length_append, List.length_cons, List.length_nil, List.length_drop, List.length_take] at *); omega)
            refine ⟨a :: M, a :: La, L3, Ra, R3, s1, by simp [hL], hR, hor, ?_, by (try simp only [List.length_append, List.length_cons, List.length_nil, List.length_drop, List.length_take] at *); omega, ?_⟩
            · rw [List.cons_merge_cons]
              simp only [hab, decide_True, if_true]
              rw [← hM]; simp
            · simp only [mergeLoop, if_pos hle, hrdi, hrdj, Option.bind_eq_bind, Option.some_bind,
                MergeSort.leftFirst_fst, hab, decide_True, if_true, hwr]
              have e1 : L1 ++ a :: L2 = L1 ++ [a] ++ L2 := by simp
              rw [e1, hrun]
              simp
              omega
          · have hwr : wr (AP ++ t :: T) k b = some (AP ++ [b] ++ T) := by
              have := wr_append_cons AP T t b k hk
              simpa using this
            obtain ⟨M, La, L3, Ra, R3, s1, hL, hR, hor, hM, hlen, hrun⟩ :=
              ih L1 (a :: L2) (R1 ++ [b]) R2 (AP ++ [b]) T
                { (MergeSort.leftFirst s a b).2 with
                  swaps := (MergeSort.leftFirst s a b).2.swaps + 1 }
                i (j + 1) (k + 1)
                hi (by (try simp only [List.length_append, List.length_cons, List.length_nil, List.length_drop, List.length_take] at *); omega) (by (try simp only [List.length_append, List.length_cons, List.length_nil, List.length_drop, List.length_take] at *); omega) (by (try simp only [List.length_append, List.length_cons, List.length_nil, List.length_drop, List.length_take] at *); omega) (by (try simp only [List.length_append, List.length_cons, List.length_nil, List.length_drop, List.length_take] at *); omega) (by (try simp only [List.length_append, List.length_cons, List.length_nil, List.length_drop, List.length_take] at *); omega)
                (by (try simp only [List.length_append, List.length_cons, List.length_nil, List.length_drop, List.length_take] at *); omega)
            refine ⟨b :: M, La, L3, b :: Ra, R3, s1, hL, by simp [hR], hor, ?_, by (try simp only [List.length_append, List.length_cons, List.length_nil, List.length_drop, List.length_take] at *); omega, ?_⟩
            · rw [List.cons_merge_cons]
              simp only [hab, decide_False, Bool.false_eq_true, if_false]
              rw [← hM]; simp
            · simp only [mergeLoop, if_pos hle, hrdi, hrdj, Option.bind_eq_bind, Option.some_bind,
                MergeSort.leftFirst_fst, hab, decide_False, Bool.false_eq_true, if_false, hwr]
              have e1 : R1 ++ b :: R2 = R1 ++ [b] ++ R2 := by simp
              rw [e1, hrun]
              simp
              omega

/-- The method `TimSort::merge` replaces two adjacent runs by their merge. -/
theorem tmerge_spec (s : SortStats) (A L R C : List Int) (left mid right : Int)
    (hleft : left = (A.length : Int)) (hmid : mid = left + L.length - 1)
    (hright : right = mid + R.length) :
    ∃ s1, merge s (A ++ L ++ R ++ C) left mid right
      = some (A ++ L.merge R (fun a b => decide (a ≤ b)) ++ C, s1) := by
  have hguard : ¬ (mid - left + 1 < 0 ∨ right - mid < 0) := by omega
  have hfuel : L.length + R.length < (right - left).toNat + 2 := by omega
  have hco1 := copyOut_spec left (mid - left + 1) ((right - left).toNat + 2) A L (R ++ C) []
    (List.replicate (mid - left + 1).toNat 0) 0 rfl (by omega)
    (by rw [List.length_replicate]; omega) (by omega) (by omega)
  have hco2 := copyOut_spec (mid + 1) (right - mid) ((right - left).toNat + 2) (A ++ L) R C []
    (List.replicate (right - mid).toNat 0) 0 rfl (by (try simp only [List.length_append, List.length_cons, List.length_nil, List.length_drop, List.length_take] at *); omega)
    (by rw [List.length_replicate]; omega) (by omega) (by omega)
  simp only [List.nil_append] at hco1 hco2
  have e0 : A ++ L ++ (R ++ C) = A ++ L ++ R ++ C := by simp
  rw [e0] at hco1
  obtain ⟨M, La, L3, Ra, R3, s1, hL, hR, hor, hM, hlen, hrun⟩ :=
    tmergeLoop_spec (mid - left + 1) (right - mid) ((right - left).toNat + 2) [] L [] R A
      (L ++ R ++ C) s 0 0 left rfl (by omega) rfl (by omega) hleft (by (try simp only [List.length_append, List.length_cons, List.length_nil, List.length_drop, List.length_take] at *); omega) hfuel
  simp only [List.nil_append] at hrun
  have e1 : A ++ (L ++ R ++ C) = A ++ L ++ R ++ C := by simp
  rw [e1] at hrun
  have hMlen : (L.merge R (fun a b => decide (a ≤ b))).length = (L ++ R).length :=
    (List.perm_merge _ L R).length_eq
  have hMlen2 : M.length + L3.length + R3.length = L.length + R.length := by
    have := congrArg List.length hM
    rw [hMlen] at this
    simpa [Nat.add_assoc] using this
  obtain ⟨s2, hd1⟩ := drain_spec (mid - left + 1) ((right - left).toNat + 2) La L3 (A ++ M)
    ((L ++ R ++ C).drop M.length) s1 (0 + La.length) (left + M.length) (by omega)
    (by subst hL; (try simp only [List.length_append, List.length_cons, List.length_nil, List.length_drop, List.length_take] at *); omega) (by (try simp only [List.length_append, List.length_cons, List.length_nil, List.length_drop, List.length_take] at *); omega) (by subst hL; subst hR; (try simp only [List.length_append, List.length_cons, List.length_nil, List.length_drop, List.length_take] at *); omega)
    (by subst hL; subst hR; (try simp only [List.length_append, List.length_cons, List.length_nil, List.length_drop, List.length_take] at *); omega)
  obtain ⟨s3, hd2⟩ := drain_spec (right - mid) ((right - left).toNat + 2) Ra R3 (A ++ M ++ L3)
    (((L ++ R ++ C).drop M.length).drop L3.length) s2 (0 + Ra.length)
    (left + M.length + L3.length) (by omega)
    (by subst hR; (try simp only [List.length_append, List.length_cons, List.length_nil, List.length_drop, List.length_take] at *); omega) (by (try simp only [List.length_append, List.length_cons, List.length_nil, List.length_drop, List.length_take] at *); omega) (by subst hL; subst hR; (try simp only [List.length_append, List.length_cons, List.length_nil, List.length_drop, List.length_take] at *); omega)
    (by subst hL; subst hR; (try simp only [List.length_append, List.length_cons, List.length_nil, List.length_drop, List.length_take] at *); omega)
  rw [← hL] at hd1
  rw [← hR] at hd2
  have e3 : A ++ M ++ L3 ++ R3 ++ (((L ++ R ++ C).drop M.length).drop L3.length).drop R3.length
      = A ++ L.merge R (fun a b => decide (a ≤ b)) ++ C := by
    rw [← hM, List.drop_drop, List.drop_drop, ← Nat.add_assoc, hMlen2,
      show L.length + R.length = (L ++ R).length by simp, List.drop_left]
    simp
  refine ⟨s3, ?_⟩
  unfold merge
  simp only [if_neg hguard, Option.bind_eq_bind, hco1, hco2, Option.some_bind, hrun, hd1, hd2, e3]
  rfl

end TimSort

namespace TimSort

/-- The first phase sorts each block of `minRun` consecutive elements. -/
theorem runLoop_spec (n : Int) (m : Nat) (hm : 1 ≤ m) (fuel : Nat) :
    ∀ (st : TimSortState) (D R : List Int) (start : Int),
      n = (D.length : Int) + R.length → (R ≠ [] → start = (D.length : Int)) →
      (R = [] → n ≤ start) → R.length < fuel →
      ∃ R1 st1, runLoop n m fuel st (D ++ R) start = some (D ++ R1, st1) ∧ R1.Perm R ∧
        Runs m R1 := by
  induction fuel with
  | zero => intro st D R start _ _ _ h; omega
  | succ fuel ih =>
    intro st D R start hn hne hnil hf
    by_cases hR : R = []
    · subst hR
      have hlt : ¬ start < n := by have := hnil rfl; omega
      exact ⟨[], st, by simp [runLoop, hlt], List.Perm.refl _, runs_nil m⟩
    · have hstart := hne hR
      have hRpos : 1 ≤ R.length := by
        cases R with
        | nil => exact absurd rfl hR
        | cons x R => simp
      have hlt : start < n := by omega
      have hsplitR : R = R.take m ++ R.drop m := (List.take_append_drop m R).symm
      have hlB : (R.take m).length = min m R.length := List.length_take _ _
      have hlrest : (R.drop m).length = R.length - m := List.length_drop _ _
      have he : min (start + (m : Int) - 1) (n - 1) = start + (R.take m).length - 1 := by
        rw [hlB]; omega
      have harr : D ++ R = D ++ R.take m ++ R.drop m := by
        rw [List.append_assoc, List.take_append_drop]
      obtain ⟨B, s1, hrun, hs, hp⟩ :=
        InsertionSort.sortRange_spec st.insertionSort (D ++ R) start
          (start + (R.take m).length - 1) (by omega) (by omega)
          (by simp only [List.length_append]; omega)
      have hseg : seg (D ++ R) start (start + (R.take m).length - 1) = R.take m := by
        rw [harr]
        exact seg_append D (R.take m) (R.drop m) _ _ hstart.symm (by omega)
      have htake : (D ++ R).take start.toNat = D := by
        rw [show start.toNat = D.length by omega, List.take_left]
      have hdrop : (D ++ R).drop (start + (R.take m).length - 1 + 1).toNat = R.drop m := by
        rw [harr, show (start + ((R.take m).length : Int) - 1 + 1).toNat
          = (D ++ R.take m).length by simp only [List.length_append]; omega, List.drop_left]
      rw [hseg] at hp
      rw [htake, hdrop] at hrun
      obtain ⟨R1, st1, hrun1, hp1, hruns1⟩ :=
        ih { stats := ⟨st.stats.comparisons + s1.comparisons, st.stats.swaps + s1.swaps⟩,
             insertionSort := s1.reset } (D ++ B) (R.drop m) (start + m)
          (by have := hp.length_eq; simp only [List.length_append]; omega)
          (by
            intro h
            have h1 : 1 ≤ (R.drop m).length := by
              cases hd : R.drop m with
              | nil => exact absurd hd h
              | cons x t => simp
            have := hp.length_eq
            simp only [List.length_append]; omega)
          (by
            intro h
            have : (R.drop m).length = 0 := by rw [h]; rfl
            omega)
          (by omega)
      refine ⟨B ++ R1, st1, ?_, ?_, ?_⟩
      · simp only [runLoop, if_pos hlt, he, hrun, Option.bind_eq_bind, Option.some_bind]
        rw [← List.append_assoc, ← hrun1]
      · conv_rhs => rw [hsplitR]
        exact hp.append hp1
      · apply runs_cons_block m B R1 hs _ hruns1
        have hBl := hp.length_eq
        by_cases hfull : m ≤ R.length
        · left; omega
        · right
          constructor
          · apply List.length_eq_zero.1
            rw [hp1.length_eq]; omega
          · omega

end TimSort

namespace TimSort

/-- One pass of pairwise merges turns sorted blocks of length `sz` into sorted blocks of
length `2 * sz`. -/
theorem mergePass_spec (n : Int) (sz : Nat) (hsz : 1 ≤ sz) (fuel : Nat) :
    ∀ (s : SortStats) (D R : List Int) (left : Int),
      n = (D.length : Int) + R.length → (R ≠ [] → left = (D.length : Int)) →
      (R = [] → n ≤ left) → R.length < fuel → Runs sz R →
      ∃ R1 s1, mergePass n sz fuel s (D ++ R) left = some (D ++ R1, s1) ∧ R1.Perm R ∧
        Runs (2 * sz) R1 := by
  induction fuel with
  | zero => intro s D R left _ _ _ h; omega
  | succ fuel ih =>
    intro s D R left hn hne hnil hf hruns
    by_cases hR : R = []
    · subst hR
      have hlt : ¬ left < n := by have := hnil rfl; omega
      exact ⟨[], s, by simp [mergePass, hlt], List.Perm.refl _, runs_nil _⟩
    · have hleft := hne hR
      have hRpos : 1 ≤ R.length := by
        cases R with
        | nil => exact absurd rfl hR
        | cons x R => simp
      have hlt : left < n := by omega
      have hsL : List.Sorted (· ≤ ·) (R.take sz) := runs_take sz R hruns
      have hsR : List.Sorted (· ≤ ·) ((R.drop sz).take sz) :=
        runs_take sz _ (runs_drop sz R hruns)
      have hrrest : Runs sz ((R.drop sz).drop sz) := runs_drop sz _ (runs_drop sz R hruns)
      have hlL : (R.take sz).length = min sz R.length := List.length_take _ _
      have hlR : ((R.drop sz).take sz).length = min sz (R.length - sz) := by
        rw [List.length_take, List.length_drop]
      have hlrest : ((R.drop sz).drop sz).length = R.length - sz - sz := by
        rw [List.length_drop, List.length_drop]
      have hsplitR : R = R.take sz ++ (R.drop sz).take sz ++ (R.drop sz).drop sz := by
        rw [List.append_assoc, List.take_append_drop, List.take_append_drop]
      generalize R.take sz = L at hsL hlL hsplitR
      generalize (R.drop sz).take sz = Rt at hsR hlR hsplitR
      generalize (R.drop sz).drop sz = rest at hrrest hlrest hsplitR
      have hM := List.perm_merge (fun a b : Int => decide (a ≤ b)) L Rt
      have hMs : List.Sorted (· ≤ ·) (L.merge Rt (fun a b => decide (a ≤ b))) := hsL.merge hsR
      have hMl := hM.length_eq
      rw [List.length_append] at hMl
      have hstep : ∃ s1, (if left + (sz : Int) - 1 < min (left + 2 * (sz : Int) - 1) (n - 1)
            then merge s (D ++ R) left (left + (sz : Int) - 1)
              (min (left + 2 * (sz : Int) - 1) (n - 1))
            else pure (D ++ R, s))
          = some (D ++ L.merge Rt (fun a b => decide (a ≤ b)) ++ rest, s1) := by
        by_cases hmr : left + (sz : Int) - 1 < min (left + 2 * (sz : Int) - 1) (n - 1)
        · rw [if_pos hmr]
          have hmin : min (left + 2 * (sz : Int) - 1) (n - 1) = left + (sz : Int) - 1 + Rt.length := by
            omega
          rw [hmin]
          obtain ⟨s1, h1⟩ := tmerge_spec s D L Rt rest left (left + (sz : Int) - 1)
            (left + (sz : Int) - 1 + Rt.length) hleft (by omega) rfl
          refine ⟨s1, ?_⟩
          rw [← h1, hsplitR]
          simp
        · rw [if_neg hmr]
          have hRt : Rt = [] := List.length_eq_zero.1 (by omega)
          have hrest : rest = [] := List.length_eq_zero.1 (by omega)
          refine ⟨s, ?_⟩
          rw [hsplitR, hRt, hrest]
          simp
      obtain ⟨s1, hstep⟩ := hstep
      obtain ⟨R1, s2, hrun1, hp1, hruns1⟩ :=
        ih s1 (D ++ L.merge Rt (fun a b => decide (a ≤ b))) rest (left + 2 * (sz : Int))
          (by rw [hsplitR] at hn; simp only [List.length_append] at hn ⊢; omega)
          (by
            intro h
            have h1 : 1 ≤ rest.length := by
              cases rest with
              | nil => exact absurd rfl h
              | cons x t => simp
            simp only [List.length_append]; omega)
          (by
            intro h
            have : rest.length = 0 := by rw [h]; rfl
            rw [hsplitR] at hn; simp only [List.length_append] at hn
            omega)
          (by rw [hsplitR] at hf; simp only [List.length_append] at hf; omega)
          hrrest
      refine ⟨L.merge Rt (fun a b => decide (a ≤ b)) ++ R1, s2, ?_, ?_, ?_⟩
      · have hite : ∀ (c : Prop) [Decidable c] (x y : Option (List Int × SortStats))
            (f : List Int × SortStats → Option (List Int × SortStats)),
            (if c then x.bind f else y.bind f) = (if c then x else y).bind f := by
          intro c _ x y f
          split <;> rfl
        simp only [mergePass, if_pos hlt, Option.bind_eq_bind]
        rw [hite, hstep]
        simp only [Option.some_bind]
        rw [← List.append_assoc, ← hrun1]
      · rw [hsplitR]
        exact hM.append hp1
      · apply runs_cons_block (2 * sz) _ R1 hMs _ hruns1
        by_cases hfull : 2 * sz ≤ R.length
        · left; omega
        · right
          constructor
          · apply List.length_eq_zero.1
            rw [hp1.length_eq]; omega
          · omega

/-- The doubling loop ends with the whole array sorted. -/
theorem sizeLoop_spec (n : Int) (fuel : Nat) :
    ∀ (s : SortStats) (arr : List Int) (sz : Nat),
      n = (arr.length : Int) → 1 ≤ sz → Runs sz arr → arr.length - sz < fuel →
      ∃ out s1, sizeLoop n fuel s arr sz = some (out, s1) ∧ out.Perm arr ∧
        List.Sorted (· ≤ ·) out := by
  induction fuel with
  | zero => intro s arr sz _ _ _ h; omega
  | succ fuel ih =>
    intro s arr sz hn hsz hruns hf
    by_cases hlt : (sz : Int) < n
    · obtain ⟨R1, s1, hrun1, hp1, hruns1⟩ :=
        mergePass_spec n sz hsz (arr.length + 1) s [] arr 0 (by simp; omega) (by intro _; rfl)
          (by intro h; rw [h] at hn; simp at hn; omega) (by omega) hruns
      simp only [List.nil_append] at hrun1
      obtain ⟨out, s2, hrun2, hp2, hs2⟩ :=
        ih s1 R1 (2 * sz) (by rw [hp1.length_eq]; exact hn) (by omega) hruns1
          (by rw [hp1.length_eq]; omega)
      refine ⟨out, s2, ?_, hp2.trans hp1, hs2⟩
      simp only [sizeLoop, if_pos hlt, hrun1, Option.bind_eq_bind, Option.some_bind]
      rw [← hrun2]
      congr 1
      push_cast
      ring
    · exact ⟨arr, s, by simp [sizeLoop, hlt], List.Perm.refl _,
        runs_sorted sz arr hruns (by omega)⟩

/-- Specification of `TimSort::timSort`. -/
theorem timSort_spec (st : TimSortState) (arr : List Int) :
    ∃ out st1, timSort st arr = some (out, st1) ∧ List.Sorted (· ≤ ·) out ∧ out.Perm arr := by
  cases arr with
  | nil =>
    exact ⟨[], st, by simp [timSort, runLoop, sizeLoop, calcMinRun, calcMinRunLoop], by simp,
      List.Perm.refl _⟩
  | cons a t =>
    have hm := calcMinRun_pos (a :: t).length (by simp)
    obtain ⟨R1, st1, hrun1, hp1, hruns1⟩ :=
      runLoop_spec ((a :: t).length : Int) (calcMinRun (a :: t).length) hm ((a :: t).length + 1)
        st [] (a :: t) 0 (by simp) (by intro _; rfl) (by intro h; simp at h) (by omega)
    simp only [List.nil_append] at hrun1
    obtain ⟨out, s2, hrun2, hp2, hs2⟩ :=
      sizeLoop_spec ((a :: t).length : Int) ((a :: t).length + 1) st1.stats R1
        (calcMinRun (a :: t).length) (by rw [hp1.length_eq]) hm hruns1
        (by rw [hp1.length_eq]; omega)
    refine ⟨out, { st1 with stats := s2 }, ?_, hs2, hp2.trans hp1⟩
    simp only [timSort, hrun1, Option.bind_eq_bind, Option.some_bind, hrun2]
    rfl

end TimSort

/-- C3: `TimSort::sort` returns on every input, of any length, and leaves the sequence a
non-decreasing permutation of its input with the same length: the first phase leaves a
permutation in which every block of `minRun` consecutive elements is sorted, and the
doubling-stride merge passes started from it end with the whole sequence sorted. -/
theorem timSort_correct (st : TimSortState) (arr : List Int) :
    (∃ out st1, TimSort.sort st arr = some (out, st1) ∧ out.length = arr.length ∧
      List.Sorted (· ≤ ·) out ∧ out.Perm arr) ∧
    (∃ mid st1, TimSort.runLoop arr.length (TimSort.calcMinRun arr.length) (arr.length + 1) st arr 0
        = some (mid, st1) ∧ mid.Perm arr ∧ Runs (TimSort.calcMinRun arr.length) mid ∧
      ∃ out s2, TimSort.sizeLoop arr.length (arr.length + 1) st1.stats mid
          (TimSort.calcMinRun arr.length) = some (out, s2) ∧
        List.Sorted (· ≤ ·) out ∧ out.Perm mid) := by
  constructor
  · obtain ⟨out, st1, hrun, hs, hp⟩ := TimSort.timSort_spec st arr
    exact ⟨out, st1, hrun, hp.length_eq, hs, hp⟩
  · cases arr with
    | nil =>
      refine ⟨[], st, by simp [TimSort.runLoop], List.Perm.refl _, runs_nil _, [], st.stats,
        by simp [TimSort.sizeLoop, TimSort.calcMinRun, TimSort.calcMinRunLoop], by simp,
        List.Perm.refl _⟩
    | cons a t =>
      have hm := TimSort.calcMinRun_pos (a :: t).length (by simp)
      obtain ⟨R1, st1, hrun1, hp1, hruns1⟩ :=
        TimSort.runLoop_spec ((a :: t).length : Int) (TimSort.calcMinRun (a :: t).length) hm
          ((a :: t).length + 1) st [] (a :: t) 0 (by simp) (by intro _; rfl)
          (by intro h; simp at h) (by omega)
      simp only [List.nil_append] at hrun1
      obtain ⟨out, s2, hrun2, hp2, hs2⟩ :=
        TimSort.sizeLoop_spec ((a :: t).length : Int) ((a :: t).length + 1) st1.stats R1
          (TimSort.calcMinRun (a :: t).length) (by rw [hp1.length_eq]) hm hruns1
          (by rw [hp1.length_eq]; omega)
      exact ⟨R1, st1, hrun1, hp1, hruns1, out, s2, hrun2, hs2, hp2⟩

/-! ## Shell sort -/

theorem getD_set (a : List Int) (i k : Nat) (v : Int) (hi : i < a.length) :
    (a.set i v).getD k 0 = if k = i then v else a.getD k 0 := by
  simp only [List.getD_eq_getElem?_getD, List.getElem?_set]
  by_cases h : k = i
  · subst h; simp [hi]
  · have h1 : ¬ i = k := fun e => h e.symm
    simp [h, h1]

/-- Moving the hole of a gapped insertion one step down is an exchange. -/
theorem set_hole_step (a : List Int) (j g : Nat) (temp : Int) (hg : 1 ≤ g) (hgj : g ≤ j)
    (hj : j < a.length) :
    ((a.set j (a.getD (j - g) 0)).set (j - g) temp) = swapL (a.set j temp) j (j - g) := by
  apply getD_ext _ _ (by simp [swapL])
  intro k _
  rw [getD_swapL _ _ _ _ (by simpa using hj) (by simp; omega),
    getD_set _ _ _ _ (by simp; omega), getD_set _ _ _ _ hj, getD_set _ _ _ _ hj,
    getD_set _ _ _ _ hj, getD_set _ _ _ _ hj]
  by_cases h1 : k = j - g
  · have h2 : k ≠ j := by omega
    have h3 : j - g ≠ j := by omega
    simp [h1, h3]
  · by_cases h2 : k = j
    · have h3 : j - g ≠ j := by omega
      simp [h2, h3]
    · simp [h1, h2]

namespace ShellSort

/-- The gapped shifting loop keeps the content of the array, the held element counted at the
hole. -/
theorem shiftLoop_perm (g : Nat) (hg : 1 ≤ g) (temp : Int) (fuel : Nat) :
    ∀ (s : SortStats) (a : List Int) (j : Nat), j < a.length → j < fuel →
      ∃ a1 s1 j1, shiftLoop g temp fuel s a j = some (a1, s1, ((j1 : Nat) : Int)) ∧
        j1 < a.length ∧ a1.length = a.length ∧ (a1.set j1 temp).Perm (a.set j temp) := by
  induction fuel with
  | zero => intro s a j _ h; omega
  | succ fuel ih =>
    intro s a j hj hf
    by_cases hge : (j : Int) ≥ (g : Int)
    · have hrd := rd_eq_getD a ((j : Int) - g) (by omega) (by omega)
      rw [show ((j : Int) - g).toNat = j - g by omega] at hrd
      by_cases hc : temp < a.getD (j - g) 0
      · have hc1 : (SortingAlgorithm.compare s temp (a.getD (j - g) 0)).1 = true := by
          simp only [SortingAlgorithm.compare, hc, decide_True]
        have hwr := wr_eq_set a j (a.getD (j - g) 0) (by omega) (by omega)
        rw [show ((j : Int)).toNat = j by omega] at hwr
        obtain ⟨a1, s1, j1, hrun, hj1, hlen, hperm⟩ :=
          ih { (SortingAlgorithm.compare s temp (a.getD (j - g) 0)).2 with
               swaps := (SortingAlgorithm.compare s temp (a.getD (j - g) 0)).2.swaps + 1 }
            (a.set j (a.getD (j - g) 0)) (j - g) (by simp; omega) (by omega)
        refine ⟨a1, s1, j1, ?_, by simpa using hj1, by simpa using hlen, ?_⟩
        · simp only [shiftLoop, if_pos hge, hrd, Option.bind_eq_bind, Option.some_bind, hc1,
            if_true, hwr]
          rw [← hrun, show ((j : Int) - g) = ((j - g : Nat) : Int) by omega]
        · refine hperm.trans ?_
          rw [set_hole_step a j g temp hg (by omega) hj]
          exact perm_swapL _ _ _ (by simpa using hj) (by simp; omega)
      · have hc1 : (SortingAlgorithm.compare s temp (a.getD (j - g) 0)).1 = false := by
          simp only [SortingAlgorithm.compare, hc, decide_False]
        refine ⟨a, (SortingAlgorithm.compare s temp (a.getD (j - g) 0)).2, j, ?_, hj, rfl,
          List.Perm.refl _⟩
        simp only [shiftLoop, if_pos hge, hrd, Option.bind_eq_bind, Option.some_bind, hc1,
          Bool.false_eq_true, if_false]
        rfl
    · refine ⟨a, s, j, ?_, hj, rfl, List.Perm.refl _⟩
      simp only [shiftLoop, if_neg hge]
      rfl

/-- The loop of a gapped pass permutes the array. -/
theorem passLoop_perm (g : Nat) (hg : 1 ≤ g) (fuel : Nat) :
    ∀ (s : SortStats) (a : List Int) (i : Nat), a.length - i < fuel →
      ∃ a1 s1, passLoop g a.length fuel s a i = some (a1, s1) ∧ a1.Perm a := by
  induction fuel with
  | zero => intro s a i h; omega
  | succ fuel ih =>
    intro s a i hf
    by_cases hlt : (i : Int) < (a.length : Int)
    · have hrd := rd_eq_getD a i (by omega) hlt
      rw [show ((i : Int)).toNat = i by omega] at hrd
      obtain ⟨a1, s1, j1, hrun, hj1, hlen, hperm⟩ :=
        shiftLoop_perm g hg (a.getD i 0) (a.length + 1) s a i (by omega) (by omega)
      have hwr := wr_eq_set a1 j1 (a.getD i 0) (by omega) (by omega)
      rw [show ((j1 : Int)).toNat = j1 by omega] at hwr
      have hself : a.set i (a.getD i 0) = a := by
        apply getD_ext _ _ (by simp)
        intro k _
        rw [getD_set _ _ _ _ (by omega)]
        by_cases h : k = i
        · simp [h]
        · simp [h]
      rw [hself] at hperm
      obtain ⟨a2, s2, hrun2, hperm2⟩ :=
        ih s1 (a1.set j1 (a.getD i 0)) (i + 1) (by simp; omega)
      refine ⟨a2, s2, ?_, hperm2.trans hperm⟩
      simp only [passLoop, if_pos hlt, hrd, Option.bind_eq_bind, Option.some_bind, hrun, hwr]
      rw [← hrun2]
      simp [hlen]
    · exact ⟨a, s, by simp [passLoop, hlt], List.Perm.refl _⟩

/-- Every gapped pass permutes the array. -/
theorem pass_perm (s : SortStats) (a : List Int) (g : Nat) (hg : 1 ≤ g) :
    ∃ a1 s1, pass s a g = some (a1, s1) ∧ a1.Perm a :=
  passLoop_perm g hg (a.length + 1) s a g (by omega)

end ShellSort

namespace ShellSort

/-- With gap 1 the shifting loop is the one of insertion sort: the sorted block `B1` before
the hole is split as `P ++ Q`, the elements of `Q` (all greater than `temp`) move one place
right, and the hole ends right after `P`. -/
theorem shiftLoop_one_spec (temp : Int) (fuel : Nat) :
    ∀ (B1 B2 C : List Int) (x : Int) (s : SortStats) (j : Int),
      j = (B1.length : Int) → B1.length < fuel → (∀ b ∈ B2, temp < b) →
      ∃ P Q x1 s1, B1 = P ++ Q ∧ (∀ b ∈ Q ++ B2, temp < b) ∧
        (∀ p, P.getLast? = some p → ¬ temp < p) ∧
        shiftLoop 1 temp fuel s (B1 ++ x :: B2 ++ C) j
          = some (P ++ x1 :: (Q ++ B2) ++ C, s1, (P.length : Int)) := by
  induction fuel with
  | zero => intro B1 B2 C x s j _ h; omega
  | succ fuel ih =>
    intro B1 B2 C x s j hj hf hB2
    rcases List.eq_nil_or_concat B1 with hB1 | ⟨B1a, b, hB1⟩
    · subst hB1
      refine ⟨[], [], x, s, rfl, by simpa using hB2, by simp, ?_⟩
      have hlt : ¬ j ≥ 1 := by simp at hj; omega
      simp [shiftLoop, hlt, hj]
    · rw [List.concat_eq_append] at hB1
      subst hB1
      have hge : j ≥ 1 := by simp at hj; omega
      have hrd : rd (B1a ++ [b] ++ x :: B2 ++ C) (j - 1) = some b := by
        have := rd_append_cons B1a (x :: B2 ++ C) b (j - 1) (by simp at hj ⊢; omega)
        simpa using this
      by_cases hc : temp < b
      · have hc1 : (SortingAlgorithm.compare s temp b).1 = true := by
          simp [SortingAlgorithm.compare, hc]
        have hwr : wr (B1a ++ [b] ++ x :: B2 ++ C) j b = some (B1a ++ b :: (b :: B2) ++ C) := by
          have := wr_append_cons (B1a ++ [b]) (B2 ++ C) x b j (by simp at hj ⊢; omega)
          simpa using this
        obtain ⟨P, Q, x1, s1, hPQ, hQ, hP, hrun⟩ :=
          ih B1a (b :: B2) C b
            { (SortingAlgorithm.compare s temp b).2 with
              swaps := (SortingAlgorithm.compare s temp b).2.swaps + 1 }
            (j - 1) (by simp at hj; omega) (by simp at hf; omega)
            (by intro y hy; rcases List.mem_cons.1 hy with h | h
                · subst h; exact hc
                · exact hB2 y h)
        refine ⟨P, Q ++ [b], x1, s1, by simp [hPQ], ?_, hP, ?_⟩
        · intro y hy
          apply hQ
          simpa using hy
        · simp only [shiftLoop, if_pos hge, hrd, Option.bind_eq_bind, Option.some_bind, hc1,
            if_true, hwr]
          rw [hrun]
          simp
      · have hc1 : (SortingAlgorithm.compare s temp b).1 = false := by
          simp [SortingAlgorithm.compare, hc]
        refine ⟨B1a ++ [b], [], x, (SortingAlgorithm.compare s temp b).2, by simp,
          by simpa using hB2, ?_, ?_⟩
        · intro p hp
          simp at hp
          subst hp
          exact hc
        · simp only [shiftLoop, if_pos hge, hrd, Option.bind_eq_bind, Option.some_bind, hc1,
            Bool.false_eq_true, if_false]
          simp [hj]

/-- The pass with gap 1 extends the sorted block `B` over the rest of the array. -/
theorem passLoop_one_sorted (n : Int) (fuel : Nat) :
    ∀ (s : SortStats) (B C1 : List Int) (i : Int),
      i = (B.length : Int) → n = i + C1.length → C1.length < fuel → List.Sorted (· ≤ ·) B →
      ∃ out s1, passLoop 1 n fuel s (B ++ C1) i = some (out, s1) ∧ List.Sorted (· ≤ ·) out := by
  induction fuel with
  | zero => intro s B C1 i _ _ h; omega
  | succ fuel ih =>
    intro s B C1 i hi hn hf hB
    cases C1 with
    | nil =>
      have hlt : ¬ i < n := by simp at hn; omega
      exact ⟨B, s, by simp [passLoop, hlt], hB⟩
    | cons temp C1 =>
      have hlt : i < n := by simp at hn; omega
      have hrd : rd (B ++ temp :: C1) i = some temp := rd_append_cons B C1 temp i hi
      obtain ⟨P, Q, x1, s1, hPQ, hQ, hP, hrun⟩ :=
        shiftLoop_one_spec temp ((B ++ temp :: C1).length + 1) B [] C1 temp s i hi
          (by simp; omega) (by simp)
      have hrun1 : shiftLoop 1 temp ((B ++ temp :: C1).length + 1) s (B ++ temp :: C1) i
          = some (P ++ x1 :: Q ++ C1, s1, (P.length : Int)) := by
        have e1 : B ++ temp :: C1 = B ++ temp :: [] ++ C1 := by simp
        have e2 : P ++ x1 :: Q ++ C1 = P ++ x1 :: (Q ++ []) ++ C1 := by simp
        rw [e2, ← hrun, ← e1]
      have hwr : wr (P ++ x1 :: Q ++ C1) (P.length : Int) temp = some (P ++ temp :: Q ++ C1) := by
        have := wr_append_cons P (Q ++ C1) x1 temp (P.length : Int) rfl
        simpa using this
      have hB1 : List.Sorted (· ≤ ·) (P ++ temp :: Q) :=
        sorted_insert_mid P Q temp (hPQ ▸ hB) (fun q hq => hQ q (by simpa using hq)) hP
      obtain ⟨out, s2, hrun2, hs2⟩ :=
        ih s1 (P ++ temp :: Q) C1 (i + 1) (by subst hPQ; simp at hi ⊢; omega)
          (by simp at hn ⊢; omega) (by simp at hf; omega) hB1
      refine ⟨out, s2, ?_, hs2⟩
      simp only [passLoop, if_pos hlt, hrd, Option.bind_eq_bind, Option.some_bind, hrun1, hwr]
      exact hrun2

/-- A pass with gap 1 over a non-empty array sorts it. -/
theorem pass_one_sorted (s : SortStats) (a : List Int) (ha : a ≠ []) :
    ∃ out s1, pass s a 1 = some (out, s1) ∧ List.Sorted (· ≤ ·) out ∧ out.Perm a := by
  obtain ⟨out1, s1, hrun1, hp⟩ := pass_perm s a 1 (le_refl _)
  cases a with
  | nil => exact absurd rfl ha
  | cons a0 t =>
    obtain ⟨out, s2, hrun, hs⟩ :=
      passLoop_one_sorted ((a0 :: t).length : Int) ((a0 :: t).length + 1) s [a0] t 1 (by simp)
        (by simp; omega) (by simp only [List.length_cons]; omega) (by simp)
    have e : pass s (a0 :: t) 1 = some (out, s2) := by
      unfold pass
      rw [← hrun]
      simp
    have e2 : pass s (a0 :: t) ((1 : Nat) : Int) = pass s (a0 :: t) 1 := rfl
    rw [e2, e] at hrun1
    simp only [Option.some.injEq, Prod.mk.injEq] at hrun1
    refine ⟨out, s2, e, hs, ?_⟩
    rw [hrun1.1]; exact hp

/-- The gap loop ends with a pass of gap 1 over a permutation of its input. -/
theorem gapLoop_spec (fuel : Nat) :
    ∀ (s : SortStats) (a : List Int) (g : Nat), 1 ≤ g → g < fuel →
      ∃ mid smid out s1, mid.Perm a ∧ pass smid mid 1 = some (out, s1) ∧
        gapLoop fuel s a g = some (out, s1) := by
  induction fuel with
  | zero => intro s a g _ h; omega
  | succ fuel ih =>
    intro s a g hg hf
    have hpos : (g : Int) > 0 := by omega
    have hd : cdiv (g : Int) 2 = ((g / 2 : Nat) : Int) := by
      rw [cdiv_of_nonneg _ _ (by omega) (by omega)]; omega
    obtain ⟨a1, s1, hrun1, hp1⟩ := pass_perm s a g hg
    by_cases hg1 : g = 1
    · subst hg1
      refine ⟨a, s, a1, s1, List.Perm.refl _, hrun1, ?_⟩
      cases fuel with
      | zero => omega
      | succ fuel =>
        simp only [gapLoop, if_pos hpos, hrun1, Option.bind_eq_bind, Option.some_bind, hd]
        simp [gapLoop]
    · obtain ⟨mid, smid, out, s2, hpm, hpass, hrun2⟩ := ih s1 a1 (g / 2) (by omega) (by omega)
      refine ⟨mid, smid, out, s2, hpm.trans hp1, hpass, ?_⟩
      simp only [gapLoop, if_pos hpos, hrun1, Option.bind_eq_bind, Option.some_bind, hd]
      exact hrun2

/-- For at least two elements, `sort` ends with a pass of gap 1 over a permutation of its
input. -/
theorem shell_last_pass (s : SortStats) (a : List Int) (h2 : 2 ≤ a.length) :
    ∃ mid smid out s1, mid.Perm a ∧ pass smid mid 1 = some (out, s1) ∧
      sort s a = some (out, s1) := by
  have hd : cdiv (a.length : Int) 2 = ((a.length / 2 : Nat) : Int) := by
    rw [cdiv_of_nonneg _ _ (by omega) (by omega)]; omega
  unfold sort
  rw [hd]
  exact gapLoop_spec (a.length + 1) s a (a.length / 2) (by omega) (by omega)

/-- Specification of `ShellSort::sort`. -/
theorem shell_sort_spec (s : SortStats) (a : List Int) :
    ∃ out s1, sort s a = some (out, s1) ∧ List.Sorted (· ≤ ·) out ∧ out.Perm a := by
  by_cases h2 : 2 ≤ a.length
  · obtain ⟨mid, smid, out, s1, hpm, hpass, hrun⟩ := shell_last_pass s a h2
    have hmid : mid ≠ [] := by
      intro h
      rw [h] at hpm
      have := hpm.length_eq
      simp at this
      omega
    obtain ⟨out1, s2, hrun1, hs, hp⟩ := pass_one_sorted smid mid hmid
    rw [hpass] at hrun1
    simp only [Option.some.injEq, Prod.mk.injEq] at hrun1
    refine ⟨out, s1, hrun, ?_, ?_⟩
    · rw [hrun1.1]; exact hs
    · rw [hrun1.1]; exact hp.trans hpm
  · have hd : cdiv (a.length : Int) 2 = 0 := by
      rw [cdiv_of_nonneg _ _ (by omega) (by omega)]; omega
    refine ⟨a, s, by simp [sort, hd, gapLoop], ?_, List.Perm.refl _⟩
    have hlen : a.length ≤ 1 := by omega
    match a, hlen with
    | [], _ => simp
    | [x], _ => simp

end ShellSort

namespace ShellSort

/-- Erasing the ghost log from the traced gap loop gives the gap loop. -/
theorem gapLoopTrace_erase (fuel : Nat) :
    ∀ (s : SortStats) (a : List Int) (g : Int) (log : List (Int × SortStats × List Int)),
      (gapLoopTrace fuel s a g log).map (fun r => (r.1, r.2.1)) = gapLoop fuel s a g := by
  induction fuel with
  | zero => intro s a g log; rfl
  | succ fuel ih =>
    intro s a g log
    rw [gapLoopTrace, gapLoop]
    by_cases hg : g > 0
    · rw [if_pos hg, if_pos hg]
      cases hp : pass s a g with
      | none => rfl
      | some r =>
        simp only [Option.bind_eq_bind, Option.some_bind]
        exact ih _ _ _ _
    · rw [if_neg hg, if_neg hg]
      rfl

/-- Erasing the ghost log from `sortTrace` gives `sort`. -/
theorem sortTrace_erase (s : SortStats) (a : List Int) :
    (sortTrace s a).map (fun r => (r.1, r.2.1)) = sort s a :=
  gapLoopTrace_erase _ _ _ _ _

/-- The traced gap loop started with gap `g`: it returns, it logs exactly the passes for the
gaps `g, g/2, ..., 1`, the first of them from the state the loop starts in and each next one
from the result of the pass before, and the last logged pass has gap 1 and returns the result
of the loop. -/
theorem gapLoopTrace_spec (a0 : List Int) (fuel : Nat) :
    ∀ (s : SortStats) (a : List Int) (g : Nat) (log : List (Int × SortStats × List Int)),
      a.Perm a0 → g < fuel →
      ∃ out s1 tr, gapLoopTrace fuel s a g log = some (out, s1, log ++ tr) ∧ out.Perm a0 ∧
        tr.map (fun e => e.1) = halvings fuel g ∧
        (1 ≤ g → tr.head? = some ((g : Int), s, a)) ∧
        List.Chain' (fun e e2 => pass e.2.1 e.2.2 e.1 = some (e2.2.2, e2.2.1)) tr ∧
        (∀ e ∈ tr, 1 ≤ e.1 ∧ e.2.2.Perm a0 ∧
          ∃ r, pass e.2.1 e.2.2 e.1 = some r ∧ r.1.Perm e.2.2) ∧
        (1 ≤ g → ∃ smid mid, tr.getLast? = some (1, smid, mid) ∧
          pass smid mid 1 = some (out, s1)) := by
  induction fuel with
  | zero => intro s a g _ _ h; omega
  | succ fuel ih =>
    intro s a g log hpa hf
    by_cases hg0 : g = 0
    · subst hg0
      refine ⟨a, s, [], ?_, hpa, ?_, ?_, List.chain'_nil, ?_, ?_⟩
      · simp [gapLoopTrace]
      · simp [halvings]
      · intro h; omega
      · intro e he; exact absurd he (List.not_mem_nil e)
      · intro h; omega
    · have hg : 1 ≤ g := by omega
      have hpos : (g : Int) > 0 := by omega
      have hd : cdiv (g : Int) 2 = ((g / 2 : Nat) : Int) := by
        rw [cdiv_of_nonneg _ _ (by omega) (by omega)]; omega
      obtain ⟨a1, s1, hrun1, hp1⟩ := pass_perm s a g hg
      obtain ⟨out, s2, tr, hrun2, hpo, hgaps, hhead, hchain, hall, hlast⟩ :=
        ih s1 a1 (g / 2) (log ++ [((g : Int), s, a)]) (hp1.trans hpa) (by omega)
      refine ⟨out, s2, ((g : Int), s, a) :: tr, ?_, hpo, ?_, fun _ => rfl, ?_, ?_, ?_⟩
      · simp only [gapLoopTrace, if_pos hpos, hrun1, Option.bind_eq_bind, Option.some_bind, hd]
        rw [hrun2, List.append_assoc]
        rfl
      · rw [halvings, if_neg hg0, List.map_cons, hgaps]
      · rw [List.chain'_cons']
        refine ⟨?_, hchain⟩
        intro e he
        by_cases h2 : 1 ≤ g / 2
        · rw [hhead h2] at he
          have : e = (((g / 2 : Nat) : Int), s1, a1) := (Option.some.inj he).symm
          rw [this]
          exact hrun1
        · have hz : g / 2 = 0 := by omega
          rw [hz] at hgaps
          have htr : tr = [] := by
            cases fuel with
            | zero => omega
            | succ f =>
              have : halvings (f + 1) 0 = [] := by simp [halvings]
              rw [this] at hgaps
              exact List.map_eq_nil_iff.1 hgaps
          rw [htr] at he
          simp at he
      · intro e he
        rcases List.mem_cons.1 he with h | h
        · rw [h]
          exact ⟨by omega, hpa, (a1, s1), hrun1, hp1⟩
        · exact hall e h
      · intro _
        by_cases h2 : 1 ≤ g / 2
        · obtain ⟨smid, mid, hl, hpass⟩ := hlast h2
          refine ⟨smid, mid, ?_, hpass⟩
          cases tr with
          | nil => simp at hl
          | cons t ts =>
            rw [List.getLast?_cons_cons]
            exact hl
        · have hz : g / 2 = 0 := by omega
          have hg1 : g = 1 := by omega
          cases fuel with
          | zero => omega
          | succ f =>
            rw [hz] at hgaps hrun2
            have hh : halvings (f + 1) 0 = [] := by simp [halvings]
            rw [hh] at hgaps
            have htr : tr = [] := List.map_eq_nil_iff.1 hgaps
            have hz0 : ¬ (((0 : Nat) : Int) > 0) := by omega
            rw [gapLoopTrace, if_neg hz0] at hrun2
            have hinj := Option.some.inj hrun2
            have ho : a1 = out := congrArg Prod.fst hinj
            have hs : s1 = s2 := congrArg (fun r => r.2.1) hinj
            subst hg1
            refine ⟨s, a, ?_, ?_⟩
            · rw [htr]; rfl
            · rw [← ho, ← hs]
              exact hrun1

end ShellSort

/-- C7: `ShellSort::sort` returns on every input `arr` and leaves the sequence a
non-decreasing permutation of its input; every gapped pass (gap at least 1) returns a
permutation of the array `a` it is given.  The passes that `sort` runs, logged with the gap,
the counters and the array each pass starts from, are exactly those for the gaps
`n/2, n/4, ..., 1` obtained by integer halving: the first starts from the input, each next
one from the result of the pass before, every one of them starts from and returns a
permutation of the input, and there is none when `n ≤ 1`; for `n ≥ 2` the last pass run has
gap 1, and what it returns is the result of `sort`.  On ten elements the gaps are
`5, 2, 1`. -/
theorem shellSort_correct (s : SortStats) (arr a : List Int) (gap : Nat) (hg : 1 ≤ gap) :
    (∃ out s1, ShellSort.sort s arr = some (out, s1) ∧ out.length = arr.length ∧
      List.Sorted (· ≤ ·) out ∧ out.Perm arr) ∧
    (∃ out s1, ShellSort.pass s a gap = some (out, s1) ∧ out.Perm a) ∧
    (∃ out s1 log, ShellSort.sortTrace s arr = some (out, s1, log) ∧
      ShellSort.sort s arr = some (out, s1) ∧
      log.map (fun e => e.1) = ShellSort.halvings (arr.length + 1) (arr.length / 2) ∧
      (2 ≤ arr.length → log.head? = some (((arr.length / 2 : Nat) : Int), s, arr)) ∧
      List.Chain' (fun e e2 => ShellSort.pass e.2.1 e.2.2 e.1 = some (e2.2.2, e2.2.1)) log ∧
      (∀ e ∈ log, 1 ≤ e.1 ∧ e.2.2.Perm arr ∧
        ∃ r, ShellSort.pass e.2.1 e.2.2 e.1 = some r ∧ r.1.Perm e.2.2) ∧
      (2 ≤ arr.length → ∃ smid mid, log.getLast? = some (1, smid, mid) ∧
        ShellSort.pass smid mid 1 = some (out, s1)) ∧
      (arr.length ≤ 1 → log = [])) ∧
    ShellSort.halvings 11 5 = [5, 2, 1] ∧
    (ShellSort.sortTrace SortStats.zero [9, 8, 7, 6, 5, 4, 3, 2, 1, 0]).map
        (fun r => (r.1, r.2.2.map (fun e => e.1)))
      = some ([0, 1, 2, 3, 4, 5, 6, 7, 8, 9], [5, 2, 1]) := by
  refine ⟨?_, ShellSort.pass_perm s a gap hg, ?_, by decide, by decide⟩
  · obtain ⟨out, s1, hrun, hs, hp⟩ := ShellSort.shell_sort_spec s arr
    exact ⟨out, s1, hrun, hp.length_eq, hs, hp⟩
  · have hd : cdiv (arr.length : Int) 2 = ((arr.length / 2 : Nat) : Int) := by
      rw [cdiv_of_nonneg _ _ (by omega) (by omega)]; omega
    obtain ⟨out, s1, tr, hrun, _, hgaps, hhead, hchain, hall, hlast⟩ :=
      ShellSort.gapLoopTrace_spec arr (arr.length + 1) s arr (arr.length / 2) []
        (List.Perm.refl _) (by omega)
    rw [List.nil_append] at hrun
    have htr : ShellSort.sortTrace s arr = some (out, s1, tr) := by
      unfold ShellSort.sortTrace
      rw [hd]
      exact hrun
    refine ⟨out, s1, tr, htr, ?_, hgaps, fun h => hhead (by omega), hchain, hall,
      fun h => hlast (by omega), ?_⟩
    · rw [← ShellSort.sortTrace_erase, htr]
      rfl
    · intro h1
      have hz : arr.length / 2 = 0 := by omega
      rw [hz] at hgaps
      have hh : ShellSort.halvings (arr.length + 1) 0 = [] := by simp [ShellSort.halvings]
      rw [hh] at hgaps
      exact List.map_eq_nil_iff.1 hgaps

theorem shellSort_correct_witness :
    (1 ≤ 2) ∧
    ((∃ out s1, ShellSort.sort SortStats.zero [3, 1, 2] = some (out, s1) ∧
      out.length = ([3, 1, 2] : List Int).length ∧
      List.Sorted (· ≤ ·) out ∧ out.Perm [3, 1, 2]) ∧
    (∃ out s1, ShellSort.pass SortStats.zero [9, 2, 7, 1, 3, 0] (2 : Nat) = some (out, s1) ∧
      out.Perm [9, 2, 7, 1, 3, 0]) ∧
    (∃ out s1 log, ShellSort.sortTrace SortStats.zero [3, 1, 2] = some (out, s1, log) ∧
      ShellSort.sort SortStats.zero [3, 1, 2] = some (out, s1) ∧
      log.map (fun e => e.1)
        = ShellSort.halvings (([3, 1, 2] : List Int).length + 1) (([3, 1, 2] : List Int).length / 2) ∧
      (2 ≤ ([3, 1, 2] : List Int).length →
        log.head? = some (((([3, 1, 2] : List Int).length / 2 : Nat) : Int), SortStats.zero, [3, 1, 2])) ∧
      List.Chain' (fun e e2 => ShellSort.pass e.2.1 e.2.2 e.1 = some (e2.2.2, e2.2.1)) log ∧
      (∀ e ∈ log, 1 ≤ e.1 ∧ e.2.2.Perm [3, 1, 2] ∧
        ∃ r, ShellSort.pass e.2.1 e.2.2 e.1 = some r ∧ r.1.Perm e.2.2) ∧
      (2 ≤ ([3, 1, 2] : List Int).length → ∃ smid mid, log.getLast? = some (1, smid, mid) ∧
        ShellSort.pass smid mid 1 = some (out, s1)) ∧
      (([3, 1, 2] : List Int).length ≤ 1 → log = [])) ∧
    ShellSort.halvings 11 5 = [5, 2, 1] ∧
    (ShellSort.sortTrace SortStats.zero [9, 8, 7, 6, 5, 4, 3, 2, 1, 0]).map
        (fun r => (r.1, r.2.2.map (fun e => e.1)))
      = some ([0, 1, 2, 3, 4, 5, 6, 7, 8, 9], [5, 2, 1])) :=
  ⟨by decide, shellSort_correct SortStats.zero [3, 1, 2] [9, 2, 7, 1, 3, 0] 2 (by decide)⟩

/-! ## Counting passes -/

theorem getD_map_range (m d : Nat) (f : Nat → Int) (hd : d < m) :
    ((List.range m).map f).getD d 0 = f d := by
  rw [List.getD_eq_getElem?_getD, List.getElem?_map, List.getElem?_range hd]
  rfl

theorem cntEq_append_singleton (key : Int → Int) (l : List Int) (a d : Int) :
    cntEq key (l ++ [a]) d = cntEq key l d + if key a = d then 1 else 0 := by
  unfold cntEq
  rw [List.countP_append, List.countP_cons]
  simp

theorem take_succ_getD (l : List Int) (i : Nat) (hi : i < l.length) :
    l.take (i + 1) = l.take i ++ [l.getD i 0] := by
  rw [List.take_succ, List.getD_eq_getElem?_getD, List.getElem?_eq_getElem hi]
  rfl

namespace CountPass

/-- The first loop builds the histogram of the keys. -/
theorem histLoop_spec (key : Int → Int) (arr : List Int) (m : Nat)
    (hkey : ∀ x ∈ arr, 0 ≤ key x ∧ key x < m) (fuel : Nat) :
    ∀ (s : SortStats) (i : Nat), i ≤ arr.length → arr.length - i < fuel →
      ∃ s1, histLoop key arr fuel (histOf key m (arr.take i)) s i
        = some (histOf key m arr, s1) := by
  induction fuel with
  | zero => intro s i _ h; omega
  | succ fuel ih =>
    intro s i hi hf
    by_cases hlt : (i : Int) < (arr.length : Int)
    · have hi1 : i < arr.length := by omega
      have hrd := rd_eq_getD arr i (by omega) hlt
      rw [show ((i : Int)).toNat = i by omega] at hrd
      have hmem : arr.getD i 0 ∈ arr := by
        rw [List.getD_eq_getElem?_getD, List.getElem?_eq_getElem hi1]
        exact List.getElem_mem hi1
      obtain ⟨hk0, hk1⟩ := hkey _ hmem
      obtain ⟨d0, hd0⟩ : ∃ d0 : Nat, key (arr.getD i 0) = d0 :=
        ⟨(key (arr.getD i 0)).toNat, by omega⟩
      have hd0m : d0 < m := by omega
      have hlenh : (histOf key m (arr.take i)).length = m := by simp [histOf]
      have hrdc := rd_eq_getD (histOf key m (arr.take i)) (d0 : Int) (by omega)
        (by rw [hlenh]; omega)
      rw [show ((d0 : Int)).toNat = d0 by omega] at hrdc
      have hwr := wr_eq_set (histOf key m (arr.take i)) (d0 : Int)
        ((histOf key m (arr.take i)).getD d0 0 + 1) (by omega) (by rw [hlenh]; omega)
      rw [show ((d0 : Int)).toNat = d0 by omega] at hwr
      have hnext : (histOf key m (arr.take i)).set d0 ((histOf key m (arr.take i)).getD d0 0 + 1)
          = histOf key m (arr.take (i + 1)) := by
        apply getD_ext _ _ (by simp [histOf])
        intro d hd
        have hdm : d < m := by simpa [histOf] using hd
        rw [getD_set _ _ _ _ (by rw [hlenh]; exact hd0m)]
        unfold histOf
        rw [take_succ_getD arr i hi1]
        simp only [getD_map_range m d _ hdm, getD_map_range m d0 _ hd0m, cntEq_append_singleton,
          hd0]
        by_cases hdd : d = d0
        · subst hdd; simp
        · have : ¬ ((d0 : Int) = (d : Int)) := by omega
          simp [hdd, this]
      obtain ⟨s1, hrec⟩ := ih { s with comparisons := s.comparisons + 1 } (i + 1) (by omega)
        (by omega)
      refine ⟨s1, ?_⟩
      simp only [histLoop, if_pos hlt, hrd, hd0, hrdc, hwr, hnext, Option.bind_eq_bind,
        Option.some_bind]
      rw [← hrec]
      norm_cast
    · have hi2 : i = arr.length := by omega
      refine ⟨s, ?_⟩
      subst hi2
      simp [histLoop, List.take_length]

end CountPass

theorem cntLt_succ (key : Int → Int) (l : List Int) (d : Int) :
    cntLt key l (d + 1) = cntLt key l d + cntEq key l d := by
  unfold cntLt cntEq
  induction l with
  | nil => simp
  | cons a l ih =>
    rw [List.countP_cons, List.countP_cons, List.countP_cons, ih]
    by_cases h1 : key a < d
    · have h2 : key a < d + 1 := by omega
      have h3 : ¬ key a = d := by omega
      simp [h1, h2, h3]
      omega
    · by_cases h3 : key a = d
      · have h2 : key a < d + 1 := by omega
        simp [h1, h2, h3]
        omega
      · have h2 : ¬ key a < d + 1 := by omega
        simp [h1, h2, h3]

theorem cntLt_zero (key : Int → Int) (l : List Int) (d : Int) (hd : d ≤ 0)
    (h : ∀ x ∈ l, 0 ≤ key x) : cntLt key l d = 0 := by
  unfold cntLt
  rw [List.countP_eq_zero]
  intro x hx
  have := h x hx
  simp
  omega

theorem cntLt_mono (key : Int → Int) (l : List Int) (d e : Int) (h : d ≤ e) :
    cntLt key l d ≤ cntLt key l e := by
  unfold cntLt
  apply List.countP_mono_left
  intro x _ hx
  simp at hx ⊢
  omega

theorem cntLt_all (key : Int → Int) (l : List Int) (d : Int) (h : ∀ x ∈ l, key x < d) :
    cntLt key l d = l.length := by
  unfold cntLt
  rw [List.countP_eq_length]
  intro x hx
  simpa using h x hx

theorem cntLt_add_cntEq_le (key : Int → Int) (l : List Int) (d : Int) :
    cntLt key l d + cntEq key l d ≤ l.length := by
  rw [← cntLt_succ]
  exact List.countP_le_length _

theorem cntEq_take_le (key : Int → Int) (l : List Int) (d : Int) (k : Nat) :
    cntEq key (l.take k) d ≤ cntEq key l d := by
  unfold cntEq
  have h := List.countP_append (fun x => decide (key x = d)) (l.take k) (l.drop k)
  rw [List.take_append_drop] at h
  omega

namespace CountPass

theorem prefixOf_one (key : Int → Int) (m : Nat) (arr : List Int) (h : ∀ x ∈ arr, 0 ≤ key x) :
    prefixOf key m arr 1 = histOf key m arr := by
  unfold prefixOf histOf
  apply List.map_congr_left
  intro d _
  by_cases hd : d < 1
  · have hd0 : d = 0 := by omega
    subst hd0
    simp [cntLt_zero key arr 0 (le_refl _) h]
  · simp [hd]

theorem prefixOf_all (key : Int → Int) (m : Nat) (arr : List Int) (i : Nat) (hi : m ≤ i) :
    prefixOf key m arr i = placeOf key m arr arr := by
  unfold prefixOf placeOf
  apply List.map_congr_left
  intro d hd
  have hdm : d < m := List.mem_range.1 hd
  have : d < i := by omega
  simp [this]

/-- The second loop turns the histogram into its prefix sums. -/
theorem prefixLoop_spec (key : Int → Int) (arr : List Int) (m : Nat) (fuel : Nat) :
    ∀ (i : Nat), 1 ≤ i → m - i < fuel →
      prefixLoop m fuel (prefixOf key m arr i) i = some (placeOf key m arr arr) := by
  induction fuel with
  | zero => intro i _ h; omega
  | succ fuel ih =>
    intro i hi hf
    by_cases hlt : (i : Int) < (m : Int)
    · have him : i < m := by omega
      have hlen : (prefixOf key m arr i).length = m := by simp [prefixOf]
      have hrd1 := rd_eq_getD (prefixOf key m arr i) (i : Int) (by omega) (by rw [hlen]; omega)
      have hrd0 := rd_eq_getD (prefixOf key m arr i) ((i : Int) - 1) (by omega)
        (by rw [hlen]; omega)
      rw [show ((i : Int)).toNat = i by omega] at hrd1
      rw [show ((i : Int) - 1).toNat = i - 1 by omega] at hrd0
      have hwr := wr_eq_set (prefixOf key m arr i) (i : Int)
        ((prefixOf key m arr i).getD i 0 + (prefixOf key m arr i).getD (i - 1) 0) (by omega)
        (by rw [hlen]; omega)
      rw [show ((i : Int)).toNat = i by omega] at hwr
      have hnext : (prefixOf key m arr i).set i
          ((prefixOf key m arr i).getD i 0 + (prefixOf key m arr i).getD (i - 1) 0)
          = prefixOf key m arr (i + 1) := by
        apply getD_ext _ _ (by simp [prefixOf])
        intro d hd
        have hdm : d < m := by simpa [prefixOf] using hd
        rw [getD_set _ _ _ _ (by rw [hlen]; exact him)]
        unfold prefixOf
        simp only [getD_map_range m d _ hdm, getD_map_range m i _ him,
          getD_map_range m (i - 1) _ (by omega : i - 1 < m)]
        by_cases hdi : d = i
        · subst hdi
          have h1 : ¬ d < d := by omega
          have h2 : d - 1 < d := by omega
          have h3 : d < d + 1 := by omega
          have h4 := cntLt_succ key arr ((d : Int) - 1)
          rw [show (d : Int) - 1 + 1 = d by omega] at h4
          simp only [h1, h2, h3, if_true, if_false]
          rw [show ((d - 1 : Nat) : Int) = (d : Int) - 1 by omega, h4]
          push_cast
          ring
        · by_cases hlt2 : d < i
          · have h3 : d < i + 1 := by omega
            simp [hdi, hlt2, h3]
          · have h3 : ¬ d < i + 1 := by omega
            simp [hdi, hlt2, h3]
      have hrec := ih (i + 1) (by omega) (by omega)
      simp only [prefixLoop, if_pos hlt, hrd1, hrd0, hwr, hnext, Option.bind_eq_bind,
        Option.some_bind]
      rw [← hrec]
      norm_cast
    · have : m ≤ i := by omega
      simp [prefixLoop, hlt, prefixOf_all key m arr i this]

end CountPass

theorem bucketSort_succ (key : Int → Int) (m : Nat) (arr : List Int) :
    bucketSort key (m + 1) arr
      = bucketSort key m arr ++ arr.filter (fun x => key x = (m : Int)) := by
  unfold bucketSort
  rw [List.range_succ, List.flatMap_append]
  simp

theorem bucketSort_length (key : Int → Int) (arr : List Int) (h : ∀ x ∈ arr, 0 ≤ key x)
    (m : Nat) : (bucketSort key m arr).length = cntLt key arr m := by
  induction m with
  | zero =>
    rw [cntLt_zero key arr _ (by simp) h]
    simp [bucketSort]
  | succ m ih =>
    rw [bucketSort_succ, List.length_append, ih]
    have := cntLt_succ key arr (m : Int)
    rw [show ((m + 1 : Nat) : Int) = (m : Int) + 1 by push_cast; ring, this]
    unfold cntEq
    rw [List.countP_eq_length_filter]

theorem filter_disjoint_perm (l : List Int) (p q r : Int → Bool)
    (h : ∀ x ∈ l, (r x = true ↔ (p x = true ∨ q x = true)) ∧ ¬ (p x = true ∧ q x = true)) :
    (l.filter p ++ l.filter q).Perm (l.filter r) := by
  induction l with
  | nil => simp
  | cons a l ih =>
    have ih1 := ih (fun x hx => h x (List.mem_cons_of_mem _ hx))
    obtain ⟨h1, h2⟩ := h a (List.mem_cons_self _ _)
    by_cases hp : p a = true
    · have hq : ¬ q a = true := fun hq => h2 ⟨hp, hq⟩
      have hr : r a = true := h1.2 (Or.inl hp)
      simp only [List.filter_cons, hp, hq, hr, if_true, if_false, List.cons_append]
      exact List.Perm.cons a ih1
    · by_cases hq : q a = true
      · have hr : r a = true := h1.2 (Or.inr hq)
        simp only [List.filter_cons, hp, hq, hr, if_true, if_false]
        exact List.perm_middle.trans (List.Perm.cons a ih1)
      · have hr : ¬ r a = true := fun hr => by
          rcases h1.1 hr with h | h
          · exact hp h
          · exact hq h
        simp only [List.filter_cons, hp, hq, hr, if_false]
        exact ih1

theorem bucketSort_perm_filter (key : Int → Int) (arr : List Int) (h : ∀ x ∈ arr, 0 ≤ key x)
    (m : Nat) : (bucketSort key m arr).Perm (arr.filter (fun x => key x < (m : Int))) := by
  induction m with
  | zero =>
    have : arr.filter (fun x => decide (key x < ((0 : Nat) : Int))) = [] := by
      rw [List.filter_eq_nil_iff]
      intro x hx
      have := h x hx
      simp
      omega
    rw [this]
    simp [bucketSort]
  | succ m ih =>
    rw [bucketSort_succ]
    refine (List.Perm.append_right _ ih).trans ?_
    apply filter_disjoint_perm
    intro x _
    simp only [decide_eq_true_eq]
    constructor
    · constructor
      · intro hx; push_cast at hx; omega
      · intro hx; push_cast; omega
    · omega

/-- The stable distribution into buckets is a permutation when every key has a bucket. -/
theorem bucketSort_perm (key : Int → Int) (arr : List Int) (m : Nat)
    (h : ∀ x ∈ arr, 0 ≤ key x ∧ key x < m) : (bucketSort key m arr).Perm arr := by
  have h1 := bucketSort_perm_filter key arr (fun x hx => (h x hx).1) m
  have h2 : arr.filter (fun x => decide (key x < (m : Int))) = arr := by
    rw [List.filter_eq_self]
    intro x hx
    simpa using (h x hx).2
  rwa [h2] at h1

theorem filter_getD_countP (l : List Int) (p : Int → Bool) (i : Nat) (hi : i < l.length)
    (hp : p (l.getD i 0) = true) :
    (l.filter p).getD (List.countP p (l.take i)) 0 = l.getD i 0 := by
  have h1 : l = l.take i ++ l.getD i 0 :: l.drop (i + 1) := by
    rw [List.getD_eq_getElem?_getD, List.getElem?_eq_getElem hi]
    simp
  have h2 : l.filter p = (l.take i).filter p ++ l.getD i 0 :: (l.drop (i + 1)).filter p := by
    conv_lhs => rw [h1]
    rw [List.filter_append, List.filter_cons, if_pos hp]
  rw [h2, List.countP_eq_length_filter, List.getD_append_right _ _ _ _ (le_refl _)]
  simp

theorem bucketSort_getD_block (key : Int → Int) (arr : List Int) (h : ∀ x ∈ arr, 0 ≤ key x)
    (m : Nat) : ∀ (d0 q : Nat), d0 < m → q < cntEq key arr d0 →
      (bucketSort key m arr).getD (cntLt key arr d0 + q) 0
        = (arr.filter (fun x => key x = (d0 : Int))).getD q 0 := by
  induction m with
  | zero => intro d0 q hd; omega
  | succ m ih =>
    intro d0 q hd hq
    rw [bucketSort_succ]
    have hlen := bucketSort_length key arr h m
    by_cases hdm : d0 < m
    · have h1 : cntLt key arr d0 + q < (bucketSort key m arr).length := by
        rw [hlen]
        have h2 := cntLt_succ key arr (d0 : Int)
        have h3 := cntLt_mono key arr ((d0 : Int) + 1) (m : Int) (by omega)
        omega
      rw [List.getD_append _ _ _ _ h1]
      exact ih d0 q hdm hq
    · have hd0 : d0 = m := by omega
      subst hd0
      rw [List.getD_append_right _ _ _ _ (by rw [hlen]; omega), hlen]
      congr 1
      omega

/-- The element at position `i` of `arr` lands, in the stable distribution, after the
elements of smaller key and after the earlier elements of the same key. -/
theorem bucketSort_getD_pos (key : Int → Int) (arr : List Int) (m : Nat)
    (h : ∀ x ∈ arr, 0 ≤ key x ∧ key x < m) (i d0 : Nat) (hi : i < arr.length)
    (hd0 : key (arr.getD i 0) = d0) :
    (bucketSort key m arr).getD (cntLt key arr d0 + cntEq key (arr.take i) d0) 0
      = arr.getD i 0 := by
  have hmem : arr.getD i 0 ∈ arr := by
    rw [List.getD_eq_getElem?_getD, List.getElem?_eq_getElem hi]
    exact List.getElem_mem hi
  have hd0m : d0 < m := by have := (h _ hmem).2; omega
  have hq : cntEq key (arr.take i) d0 < cntEq key arr d0 := by
    have h1 := cntEq_take_le key arr d0 (i + 1)
    rw [take_succ_getD arr i hi, cntEq_append_singleton, if_pos hd0] at h1
    omega
  rw [bucketSort_getD_block key arr (fun x hx => (h x hx).1) m d0 _ hd0m hq]
  unfold cntEq
  exact filter_getD_countP arr _ i hi (by simpa using hd0)

/-- Every position below the length lies in the block of exactly one key. -/
theorem bucket_cover (key : Int → Int) (arr : List Int) (h : ∀ x ∈ arr, 0 ≤ key x) (m : Nat) :
    ∀ p, p < cntLt key arr m →
      ∃ d, d < m ∧ cntLt key arr d ≤ p ∧ p < cntLt key arr d + cntEq key arr d := by
  induction m with
  | zero =>
    intro p hp
    rw [cntLt_zero key arr _ (by simp) h] at hp
    omega
  | succ m ih =>
    intro p hp
    rw [show ((m + 1 : Nat) : Int) = (m : Int) + 1 by push_cast; ring, cntLt_succ] at hp
    by_cases hpm : p < cntLt key arr m
    · obtain ⟨d, hd, h1, h2⟩ := ih p hpm
      exact ⟨d, by omega, h1, h2⟩
    · exact ⟨m, by omega, by omega, hp⟩

namespace CountPass

/-- The placement loop fills the output with the stable distribution into buckets, writing
each destination once. -/
theorem placeLoop_spec (key : Int → Int) (arr : List Int) (m : Nat)
    (hkey : ∀ x ∈ arr, 0 ≤ key x ∧ key x < m) (fuel : Nat) :
    ∀ (s : SortStats) (k : Nat) (output written : List Int),
      k ≤ arr.length → k < fuel → output.length = arr.length →
      (∀ d p : Nat, d < m → cntLt key arr d + cntEq key (arr.take k) d ≤ p →
        p < cntLt key arr d + cntEq key arr d →
        output.getD p 0 = (bucketSort key m arr).getD p 0) →
      written.Nodup → written.length = arr.length - k →
      (∀ w ∈ written, ∃ d p : Nat, w = (p : Int) ∧ d < m ∧
        cntLt key arr d + cntEq key (arr.take k) d ≤ p ∧
        p < cntLt key arr d + cntEq key arr d) →
      ∃ cnt s1 w, placeLoop key arr fuel (placeOf key m arr (arr.take k)) output s
          ((k : Int) - 1) written = some (bucketSort key m arr, cnt, s1, w) ∧
        w.Nodup ∧ w.length = arr.length ∧ ∀ x ∈ w, 0 ≤ x ∧ x < (arr.length : Int) := by
  induction fuel with
  | zero => intro s k _ _ _ h; omega
  | succ fuel ih =>
    intro s k output written hk hf hlen hfill hnd hwl hw
    have hk0 : ∀ x ∈ arr, 0 ≤ key x := fun x hx => (hkey x hx).1
    cases k with
    | zero =>
      have hneg : ¬ ((0 : Nat) : Int) - 1 ≥ 0 := by omega
      have hout : output = bucketSort key m arr := by
        have hbl : (bucketSort key m arr).length = arr.length := by
          rw [bucketSort_length key arr hk0 m]
          exact cntLt_all key arr m (fun x hx => (hkey x hx).2)
        apply getD_ext _ _ (by rw [hlen, hbl])
        intro p hp
        rw [hbl] at hp
        obtain ⟨d, hd, h1, h2⟩ := bucket_cover key arr hk0 m p
          (by rw [cntLt_all key arr m (fun x hx => (hkey x hx).2)]; exact hp)
        exact hfill d p hd (by simp [cntEq]; exact h1) h2
      refine ⟨placeOf key m arr (arr.take 0), s, written, ?_, hnd, by omega, ?_⟩
      · simp only [placeLoop, if_neg hneg, hout]
        rfl
      · intro x hx
        obtain ⟨d, p, hxp, hd, h1, h2⟩ := hw x hx
        have := cntLt_add_cntEq_le key arr d
        omega
    | succ k =>
      have hpos : ((k + 1 : Nat) : Int) - 1 ≥ 0 := by omega
      have hik : ((k + 1 : Nat) : Int) - 1 = (k : Int) := by omega
      have hk1 : k < arr.length := by omega
      have hrd := rd_eq_getD arr (k : Int) (by omega) (by omega)
      rw [show ((k : Int)).toNat = k by omega] at hrd
      have hmem : arr.getD k 0 ∈ arr := by
        rw [List.getD_eq_getElem?_getD, List.getElem?_eq_getElem hk1]
        exact List.getElem_mem hk1
      obtain ⟨hkey0, hkey1⟩ := hkey _ hmem
      obtain ⟨d0, hd0⟩ : ∃ d0 : Nat, key (arr.getD k 0) = d0 :=
        ⟨(key (arr.getD k 0)).toNat, by omega⟩
      have hd0m : d0 < m := by omega
      have hclen : (placeOf key m arr (arr.take (k + 1))).length = m := by simp [placeOf]
      have htk : cntEq key (arr.take (k + 1)) d0 = cntEq key (arr.take k) d0 + 1 := by
        rw [take_succ_getD arr k hk1, cntEq_append_singleton, if_pos hd0]
      have htk2 : ∀ d : Nat, d ≠ d0 →
          cntEq key (arr.take (k + 1)) d = cntEq key (arr.take k) d := by
        intro d hd
        have : ¬ key (arr.getD k 0) = (d : Int) := by rw [hd0]; omega
        rw [take_succ_getD arr k hk1, cntEq_append_singleton, if_neg this]
        rfl
      have hcval : (placeOf key m arr (arr.take (k + 1))).getD d0 0
          = ((cntLt key arr d0 + cntEq key (arr.take k) d0 : Nat) : Int) + 1 := by
        unfold placeOf
        rw [getD_map_range m d0 _ hd0m, htk]
        push_cast
        ring
      have hrdc := rd_eq_getD (placeOf key m arr (arr.take (k + 1))) (d0 : Int) (by omega)
        (by rw [hclen]; omega)
      rw [show ((d0 : Int)).toNat = d0 by omega, hcval] at hrdc
      have hp0 : cntLt key arr d0 + cntEq key (arr.take k) d0 < arr.length := by
        have h1 := cntEq_take_le key arr d0 (k + 1)
        have h2 := cntLt_add_cntEq_le key arr d0
        omega
      have hwro := wr_eq_set output
        (((cntLt key arr d0 + cntEq key (arr.take k) d0 : Nat) : Int) + 1 - 1) (arr.getD k 0)
        (by omega) (by rw [hlen]; omega)
      rw [show (((cntLt key arr d0 + cntEq key (arr.take k) d0 : Nat) : Int) + 1 - 1).toNat
        = cntLt key arr d0 + cntEq key (arr.take k) d0 by omega] at hwro
      have hwrc := wr_eq_set (placeOf key m arr (arr.take (k + 1))) (d0 : Int)
        (((cntLt key arr d0 + cntEq key (arr.take k) d0 : Nat) : Int) + 1 - 1) (by omega)
        (by rw [hclen]; omega)
      rw [show ((d0 : Int)).toNat = d0 by omega] at hwrc
      have hnext : (placeOf key m arr (arr.take (k + 1))).set d0
          (((cntLt key arr d0 + cntEq key (arr.take k) d0 : Nat) : Int) + 1 - 1)
          = placeOf key m arr (arr.take k) := by
        apply getD_ext _ _ (by simp [placeOf])
        intro d hd
        have hdm : d < m := by simpa [placeOf] using hd
        rw [getD_set _ _ _ _ (by rw [hclen]; exact hd0m)]
        unfold placeOf
        simp only [getD_map_range m d _ hdm]
        by_cases hdd : d = d0
        · subst hdd
          simp
        · rw [if_neg hdd, htk2 d hdd]
      obtain ⟨cnt, s1, w, hrun, hwnd, hwlen, hwb⟩ :=
        ih { s with swaps := s.swaps + 1 } k
          (output.set (cntLt key arr d0 + cntEq key (arr.take k) d0) (arr.getD k 0))
          (written ++ [((cntLt key arr d0 + cntEq key (arr.take k) d0 : Nat) : Int) + 1 - 1])
          (by omega) (by omega) (by simpa using hlen)
          (by
            intro d p hd h1 h2
            rw [getD_set _ _ _ _ (by rw [hlen]; exact hp0)]
            by_cases hpp : p = cntLt key arr d0 + cntEq key (arr.take k) d0
            · rw [if_pos hpp, hpp]
              exact (bucketSort_getD_pos key arr m hkey k d0 hk1 hd0).symm
            · rw [if_neg hpp]
              apply hfill d p hd _ h2
              by_cases hdd : d = d0
              · subst hdd; omega
              · rw [htk2 d hdd]; exact h1)
          (by
            rw [List.nodup_append]
            refine ⟨hnd, List.nodup_singleton _, ?_⟩
            intro x hx1 hx2
            rw [List.mem_singleton] at hx2
            obtain ⟨d, p, hxp, hd, h1, h2⟩ := hw x hx1
            have hpe : p = cntLt key arr d0 + cntEq key (arr.take k) d0 := by omega
            rcases Nat.lt_trichotomy d d0 with hlt | heq | hgt
            · have h3 := cntLt_succ key arr (d : Int)
              have h4 := cntLt_mono key arr ((d : Int) + 1) (d0 : Int) (by omega)
              omega
            · subst heq; omega
            · have h3 := cntLt_succ key arr (d0 : Int)
              have h4 := cntLt_mono key arr ((d0 : Int) + 1) (d : Int) (by omega)
              have h5 := cntEq_take_le key arr d0 (k + 1)
              omega)
          (by simp only [List.length_append, List.length_singleton]; omega)
          (by
            intro x hx
            rcases List.mem_append.1 hx with h | h
            · obtain ⟨d, p, hxp, hd, h1, h2⟩ := hw x h
              refine ⟨d, p, hxp, hd, ?_, h2⟩
              by_cases hdd : d = d0
              · subst hdd; omega
              · rw [← htk2 d hdd]; exact h1
            · rw [List.mem_singleton] at h
              refine ⟨d0, cntLt key arr d0 + cntEq key (arr.take k) d0, by omega, hd0m,
                le_refl _, ?_⟩
              have h5 := cntEq_take_le key arr d0 (k + 1)
              omega)
      refine ⟨cnt, s1, w, ?_, hwnd, hwlen, hwb⟩
      rw [hik]
      simp only [placeLoop, show (k : Int) ≥ 0 from by omega, if_true, hrd, hd0, hrdc, hwro, hwrc,
        hnext, Option.bind_eq_bind, Option.some_bind]
      rw [← hrun]

end CountPass

namespace CountPass

/-- The last loop copies the output buffer over the array. -/
theorem copyLoop_spec (n : Int) (fuel : Nat) :
    ∀ (P X OP OX : List Int) (i : Int),
      i = (P.length : Int) → OP.length = P.length → OX.length = X.length →
      n = i + X.length → X.length < fuel →
      copyLoop (OP ++ OX) n fuel (P ++ X) i = some (P ++ OX) := by
  induction fuel with
  | zero => intro P X OP OX i _ _ _ _ h; omega
  | succ fuel ih =>
    intro P X OP OX i hi hOP hOX hn hf
    cases X with
    | nil =>
      have hO : OX = [] := List.length_eq_zero.1 hOX
      subst hO
      have hlt : ¬ i < n := by simp at hn; omega
      simp [copyLoop, hlt]
    | cons x X =>
      cases OX with
      | nil => simp at hOX
      | cons o OX =>
        have hlt : i < n := by simp at hn; omega
        have hrd : rd (OP ++ o :: OX) i = some o := rd_append_cons OP OX o i (by omega)
        have hwr : wr (P ++ x :: X) i o = some (P ++ [o] ++ X) := by
          have := wr_append_cons P X x o i hi
          simpa using this
        have hrec := ih (P ++ [o]) X (OP ++ [o]) OX (i + 1) (by simp; omega) (by simp; omega)
          (by simpa using hOX) (by simp at hn ⊢; omega) (by simp at hf; omega)
        have e1 : OP ++ o :: OX = OP ++ [o] ++ OX := by simp
        simp only [copyLoop, if_pos hlt, hrd, Option.bind_eq_bind, Option.some_bind, hwr]
        rw [e1, hrec]
        simp

theorem histOf_nil (key : Int → Int) (m : Nat) : histOf key m [] = List.replicate m 0 := by
  apply getD_ext _ _ (by simp [histOf])
  intro d hd
  have hdm : d < m := by simpa using hd
  unfold histOf
  rw [getD_map_range m d _ hdm, List.getD_eq_getElem?_getD, List.getElem?_replicate, if_pos hdm]
  simp [cntEq]

/-- One counting pass returns the stable distribution of the array into the buckets of
`key`, and its placement loop writes every output slot exactly once. -/
theorem run_spec (key : Int → Int) (range : Int) (s : SortStats) (arr : List Int)
    (hrange : 0 ≤ range) (hkey : ∀ x ∈ arr, 0 ≤ key x ∧ key x < range) :
    ∃ s1 w, run key range s arr = some (bucketSort key range.toNat arr, s1, w) ∧
      w.Nodup ∧ w.length = arr.length ∧ ∀ x ∈ w, 0 ≤ x ∧ x < (arr.length : Int) := by
  obtain ⟨m, hm⟩ : ∃ m : Nat, range = m := ⟨range.toNat, by omega⟩
  subst hm
  have hkey0 : ∀ x ∈ arr, 0 ≤ key x := fun x hx => (hkey x hx).1
  obtain ⟨s1, hh⟩ := histLoop_spec key arr m hkey (arr.length + 1) s 0 (by omega) (by omega)
  rw [List.take_zero, histOf_nil] at hh
  have hp := prefixLoop_spec key arr m (m + 1) 1 (le_refl _) (by omega)
  rw [prefixOf_one key m arr hkey0] at hp
  obtain ⟨cnt, s2, w, hpl, hwnd, hwlen, hwb⟩ :=
    placeLoop_spec key arr m hkey (arr.length + 1) s1 arr.length
      (List.replicate arr.length 0) [] (le_refl _) (by omega) (by simp)
      (by
        intro d p _ h1 h2
        rw [List.take_length] at h1
        omega)
      List.nodup_nil (by simp) (by intro x hx; simp at hx)
  rw [List.take_length] at hpl
  have hbl : (bucketSort key m arr).length = arr.length :=
    (bucketSort_perm key arr m hkey).length_eq
  have hc := copyLoop_spec (arr.length : Int) (arr.length + 1) [] arr []
    (bucketSort key m arr) 0 rfl rfl hbl (by omega) (by omega)
  simp only [List.nil_append] at hc
  refine ⟨s2, w, ?_, hwnd, hwlen, hwb⟩
  have hneg : ¬ ((m : Int) < 0) := by omega
  have e1 : ((m : Int)).toNat = m := by omega
  simp only [Nat.cast_zero] at hh
  simp only [Nat.cast_one] at hp
  simp only [run, if_neg hneg, e1, Option.bind_eq_bind, hh, Option.some_bind, hp, hpl, hc]
  rfl

end CountPass

/-! ## Counting sort -/

theorem wrap32_of_range (x : Int) (h0 : -2147483648 ≤ x) (h1 : x ≤ 2147483647) : wrap32 x = x := by
  unfold wrap32
  omega

theorem foldl_min_spec (t : List Int) :
    ∀ m : Int, (t.foldl (fun m x => if x < m then x else m) m = m ∨
        t.foldl (fun m x => if x < m then x else m) m ∈ t) ∧
      t.foldl (fun m x => if x < m then x else m) m ≤ m ∧
      ∀ x ∈ t, t.foldl (fun m x => if x < m then x else m) m ≤ x := by
  induction t with
  | nil => intro m; simp
  | cons a t ih =>
    intro m
    rw [List.foldl_cons]
    obtain ⟨h1, h2, h3⟩ := ih (if a < m then a else m)
    by_cases ham : a < m
    · rw [if_pos ham] at h1 h2 h3 ⊢
      refine ⟨Or.inr ?_, by omega, ?_⟩
      · rcases h1 with h | h
        · rw [h]; exact List.mem_cons_self _ _
        · exact List.mem_cons_of_mem _ h
      · intro x hx
        rcases List.mem_cons.1 hx with h | h
        · rw [h]; exact h2
        · exact h3 x h
    · rw [if_neg ham] at h1 h2 h3 ⊢
      refine ⟨?_, h2, ?_⟩
      · rcases h1 with h | h
        · exact Or.inl h
        · exact Or.inr (List.mem_cons_of_mem _ h)
      · intro x hx
        rcases List.mem_cons.1 hx with h | h
        · rw [h]; omega
        · exact h3 x h

theorem foldl_max_spec (t : List Int) :
    ∀ m : Int, (t.foldl (fun m x => if m < x then x else m) m = m ∨
        t.foldl (fun m x => if m < x then x else m) m ∈ t) ∧
      m ≤ t.foldl (fun m x => if m < x then x else m) m ∧
      ∀ x ∈ t, x ≤ t.foldl (fun m x => if m < x then x else m) m := by
  induction t with
  | nil => intro m; simp
  | cons a t ih =>
    intro m
    rw [List.foldl_cons]
    obtain ⟨h1, h2, h3⟩ := ih (if m < a then a else m)
    by_cases ham : m < a
    · rw [if_pos ham] at h1 h2 h3 ⊢
      refine ⟨Or.inr ?_, by omega, ?_⟩
      · rcases h1 with h | h
        · rw [h]; exact List.mem_cons_self _ _
        · exact List.mem_cons_of_mem _ h
      · intro x hx
        rcases List.mem_cons.1 hx with h | h
        · rw [h]; exact h2
        · exact h3 x h
    · rw [if_neg ham] at h1 h2 h3 ⊢
      refine ⟨?_, h2, ?_⟩
      · rcases h1 with h | h
        · exact Or.inl h
        · exact Or.inr (List.mem_cons_of_mem _ h)
      · intro x hx
        rcases List.mem_cons.1 hx with h | h
        · rw [h]; omega
        · exact h3 x h

/-- The value of `min_element` belongs to the vector and bounds it from below. -/
theorem minElement_spec (arr : List Int) (mn : Int) (h : minElement arr = some mn) :
    mn ∈ arr ∧ ∀ x ∈ arr, mn ≤ x := by
  cases arr with
  | nil => simp [minElement] at h
  | cons a t =>
    simp only [minElement, Option.some.injEq] at h
    obtain ⟨h1, h2, h3⟩ := foldl_min_spec t a
    rw [h] at h1 h2 h3
    refine ⟨?_, ?_⟩
    · rcases h1 with h | h
      · rw [h]; exact List.mem_cons_self _ _
      · exact List.mem_cons_of_mem _ h
    · intro x hx
      rcases List.mem_cons.1 hx with h | h
      · rw [h]; exact h2
      · exact h3 x h

/-- The value of `max_element` belongs to the vector and bounds it from above. -/
theorem maxElement_spec (arr : List Int) (mx : Int) (h : maxElement arr = some mx) :
    mx ∈ arr ∧ ∀ x ∈ arr, x ≤ mx := by
  cases arr with
  | nil => simp [maxElement] at h
  | cons a t =>
    simp only [maxElement, Option.some.injEq] at h
    obtain ⟨h1, h2, h3⟩ := foldl_max_spec t a
    rw [h] at h1 h2 h3
    refine ⟨?_, ?_⟩
    · rcases h1 with h | h
      · rw [h]; exact List.mem_cons_self _ _
      · exact List.mem_cons_of_mem _ h
    · intro x hx
      rcases List.mem_cons.1 hx with h | h
      · rw [h]; exact h2
      · exact h3 x h

/-- A relation holds pairwise in the stable distribution into buckets when it holds inside
every bucket and from every element to every element of larger key. -/
theorem bucketSort_pairwise (R : Int → Int → Prop) (key : Int → Int) (m : Nat) (arr : List Int)
    (h1 : ∀ d : Nat, List.Pairwise R (arr.filter (fun x => key x = (d : Int))))
    (h2 : ∀ x ∈ arr, ∀ y ∈ arr, key x < key y → R x y) :
    List.Pairwise R (bucketSort key m arr) := by
  unfold bucketSort
  rw [List.pairwise_flatMap]
  refine ⟨fun d _ => h1 d, ?_⟩
  refine List.Pairwise.imp ?_ (List.pairwise_lt_range m)
  intro d e hde x hx y hy
  rw [List.mem_filter] at hx hy
  have hx2 : key x = d := by simpa using hx.2
  have hy2 : key y = e := by simpa using hy.2
  exact h2 x hx.1 y hy.1 (by omega)

theorem pairwise_of_forall_mem (R : Int → Int → Prop) (l : List Int)
    (h : ∀ x ∈ l, ∀ y ∈ l, R x y) : List.Pairwise R l :=
  List.Pairwise.imp_mem.2 (List.pairwise_of_forall (fun x y hx hy => h x hx y hy))

namespace CountingSort

/-- Specification of the body of `CountingSort::sort` when the value range fits an `int`. -/
theorem sortTrace_spec (s : SortStats) (arr : List Int) (mn mx : Int)
    (hmn : minElement arr = some mn) (hmx : maxElement arr = some mx)
    (hspread : mx - mn < 2147483647) :
    ∃ out s1 w, sortTrace s arr = some (out, s1, w) ∧ List.Sorted (· ≤ ·) out ∧ out.Perm arr ∧
      (∀ x ∈ arr, 0 ≤ key mn x ∧ key mn x ≤ mx - mn) ∧
      w.Nodup ∧ w.length = arr.length ∧ ∀ p ∈ w, 0 ≤ p ∧ p ≤ (arr.length : Int) - 1 := by
  obtain ⟨hmn1, hmn2⟩ := minElement_spec arr mn hmn
  obtain ⟨hmx1, hmx2⟩ := maxElement_spec arr mx hmx
  have hne : arr.isEmpty = false := by
    cases arr with
    | nil => simp at hmn1
    | cons a t => rfl
  have hmm : mn ≤ mx := hmn2 mx hmx1
  have hkeyv : ∀ x ∈ arr, key mn x = x - mn := by
    intro x hx
    have h1 := hmn2 x hx
    have h2 := hmx2 x hx
    exact wrap32_of_range _ (by omega) (by omega)
  have hrange : wrap32 (wrap32 (mx - mn) + 1) = mx - mn + 1 := by
    rw [wrap32_of_range (mx - mn) (by omega) (by omega)]
    exact wrap32_of_range _ (by omega) (by omega)
  have hkey : ∀ x ∈ arr, 0 ≤ key mn x ∧ key mn x < mx - mn + 1 := by
    intro x hx
    rw [hkeyv x hx]
    have h1 := hmn2 x hx
    have h2 := hmx2 x hx
    omega
  obtain ⟨s1, w, hrun, hwnd, hwlen, hwb⟩ :=
    CountPass.run_spec (key mn) (mx - mn + 1) s arr (by omega) hkey
  refine ⟨bucketSort (key mn) (mx - mn + 1).toNat arr, s1, w, ?_, ?_,
    bucketSort_perm (key mn) arr (mx - mn + 1).toNat (fun x hx => by
      have := hkey x hx; omega), ?_, hwnd, hwlen, ?_⟩
  · simp only [sortTrace, hne, Bool.false_eq_true, if_false, hmn, hmx, Option.bind_eq_bind,
      Option.some_bind, hrange]
    exact hrun
  · apply bucketSort_pairwise
    · intro d
      apply pairwise_of_forall_mem
      intro x hx y hy
      rw [List.mem_filter] at hx hy
      have h1 : key mn x = d := by simpa using hx.2
      have h2 : key mn y = d := by simpa using hy.2
      rw [hkeyv x hx.1] at h1
      rw [hkeyv y hy.1] at h2
      omega
    · intro x hx y hy hxy
      rw [hkeyv x hx, hkeyv y hy] at hxy
      omega
  · intro x hx
    have := hkey x hx
    omega
  · intro p hp
    have := hwb p hp
    omega

end CountingSort

/-- Counterexample to C8 as stated: on the two-element vector `[0, 2147483647]` the expression
`maxVal - minVal + 1` leaves the range of `int`, the size of `count` becomes negative and
`CountingSort::sort` does not return a sorted vector. -/
theorem countingSort_wide_range_fails :
    ([0, 2147483647] : List Int) ≠ [] ∧ (∀ x ∈ ([0, 2147483647] : List Int), isInt32 x) ∧
      CountingSort.sort SortStats.zero [0, 2147483647] = none := by
  decide

/-- C8 (amended): for every non-empty integer sequence whose spread `maxVal - minVal` is below
`2147483647`, so that `maxVal - minVal + 1` fits an `int` (negative values included),
`CountingSort::sort` returns and leaves the sequence a non-decreasing permutation of its input;
every index `arr[i] - minVal` into `count` lies in `[0, maxVal - minVal]`; the destinations
written by the placement loop lie in `[0, n-1]`, are pairwise distinct and there are `n` of
them, so each output slot is written exactly once. -/
theorem countingSort_correct (s : SortStats) (arr : List Int) (mn mx : Int)
    (hmn : minElement arr = some mn) (hmx : maxElement arr = some mx)
    (hspread : mx - mn < 2147483647) :
    ∃ out s1 w, CountingSort.sortTrace s arr = some (out, s1, w) ∧
      CountingSort.sort s arr = some (out, s1) ∧ out.length = arr.length ∧
      List.Sorted (· ≤ ·) out ∧ out.Perm arr ∧
      (∀ x ∈ arr, 0 ≤ CountingSort.key mn x ∧ CountingSort.key mn x ≤ mx - mn) ∧
      w.Nodup ∧ w.length = arr.length ∧ ∀ p ∈ w, 0 ≤ p ∧ p ≤ (arr.length : Int) - 1 := by
  obtain ⟨out, s1, w, hrun, hs, hp, hidx, hwnd, hwlen, hwb⟩ :=
    CountingSort.sortTrace_spec s arr mn mx hmn hmx hspread
  refine ⟨out, s1, w, hrun, ?_, hp.length_eq, hs, hp, hidx, hwnd, hwlen, hwb⟩
  simp [CountingSort.sort, hrun]

theorem countingSort_correct_witness :
    (minElement [3, -1, 2, 3, 0, -1, 7] = some (-1) ∧ maxElement [3, -1, 2, 3, 0, -1, 7] = some 7 ∧
      (7 : Int) - (-1) < 2147483647) ∧
    ∃ out s1 w, CountingSort.sortTrace SortStats.zero [3, -1, 2, 3, 0, -1, 7] = some (out, s1, w) ∧
      CountingSort.sort SortStats.zero [3, -1, 2, 3, 0, -1, 7] = some (out, s1) ∧
      out.length = ([3, -1, 2, 3, 0, -1, 7] : List Int).length ∧
      List.Sorted (· ≤ ·) out ∧ out.Perm [3, -1, 2, 3, 0, -1, 7] ∧
      (∀ x ∈ ([3, -1, 2, 3, 0, -1, 7] : List Int),
        0 ≤ CountingSort.key (-1) x ∧ CountingSort.key (-1) x ≤ 7 - (-1)) ∧
      w.Nodup ∧ w.length = ([3, -1, 2, 3, 0, -1, 7] : List Int).length ∧
      ∀ p ∈ w, 0 ≤ p ∧ p ≤ (([3, -1, 2, 3, 0, -1, 7] : List Int).length : Int) - 1 :=
  ⟨by decide, countingSort_correct SortStats.zero [3, -1, 2, 3, 0, -1, 7] (-1) 7 (by decide)
    (by decide) (by decide)⟩

/-! ## Radix sort -/

theorem mod_split (a e : Int) (he : 0 < e) :
    a % (e * 10) = ((a / e) % 10) * e + a % e := by
  have h1 := Int.ediv_add_emod a e
  have h2 := Int.ediv_add_emod (a / e) 10
  have h3 := Int.emod_nonneg a (ne_of_gt he)
  have h4 := Int.emod_lt_of_pos a he
  have h5 := Int.emod_nonneg (a / e) (by decide : (10 : Int) ≠ 0)
  have h6 := Int.emod_lt_of_pos (a / e) (by decide : (0 : Int) < 10)
  have h7 : a = ((a / e) % 10) * e + a % e + (e * 10) * (a / e / 10) := by
    have : e * (a / e) = e * (10 * (a / e / 10) + a / e % 10) := by rw [h2]
    nlinarith
  have h8 : 0 ≤ ((a / e) % 10) * e := Int.mul_nonneg h5 (le_of_lt he)
  have h9 : ((a / e) % 10) * e ≤ 9 * e :=
    Int.mul_le_mul_of_nonneg_right (by omega) (le_of_lt he)
  conv_lhs => rw [h7]
  rw [Int.add_mul_emod_self_left]
  apply Int.emod_eq_of_lt
  · omega
  · omega

theorem bucketSort_filter (key : Int → Int) (arr : List Int) (d : Int) (m : Nat) :
    (bucketSort key m arr).filter (fun x => decide (key x = d))
      = if 0 ≤ d ∧ d < m then arr.filter (fun x => decide (key x = d)) else [] := by
  induction m with
  | zero =>
    have : ¬ (0 ≤ d ∧ d < ((0 : Nat) : Int)) := by omega
    rw [if_neg this]
    rfl
  | succ m ih =>
    rw [bucketSort_succ, List.filter_append, ih, List.filter_filter]
    by_cases hd : d = (m : Int)
    · have h1 : ¬ (0 ≤ d ∧ d < (m : Int)) := by omega
      have h2 : 0 ≤ d ∧ d < ((m + 1 : Nat) : Int) := by omega
      rw [if_neg h1, if_pos h2, List.nil_append]
      apply List.filter_congr
      intro x _
      subst hd
      simp
    · have h3 : arr.filter (fun a => decide (key a = d) && decide (key a = (m : Int))) = [] := by
        rw [List.filter_eq_nil_iff]
        intro x _
        simp only [Bool.and_eq_true, decide_eq_true_eq, not_and]
        intro h1 h2
        exact hd (by rw [← h1, h2])
      rw [h3, List.append_nil]
      by_cases hr : 0 ≤ d ∧ d < (m : Int)
      · have h2 : 0 ≤ d ∧ d < ((m + 1 : Nat) : Int) := by omega
        rw [if_pos hr, if_pos h2]
      · have h2 : ¬ (0 ≤ d ∧ d < ((m + 1 : Nat) : Int)) := by omega
        rw [if_neg hr, if_neg h2]

/-- The stable distribution keeps, for every key value, the elements of that key in their
original relative order. -/
theorem bucketSort_stable (key : Int → Int) (arr : List Int) (m : Nat)
    (h : ∀ x ∈ arr, 0 ≤ key x ∧ key x < m) (d : Int) :
    (bucketSort key m arr).filter (fun x => decide (key x = d))
      = arr.filter (fun x => decide (key x = d)) := by
  rw [bucketSort_filter]
  by_cases hr : 0 ≤ d ∧ d < (m : Int)
  · rw [if_pos hr]
  · rw [if_neg hr]
    symm
    rw [List.filter_eq_nil_iff]
    intro x hx
    have := h x hx
    simp only [decide_eq_true_eq]
    intro h1
    omega

/-- The stable distribution is ordered by key. -/
theorem bucketSort_key_sorted (key : Int → Int) (arr : List Int) (m : Nat) :
    List.Pairwise (fun a b => key a ≤ key b) (bucketSort key m arr) := by
  apply bucketSort_pairwise
  · intro d
    apply pairwise_of_forall_mem
    intro x hx y hy
    rw [List.mem_filter] at hx hy
    have h1 : key x = d := by simpa using hx.2
    have h2 : key y = d := by simpa using hy.2
    omega
  · intro x _ y _ hxy
    omega

namespace RadixSort

theorem digit_of_nonneg (e a : Int) (he : 0 < e) (ha : 0 ≤ a) :
    digit e a = (a / e) % 10 ∧ 0 ≤ digit e a ∧ digit e a < 10 := by
  have h0 : 0 ≤ a / e := Int.ediv_nonneg ha (le_of_lt he)
  have h1 : digit e a = (a / e) % 10 := by
    unfold digit
    rw [cdiv_of_nonneg a e ha (le_of_lt he), cmod_of_nonneg (a / e) 10 h0 (by decide)]
  rw [h1]
  exact ⟨rfl, Int.emod_nonneg _ (by decide), Int.emod_lt_of_pos _ (by decide)⟩

/-- One pass `countingSort(arr, exp)` over non-negative values returns the stable
distribution by the digit `(arr[i] / exp) % 10`. -/
theorem countingSort_spec (s : SortStats) (arr : List Int) (e : Int) (he : 0 < e)
    (hnn : ∀ x ∈ arr, 0 ≤ x) :
    ∃ s1, countingSort s arr e = some (bucketSort (digit e) 10 arr, s1) := by
  obtain ⟨s1, w, hrun, _⟩ := CountPass.run_spec (digit e) 10 s arr (by decide)
    (fun x hx => (digit_of_nonneg e x he (hnn x hx)).2)
  refine ⟨s1, ?_⟩
  unfold countingSort
  rw [hrun]
  rfl

theorem digitPass_perm (arr : List Int) (e : Int) (he : 0 < e) (hnn : ∀ x ∈ arr, 0 ≤ x) :
    (bucketSort (digit e) 10 arr).Perm arr :=
  bucketSort_perm (digit e) arr 10 (fun x hx => (digit_of_nonneg e x he (hnn x hx)).2)

/-- The least-significant-digit step: a sequence ordered by its value modulo `e` is, after
the stable pass on the digit of weight `e`, ordered by its value modulo `10 e`. -/
theorem pass_mod_sorted (arr : List Int) (e : Int) (he : 0 < e) (hnn : ∀ x ∈ arr, 0 ≤ x)
    (hs : List.Pairwise (fun a b => a % e ≤ b % e) arr) :
    List.Pairwise (fun a b => a % (e * 10) ≤ b % (e * 10)) (bucketSort (digit e) 10 arr) := by
  apply bucketSort_pairwise
  · intro d
    refine List.Pairwise.imp_of_mem ?_ (List.Pairwise.filter _ hs)
    intro x y hx hy hxy
    rw [List.mem_filter] at hx hy
    have h1 : digit e x = d := by simpa using hx.2
    have h2 : digit e y = d := by simpa using hy.2
    rw [(digit_of_nonneg e x he (hnn x hx.1)).1] at h1
    rw [(digit_of_nonneg e y he (hnn y hy.1)).1] at h2
    rw [mod_split x e he, mod_split y e he, h1, h2]
    omega
  · intro x hx y hy hxy
    rw [(digit_of_nonneg e x he (hnn x hx)).1, (digit_of_nonneg e y he (hnn y hy)).1] at hxy
    rw [mod_split x e he, mod_split y e he]
    have h3 := Int.emod_nonneg y (ne_of_gt he)
    have h4 := Int.emod_lt_of_pos x he
    have h5 : (x / e % 10 + 1) * e ≤ (y / e % 10) * e :=
      Int.mul_le_mul_of_nonneg_right (by omega) (le_of_lt he)
    have h6 : (x / e % 10 + 1) * e = (x / e % 10) * e + e := by ring
    omega

/-- A pass whose digit is monotone on the values present keeps a sorted sequence sorted. -/
theorem pass_keeps_sorted (arr : List Int) (e : Int) (he : 0 < e) (hnn : ∀ x ∈ arr, 0 ≤ x)
    (hsmall : ∀ x ∈ arr, x < 10 * e) (hs : List.Sorted (· ≤ ·) arr) :
    List.Sorted (· ≤ ·) (bucketSort (digit e) 10 arr) := by
  have hd : ∀ x ∈ arr, digit e x = x / e := by
    intro x hx
    rw [(digit_of_nonneg e x he (hnn x hx)).1]
    apply Int.emod_eq_of_lt (Int.ediv_nonneg (hnn x hx) (le_of_lt he))
    exact Int.ediv_lt_of_lt_mul he (hsmall x hx)
  apply bucketSort_pairwise
  · intro d
    exact List.Pairwise.filter _ hs
  · intro x hx y hy hxy
    rw [hd x hx, hd y hy] at hxy
    by_contra hc
    have := Int.ediv_le_ediv he (le_of_lt (not_le.1 hc))
    omega

end RadixSort

theorem sorted_of_mod_sorted (l : List Int) (e : Int)
    (hb : ∀ x ∈ l, 0 ≤ x ∧ x < e)
    (hs : List.Pairwise (fun a b => a % e ≤ b % e) l) : List.Sorted (· ≤ ·) l := by
  refine List.Pairwise.imp_of_mem ?_ hs
  intro x y hx hy hxy
  rw [Int.emod_eq_of_lt (hb x hx).1 (hb x hx).2, Int.emod_eq_of_lt (hb y hy).1 (hb y hy).2] at hxy
  exact hxy

namespace RadixSort

theorem cdiv_pos_iff (maxVal e : Int) (hm : 0 ≤ maxVal) (he : 0 < e) :
    cdiv maxVal e > 0 ↔ e ≤ maxVal := by
  rw [cdiv_of_nonneg maxVal e hm (le_of_lt he)]
  have := Int.le_ediv_iff_mul_le (a := 1) (b := maxVal) he
  constructor
  · intro h
    have h1 : (1 : Int) ≤ maxVal / e := h
    have := this.1 h1
    omega
  · intro h
    have h1 : (1 : Int) ≤ maxVal / e := this.2 (by omega)
    exact h1

theorem isInt32_pow_succ (k : Nat) (hk : k ≤ 8) : isInt32 ((10 : Int) ^ k * 10) := by
  interval_cases k <;> decide

/-- The loop of `sort` from the iteration with `exp = 10^k` on, for a maximum below `10^9`. -/
theorem sortLoop_spec (maxVal : Int) (hm0 : 0 ≤ maxVal) (hm1 : maxVal < 10 ^ 9) (n : Nat) :
    ∀ (k fuel : Nat) (s : SortStats) (l : List Int), k + n = 9 → n < fuel →
      (∀ x ∈ l, 0 ≤ x ∧ x ≤ maxVal) →
      List.Pairwise (fun a b => a % (10 : Int) ^ k ≤ b % (10 : Int) ^ k) l →
      ∃ out s1, sortLoop maxVal fuel s l (10 ^ k) = some (out, s1) ∧
        List.Sorted (· ≤ ·) out ∧ out.Perm l := by
  induction n with
  | zero =>
    intro k fuel s l hk hf hb hs
    obtain ⟨f, rfl⟩ : ∃ f, fuel = f + 1 := ⟨fuel - 1, by omega⟩
    have hk9 : k = 9 := by omega
    subst hk9
    have hne : ¬ ((10 : Int) ^ 9 = 0) := by norm_num
    have h1 : ¬ cdiv maxVal (10 ^ 9) > 0 := by
      intro h
      have := (cdiv_pos_iff maxVal _ hm0 (by norm_num)).1 h
      omega
    refine ⟨l, s, ?_, ?_, List.Perm.refl _⟩
    · rw [sortLoop, if_neg hne, if_neg h1]
      rfl
    · exact sorted_of_mod_sorted l ((10 : Int) ^ 9)
        (fun x hx => ⟨(hb x hx).1, by have := (hb x hx).2; omega⟩) hs
  | succ n ih =>
    intro k fuel s l hk hf hb hs
    obtain ⟨f, rfl⟩ : ∃ f, fuel = f + 1 := ⟨fuel - 1, by omega⟩
    have hk8 : k ≤ 8 := by omega
    have hnn : ∀ x ∈ l, 0 ≤ x := fun x hx => (hb x hx).1
    have hpos : (0 : Int) < 10 ^ k := by positivity
    have hne : ¬ ((10 : Int) ^ k = 0) := by omega
    by_cases h1 : cdiv maxVal (10 ^ k) > 0
    · obtain ⟨s1, hc1⟩ := countingSort_spec s l (10 ^ k) hpos hnn
      have hp1 := digitPass_perm l (10 ^ k) hpos hnn
      have hs1 := pass_mod_sorted l ((10 : Int) ^ k) hpos hnn hs
      rw [← pow_succ] at hs1
      obtain ⟨out, s2, hrun, hso, hpo⟩ := ih (k + 1) f s1 (bucketSort (digit (10 ^ k)) 10 l)
        (by omega) (by omega) (fun x hx => hb x (hp1.mem_iff.1 hx)) hs1
      refine ⟨out, s2, ?_, hso, hpo.trans hp1⟩
      rw [sortLoop, if_neg hne, if_pos h1, hc1]
      simp only [Option.bind_eq_bind, Option.some_bind]
      rw [if_pos (isInt32_pow_succ k hk8), ← pow_succ]
      exact hrun
    · refine ⟨l, s, ?_, ?_, List.Perm.refl _⟩
      · rw [sortLoop, if_neg hne, if_neg h1]
        rfl
      · have hlt : maxVal < 10 ^ k := by
          by_contra hc
          apply h1
          exact (cdiv_pos_iff maxVal _ hm0 hpos).2 (by omega)
        exact sorted_of_mod_sorted l ((10 : Int) ^ k)
          (fun x hx => ⟨(hb x hx).1, by have := (hb x hx).2; omega⟩) hs

/-- Specification of `RadixSort::sort` on non-negative values below `10^9`. -/
theorem rsort_spec (s : SortStats) (arr : List Int) (hnn : ∀ x ∈ arr, 0 ≤ x)
    (hlt : ∀ x ∈ arr, x < 10 ^ 9) :
    ∃ out s1, sort s arr = some (out, s1) ∧ List.Sorted (· ≤ ·) out ∧ out.Perm arr := by
  cases harr : arr with
  | nil => exact ⟨[], s, rfl, List.sorted_nil, List.Perm.refl _⟩
  | cons a t =>
    rw [← harr]
    have hne : arr.isEmpty = false := by rw [harr]; rfl
    obtain ⟨mx, hmx⟩ : ∃ mx, maxElement arr = some mx := by
      rw [harr]; exact ⟨_, rfl⟩
    obtain ⟨hmem, hmax⟩ := maxElement_spec arr mx hmx
    have hm0 : 0 ≤ mx := hnn mx hmem
    have hm1 : mx < 10 ^ 9 := hlt mx hmem
    have h := sortLoop_spec mx hm0 hm1 9 0 16 s arr (by omega)
      (by omega) (fun x hx => ⟨hnn x hx, hmax x hx⟩)
      (pairwise_of_forall_mem _ arr (fun x _ y _ => by simp))
    rw [pow_zero] at h
    obtain ⟨out, s1, hrun, hso, hpo⟩ := h
    refine ⟨out, s1, ?_, hso, hpo⟩
    simp only [sort, hne, Bool.false_eq_true, if_false, hmx, Option.bind_eq_bind,
      Option.some_bind]
    exact hrun

/-- The passes for `exp = 10^j, 10^(j+1), ...`, taken `k` times, return and turn a sequence
ordered modulo `10^j` into one ordered modulo `10^(j+k)`. -/
theorem passesFrom_spec (k : Nat) :
    ∀ (j : Nat) (s : SortStats) (l : List Int), (∀ x ∈ l, 0 ≤ x) →
      List.Pairwise (fun a b => a % (10 : Int) ^ j ≤ b % (10 : Int) ^ j) l →
      ∃ out s1, passesFrom k s l (10 ^ j) = some (out, s1) ∧ out.Perm l ∧
        List.Pairwise (fun a b => a % (10 : Int) ^ (j + k) ≤ b % (10 : Int) ^ (j + k)) out := by
  induction k with
  | zero =>
    intro j s l _ hs
    exact ⟨l, s, rfl, List.Perm.refl _, hs⟩
  | succ k ih =>
    intro j s l hnn hs
    have hpos : (0 : Int) < 10 ^ j := by positivity
    obtain ⟨s1, hc1⟩ := countingSort_spec s l (10 ^ j) hpos hnn
    have hp1 := digitPass_perm l (10 ^ j) hpos hnn
    have hs1 := pass_mod_sorted l ((10 : Int) ^ j) hpos hnn hs
    rw [← pow_succ] at hs1
    obtain ⟨out, s2, hrun, hpo, hso⟩ := ih (j + 1) s1 (bucketSort (digit (10 ^ j)) 10 l)
      (fun x hx => hnn x (hp1.mem_iff.1 hx)) hs1
    refine ⟨out, s2, ?_, hpo.trans hp1, ?_⟩
    · rw [passesFrom, hc1]
      simp only [Option.bind_eq_bind, Option.some_bind]
      rw [← pow_succ]
      exact hrun
    · have e : j + (k + 1) = j + 1 + k := by omega
      rw [e]
      exact hso

end RadixSort

namespace RadixSort

/-- When the maximum has `k ≤ 9` decimal digits, the loop of `sort` performs exactly the
passes for `exp = 10^j, ..., 10^(k-1)`. -/
theorem sortLoop_eq_passes (maxVal : Int) (k : Nat) (hk9 : k ≤ 9) (hm0 : 0 ≤ maxVal)
    (hlt : maxVal < 10 ^ k) (hge : k = 0 ∨ (10 : Int) ^ (k - 1) ≤ maxVal) (n : Nat) :
    ∀ (j fuel : Nat) (s : SortStats) (l : List Int), j + n = k → n < fuel →
      (∀ x ∈ l, 0 ≤ x) →
      sortLoop maxVal fuel s l (10 ^ j) = passesFrom n s l (10 ^ j) := by
  induction n with
  | zero =>
    intro j fuel s l hj hf _
    obtain ⟨f, rfl⟩ : ∃ f, fuel = f + 1 := ⟨fuel - 1, by omega⟩
    have hjk : j = k := by omega
    subst hjk
    have hpos : (0 : Int) < 10 ^ j := by positivity
    have hne : ¬ ((10 : Int) ^ j = 0) := by omega
    have h1 : ¬ cdiv maxVal (10 ^ j) > 0 := by
      intro h
      have := (cdiv_pos_iff maxVal _ hm0 hpos).1 h
      omega
    rw [sortLoop, if_neg hne, if_neg h1]
    rfl
  | succ n ih =>
    intro j fuel s l hj hf hnn
    obtain ⟨f, rfl⟩ : ∃ f, fuel = f + 1 := ⟨fuel - 1, by omega⟩
    have hpos : (0 : Int) < 10 ^ j := by positivity
    have hne : ¬ ((10 : Int) ^ j = 0) := by omega
    have hle : (10 : Int) ^ j ≤ 10 ^ (k - 1) :=
      pow_le_pow_right₀ (by decide) (by omega)
    have hmx : (10 : Int) ^ (k - 1) ≤ maxVal := by
      rcases hge with h | h
      · omega
      · exact h
    have h1 : cdiv maxVal (10 ^ j) > 0 :=
      (cdiv_pos_iff maxVal _ hm0 hpos).2 (le_trans hle hmx)
    obtain ⟨s1, hc1⟩ := countingSort_spec s l (10 ^ j) hpos hnn
    have hp1 := digitPass_perm l (10 ^ j) hpos hnn
    rw [sortLoop, if_neg hne, if_pos h1, passesFrom, hc1]
    simp only [Option.bind_eq_bind, Option.some_bind]
    rw [if_pos (isInt32_pow_succ j (by omega)), ← pow_succ]
    exact ih (j + 1) f s1 _ (by omega) (by omega) (fun x hx => hnn x (hp1.mem_iff.1 hx))

/-- When the maximum is at least `10^9`, the loop of `sort` runs the passes up to
`exp = 10^9` and then meets the step `exp *= 10` whose product `10^10` is not representable
in `int`. -/
theorem sortLoop_overflow (maxVal : Int) (hm : (10 : Int) ^ 9 ≤ maxVal) (n : Nat) :
    ∀ (j fuel : Nat) (s : SortStats) (l : List Int), j + n = 9 → n < fuel →
      (∀ x ∈ l, 0 ≤ x) → sortLoop maxVal fuel s l (10 ^ j) = none := by
  induction n with
  | zero =>
    intro j fuel s l hj hf hnn
    obtain ⟨f, rfl⟩ : ∃ f, fuel = f + 1 := ⟨fuel - 1, by omega⟩
    have hj9 : j = 9 := by omega
    subst hj9
    have hne : ¬ ((10 : Int) ^ 9 = 0) := by norm_num
    have h1 : cdiv maxVal (10 ^ 9) > 0 :=
      (cdiv_pos_iff maxVal _ (by omega) (by norm_num)).2 hm
    obtain ⟨s1, hc1⟩ := countingSort_spec s l (10 ^ 9) (by norm_num) hnn
    have hov : ¬ isInt32 ((10 : Int) ^ 9 * 10) := by decide
    rw [sortLoop, if_neg hne, if_pos h1, hc1]
    simp only [Option.bind_eq_bind, Option.some_bind]
    rw [if_neg hov]
  | succ n ih =>
    intro j fuel s l hj hf hnn
    obtain ⟨f, rfl⟩ : ∃ f, fuel = f + 1 := ⟨fuel - 1, by omega⟩
    have hpos : (0 : Int) < 10 ^ j := by positivity
    have hne : ¬ ((10 : Int) ^ j = 0) := by omega
    have hle : (10 : Int) ^ j ≤ 10 ^ 9 :=
      pow_le_pow_right₀ (by decide) (by omega)
    have h1 : cdiv maxVal (10 ^ j) > 0 :=
      (cdiv_pos_iff maxVal _ (by omega) hpos).2 (le_trans hle hm)
    obtain ⟨s1, hc1⟩ := countingSort_spec s l (10 ^ j) hpos hnn
    have hp1 := digitPass_perm l (10 ^ j) hpos hnn
    rw [sortLoop, if_neg hne, if_pos h1, hc1]
    simp only [Option.bind_eq_bind, Option.some_bind]
    rw [if_pos (isInt32_pow_succ j (by omega)), ← pow_succ]
    exact ih (j + 1) f s1 _ (by omega) (by omega) (fun x hx => hnn x (hp1.mem_iff.1 hx))

/-- On non-negative input with an element of at least `10^9`, `sort` does not return a
result: the step `exp *= 10` after the pass for `exp = 10^9` overflows. -/
theorem sort_overflow (s : SortStats) (arr : List Int) (hnn : ∀ x ∈ arr, 0 ≤ x)
    (hbig : ∃ x ∈ arr, (10 : Int) ^ 9 ≤ x) : sort s arr = none := by
  obtain ⟨x, hx, hxe⟩ := hbig
  cases harr : arr with
  | nil =>
    rw [harr] at hx
    exact absurd hx (List.not_mem_nil x)
  | cons a t =>
    rw [← harr]
    have hne : arr.isEmpty = false := by rw [harr]; rfl
    obtain ⟨mx, hmx⟩ : ∃ mx, maxElement arr = some mx := by
      rw [harr]; exact ⟨_, rfl⟩
    obtain ⟨hmem, hmax⟩ := maxElement_spec arr mx hmx
    have h := sortLoop_overflow mx (le_trans hxe (hmax x hx)) 9 0 16 s arr (by omega)
      (by omega) hnn
    rw [pow_zero] at h
    simp only [sort, hne, Bool.false_eq_true, if_false, hmx, Option.bind_eq_bind,
      Option.some_bind]
    exact h

end RadixSort

/-- C9: on every sequence `arr` of non-negative integers below `10^9`, `RadixSort::sort`
returns and leaves the sequence a non-decreasing permutation of its input.  On every sequence
`a` of non-negative integers, each pass `countingSort(a, exp)` with `exp > 0` returns a
permutation of `a` that is ordered by the digit `(a[i] / exp) % 10` and stable (for every
digit value the elements of that digit keep their relative order); after the `k` passes for
`exp = 1, 10, ..., 10^(k-1)`, where every element is below `10^k`, the sequence is ordered by
full value; when moreover some element reaches `10^(k-1)` and `k ≤ 9`, these are exactly the
passes that `sort` performs.  On a sequence `big` of non-negative integers with an element of
at least `10^9`, the ten passes for `exp = 1, ..., 10^9` return, the following step
`exp *= 10` has the product `10^10`, which is not representable in `int`, and `sort` yields no
result; so it is on `[1000000000]`. -/
theorem radixSort_nonneg_correct (s : SortStats) (arr a big : List Int) (exp : Int) (k : Nat)
    (hnn : ∀ x ∈ arr, 0 ≤ x) (hlt : ∀ x ∈ arr, x < 10 ^ 9)
    (ha : ∀ x ∈ a, 0 ≤ x) (hexp : 0 < exp) (hk : ∀ x ∈ a, x < 10 ^ k)
    (hb : ∀ x ∈ big, 0 ≤ x) (hbig : ∃ x ∈ big, (10 : Int) ^ 9 ≤ x) :
    (∃ out s1, RadixSort.sort s arr = some (out, s1) ∧ out.length = arr.length ∧
      List.Sorted (· ≤ ·) out ∧ out.Perm arr) ∧
    (∃ out s1, RadixSort.countingSort s a exp = some (out, s1) ∧ out.Perm a ∧
      List.Pairwise (fun x y => RadixSort.digit exp x ≤ RadixSort.digit exp y) out ∧
      ∀ d : Int, out.filter (fun x => decide (RadixSort.digit exp x = d))
        = a.filter (fun x => decide (RadixSort.digit exp x = d))) ∧
    (∃ out s1, RadixSort.passesFrom k s a 1 = some (out, s1) ∧
      List.Sorted (· ≤ ·) out ∧ out.Perm a ∧
      (k ≤ 9 → (k = 0 ∨ ∃ x ∈ a, (10 : Int) ^ (k - 1) ≤ x) →
        RadixSort.sort s a = some (out, s1))) ∧
    ((∃ r, RadixSort.passesFrom 10 s big 1 = some r) ∧ ¬ isInt32 ((10 : Int) ^ 9 * 10) ∧
      RadixSort.sort s big = none) ∧
    RadixSort.sort SortStats.zero [1000000000] = none := by
  refine ⟨?_, ?_, ?_, ⟨?_, by decide, RadixSort.sort_overflow s big hb hbig⟩, by decide⟩
  · obtain ⟨out, s1, h1, h2, h3⟩ := RadixSort.rsort_spec s arr hnn hlt
    exact ⟨out, s1, h1, h3.length_eq, h2, h3⟩
  · obtain ⟨s1, hc⟩ := RadixSort.countingSort_spec s a exp hexp ha
    have hd : ∀ x ∈ a, 0 ≤ RadixSort.digit exp x ∧ RadixSort.digit exp x < ((10 : Nat) : Int) :=
      fun x hx => (RadixSort.digit_of_nonneg exp x hexp (ha x hx)).2
    exact ⟨_, s1, hc, RadixSort.digitPass_perm a exp hexp ha,
      bucketSort_key_sorted (RadixSort.digit exp) a 10,
      fun d => bucketSort_stable (RadixSort.digit exp) a 10 hd d⟩
  · obtain ⟨out, s1, hrun, hp, hs⟩ := RadixSort.passesFrom_spec k 0 s a ha
      (pairwise_of_forall_mem _ a (fun x _ y _ => by simp))
    rw [pow_zero] at hrun
    rw [Nat.zero_add] at hs
    have hso : List.Sorted (· ≤ ·) out :=
      sorted_of_mod_sorted out ((10 : Int) ^ k)
        (fun x hx => ⟨ha x (hp.mem_iff.1 hx), hk x (hp.mem_iff.1 hx)⟩) hs
    refine ⟨out, s1, hrun, hso, hp, ?_⟩
    intro hk9 hge
    cases harr : a with
    | nil =>
      rw [harr] at hrun
      rcases hge with h0 | ⟨x, hx, _⟩
      · subst h0
        rw [← hrun]
        rfl
      · rw [harr] at hx
        exact absurd hx (List.not_mem_nil x)
    | cons a0 t =>
      rw [← harr]
      have hne : a.isEmpty = false := by rw [harr]; rfl
      obtain ⟨mx, hmx⟩ : ∃ mx, maxElement a = some mx := by
        rw [harr]; exact ⟨_, rfl⟩
      obtain ⟨hmem, hmax⟩ := maxElement_spec a mx hmx
      have hge2 : k = 0 ∨ (10 : Int) ^ (k - 1) ≤ mx := by
        rcases hge with h0 | ⟨x, hx, hxe⟩
        · exact Or.inl h0
        · exact Or.inr (le_trans hxe (hmax x hx))
      have heq := RadixSort.sortLoop_eq_passes mx k hk9 (ha mx hmem) (hk mx hmem) hge2 k 0 16 s
        a (by omega) (by omega) ha
      simp only [RadixSort.sort, hne, Bool.false_eq_true, if_false, hmx, Option.bind_eq_bind,
        Option.some_bind]
      rw [pow_zero] at heq
      rw [heq]
      exact hrun
  · obtain ⟨out, s1, hrun, -, -⟩ := RadixSort.passesFrom_spec 10 0 s big hb
      (pairwise_of_forall_mem _ big (fun x _ y _ => by simp))
    rw [pow_zero] at hrun
    exact ⟨_, hrun⟩

theorem radixSort_nonneg_correct_witness :
    ((∀ x ∈ ([999999999, 5, 0, 31] : List Int), 0 ≤ x) ∧
      (∀ x ∈ ([999999999, 5, 0, 31] : List Int), x < 10 ^ 9) ∧
      (∀ x ∈ ([170, 45, 75, 90, 802, 24, 2, 66] : List Int), 0 ≤ x) ∧ (0 : Int) < 10 ∧
      (∀ x ∈ ([170, 45, 75, 90, 802, 24, 2, 66] : List Int), x < 10 ^ 3) ∧
      (∀ x ∈ ([7, 2147483647] : List Int), 0 ≤ x) ∧
      (∃ x ∈ ([7, 2147483647] : List Int), (10 : Int) ^ 9 ≤ x)) ∧
    ((∃ out s1, RadixSort.sort SortStats.zero [999999999, 5, 0, 31] = some (out, s1) ∧
      out.length = ([999999999, 5, 0, 31] : List Int).length ∧
      List.Sorted (· ≤ ·) out ∧ out.Perm [999999999, 5, 0, 31]) ∧
    (∃ out s1, RadixSort.countingSort SortStats.zero [170, 45, 75, 90, 802, 24, 2, 66] 10
        = some (out, s1) ∧ out.Perm [170, 45, 75, 90, 802, 24, 2, 66] ∧
      List.Pairwise (fun x y => RadixSort.digit 10 x ≤ RadixSort.digit 10 y) out ∧
      ∀ d : Int, out.filter (fun x => decide (RadixSort.digit 10 x = d))
        = ([170, 45, 75, 90, 802, 24, 2, 66] : List Int).filter
            (fun x => decide (RadixSort.digit 10 x = d))) ∧
    (∃ out s1, RadixSort.passesFrom 3 SortStats.zero [170, 45, 75, 90, 802, 24, 2, 66] 1
        = some (out, s1) ∧
      List.Sorted (· ≤ ·) out ∧ out.Perm [170, 45, 75, 90, 802, 24, 2, 66] ∧
      (3 ≤ 9 → (3 = 0 ∨ ∃ x ∈ ([170, 45, 75, 90, 802, 24, 2, 66] : List Int),
          (10 : Int) ^ (3 - 1) ≤ x) →
        RadixSort.sort SortStats.zero [170, 45, 75, 90, 802, 24, 2, 66] = some (out, s1))) ∧
    ((∃ r, RadixSort.passesFrom 10 SortStats.zero [7, 2147483647] 1 = some r) ∧
      ¬ isInt32 ((10 : Int) ^ 9 * 10) ∧
      RadixSort.sort SortStats.zero [7, 2147483647] = none) ∧
    RadixSort.sort SortStats.zero [1000000000] = none) :=
  ⟨⟨by decide, by decide, by decide, by decide, by decide, by decide, by decide⟩,
    radixSort_nonneg_correct SortStats.zero [999999999, 5, 0, 31]
      [170, 45, 75, 90, 802, 24, 2, 66] [7, 2147483647] 10 3
      (by decide) (by decide) (by decide) (by decide) (by decide) (by decide) (by decide)⟩

theorem rd_some_bounds (a : List Int) (i v : Int) (h : rd a i = some v) :
    0 ≤ i ∧ i < a.length := by
  unfold rd at h
  by_cases h0 : 0 ≤ i
  · rw [if_pos h0] at h
    have := List.getElem?_eq_some_iff.1 h
    obtain ⟨hlt, _⟩ := this
    exact ⟨h0, by omega⟩
  · rw [if_neg h0] at h
    exact absurd h (by simp)

namespace CountPass

/-- When the histogram loop returns, every index `key(arr[j])` it used was inside `count`. -/
theorem histLoop_some_keys (key : Int → Int) (arr : List Int) (fuel : Nat) :
    ∀ (count : List Int) (s : SortStats) (i : Nat) (r : List Int × SortStats),
      histLoop key arr fuel count s i = some r →
      ∀ j : Nat, i ≤ j → j < arr.length →
        0 ≤ key (arr.getD j 0) ∧ key (arr.getD j 0) < count.length := by
  induction fuel with
  | zero =>
    intro count s i r h
    simp [histLoop] at h
  | succ fuel ih =>
    intro count s i r h j hij hj
    have hi : ((i : Nat) : Int) < arr.length := by omega
    rw [histLoop, if_pos hi, rd_eq_getD arr i (by omega) hi] at h
    simp only [Option.bind_eq_bind, Option.some_bind, Int.toNat_ofNat] at h
    cases hc : rd count (key (arr.getD i 0)) with
    | none =>
      rw [hc] at h
      simp at h
    | some c =>
      rw [hc] at h
      obtain ⟨hb0, hb1⟩ := rd_some_bounds _ _ _ hc
      simp only [Option.some_bind] at h
      rw [wr_eq_set count _ _ hb0 hb1] at h
      simp only [Option.some_bind] at h
      by_cases hji : j = i
      · subst hji
        exact ⟨hb0, hb1⟩
      · have h2 : histLoop key arr fuel (count.set (key (arr.getD i 0)).toNat (c + 1))
            { s with comparisons := s.comparisons + 1 } ((i + 1 : Nat) : Int) = some r := by
          rw [← h]
          congr 1
        have := ih _ _ (i + 1) r h2 j (by omega) hj
        rw [List.length_set] at this
        exact this

/-- When one counting pass returns, it returns the stable distribution into buckets. -/
theorem run_some (key : Int → Int) (range : Int) (s : SortStats) (arr : List Int)
    (r : List Int × SortStats × List Int) (h : run key range s arr = some r) :
    0 ≤ range ∧ r.1 = bucketSort key range.toNat arr ∧
      ∀ x ∈ arr, 0 ≤ key x ∧ key x < range := by
  by_cases hneg : range < 0
  · simp [run, hneg] at h
  · have hkey : ∀ x ∈ arr, 0 ≤ key x ∧ key x < range := by
      have h2 := h
      rw [run, if_neg hneg] at h2
      simp only [Option.bind_eq_bind] at h2
      cases hh : histLoop key arr (arr.length + 1) (List.replicate range.toNat 0) s 0 with
      | none =>
        rw [hh] at h2
        simp at h2
      | some hr =>
        intro x hx
        obtain ⟨j, hj, hxj⟩ := List.getElem_of_mem hx
        have := histLoop_some_keys key arr _ _ s 0 hr hh j (by omega) hj
        rw [List.getD_eq_getElem _ _ hj, hxj, List.length_replicate] at this
        omega
    obtain ⟨s1, w, hrun, _⟩ := run_spec key range s arr (by omega) hkey
    rw [hrun] at h
    refine ⟨by omega, ?_, hkey⟩
    rw [← Option.some.inj h]

end CountPass

namespace RadixSort

theorem countingSort_some_perm (s : SortStats) (arr : List Int) (e : Int)
    (r : List Int × SortStats) (h : countingSort s arr e = some r) : r.1.Perm arr := by
  unfold countingSort at h
  cases hr : CountPass.run (digit e) 10 s arr with
  | none =>
    rw [hr] at h
    simp at h
  | some q =>
    rw [hr] at h
    obtain ⟨_, h2, h3⟩ := CountPass.run_some (digit e) 10 s arr q hr
    have h4 : r.1 = q.1 := by
      rw [← Option.some.inj h]
    rw [h4, h2]
    exact bucketSort_perm (digit e) arr 10 h3

end RadixSort

/-- Counterexample to C10 as stated: on `[0, -1]` the maximum is `0`, the loop of
`RadixSort::sort` performs no pass and the method returns the sequence unchanged, which is
not non-decreasing. -/
theorem radixSort_negative_fails :
    RadixSort.sort SortStats.zero [0, -1] = some ([0, -1], SortStats.zero) ∧
      ¬ List.Sorted (· ≤ ·) ([0, -1] : List Int) := by
  refine ⟨by decide, ?_⟩
  simp [List.Sorted]

/-- C10 (amended): on every sequence `arr` of non-negative integers below `10^9`,
`RadixSort::sort` returns with the sequence non-decreasing (every adjacent pair in order) and
with the same multiset of elements as the input.  Negative values are not handled: a
sequence `neg` without a positive element has a maximum that ends the loop before its first
pass and is returned as it is, in whatever order it was. -/
theorem radixSort_amended (s : SortStats) (arr neg : List Int)
    (hnn : ∀ x ∈ arr, 0 ≤ x) (hlt : ∀ x ∈ arr, x < 10 ^ 9) (hneg : ∀ x ∈ neg, x ≤ 0) :
    (∃ out s1, RadixSort.sort s arr = some (out, s1) ∧ List.Sorted (· ≤ ·) out ∧
      List.Chain' (· ≤ ·) out ∧ (out : Multiset Int) = (arr : Multiset Int)) ∧
    RadixSort.sort s neg = some (neg, s) := by
  constructor
  · obtain ⟨out, s1, h1, h2, h3⟩ := RadixSort.rsort_spec s arr hnn hlt
    exact ⟨out, s1, h1, h2, List.Pairwise.chain' h2, Multiset.coe_eq_coe.2 h3⟩
  · cases hneg2 : neg with
    | nil => rfl
    | cons a t =>
      rw [← hneg2]
      have hne : neg.isEmpty = false := by rw [hneg2]; rfl
      obtain ⟨mx, hmx⟩ : ∃ mx, maxElement neg = some mx := by
        rw [hneg2]; exact ⟨_, rfl⟩
      obtain ⟨hmem, -⟩ := maxElement_spec neg mx hmx
      have h1 : ¬ cdiv mx 1 > 0 := by
        unfold cdiv
        rw [Int.tdiv_one]
        have := hneg mx hmem
        omega
      simp only [RadixSort.sort, hne, Bool.false_eq_true, if_false, hmx, Option.bind_eq_bind,
        Option.some_bind]
      rw [RadixSort.sortLoop, if_neg (by decide), if_neg h1]
      rfl

theorem radixSort_amended_witness :
    ((∀ x ∈ ([5, 3, 0, 12] : List Int), 0 ≤ x) ∧ (∀ x ∈ ([5, 3, 0, 12] : List Int), x < 10 ^ 9) ∧
      (∀ x ∈ ([-10, -20, 0] : List Int), x ≤ 0)) ∧
    ((∃ out s1, RadixSort.sort SortStats.zero [5, 3, 0, 12] = some (out, s1) ∧
      List.Sorted (· ≤ ·) out ∧ List.Chain' (· ≤ ·) out ∧
      (out : Multiset Int) = (([5, 3, 0, 12] : List Int) : Multiset Int)) ∧
      RadixSort.sort SortStats.zero [-10, -20, 0] = some ([-10, -20, 0], SortStats.zero)) :=
  ⟨⟨by decide, by decide, by decide⟩,
    radixSort_amended SortStats.zero [5, 3, 0, 12] [-10, -20, 0] (by decide) (by decide)
      (by decide)⟩

/-! ## Empty and one-element inputs -/

theorem some_of_sorted_perm_small {σ : Type} (r : Option (List Int × σ)) (l : List Int)
    (h : ∃ out s1, r = some (out, s1) ∧ List.Sorted (· ≤ ·) out ∧ out.Perm l)
    (hl : l.length ≤ 1) : ∃ s1, r = some (l, s1) := by
  obtain ⟨out, s1, hr, _, hp⟩ := h
  refine ⟨s1, ?_⟩
  rw [hr]
  have : out = l := by
    match l, hl, hp with
    | [], _, hp => exact List.Perm.eq_nil hp
    | [x], _, hp => exact List.perm_singleton.1 hp
  rw [this]

namespace RadixSort

/-- On a one-element vector whose element is below `10^9`, `sort` leaves the vector as it
is. -/
theorem sort_single (s : SortStats) (x : Int) (hx : x < 10 ^ 9) :
    ∃ s1, sort s [x] = some ([x], s1) := by
  by_cases h0 : 0 ≤ x
  · have hnn : ∀ y ∈ [x], 0 ≤ y := by
      intro y hy
      rw [List.mem_singleton] at hy
      rw [hy]; exact h0
    have hlt : ∀ y ∈ [x], y < 10 ^ 9 := by
      intro y hy
      rw [List.mem_singleton] at hy
      rw [hy]; exact hx
    exact some_of_sorted_perm_small _ _ (rsort_spec s [x] hnn hlt) (le_refl _)
  · refine ⟨s, ?_⟩
    have h1 : ¬ cdiv x 1 > 0 := by
      unfold cdiv
      rw [Int.tdiv_one]
      omega
    show sortLoop x 16 s [x] 1 = some ([x], s)
    rw [sortLoop, if_neg (by decide), if_neg h1]
    rfl

/-- On a one-element vector whose element is at least `10^9`, `sort` yields no result. -/
theorem sort_single_overflow (s : SortStats) (x : Int) (hx : (10 : Int) ^ 9 ≤ x) :
    sort s [x] = none := by
  apply sort_overflow s [x]
  · intro y hy
    rw [List.mem_singleton] at hy
    rw [hy]; omega
  · exact ⟨x, List.mem_singleton.2 rfl, hx⟩

end RadixSort

/-- C11: each of the `sort` methods of Insertion, Merge, Quick, Heap, Intro, Tim, Shell and
Counting sort returns on the empty vector and on every one-element vector `[x]`, with all its
reads and writes in range, and leaves the vector as it was.  This includes
`InsertionSort::sort` and `TimSort::sort`, which have no size guard (`arr.size() - 1` is `-1`
and `minRun` is `0` on the empty vector), and `CountingSort::sort`, which returns before
taking the minimum or maximum of an empty range.  `RadixSort::sort` returns the empty vector
as it is, before taking the maximum, and leaves `[x]` as it was for every `x` below `10^9`;
for `x` of at least `10^9` the loop reaches the step `exp *= 10` with `exp = 10^9`, whose
product is not representable in `int`, and `sort` yields no result: so it is on
`[2147483647]`. -/
theorem sort_empty_and_singleton (s : SortStats) (st : IntroSortState) (tt : TimSortState)
    (x : Int) :
    ((∃ s1, InsertionSort.sort s [] = some ([], s1)) ∧
      ∃ s1, InsertionSort.sort s [x] = some ([x], s1)) ∧
    ((∃ s1, MergeSort.sort s [] = some ([], s1)) ∧
      ∃ s1, MergeSort.sort s [x] = some ([x], s1)) ∧
    ((∃ s1, QuickSort.sort s [] = some ([], s1)) ∧
      ∃ s1, QuickSort.sort s [x] = some ([x], s1)) ∧
    ((∃ s1, HeapSort.sort s [] = some ([], s1)) ∧
      ∃ s1, HeapSort.sort s [x] = some ([x], s1)) ∧
    ((∃ st1, IntroSort.sort st [] = some ([], st1)) ∧
      ∃ st1, IntroSort.sort st [x] = some ([x], st1)) ∧
    ((∃ tt1, TimSort.sort tt [] = some ([], tt1)) ∧
      ∃ tt1, TimSort.sort tt [x] = some ([x], tt1)) ∧
    ((∃ s1, ShellSort.sort s [] = some ([], s1)) ∧
      ∃ s1, ShellSort.sort s [x] = some ([x], s1)) ∧
    (CountingSort.sort s [] = some ([], s) ∧
      ∃ s1, CountingSort.sort s [x] = some ([x], s1)) ∧
    (RadixSort.sort s [] = some ([], s) ∧
      (x < 10 ^ 9 → ∃ s1, RadixSort.sort s [x] = some ([x], s1)) ∧
      ((10 : Int) ^ 9 ≤ x → RadixSort.sort s [x] = none) ∧
      RadixSort.sort SortStats.zero [2147483647] = none) := by
  have h0 : ([] : List Int).length ≤ 1 := by decide
  have h1 : ([x] : List Int).length ≤ 1 := le_refl _
  refine ⟨⟨?_, ?_⟩, ⟨?_, ?_⟩, ⟨?_, ?_⟩, ⟨?_, ?_⟩, ⟨?_, ?_⟩, ⟨?_, ?_⟩, ⟨?_, ?_⟩, ⟨rfl, ?_⟩,
    ⟨rfl, ?_, ?_, ?_⟩⟩
  · exact some_of_sorted_perm_small _ _ (InsertionSort.sort_spec s []) h0
  · exact some_of_sorted_perm_small _ _ (InsertionSort.sort_spec s [x]) h1
  · exact some_of_sorted_perm_small _ _ (MergeSort.msort_spec s []) h0
  · exact some_of_sorted_perm_small _ _ (MergeSort.msort_spec s [x]) h1
  · exact some_of_sorted_perm_small _ _ (QuickSort.qsort_spec s []) h0
  · exact some_of_sorted_perm_small _ _ (QuickSort.qsort_spec s [x]) h1
  · exact some_of_sorted_perm_small _ _ (HeapSort.hsort_spec s []) h0
  · exact some_of_sorted_perm_small _ _ (HeapSort.hsort_spec s [x]) h1
  · exact some_of_sorted_perm_small _ _ (IntroSort.introsort_sort_spec st []) h0
  · exact some_of_sorted_perm_small _ _ (IntroSort.introsort_sort_spec st [x]) h1
  · exact some_of_sorted_perm_small _ _ (TimSort.timSort_spec tt []) h0
  · exact some_of_sorted_perm_small _ _ (TimSort.timSort_spec tt [x]) h1
  · exact some_of_sorted_perm_small _ _ (ShellSort.shell_sort_spec s []) h0
  · exact some_of_sorted_perm_small _ _ (ShellSort.shell_sort_spec s [x]) h1
  · obtain ⟨out, s1, w, hrun, hs, hp, _⟩ :=
      CountingSort.sortTrace_spec s [x] x x rfl rfl (by omega)
    refine ⟨s1, ?_⟩
    rw [List.perm_singleton.1 hp] at hrun
    simp [CountingSort.sort, hrun]
  · exact RadixSort.sort_single s x
  · exact RadixSort.sort_single_overflow s x
  · exact RadixSort.sort_single_overflow SortStats.zero 2147483647 (by decide)

/-! ## Counters of the private sub-instances -/

namespace IntroSort

/-- Every delegated call is followed by a reset of the sub-instance: the recursion returns
with zeroed sub-instance counters when it is entered with zeroed ones. -/
theorem introSort_subs (fuel : Nat) :
    ∀ (st : IntroSortState) (arr : List Int) (left right depthLimit : Int)
      (res : List Int × IntroSortState),
      introSort fuel st arr left right depthLimit = some res →
      st.insertionSort = SortStats.zero → st.heapSort = SortStats.zero →
      res.2.insertionSort = SortStats.zero ∧ res.2.heapSort = SortStats.zero := by
  induction fuel with
  | zero =>
    intro st arr left right depthLimit res h
    simp [introSort] at h
  | succ fuel ih =>
    intro st arr left right depthLimit res h hi hh
    rw [introSort] at h
    simp only at h
    by_cases h16 : right - left + 1 ≤ 16
    · rw [if_pos h16] at h
      cases hr : InsertionSort.sortRange st.insertionSort arr left right with
      | none => rw [hr] at h; simp at h
      | some r =>
        rw [hr] at h
        simp only [Option.bind_eq_bind, Option.some_bind] at h
        have := Option.some.inj h
        rw [← this]
        exact ⟨rfl, hh⟩
    · rw [if_neg h16] at h
      by_cases hd : depthLimit = 0
      · rw [if_pos hd] at h
        simp only [Option.bind_eq_bind] at h
        by_cases hb : 0 ≤ left ∧ right < (arr.length : Int)
        · rw [if_pos hb] at h
          simp only [Option.some_bind] at h
          cases hhs : HeapSort.sort st.heapSort (seg arr left right) with
          | none => rw [hhs] at h; simp at h
          | some hres =>
            rw [hhs] at h
            simp only [Option.some_bind] at h
            cases hc : copyIn left hres.1 (hres.1.length + 1) arr 0 with
            | none => rw [hc] at h; simp at h
            | some arr1 =>
              rw [hc] at h
              simp only [Option.some_bind] at h
              have := Option.some.inj h
              rw [← this]
              exact ⟨hi, rfl⟩
        · rw [if_neg hb] at h
          simp at h
      · rw [if_neg hd] at h
        simp only [Option.bind_eq_bind] at h
        cases hp : partition st.stats arr left right with
        | none => rw [hp] at h; simp at h
        | some p =>
          rw [hp] at h
          simp only [Option.some_bind] at h
          cases hr1 : introSort fuel { st with stats := p.2.1 } p.1 left (p.2.2 - 1)
              (depthLimit - 1) with
          | none => rw [hr1] at h; simp at h
          | some r1 =>
            rw [hr1] at h
            simp only [Option.some_bind] at h
            obtain ⟨a1, a2⟩ := ih _ _ _ _ _ r1 hr1 hi hh
            exact ih _ _ _ _ _ res h a1 a2

theorem sort_subs (st : IntroSortState) (arr : List Int) (res : List Int × IntroSortState)
    (h : sort st arr = some res) (hi : st.insertionSort = SortStats.zero)
    (hh : st.heapSort = SortStats.zero) :
    res.2.insertionSort = SortStats.zero ∧ res.2.heapSort = SortStats.zero := by
  unfold sort at h
  by_cases h1 : arr.length ≤ 1
  · rw [if_pos h1] at h
    have := Option.some.inj h
    rw [← this]
    exact ⟨hi, hh⟩
  · rw [if_neg h1] at h
    exact introSort_subs _ _ _ _ _ _ res h hi hh

theorem sortCalls_spec (arrs : List (List Int)) :
    ∀ st : IntroSortState, st.insertionSort = SortStats.zero → st.heapSort = SortStats.zero →
      ∃ st1, sortCalls st arrs = some st1 ∧ st1.insertionSort = SortStats.zero ∧
        st1.heapSort = SortStats.zero := by
  induction arrs with
  | nil => intro st hi hh; exact ⟨st, rfl, hi, hh⟩
  | cons arr rest ih =>
    intro st hi hh
    obtain ⟨out, st1, hrun, _, _⟩ := introsort_sort_spec st arr
    obtain ⟨a1, a2⟩ := sort_subs st arr (out, st1) hrun hi hh
    obtain ⟨st2, h2, b1, b2⟩ := ih st1 a1 a2
    refine ⟨st2, ?_, b1, b2⟩
    rw [sortCalls, hrun]
    exact h2

theorem resetStats_eq_fresh (st : IntroSortState) (hi : st.insertionSort = SortStats.zero)
    (hh : st.heapSort = SortStats.zero) : resetStats st = fresh := by
  cases st with
  | mk a b c =>
    simp only at hi hh
    subst hi; subst hh
    rfl

end IntroSort

namespace TimSort

theorem runLoop_subs (n minRun : Int) (fuel : Nat) :
    ∀ (st : TimSortState) (arr : List Int) (start : Int) (res : List Int × TimSortState),
      runLoop n minRun fuel st arr start = some res →
      st.insertionSort = SortStats.zero → res.2.insertionSort = SortStats.zero := by
  induction fuel with
  | zero =>
    intro st arr start res h
    simp [runLoop] at h
  | succ fuel ih =>
    intro st arr start res h hi
    rw [runLoop] at h
    by_cases hs : start < n
    · rw [if_pos hs] at h
      simp only [Option.bind_eq_bind] at h
      cases hr : InsertionSort.sortRange st.insertionSort arr start
          (min (start + minRun - 1) (n - 1)) with
      | none => rw [hr] at h; simp at h
      | some r =>
        rw [hr] at h
        simp only [Option.some_bind] at h
        exact ih _ _ _ res h rfl
    · rw [if_neg hs] at h
      have := Option.some.inj h
      rw [← this]
      exact hi

theorem tsort_sub (st : TimSortState) (arr : List Int) (res : List Int × TimSortState)
    (h : sort st arr = some res) (hi : st.insertionSort = SortStats.zero) :
    res.2.insertionSort = SortStats.zero := by
  unfold sort timSort at h
  simp only [Option.bind_eq_bind] at h
  cases hr : runLoop arr.length (calcMinRun arr.length) (arr.length + 1) st arr 0 with
  | none => rw [hr] at h; simp at h
  | some r =>
    rw [hr] at h
    simp only [Option.some_bind] at h
    cases hr2 : sizeLoop arr.length (arr.length + 1) r.2.stats r.1 (calcMinRun arr.length) with
    | none => rw [hr2] at h; simp at h
    | some r2 =>
      rw [hr2] at h
      simp only [Option.some_bind] at h
      have := Option.some.inj h
      rw [← this]
      exact runLoop_subs _ _ _ _ _ _ r hr hi

theorem sortCalls_sub (arrs : List (List Int)) :
    ∀ st : TimSortState, st.insertionSort = SortStats.zero →
      ∃ st1, sortCalls st arrs = some st1 ∧ st1.insertionSort = SortStats.zero := by
  induction arrs with
  | nil => intro st hi; exact ⟨st, rfl, hi⟩
  | cons arr rest ih =>
    intro st hi
    obtain ⟨out, st1, hrun, _, _⟩ := timSort_spec st arr
    have hrun2 : sort st arr = some (out, st1) := hrun
    have a1 := tsort_sub st arr (out, st1) hrun2 hi
    obtain ⟨st2, h2, b1⟩ := ih st1 a1
    refine ⟨st2, ?_, b1⟩
    rw [sortCalls, hrun2]
    exact h2

theorem resetStats_fresh (st : TimSortState) (hi : st.insertionSort = SortStats.zero) :
    resetStats st = fresh := by
  cases st with
  | mk a b =>
    simp only at hi
    subst hi
    rfl

end TimSort

/-- C12: `resetStats()` after any sequence of `sort` calls puts an instance back into the
state of a newly constructed one.  For the seven classes whose only state is `stats`, the
reset counters are those of the constructor whatever the state `s` was.  For `IntroSort` and
`TimSort`, started new and run on any vectors `arrs`, all calls return, the counters of the
private sub-instances are zero afterwards (each delegated call is followed by a reset), and
`resetStats` gives exactly the new state; so a later `sort` behaves as on a new instance,
with the same output and the same counts. -/
theorem resetStats_restores_fresh (arrs : List (List Int)) (arr : List Int) (s : SortStats) :
    (∃ st, IntroSort.sortCalls IntroSort.fresh arrs = some st ∧
      st.insertionSort = SortStats.zero ∧ st.heapSort = SortStats.zero ∧
      IntroSort.resetStats st = IntroSort.fresh ∧
      IntroSort.sort (IntroSort.resetStats st) arr = IntroSort.sort IntroSort.fresh arr) ∧
    (∃ tt, TimSort.sortCalls TimSort.fresh arrs = some tt ∧
      tt.insertionSort = SortStats.zero ∧ TimSort.resetStats tt = TimSort.fresh ∧
      TimSort.sort (TimSort.resetStats tt) arr = TimSort.sort TimSort.fresh arr) ∧
    (s.reset = SortStats.zero ∧
      InsertionSort.sort s.reset arr = InsertionSort.sort SortStats.zero arr ∧
      MergeSort.sort s.reset arr = MergeSort.sort SortStats.zero arr ∧
      QuickSort.sort s.reset arr = QuickSort.sort SortStats.zero arr ∧
      HeapSort.sort s.reset arr = HeapSort.sort SortStats.zero arr ∧
      ShellSort.sort s.reset arr = ShellSort.sort SortStats.zero arr ∧
      CountingSort.sort s.reset arr = CountingSort.sort SortStats.zero arr ∧
      RadixSort.sort s.reset arr = RadixSort.sort SortStats.zero arr) := by
  refine ⟨?_, ?_, rfl, rfl, rfl, rfl, rfl, rfl, rfl, rfl⟩
  · obtain ⟨st, h, hi, hh⟩ := IntroSort.sortCalls_spec arrs IntroSort.fresh rfl rfl
    have e := IntroSort.resetStats_eq_fresh st hi hh
    exact ⟨st, h, hi, hh, e, by rw [e]⟩
  · obtain ⟨tt, h, hi⟩ := TimSort.sortCalls_sub arrs TimSort.fresh rfl
    have e := TimSort.resetStats_fresh tt hi
    exact ⟨tt, h, hi, e, by rw [e]⟩

/-! ## Counters of the counting passes -/

namespace CountPass

/-- The histogram loop adds one comparison for each remaining element. -/
theorem histLoop_stats (key : Int → Int) (arr : List Int) (fuel : Nat) :
    ∀ (count : List Int) (s : SortStats) (i : Nat) (r : List Int × SortStats),
      histLoop key arr fuel count s i = some r → i ≤ arr.length →
      r.2 = ⟨s.comparisons + (arr.length - i), s.swaps⟩ := by
  induction fuel with
  | zero =>
    intro count s i r h
    simp [histLoop] at h
  | succ fuel ih =>
    intro count s i r h hi
    rw [histLoop] at h
    by_cases hlt : ((i : Nat) : Int) < arr.length
    · rw [if_pos hlt] at h
      simp only [Option.bind_eq_bind] at h
      cases h1 : rd arr (i : Int) with
      | none => rw [h1] at h; simp at h
      | some a =>
        rw [h1] at h
        simp only [Option.some_bind] at h
        cases h2 : rd count (key a) with
        | none => rw [h2] at h; simp at h
        | some c =>
          rw [h2] at h
          simp only [Option.some_bind] at h
          cases h3 : wr count (key a) (c + 1) with
          | none => rw [h3] at h; simp at h
          | some count1 =>
            rw [h3] at h
            simp only [Option.some_bind] at h
            have h4 : histLoop key arr fuel count1 { s with comparisons := s.comparisons + 1 }
                ((i + 1 : Nat) : Int) = some r := by
              rw [← h]
              congr 1
            rw [ih _ _ (i + 1) r h4 (by omega)]
            simp only [SortStats.mk.injEq, and_true]
            omega
    · rw [if_neg hlt] at h
      have := Option.some.inj h
      rw [← this]
      have e : arr.length - i = 0 := by omega
      rw [e]
      rfl

/-- The placement loop adds one exchange for each remaining element. -/
theorem placeLoop_stats (key : Int → Int) (arr : List Int) (fuel : Nat) :
    ∀ (count output : List Int) (s : SortStats) (i : Int) (written : List Int)
      (r : List Int × List Int × SortStats × List Int),
      placeLoop key arr fuel count output s i written = some r → -1 ≤ i →
      r.2.2.1 = ⟨s.comparisons, s.swaps + (i + 1).toNat⟩ := by
  induction fuel with
  | zero =>
    intro count output s i written r h
    simp [placeLoop] at h
  | succ fuel ih =>
    intro count output s i written r h hi
    rw [placeLoop] at h
    by_cases hge : i ≥ 0
    · rw [if_pos hge] at h
      simp only [Option.bind_eq_bind] at h
      cases h1 : rd arr i with
      | none => rw [h1] at h; simp at h
      | some a =>
        rw [h1] at h
        simp only [Option.some_bind] at h
        cases h2 : rd count (key a) with
        | none => rw [h2] at h; simp at h
        | some c =>
          rw [h2] at h
          simp only [Option.some_bind] at h
          cases h3 : wr output (c - 1) a with
          | none => rw [h3] at h; simp at h
          | some output1 =>
            rw [h3] at h
            simp only [Option.some_bind] at h
            cases h4 : wr count (key a) (c - 1) with
            | none => rw [h4] at h; simp at h
            | some count1 =>
              rw [h4] at h
              simp only [Option.some_bind] at h
              rw [ih _ _ _ _ _ r h (by omega)]
              simp only [SortStats.mk.injEq, true_and]
              omega
    · rw [if_neg hge] at h
      have := Option.some.inj h
      rw [← this]
      have e : (i + 1).toNat = 0 := by omega
      rw [e]
      rfl

/-- One counting pass over `n` elements adds `n` comparisons and `n` exchanges. -/
theorem run_stats (key : Int → Int) (range : Int) (s : SortStats) (arr : List Int)
    (r : List Int × SortStats × List Int) (h : run key range s arr = some r) :
    r.2.1 = ⟨s.comparisons + arr.length, s.swaps + arr.length⟩ := by
  unfold run at h
  by_cases hneg : range < 0
  · rw [if_pos hneg] at h
    simp at h
  · rw [if_neg hneg] at h
    simp only [Option.bind_eq_bind] at h
    cases h1 : histLoop key arr (arr.length + 1) (List.replicate range.toNat 0) s 0 with
    | none => rw [h1] at h; simp at h
    | some hr =>
      rw [h1] at h
      simp only [Option.some_bind] at h
      cases h2 : prefixLoop range (range.toNat + 1) hr.1 1 with
      | none => rw [h2] at h; simp at h
      | some count1 =>
        rw [h2] at h
        simp only [Option.some_bind] at h
        cases h3 : placeLoop key arr (arr.length + 1) count1 (List.replicate arr.length 0) hr.2
            ((arr.length : Int) - 1) [] with
        | none => rw [h3] at h; simp at h
        | some p =>
          rw [h3] at h
          simp only [Option.some_bind] at h
          cases h4 : copyLoop p.1 (arr.length : Int) (arr.length + 1) arr 0 with
          | none => rw [h4] at h; simp at h
          | some arr1 =>
            rw [h4] at h
            simp only [Option.some_bind] at h
            have := Option.some.inj h
            rw [← this]
            have e1 := histLoop_stats key arr _ _ s 0 hr h1 (by omega)
            have e2 := placeLoop_stats key arr _ _ _ _ _ _ p h3 (by omega)
            show p.2.2.1 = _
            rw [e2, e1]
            simp only [SortStats.mk.injEq]
            omega

end CountPass

/-- Counterexample to C13 as stated: on the two-element vector `[-1, 2147483647]` the range
`maxVal - minVal + 1` is not representable, `CountingSort::sort` does not return, and so it
does not end with `comparisons = exchanges = 2`. -/
theorem countingSort_wide_range_no_counts :
    ([-1, 2147483647] : List Int) ≠ [] ∧ (∀ x ∈ ([-1, 2147483647] : List Int), isInt32 x) ∧
      ¬ ∃ out, CountingSort.sort SortStats.zero [-1, 2147483647] = some (out, ⟨2, 2⟩) := by
  refine ⟨by decide, by decide, ?_⟩
  have h : CountingSort.sort SortStats.zero [-1, 2147483647] = none := by decide
  rw [h]
  simp

/-- C13 (amended): for every non-empty integer sequence of length `n` whose spread
`maxVal - minVal` is below `2147483647`, `CountingSort::sort` started with zeroed statistics
returns with `comparisons = n` (one per histogram build step) and `exchanges = n` (one per
placed element), whatever the values; on the empty sequence both stay `0`. -/
theorem countingSort_counts (arr : List Int) (mn mx : Int)
    (hmn : minElement arr = some mn) (hmx : maxElement arr = some mx)
    (hspread : mx - mn < 2147483647) :
    (∃ out, CountingSort.sort SortStats.zero arr = some (out, ⟨arr.length, arr.length⟩)) ∧
      CountingSort.sort SortStats.zero [] = some ([], ⟨0, 0⟩) := by
  refine ⟨?_, rfl⟩
  obtain ⟨out, s1, w, hrun, -⟩ :=
    CountingSort.sortTrace_spec SortStats.zero arr mn mx hmn hmx hspread
  have hne : arr.isEmpty = false := by
    cases arr with
    | nil => simp [minElement] at hmn
    | cons a t => rfl
  have hrun2 := hrun
  simp only [CountingSort.sortTrace, hne, Bool.false_eq_true, if_false, hmn, hmx,
    Option.bind_eq_bind, Option.some_bind] at hrun2
  have hst := CountPass.run_stats _ _ _ _ _ hrun2
  simp only [SortStats.zero, Nat.zero_add] at hst
  refine ⟨out, ?_⟩
  simp only [CountingSort.sort, hrun, Option.map_some']
  rw [hst]

theorem countingSort_counts_witness :
    (minElement [3, -1, 2, 3, 0, -1, 7] = some (-1) ∧ maxElement [3, -1, 2, 3, 0, -1, 7] = some 7 ∧
      (7 : Int) - (-1) < 2147483647) ∧
    ((∃ out, CountingSort.sort SortStats.zero [3, -1, 2, 3, 0, -1, 7]
        = some (out, ⟨([3, -1, 2, 3, 0, -1, 7] : List Int).length,
          ([3, -1, 2, 3, 0, -1, 7] : List Int).length⟩)) ∧
      CountingSort.sort SortStats.zero [] = some ([], ⟨0, 0⟩)) :=
  ⟨by decide, countingSort_counts [3, -1, 2, 3, 0, -1, 7] (-1) 7 (by decide) (by decide)
    (by decide)⟩

namespace RadixSort

theorem countingSort_stats (s : SortStats) (arr : List Int) (e : Int)
    (r : List Int × SortStats) (h : countingSort s arr e = some r) :
    r.2 = ⟨s.comparisons + arr.length, s.swaps + arr.length⟩ := by
  unfold countingSort at h
  cases hr : CountPass.run (digit e) 10 s arr with
  | none => rw [hr] at h; simp at h
  | some q =>
    rw [hr] at h
    have := CountPass.run_stats _ _ _ _ q hr
    rw [← Option.some.inj h]
    exact this

/-- Each of `k` passes over `n` elements adds `n` comparisons and `n` exchanges. -/
theorem passesFrom_stats (k : Nat) :
    ∀ (s : SortStats) (l : List Int) (e : Int) (r : List Int × SortStats),
      passesFrom k s l e = some r →
      r.2 = ⟨s.comparisons + k * l.length, s.swaps + k * l.length⟩ := by
  induction k with
  | zero =>
    intro s l e r h
    have := Option.some.inj h
    rw [← this]
    simp
  | succ k ih =>
    intro s l e r h
    rw [passesFrom] at h
    cases hc : countingSort s l e with
    | none => rw [hc] at h; simp at h
    | some q =>
      rw [hc] at h
      simp only [Option.bind_eq_bind, Option.some_bind] at h
      have h1 := countingSort_stats s l e q hc
      have h2 := (countingSort_some_perm s l e q hc).length_eq
      rw [ih _ _ _ r h, h1, h2]
      simp only [SortStats.mk.injEq]
      constructor <;> ring

end RadixSort

/-- C14: on a non-empty sequence of `n` non-negative integers with maximum `M < 10^9`,
`RadixSort::sort` started with zeroed statistics performs exactly the `d` passes for
`exp = 1, 10, ..., 10^(d-1)`, where `d` is the number of decimal digits of `M`
(`10^(d-1) ≤ M < 10^d`) when `M ≥ 1` and `d = 0` when `M = 0`, and returns with
`comparisons = exchanges = d * n`; so the exchanges are positive whenever `M ≥ 1`, also on
sorted or constant input: `[3,3,3,3]` stays `[3,3,3,3]` with `exchanges = 4`. -/
theorem radixSort_counts (arr : List Int) (M : Int) (d : Nat)
    (hnn : ∀ x ∈ arr, 0 ≤ x) (hmx : maxElement arr = some M) (hd9 : d ≤ 9)
    (hlt : M < 10 ^ d) (hge : d = 0 ∨ (10 : Int) ^ (d - 1) ≤ M) :
    (∃ out, RadixSort.sort SortStats.zero arr = some (out, ⟨d * arr.length, d * arr.length⟩) ∧
      RadixSort.passesFrom d SortStats.zero arr 1
        = some (out, ⟨d * arr.length, d * arr.length⟩)) ∧
    (1 ≤ M → 0 < d * arr.length) ∧
    RadixSort.sort SortStats.zero [3, 3, 3, 3] = some ([3, 3, 3, 3], ⟨4, 4⟩) := by
  obtain ⟨hmem, hmax⟩ := maxElement_spec arr M hmx
  have hne : arr.isEmpty = false := by
    cases arr with
    | nil => simp at hmem
    | cons a t => rfl
  refine ⟨?_, ?_, by decide⟩
  · obtain ⟨out, s1, hrun, -, -⟩ := RadixSort.passesFrom_spec d 0 SortStats.zero arr hnn
      (pairwise_of_forall_mem _ arr (fun x _ y _ => by simp))
    rw [pow_zero] at hrun
    have hst := RadixSort.passesFrom_stats d _ _ _ _ hrun
    simp only [SortStats.zero, Nat.zero_add] at hst
    have heq := RadixSort.sortLoop_eq_passes M d hd9 (hnn M hmem) hlt hge d 0 16 SortStats.zero
      arr (by omega) (by omega) hnn
    rw [pow_zero] at heq
    have hout : RadixSort.passesFrom d SortStats.zero arr 1
        = some (out, ⟨d * arr.length, d * arr.length⟩) := by
      rw [hrun, ← hst]
    refine ⟨out, ?_, hout⟩
    simp only [RadixSort.sort, hne, Bool.false_eq_true, if_false, hmx, Option.bind_eq_bind,
      Option.some_bind]
    rw [heq, hout]
  · intro hM
    have hd : 1 ≤ d := by
      by_contra hc
      have : d = 0 := by omega
      subst this
      simp at hlt
      omega
    have hn : 1 ≤ arr.length := List.length_pos_of_mem hmem
    exact Nat.mul_pos hd hn

theorem radixSort_counts_witness :
    ((∀ x ∈ ([170, 45, 75, 90, 802, 24, 2, 66] : List Int), 0 ≤ x) ∧
      maxElement [170, 45, 75, 90, 802, 24, 2, 66] = some 802 ∧ 3 ≤ 9 ∧
      (802 : Int) < 10 ^ 3 ∧ (3 = 0 ∨ (10 : Int) ^ (3 - 1) ≤ 802)) ∧
    ((∃ out, RadixSort.sort SortStats.zero [170, 45, 75, 90, 802, 24, 2, 66]
        = some (out, ⟨3 * ([170, 45, 75, 90, 802, 24, 2, 66] : List Int).length,
          3 * ([170, 45, 75, 90, 802, 24, 2, 66] : List Int).length⟩) ∧
      RadixSort.passesFrom 3 SortStats.zero [170, 45, 75, 90, 802, 24, 2, 66] 1
        = some (out, ⟨3 * ([170, 45, 75, 90, 802, 24, 2, 66] : List Int).length,
          3 * ([170, 45, 75, 90, 802, 24, 2, 66] : List Int).length⟩)) ∧
    ((1 : Int) ≤ 802 → 0 < 3 * ([170, 45, 75, 90, 802, 24, 2, 66] : List Int).length) ∧
    RadixSort.sort SortStats.zero [3, 3, 3, 3] = some ([3, 3, 3, 3], ⟨4, 4⟩)) :=
  ⟨⟨by decide, by decide, by decide, by decide, by decide⟩,
    radixSort_counts [170, 45, 75, 90, 802, 24, 2, 66] 802 3 (by decide) (by decide)
      (by decide) (by decide) (by decide)⟩

/-! ## Introsort on small inputs -/

namespace InsertionSort

/-- On a vector of at most one element `sort` performs no iteration. -/
theorem sort_short (s : SortStats) (arr : List Int) (h : arr.length ≤ 1) :
    sort s arr = some (arr, s) := by
  unfold sort sortRange
  have hn : ¬ ((0 : Int) + 1 ≤ (arr.length : Int) - 1) := by omega
  rw [sortRangeLoop, if_neg hn]
  rfl

end InsertionSort

namespace IntroSort

/-- Forgetting the ghost counter gives back `introSort`. -/
theorem introSortCount_erase (fuel : Nat) :
    ∀ (st : IntroSortState) (arr : List Int) (left right depthLimit : Int),
      (introSortCount fuel st arr left right depthLimit).map (fun r => (r.1, r.2.1))
        = introSort fuel st arr left right depthLimit := by
  induction fuel with
  | zero => intro st arr left right depthLimit; rfl
  | succ fuel ih =>
    intro st arr left right depthLimit
    rw [introSortCount, introSort]
    simp only
    by_cases h16 : right - left + 1 ≤ 16
    · rw [if_pos h16, if_pos h16]
      cases InsertionSort.sortRange st.insertionSort arr left right with
      | none => rfl
      | some r => rfl
    · rw [if_neg h16, if_neg h16]
      by_cases hd : depthLimit = 0
      · rw [if_pos hd, if_pos hd]
        by_cases hb : 0 ≤ left ∧ right < (arr.length : Int)
        · simp only [if_pos hb, Option.bind_eq_bind, Option.some_bind]
          cases hhs : HeapSort.sort st.heapSort (seg arr left right) with
          | none => rfl
          | some hres =>
            simp only [Option.some_bind]
            cases copyIn left hres.1 (hres.1.length + 1) arr 0 with
            | none => rfl
            | some arr1 => rfl
        · simp only [if_neg hb]
          rfl
      · rw [if_neg hd, if_neg hd]
        simp only [Option.bind_eq_bind]
        cases hp : partition st.stats arr left right with
        | none => rfl
        | some p =>
          simp only [Option.some_bind]
          rw [← ih { st with stats := p.2.1 } p.1 left (p.2.2 - 1) (depthLimit - 1)]
          cases hr1 : introSortCount fuel { st with stats := p.2.1 } p.1 left (p.2.2 - 1)
              (depthLimit - 1) with
          | none => rfl
          | some r1 =>
            simp only [Option.some_bind, Option.map_some']
            rw [← ih r1.2.1 r1.1 (p.2.2 + 1) right (depthLimit - 1)]
            cases introSortCount fuel r1.2.1 r1.1 (p.2.2 + 1) right (depthLimit - 1) with
            | none => rfl
            | some r2 => rfl

theorem sortCount_erase (st : IntroSortState) (arr : List Int) :
    (sortCount st arr).map (fun r => (r.1, r.2.1)) = sort st arr := by
  unfold sortCount sort
  by_cases h : arr.length ≤ 1
  · rw [if_pos h, if_pos h]
    rfl
  · rw [if_neg h, if_neg h]
    exact introSortCount_erase _ _ _ _ _ _

/-- On at most sixteen elements a new `IntroSort` does what a new `InsertionSort` does, and
`partition` is not executed. -/
theorem sortCount_small (arr : List Int) (h : arr.length ≤ 16) :
    ∃ out s, InsertionSort.sort SortStats.zero arr = some (out, s) ∧
      sortCount fresh arr = some (out, ⟨s, SortStats.zero, SortStats.zero⟩, 0) := by
  by_cases h1 : arr.length ≤ 1
  · refine ⟨arr, SortStats.zero, InsertionSort.sort_short _ arr h1, ?_⟩
    unfold sortCount
    rw [if_pos h1]
    rfl
  · obtain ⟨out, s, hrun, -, -⟩ := InsertionSort.sort_spec SortStats.zero arr
    refine ⟨out, s, hrun, ?_⟩
    have hrun2 : InsertionSort.sortRange SortStats.zero arr 0 ((arr.length : Int) - 1)
        = some (out, s) := hrun
    have h16 : (arr.length : Int) - 1 - 0 + 1 ≤ 16 := by omega
    unfold sortCount
    rw [if_neg h1, introSortCount]
    simp only
    rw [if_pos h16]
    have hf : fresh.insertionSort = SortStats.zero := rfl
    rw [hf, hrun2]
    cases s with
    | mk c w =>
      simp only [Option.bind_eq_bind, Option.some_bind, fresh, SortStats.zero, SortStats.reset,
        Nat.zero_add]
      rfl

end IntroSort

/-- Counterexample to C15 as stated: on `[9,8,7,6,5,4,3,2,1]` the range has 9 elements, which
is not more than 16, so `IntroSort::sort` goes through the insertion-sort branch and
`partition` is not executed even once. -/
theorem introSort_nine_no_partition :
    ¬ ∃ out st c, IntroSort.sortCount IntroSort.fresh [9, 8, 7, 6, 5, 4, 3, 2, 1]
        = some (out, st, c) ∧ 1 ≤ c := by
  obtain ⟨out, s, -, h⟩ := IntroSort.sortCount_small [9, 8, 7, 6, 5, 4, 3, 2, 1] (by decide)
  rintro ⟨out2, st2, c, h2, hc⟩
  rw [h] at h2
  have h3 := Option.some.inj h2
  have h4 : (0 : Nat) = c := congrArg (fun r => r.2.2) h3
  omega

/-- C15 (amended): `IntroSort::sort` on the input `[9,8,7,6,5,4,3,2,1]` (size 9, not above 16)
uses the insertion-sort branch, executes `IntroSort::partition` zero times and produces
`[1,2,3,4,5,6,7,8,9]`, with the counts of insertion sort (36 comparisons, 36 exchanges).  The
counter of executions is a ghost: forgetting it gives `IntroSort::sort` on every input. -/
theorem introSort_nine_insertion_path :
    IntroSort.sortCount IntroSort.fresh [9, 8, 7, 6, 5, 4, 3, 2, 1]
        = some ([1, 2, 3, 4, 5, 6, 7, 8, 9], ⟨⟨36, 36⟩, SortStats.zero, SortStats.zero⟩, 0) ∧
      IntroSort.sort IntroSort.fresh [9, 8, 7, 6, 5, 4, 3, 2, 1]
        = some ([1, 2, 3, 4, 5, 6, 7, 8, 9], ⟨⟨36, 36⟩, SortStats.zero, SortStats.zero⟩) ∧
      ∀ (st : IntroSortState) (arr : List Int),
        (IntroSort.sortCount st arr).map (fun r => (r.1, r.2.1)) = IntroSort.sort st arr := by
  have h1 : IntroSort.sortCount IntroSort.fresh [9, 8, 7, 6, 5, 4, 3, 2, 1]
      = some ([1, 2, 3, 4, 5, 6, 7, 8, 9], ⟨⟨36, 36⟩, SortStats.zero, SortStats.zero⟩, 0) := by
    decide
  refine ⟨h1, ?_, IntroSort.sortCount_erase⟩
  rw [← IntroSort.sortCount_erase, h1]
  rfl

/-- C16: on every integer sequence of at most 16 elements a new `IntroSort` and a new
`InsertionSort` return the same output with the same number of comparisons and the same
number of exchanges; the counters of the sub-instance are folded into the parent, which
started at zero, and the sub-instance is left reset. -/
theorem introSort_small_is_insertionSort (arr : List Int) (h : arr.length ≤ 16) :
    ∃ out s, InsertionSort.sort SortStats.zero arr = some (out, s) ∧
      IntroSort.sort IntroSort.fresh arr
        = some (out, ⟨s, SortStats.zero, SortStats.zero⟩) := by
  obtain ⟨out, s, h1, h2⟩ := IntroSort.sortCount_small arr h
  refine ⟨out, s, h1, ?_⟩
  rw [← IntroSort.sortCount_erase, h2]
  rfl

theorem introSort_small_is_insertionSort_witness :
    ([5, 2, 4, 6, 1, 3] : List Int).length ≤ 16 ∧
    ∃ out s, InsertionSort.sort SortStats.zero [5, 2, 4, 6, 1, 3] = some (out, s) ∧
      IntroSort.sort IntroSort.fresh [5, 2, 4, 6, 1, 3]
        = some (out, ⟨s, SortStats.zero, SortStats.zero⟩) :=
  ⟨by decide, introSort_small_is_insertionSort [5, 2, 4, 6, 1, 3] (by decide)⟩

/-! ## The minimum run length of TimSort -/

theorem mod_two_mul_eq_zero (n q : Nat) :
    n % (2 * q) = 0 ↔ n % 2 = 0 ∧ (n / 2) % q = 0 := by
  rw [Nat.mod_mul]
  have := Nat.mod_lt n (by decide : 0 < 2)
  omega

theorem div_pow_succ (n k : Nat) : n / 2 ^ (k + 1) = (n / 2) / 2 ^ k := by
  rw [pow_succ, Nat.mul_comm, Nat.div_div_eq_div_mul]

theorem or_bit (r b : Nat) (hr : r ≤ 1) (hb : b ≤ 1) :
    (r ||| b) ≤ 1 ∧ ((r ||| b) = 1 ↔ r = 1 ∨ b = 1) := by
  have h1 : r = 0 ∨ r = 1 := by omega
  have h2 : b = 0 ∨ b = 1 := by omega
  rcases h1 with h1 | h1 <;> rcases h2 with h2 | h2 <;> subst h1 <;> subst h2 <;> decide

/-- Halving down to below 32 from at least 16 is possible in exactly one number of steps:
every earlier quotient is still at least 32. -/
theorem halvings_before (n k : Nat) (h1 : 16 ≤ n / 2 ^ k) :
    ∀ j, j < k → 32 ≤ n / 2 ^ j := by
  intro j hj
  by_contra hc
  have e : n / 2 ^ k = (n / 2 ^ j) / 2 ^ (k - j) := by
    rw [Nat.div_div_eq_div_mul, ← pow_add]
    congr 2
    omega
  have h2 : (2 : Nat) ≤ 2 ^ (k - j) := by
    calc (2 : Nat) = 2 ^ 1 := by norm_num
      _ ≤ 2 ^ (k - j) := Nat.pow_le_pow_right (by decide) (by omega)
  have h3 : (n / 2 ^ j) / 2 ^ (k - j) ≤ (n / 2 ^ j) / 2 :=
    Nat.div_le_div_left h2 (by decide)
  omega

theorem exists_halvings (n : Nat) : 16 ≤ n → ∃ k, 16 ≤ n / 2 ^ k ∧ n / 2 ^ k < 32 := by
  induction n using Nat.strong_induction_on with
  | _ n ih =>
    intro h
    by_cases h32 : n < 32
    · exact ⟨0, by simpa using h, by simpa using h32⟩
    · obtain ⟨k, hk1, hk2⟩ := ih (n / 2) (by omega) (by omega)
      refine ⟨k + 1, ?_, ?_⟩
      · rw [div_pow_succ]; exact hk1
      · rw [div_pow_succ]; exact hk2

namespace TimSort

/-- The loop of `calcMinRun` after `k` halvings: the quotient `n / 2^k`, plus one when a one
bit was shifted out or already recorded in `r`. -/
theorem calcMinRunLoop_spec (k : Nat) :
    ∀ (fuel n r : Nat), r ≤ 1 → k ≤ fuel → (∀ j, j < k → 32 ≤ n / 2 ^ j) → n / 2 ^ k < 32 →
      calcMinRunLoop fuel n r = n / 2 ^ k + (if r = 1 ∨ n % 2 ^ k ≠ 0 then 1 else 0) := by
  induction k with
  | zero =>
    intro fuel n r hr _ _ hlt
    simp only [pow_zero, Nat.div_one, Nat.mod_one, ne_eq, not_true_eq_false, or_false] at hlt ⊢
    have hres : calcMinRunLoop fuel n r = n + r := by
      cases fuel with
      | zero => rfl
      | succ f =>
        rw [calcMinRunLoop, if_neg (by unfold MIN_MERGE; omega)]
    rw [hres]
    by_cases h : r = 1
    · rw [if_pos h, h]
    · rw [if_neg h]
      omega
  | succ k ih =>
    intro fuel n r hr hf hbig hlt
    obtain ⟨f, rfl⟩ : ∃ f, fuel = f + 1 := ⟨fuel - 1, by omega⟩
    have h32 : 32 ≤ n := by
      have := hbig 0 (by omega)
      simpa using this
    have hb := or_bit r (n % 2) hr (by omega)
    rw [calcMinRunLoop, if_pos (by unfold MIN_MERGE; omega), Nat.shiftRight_eq_div_pow,
      Nat.and_one_is_mod, pow_one]
    rw [ih f (n / 2) (r ||| n % 2) hb.1 (by omega)
      (fun j hj => by rw [← div_pow_succ]; exact hbig (j + 1) (by omega))
      (by rw [← div_pow_succ]; exact hlt)]
    rw [← div_pow_succ]
    have hiff : ((r ||| n % 2) = 1 ∨ n / 2 % 2 ^ k ≠ 0) ↔ (r = 1 ∨ n % 2 ^ (k + 1) ≠ 0) := by
      have e : (2 : Nat) ^ (k + 1) = 2 * 2 ^ k := by rw [pow_succ, Nat.mul_comm]
      have hm := mod_two_mul_eq_zero n (2 ^ k)
      rw [hb.2, e]
      simp only [ne_eq, hm]
      have := Nat.mod_lt n (by decide : 0 < 2)
      constructor
      · rintro ((h | h) | h)
        · exact Or.inl h
        · exact Or.inr (fun hc => by omega)
        · exact Or.inr (fun hc => h hc.2)
      · rintro (h | h)
        · exact Or.inl (Or.inl h)
        · by_cases h2 : n % 2 = 0
          · exact Or.inr (fun hc => h ⟨h2, hc⟩)
          · exact Or.inl (Or.inr (by omega))
    by_cases hc : r = 1 ∨ n % 2 ^ (k + 1) ≠ 0
    · rw [if_pos hc, if_pos (hiff.2 hc)]
    · rw [if_neg hc, if_neg (fun h => hc (hiff.1 h))]

/-- The value of `calcMinRun(n)` in terms of the number `k` of halvings. -/
theorem calcMinRun_eq (n k : Nat) (hk1 : 16 ≤ n / 2 ^ k) (hk2 : n / 2 ^ k < 32) :
    calcMinRun n = n / 2 ^ k + (if n % 2 ^ k = 0 then 0 else 1) := by
  have hpow : 2 ^ k ≤ n := by
    by_contra hc
    have : n / 2 ^ k = 0 := Nat.div_eq_of_lt (by omega)
    omega
  have hkn : k ≤ n := le_trans (le_of_lt (Nat.lt_two_pow k)) hpow
  unfold calcMinRun
  rw [calcMinRunLoop_spec k n n 0 (by omega) hkn (halvings_before n k hk1) hk2]
  by_cases h : n % 2 ^ k = 0
  · rw [if_pos h, if_neg (by simp [h])]
  · rw [if_neg h, if_pos (Or.inr h)]

theorem calcMinRun_small (n : Nat) (h : n < 32) : calcMinRun n = n := by
  unfold calcMinRun
  cases n with
  | zero => rfl
  | succ j =>
    rw [calcMinRunLoop, if_neg (by unfold MIN_MERGE; omega)]

end TimSort

/-- C18: for every `n ≥ 32` the value of `calcMinRun(n)` lies in `[16, 32]`; both bounds are
attained (`n = 32` gives 16, `n = 63` gives 32); for `0 ≤ n < 32` no halving happens and
`calcMinRun(n) = n`. -/
theorem calcMinRun_range (n : Nat) (h : 32 ≤ n) :
    (16 ≤ TimSort.calcMinRun n ∧ TimSort.calcMinRun n ≤ 32) ∧
      TimSort.calcMinRun 32 = 16 ∧ TimSort.calcMinRun 63 = 32 ∧
      ∀ j, j < 32 → TimSort.calcMinRun j = j := by
  refine ⟨?_, by decide, by decide, TimSort.calcMinRun_small⟩
  obtain ⟨k, hk1, hk2⟩ := exists_halvings n (by omega)
  rw [TimSort.calcMinRun_eq n k hk1 hk2]
  by_cases h0 : n % 2 ^ k = 0
  · rw [if_pos h0]; omega
  · rw [if_neg h0]; omega

theorem calcMinRun_range_witness :
    32 ≤ 81 ∧ ((16 ≤ TimSort.calcMinRun 81 ∧ TimSort.calcMinRun 81 ≤ 32) ∧
      TimSort.calcMinRun 32 = 16 ∧ TimSort.calcMinRun 63 = 32 ∧
      ∀ j, j < 32 → TimSort.calcMinRun j = j) :=
  ⟨by decide, calcMinRun_range 81 (by decide)⟩

theorem mul_lt_iff_lt_ceil (n m i : Nat) (hm : 1 ≤ m) : i * m < n ↔ i < (n + m - 1) / m := by
  have h1 : i < (n + m - 1) / m ↔ i + 1 ≤ (n + m - 1) / m := Iff.rfl
  rw [h1, Nat.le_div_iff_mul_le (by omega), Nat.succ_mul]
  omega

namespace TimSort

/-- Forgetting the ghost log gives back the first loop of `timSort`. -/
theorem runLoopTrace_erase (n minRun : Int) (fuel : Nat) :
    ∀ (st : TimSortState) (arr : List Int) (start : Int) (log : List (Int × Int)),
      (runLoopTrace n minRun fuel st arr start log).map (fun r => (r.1, r.2.1))
        = runLoop n minRun fuel st arr start := by
  induction fuel with
  | zero => intro st arr start log; rfl
  | succ fuel ih =>
    intro st arr start log
    rw [runLoopTrace, runLoop]
    by_cases hs : start < n
    · rw [if_pos hs, if_pos hs]
      simp only [Option.bind_eq_bind]
      cases InsertionSort.sortRange st.insertionSort arr start
          (min (start + minRun - 1) (n - 1)) with
      | none => rfl
      | some r =>
        simp only [Option.some_bind]
        exact ih _ _ _ _
    · rw [if_neg hs, if_neg hs]
      rfl

/-- The runs handed to `sortRange` are `[0, m-1]`, `[m, 2m-1]`, ..., the last one cut at
`n - 1`; there are `ceil(n / m)` of them. -/
theorem runLoopTrace_log (n m : Nat) (hm : 1 ≤ m) (fuel : Nat) :
    ∀ (st : TimSortState) (arr : List Int) (i : Nat) (log : List (Int × Int))
      (res : List Int × TimSortState × List (Int × Int)),
      runLoopTrace n m fuel st arr ((i : Int) * m) log = some res → i ≤ (n + m - 1) / m →
      res.2.2 = log ++ (List.range' i ((n + m - 1) / m - i)).map
        (fun (j : Nat) => ((j : Int) * m, min ((j : Int) * m + m - 1) ((n : Int) - 1))) := by
  induction fuel with
  | zero =>
    intro st arr i log res h
    simp [runLoopTrace] at h
  | succ fuel ih =>
    intro st arr i log res h hi
    rw [runLoopTrace] at h
    by_cases hs : (i : Int) * m < n
    · have hs2 : i * m < n := by exact_mod_cast hs
      have hic := (mul_lt_iff_lt_ceil n m i hm).1 hs2
      rw [if_pos hs] at h
      simp only [Option.bind_eq_bind] at h
      cases hr : InsertionSort.sortRange st.insertionSort arr ((i : Int) * m)
          (min ((i : Int) * m + m - 1) ((n : Int) - 1)) with
      | none => rw [hr] at h; simp at h
      | some r =>
        rw [hr] at h
        simp only [Option.some_bind] at h
        have e : (i : Int) * m + m = ((i + 1 : Nat) : Int) * m := by push_cast; ring
        have h2 : runLoopTrace n m fuel
            { stats := ⟨st.stats.comparisons + r.2.comparisons, st.stats.swaps + r.2.swaps⟩,
              insertionSort := r.2.reset } r.1 (((i + 1 : Nat) : Int) * m)
            (log ++ [((i : Int) * m, min ((i : Int) * m + m - 1) ((n : Int) - 1))])
              = some res := by
          rw [← e]
          exact h
        rw [ih _ _ (i + 1) _ res h2 (by omega)]
        have e2 : (n + m - 1) / m - i = ((n + m - 1) / m - (i + 1)) + 1 := by omega
        rw [e2, List.range'_succ, List.map_cons, List.append_assoc]
        rfl
    · have hs2 : ¬ i * m < n := by
        intro hc
        apply hs
        exact_mod_cast hc
      have hic : ¬ i < (n + m - 1) / m := fun hc => hs2 ((mul_lt_iff_lt_ceil n m i hm).2 hc)
      rw [if_neg hs] at h
      have := Option.some.inj h
      rw [← this]
      have e2 : (n + m - 1) / m - i = 0 := by omega
      rw [e2]
      simp

end TimSort

/-- The arithmetic of the run length `m = q + [n is not a multiple of 2^k]`, `q = n / 2^k`. -/
theorem run_count_bounds (n k m : Nat) (hk : 1 ≤ k) (hq : 16 ≤ n / 2 ^ k)
    (hm : m = n / 2 ^ k + (if n % 2 ^ k = 0 then 0 else 1)) :
    (m - 1) * 2 ^ k < n ∧ n ≤ m * 2 ^ k ∧ 2 ^ (k - 1) < (n + m - 1) / m ∧
      (n + m - 1) / m ≤ 2 ^ k ∧ (n % 2 ^ k = 0 → (n + m - 1) / m = 2 ^ k ∧ n = 2 ^ k * m) := by
  obtain ⟨j, rfl⟩ : ∃ j, k = j + 1 := ⟨k - 1, by omega⟩
  have hP2 : 2 ^ (j + 1) = 2 * 2 ^ j := by rw [pow_succ, Nat.mul_comm]
  have hP1 : 0 < 2 ^ j := pow_pos (by decide) j
  rw [hP2] at hq hm ⊢
  simp only [Nat.add_sub_cancel]
  generalize 2 ^ j = P1 at *
  have hdm := Nat.div_add_mod n (2 * P1)
  have hlt := Nat.mod_lt n (by omega : 0 < 2 * P1)
  generalize n / (2 * P1) = q at *
  generalize n % (2 * P1) = ρ at *
  have a1 : (m - 1) * (2 * P1) < n ∧ n ≤ m * (2 * P1) := by
    have e2 : 2 * P1 * q = q * (2 * P1) := Nat.mul_comm _ _
    by_cases h0 : ρ = 0
    · rw [if_pos h0] at hm
      have hmq : m = q := by omega
      rw [← hmq] at e2 hdm
      have e1 : (m - 1) * (2 * P1) = m * (2 * P1) - 2 * P1 := by
        rw [Nat.sub_mul, Nat.one_mul]
      have e3 : 2 * P1 ≤ m * (2 * P1) := Nat.le_mul_of_pos_left _ (by omega)
      constructor <;> omega
    · rw [if_neg h0] at hm
      have hmq : m - 1 = q := by omega
      have e1 : (m - 1) * (2 * P1) = q * (2 * P1) := by rw [hmq]
      have e3 : m * (2 * P1) = q * (2 * P1) + 2 * P1 := by
        rw [hm, Nat.succ_mul]
      constructor <;> omega
  have hm16 : 16 ≤ m := by
    rw [hm]; omega
  have hmpos : 0 < m := by omega
  have a2 : P1 * m < n := by
    have e1 : P1 * m ≤ P1 * (2 * (m - 1)) := Nat.mul_le_mul_left _ (by omega)
    have e2 : P1 * (2 * (m - 1)) = (m - 1) * (2 * P1) := by ring
    omega
  have a3 : P1 < (n + m - 1) / m := by
    have h1 : P1 < (n + m - 1) / m ↔ P1 + 1 ≤ (n + m - 1) / m := Iff.rfl
    rw [h1, Nat.le_div_iff_mul_le hmpos, Nat.succ_mul]
    omega
  have a4 : (n + m - 1) / m ≤ 2 * P1 := by
    have h1 : (n + m - 1) / m < 2 * P1 + 1 := by
      rw [Nat.div_lt_iff_lt_mul hmpos, Nat.succ_mul]
      have := a1.2
      have e : 2 * P1 * m = m * (2 * P1) := Nat.mul_comm _ _
      omega
    omega
  refine ⟨a1.1, a1.2, a3, a4, ?_⟩
  intro h0
  rw [if_pos h0] at hm
  have hmq : m = q := by omega
  subst hmq
  have hn : n = 2 * P1 * m := by omega
  refine ⟨?_, hn⟩
  have h2 : 2 * P1 ≤ (n + m - 1) / m := by
    rw [Nat.le_div_iff_mul_le hmpos]
    omega
  omega

/-- The run length and the runs of the first loop of `timSort`, for the length of `arr`. -/
theorem run_count_of_length (st : TimSortState) (arr : List Int) (k : Nat)
    (h32 : 32 ≤ arr.length) (hk1 : 16 ≤ arr.length / 2 ^ k) (hk2 : arr.length / 2 ^ k < 32) :
    (∀ k2, 16 ≤ arr.length / 2 ^ k2 → arr.length / 2 ^ k2 < 32 → k2 = k) ∧
    TimSort.calcMinRun arr.length
      = arr.length / 2 ^ k + (if arr.length % 2 ^ k = 0 then 0 else 1) ∧
    ((TimSort.calcMinRun arr.length - 1) * 2 ^ k < arr.length ∧
      arr.length ≤ TimSort.calcMinRun arr.length * 2 ^ k ∧
      2 ^ (k - 1) < (arr.length + TimSort.calcMinRun arr.length - 1)
        / TimSort.calcMinRun arr.length ∧
      (arr.length + TimSort.calcMinRun arr.length - 1) / TimSort.calcMinRun arr.length ≤ 2 ^ k ∧
      (arr.length % 2 ^ k = 0 →
        (arr.length + TimSort.calcMinRun arr.length - 1) / TimSort.calcMinRun arr.length = 2 ^ k ∧
        arr.length = 2 ^ k * TimSort.calcMinRun arr.length)) ∧
    ∃ mid st1 tr,
      TimSort.runLoopTrace arr.length (TimSort.calcMinRun arr.length) (arr.length + 1) st arr 0 []
        = some (mid, st1, tr) ∧
      TimSort.runLoop arr.length (TimSort.calcMinRun arr.length) (arr.length + 1) st arr 0
        = some (mid, st1) ∧
      tr.length = (arr.length + TimSort.calcMinRun arr.length - 1)
        / TimSort.calcMinRun arr.length ∧
      (∀ p ∈ tr, 0 ≤ p.1 ∧ p.1 ≤ p.2 ∧ p.2 < arr.length ∧
        p.2 - p.1 + 1 ≤ TimSort.calcMinRun arr.length) ∧
      (arr.length % 2 ^ k = 0 → ∀ p ∈ tr, p.2 - p.1 + 1 = TimSort.calcMinRun arr.length) := by
  have hk : 1 ≤ k := by
    by_contra hc
    have : k = 0 := by omega
    subst this
    simp at hk2
    omega
  have hm := TimSort.calcMinRun_eq arr.length k hk1 hk2
  have hb := run_count_bounds arr.length k (TimSort.calcMinRun arr.length) hk hk1 hm
  have hm1 : 1 ≤ TimSort.calcMinRun arr.length := TimSort.calcMinRun_pos _ (by omega)
  refine ⟨?_, hm, hb, ?_⟩
  · intro k2 h1 h2
    by_contra hne
    rcases Nat.lt_or_gt_of_ne hne with h | h
    · have := halvings_before arr.length k hk1 k2 h
      omega
    · have := halvings_before arr.length k2 h1 k h
      omega
  · generalize TimSort.calcMinRun arr.length = m at *
    obtain ⟨mid, st1, hrun, -, -⟩ := TimSort.runLoop_spec arr.length m hm1 (arr.length + 1) st
      [] arr 0 (by simp) (fun _ => by simp) (fun h => by
        subst h
        simp at h32) (by omega)
    rw [List.nil_append, List.nil_append] at hrun
    have her := TimSort.runLoopTrace_erase arr.length m (arr.length + 1) st arr 0 []
    rw [hrun] at her
    cases htr : TimSort.runLoopTrace arr.length m (arr.length + 1) st arr 0 [] with
    | none => rw [htr] at her; simp at her
    | some res =>
      rw [htr] at her
      have her2 := Option.some.inj her
      have e1 : res.1 = mid := congrArg Prod.fst her2
      have e2 : res.2.1 = st1 := congrArg Prod.snd her2
      have htr0 : TimSort.runLoopTrace arr.length m (arr.length + 1) st arr
          (((0 : Nat) : Int) * m) [] = some res := by
        rw [← htr]
        simp
      have hlog := TimSort.runLoopTrace_log arr.length m hm1 _ _ _ 0 _ res htr0 (Nat.zero_le _)
      rw [List.nil_append, Nat.sub_zero] at hlog
      have hmem : ∀ p ∈ res.2.2, ∃ j : Nat, j < (arr.length + m - 1) / m ∧
          p = ((j : Int) * m, min ((j : Int) * m + m - 1) ((arr.length : Int) - 1)) := by
        intro p hp
        rw [hlog, List.mem_map] at hp
        obtain ⟨j, hj, hpj⟩ := hp
        rw [List.mem_range'_1] at hj
        exact ⟨j, by simpa using hj.2, hpj.symm⟩
      refine ⟨mid, st1, res.2.2, ?_, hrun, ?_, ?_, ?_⟩
      · rw [← e1, ← e2]
      · rw [hlog, List.length_map, List.length_range']
      · intro p hp
        obtain ⟨j, hj, rfl⟩ := hmem p hp
        have h1 := (mul_lt_iff_lt_ceil arr.length m j hm1).2 hj
        have h2 : ((j * m : Nat) : Int) < (arr.length : Int) := by exact_mod_cast h1
        have h3 : (0 : Int) ≤ ((j * m : Nat) : Int) := Int.ofNat_nonneg _
        rw [Nat.cast_mul] at h2 h3
        simp only
        omega
      · intro h0 p hp
        obtain ⟨j, hj, rfl⟩ := hmem p hp
        obtain ⟨hc, hn⟩ := hb.2.2.2.2 h0
        rw [hc] at hj
        have h1 : (j + 1) * m ≤ 2 ^ k * m := Nat.mul_le_mul_right _ (by omega)
        rw [← hn, Nat.succ_mul] at h1
        have h2 : ((j * m + m : Nat) : Int) ≤ (arr.length : Int) := by exact_mod_cast h1
        rw [Nat.cast_add, Nat.cast_mul] at h2
        simp only
        omega

/-- C19: for `n ≥ 32` let `k` be the number of halvings made by the loop of `calcMinRun`,
the unique `k` with `16 ≤ n / 2^k < 32`, and `m = calcMinRun(n)`.  Then
`m = n / 2^k + (1 if n is not a multiple of 2^k, else 0)`, hence `(m - 1) 2^k < n ≤ m 2^k`,
and the number `ceil(n / m)` of runs satisfies `2^(k-1) < ceil(n / m) ≤ 2^k`, with
`ceil(n / m) = 2^k` and `n = 2^k m` when `n` is a multiple of `2^k`.  The first loop of
`timSort` on a vector `arr` of length `n` hands exactly `ceil(n / m)` runs to `sortRange`
(logged in `tr` with their bounds), none longer than `m`, all of length `m` when `n` is a
multiple of `2^k`. -/
theorem calcMinRun_run_count (st : TimSortState) (arr : List Int) (n m k : Nat)
    (hn : arr.length = n) (hm : TimSort.calcMinRun n = m) (h32 : 32 ≤ n)
    (hk1 : 16 ≤ n / 2 ^ k) (hk2 : n / 2 ^ k < 32) :
    (∀ k2, 16 ≤ n / 2 ^ k2 → n / 2 ^ k2 < 32 → k2 = k) ∧
    m = n / 2 ^ k + (if n % 2 ^ k = 0 then 0 else 1) ∧
    ((m - 1) * 2 ^ k < n ∧ n ≤ m * 2 ^ k ∧ 2 ^ (k - 1) < (n + m - 1) / m ∧
      (n + m - 1) / m ≤ 2 ^ k ∧ (n % 2 ^ k = 0 → (n + m - 1) / m = 2 ^ k ∧ n = 2 ^ k * m)) ∧
    ∃ mid st1 tr,
      TimSort.runLoopTrace n m (n + 1) st arr 0 [] = some (mid, st1, tr) ∧
      TimSort.runLoop n m (n + 1) st arr 0 = some (mid, st1) ∧
      tr.length = (n + m - 1) / m ∧
      (∀ p ∈ tr, 0 ≤ p.1 ∧ p.1 ≤ p.2 ∧ p.2 < n ∧ p.2 - p.1 + 1 ≤ m) ∧
      (n % 2 ^ k = 0 → ∀ p ∈ tr, p.2 - p.1 + 1 = m) := by
  subst hn
  subst hm
  exact run_count_of_length st arr k h32 hk1 hk2

theorem calcMinRun_run_count_witness :
    ((List.replicate 40 (0 : Int)).length = 40 ∧ TimSort.calcMinRun 40 = 20 ∧ 32 ≤ 40 ∧
      16 ≤ 40 / 2 ^ 1 ∧ 40 / 2 ^ 1 < 32) ∧
    ((∀ k2, 16 ≤ 40 / 2 ^ k2 → 40 / 2 ^ k2 < 32 → k2 = 1) ∧
    20 = 40 / 2 ^ 1 + (if 40 % 2 ^ 1 = 0 then 0 else 1) ∧
    ((20 - 1) * 2 ^ 1 < 40 ∧ 40 ≤ 20 * 2 ^ 1 ∧ 2 ^ (1 - 1) < (40 + 20 - 1) / 20 ∧
      (40 + 20 - 1) / 20 ≤ 2 ^ 1 ∧
      (40 % 2 ^ 1 = 0 → (40 + 20 - 1) / 20 = 2 ^ 1 ∧ 40 = 2 ^ 1 * 20)) ∧
    ∃ mid st1 tr,
      TimSort.runLoopTrace (40 : Nat) (20 : Nat) (40 + 1) TimSort.fresh
        (List.replicate 40 (0 : Int)) 0 [] = some (mid, st1, tr) ∧
      TimSort.runLoop (40 : Nat) (20 : Nat) (40 + 1) TimSort.fresh
        (List.replicate 40 (0 : Int)) 0 = some (mid, st1) ∧
      tr.length = (40 + 20 - 1) / 20 ∧
      (∀ p ∈ tr, 0 ≤ p.1 ∧ p.1 ≤ p.2 ∧ p.2 < (40 : Nat) ∧ p.2 - p.1 + 1 ≤ (20 : Nat)) ∧
      (40 % 2 ^ 1 = 0 → ∀ p ∈ tr, p.2 - p.1 + 1 = (20 : Nat))) :=
  ⟨by decide, calcMinRun_run_count TimSort.fresh (List.replicate 40 (0 : Int)) 40 20 1
    (by decide) (by decide) (by decide) (by decide) (by decide)⟩

/-! ## QuickSort on sorted input -/

theorem swap_same (s : SortStats) (a : List Int) (i : Nat) (hi : i < a.length) :
    SortingAlgorithm.swap s a (i : Int) (i : Int) = some (a, { s with swaps := s.swaps + 1 }) := by
  have h := swap_eq_swapL s a (i : Int) (i : Int) (by omega) (by omega) (by omega) (by omega)
  rw [show ((i : Int)).toNat = i by omega, swapL_self a i hi] at h
  exact h

theorem triangle_succ (d : Nat) : (d + 1) * (d + 2) / 2 = d * (d + 1) / 2 + (d + 1) := by
  have e : (d + 1) * (d + 2) = d * (d + 1) + 2 * (d + 1) := by ring
  rw [e, Nat.add_mul_div_left _ _ (by decide : 0 < 2)]

theorem triangle_pos (d : Nat) : 1 ≤ (d + 1) * (d + 2) / 2 := by
  rw [triangle_succ]
  omega

namespace QuickSort

/-- When every remaining element of the range is below the pivot, each iteration of the loop
of `partition` makes one comparison and exchanges `arr[j]` with itself. -/
theorem partitionLoop_increasing (pivot : Int) (a : List Int) (right : Nat)
    (hr : right < a.length) (fuel : Nat) :
    ∀ (s : SortStats) (j : Nat), j ≤ right →
      (∀ k, j ≤ k → k < right → a.getD k 0 < pivot) → right - j < fuel →
      partitionLoop pivot right fuel a s ((j : Int) - 1) j
        = some (a, ⟨s.comparisons + (right - j), s.swaps + (right - j)⟩, (right : Int) - 1) := by
  induction fuel with
  | zero => intro s j _ _ h; omega
  | succ fuel ih =>
    intro s j hj hlt hf
    rw [partitionLoop]
    by_cases hjr : (j : Int) < right
    · have hjr2 : j < right := by omega
      rw [if_pos hjr]
      have hrd := rd_eq_getD a (j : Int) (by omega) (by omega)
      rw [show ((j : Int)).toNat = j by omega] at hrd
      have hc : (SortingAlgorithm.compare s (a.getD j 0) pivot).1 = true := by
        simp only [SortingAlgorithm.compare, hlt j (le_refl _) hjr2, decide_True]
      have hsw := swap_same (SortingAlgorithm.compare s (a.getD j 0) pivot).2 a j (by omega)
      have e1 : (j : Int) - 1 + 1 = (j : Int) := by omega
      simp only [hrd, Option.bind_eq_bind, Option.some_bind, hc, if_true, e1, hsw]
      have e2 : (j : Int) + 1 = ((j + 1 : Nat) : Int) := by omega
      have e3 : (j : Int) = ((j + 1 : Nat) : Int) - 1 := by omega
      rw [e2]
      nth_rewrite 1 [e3]
      rw [ih _ (j + 1) (by omega) (fun k hk1 hk2 => hlt k (by omega) hk2) (by omega)]
      simp only [SortingAlgorithm.compare, Option.some.injEq, Prod.mk.injEq, SortStats.mk.injEq,
        true_and, and_true]
      omega
    · rw [if_neg hjr]
      have e : right - j = 0 := by omega
      have e2 : (j : Int) - 1 = (right : Int) - 1 := by omega
      rw [e, e2]
      rfl

/-- On a range whose last element exceeds all the others `partition` changes nothing, returns
the last index, and counts one comparison per other element and one exchange per element. -/
theorem partition_increasing (s : SortStats) (a : List Int) (left right : Nat)
    (hlr : left ≤ right) (hr : right < a.length)
    (hlt : ∀ k, left ≤ k → k < right → a.getD k 0 < a.getD right 0) :
    partition s a left right
      = some (a, (⟨s.comparisons + (right - left), s.swaps + (right - left) + 1⟩ : SortStats),
          (right : Int)) := by
  have hrd := rd_eq_getD a (right : Int) (by omega) (by omega)
  rw [show ((right : Int)).toNat = right by omega] at hrd
  have hloop := partitionLoop_increasing (a.getD right 0) a right hr
    (((right : Int) - left).toNat + 1) s left hlr hlt (by omega)
  have hsw := swap_same (⟨s.comparisons + (right - left), s.swaps + (right - left)⟩ : SortStats)
    a right hr
  have e1 : (right : Int) - 1 + 1 = (right : Int) := by omega
  simp only [partition, hrd, Option.bind_eq_bind, Option.some_bind, hloop, e1, hsw]
  rfl

/-- The recursion on a strictly increasing range of `d + 1` elements. -/
theorem quickSort_increasing (a : List Int) (left : Nat)
    (hinc : ∀ i j, left ≤ i → i < j → j < a.length → a.getD i 0 < a.getD j 0) (d : Nat) :
    ∀ (fuel : Nat) (s : SortStats) (right : Nat), right = left + d → right < a.length →
      d < fuel →
      quickSort fuel s a left right
        = some (a, ⟨s.comparisons + d * (d + 1) / 2,
            s.swaps + ((d + 1) * (d + 2) / 2 - 1)⟩) := by
  induction d with
  | zero =>
    intro fuel s right hr hlen hf
    obtain ⟨f, rfl⟩ : ∃ f, fuel = f + 1 := ⟨fuel - 1, by omega⟩
    have hn : ¬ ((left : Int) < (right : Int)) := by omega
    rw [quickSort, if_neg hn]
    rfl
  | succ d ih =>
    intro fuel s right hr hlen hf
    obtain ⟨f, rfl⟩ : ∃ f, fuel = f + 1 := ⟨fuel - 1, by omega⟩
    obtain ⟨f2, hf2⟩ : ∃ f2, f = f2 + 1 := ⟨f - 1, by omega⟩
    have hlt : (left : Int) < (right : Int) := by omega
    have hp := partition_increasing s a left right (by omega) hlen
      (fun k hk1 hk2 => hinc k right hk1 hk2 hlen)
    have e1 : (right : Int) - 1 = ((right - 1 : Nat) : Int) := by omega
    have h1 := ih f ⟨s.comparisons + (right - left), s.swaps + (right - left) + 1⟩ (right - 1)
      (by omega) (by omega) (by omega)
    have hn : ¬ ((right : Int) + 1 < (right : Int)) := by omega
    have h2 : ∀ s2 : SortStats, quickSort f s2 a ((right : Int) + 1) right = some (a, s2) := by
      intro s2
      rw [hf2, quickSort, if_neg hn]
      rfl
    rw [quickSort, if_pos hlt, hp]
    simp only [Option.bind_eq_bind, Option.some_bind, e1, h1, h2]
    have t1 := triangle_succ d
    have t2 := triangle_succ (d + 1)
    have t3 := triangle_pos d
    have e2 : right - left = d + 1 := by omega
    have e3 : (d + 1) * (d + 1 + 1) = (d + 1) * (d + 2) := rfl
    have e4 : (d + 1 + 1) * (d + 1 + 2) = (d + 1 + 1) * (d + 1 + 1 + 1) := rfl
    simp only [Option.some.injEq, Prod.mk.injEq, SortStats.mk.injEq, true_and, e2]
    rw [e3, e4]
    constructor <;> omega

/-- The counts of `QuickSort::sort` on a strictly increasing vector. -/
theorem sort_increasing (s : SortStats) (arr : List Int) (h : List.Sorted (· < ·) arr) :
    sort s arr = some (arr, ⟨s.comparisons + arr.length * (arr.length - 1) / 2,
      s.swaps + (arr.length * (arr.length + 1) / 2 - 1)⟩) := by
  unfold sort
  by_cases h1 : arr.length ≤ 1
  · rw [if_pos h1]
    have h2 : arr.length = 0 ∨ arr.length = 1 := by omega
    rcases h2 with h2 | h2 <;> rw [h2] <;> rfl
  · rw [if_neg h1]
    have hinc : ∀ i j, 0 ≤ i → i < j → j < arr.length → arr.getD i 0 < arr.getD j 0 := by
      intro i j _ hij hj
      rw [List.getD_eq_getElem _ _ hj, List.getD_eq_getElem _ _ (by omega : i < arr.length)]
      exact (List.pairwise_iff_getElem.1 h) i j (by omega) hj hij
    have hq := quickSort_increasing arr 0 hinc (arr.length - 1) (arr.length + 1) s
      (arr.length - 1) (by omega) (by omega) (by omega)
    have e1 : ((arr.length - 1 : Nat) : Int) = (arr.length : Int) - 1 := by omega
    have e0 : ((0 : Nat) : Int) = 0 := rfl
    rw [e1, e0] at hq
    rw [hq]
    have e2 : arr.length - 1 + 1 = arr.length := by omega
    have e3 : arr.length - 1 + 2 = arr.length + 1 := by omega
    rw [e2, e3, Nat.mul_comm (arr.length - 1) arr.length]

end QuickSort

/-- C20: on every strictly increasing integer sequence of length `n ≥ 1` `QuickSort::sort`
started with zeroed statistics leaves the sequence unchanged and ends with exactly
`n(n-1)/2` comparisons and exactly `n(n+1)/2 - 1` exchanges (the subtraction is exact, since
`n(n+1)/2 ≥ 1`): every call of the exchange is counted, and on such input each one exchanges
a position with itself. -/
theorem quickSort_sorted_input_counts (arr : List Int) (h : List.Sorted (· < ·) arr)
    (hn : 1 ≤ arr.length) :
    QuickSort.sort SortStats.zero arr
      = some (arr, ⟨arr.length * (arr.length - 1) / 2,
          arr.length * (arr.length + 1) / 2 - 1⟩) ∧
      1 ≤ arr.length * (arr.length + 1) / 2 := by
  have := QuickSort.sort_increasing SortStats.zero arr h
  simp only [SortStats.zero, Nat.zero_add] at this
  refine ⟨this, ?_⟩
  obtain ⟨d, hd⟩ : ∃ d, arr.length = d + 1 := ⟨arr.length - 1, by omega⟩
  rw [hd]
  exact triangle_pos d

theorem quickSort_sorted_input_counts_witness :
    (List.Sorted (· < ·) ([1, 2, 3, 4] : List Int) ∧ 1 ≤ ([1, 2, 3, 4] : List Int).length) ∧
    (QuickSort.sort SortStats.zero [1, 2, 3, 4]
      = some ([1, 2, 3, 4], ⟨([1, 2, 3, 4] : List Int).length
          * (([1, 2, 3, 4] : List Int).length - 1) / 2,
          ([1, 2, 3, 4] : List Int).length * (([1, 2, 3, 4] : List Int).length + 1) / 2 - 1⟩) ∧
      1 ≤ ([1, 2, 3, 4] : List Int).length * (([1, 2, 3, 4] : List Int).length + 1) / 2) :=
  ⟨⟨by decide, by decide⟩,
    quickSort_sorted_input_counts [1, 2, 3, 4] (by decide) (by decide)⟩

/-! ## The median-of-three partition of Introsort -/

theorem rdIn_eq_rd (lo hi : Int) (a : List Int) (i : Int) (h1 : lo ≤ i) (h2 : i ≤ hi) :
    rdIn lo hi a i = rd a i := by
  unfold rdIn
  rw [if_pos ⟨h1, h2⟩]

/-- A guarded exchange leaves the two values in place or exchanges them. -/
theorem cswap_vals (a : List Int) (x y : Nat) (hxy : x ≠ y) (hx : x < a.length)
    (hy : y < a.length) :
    (¬ a.getD y 0 < a.getD x 0 ∧
        (if a.getD y 0 < a.getD x 0 then swapL a x y else a).getD x 0 = a.getD x 0 ∧
        (if a.getD y 0 < a.getD x 0 then swapL a x y else a).getD y 0 = a.getD y 0) ∨
      (a.getD y 0 < a.getD x 0 ∧
        (if a.getD y 0 < a.getD x 0 then swapL a x y else a).getD x 0 = a.getD y 0 ∧
        (if a.getD y 0 < a.getD x 0 then swapL a x y else a).getD y 0 = a.getD x 0) := by
  by_cases h : a.getD y 0 < a.getD x 0
  · right
    rw [if_pos h, getD_swapL a x y x hx hy, getD_swapL a x y y hx hy]
    simp only [hxy, if_false, if_true]
    exact ⟨h, trivial, trivial⟩
  · left
    rw [if_neg h]
    exact ⟨h, rfl, rfl⟩

namespace IntroSort

/-- The upward scan reads the positions `i + 1, ..., i1` only, `i1` being its result. -/
theorem scanUpIn_of_scanUp (lo hi pivot : Int) (a : List Int) (fuel : Nat) :
    ∀ (s : SortStats) (i : Int) (r : SortStats × Int), scanUp pivot a fuel s i = some r →
      i + 1 ≤ r.2 ∧ (lo ≤ i + 1 → r.2 ≤ hi → scanUpIn lo hi pivot a fuel s i = some r) := by
  induction fuel with
  | zero =>
    intro s i r h
    simp [scanUp] at h
  | succ fuel ih =>
    intro s i r h
    rw [scanUp] at h
    cases hrd : rd a (i + 1) with
    | none => rw [hrd] at h; simp at h
    | some v =>
      rw [hrd] at h
      simp only [Option.bind_eq_bind, Option.some_bind] at h
      by_cases hc : (SortingAlgorithm.compare s v pivot).1 = true
      · rw [if_pos hc] at h
        obtain ⟨h1, h2⟩ := ih _ _ r h
        refine ⟨by omega, ?_⟩
        intro hlo hhi
        rw [scanUpIn, rdIn_eq_rd lo hi a (i + 1) hlo (by omega), hrd]
        simp only [Option.bind_eq_bind, Option.some_bind]
        rw [if_pos hc]
        exact h2 (by omega) hhi
      · rw [if_neg hc] at h
        have hr := Option.some.inj h
        refine ⟨by rw [← hr], ?_⟩
        intro hlo hhi
        have hhi2 : i + 1 ≤ hi := by rw [← hr] at hhi; exact hhi
        rw [scanUpIn, rdIn_eq_rd lo hi a (i + 1) hlo hhi2, hrd]
        simp only [Option.bind_eq_bind, Option.some_bind]
        rw [if_neg hc]
        exact h

/-- The downward scan reads the positions `j - 1, ..., j1` only, `j1` being its result. -/
theorem scanDownIn_of_scanDown (lo hi pivot : Int) (a : List Int) (fuel : Nat) :
    ∀ (s : SortStats) (j : Int) (r : SortStats × Int), scanDown pivot a fuel s j = some r →
      r.2 ≤ j - 1 ∧ (lo ≤ r.2 → j - 1 ≤ hi → scanDownIn lo hi pivot a fuel s j = some r) := by
  induction fuel with
  | zero =>
    intro s j r h
    simp [scanDown] at h
  | succ fuel ih =>
    intro s j r h
    rw [scanDown] at h
    cases hrd : rd a (j - 1) with
    | none => rw [hrd] at h; simp at h
    | some v =>
      rw [hrd] at h
      simp only [Option.bind_eq_bind, Option.some_bind] at h
      by_cases hc : (SortingAlgorithm.compare s pivot v).1 = true
      · rw [if_pos hc] at h
        obtain ⟨h1, h2⟩ := ih _ _ r h
        refine ⟨by omega, ?_⟩
        intro hlo hhi
        rw [scanDownIn, rdIn_eq_rd lo hi a (j - 1) (by omega) hhi, hrd]
        simp only [Option.bind_eq_bind, Option.some_bind]
        rw [if_pos hc]
        exact h2 hlo (by omega)
      · rw [if_neg hc] at h
        have hr := Option.some.inj h
        refine ⟨by rw [← hr], ?_⟩
        intro hlo hhi
        have hlo2 : lo ≤ j - 1 := by rw [← hr] at hlo; exact hlo
        rw [scanDownIn, rdIn_eq_rd lo hi a (j - 1) hlo2 hhi, hrd]
        simp only [Option.bind_eq_bind, Option.some_bind]
        rw [if_neg hc]
        exact h

/-- The crossing-pointers loop with its scans checked against `l .. r` does what the
unchecked loop does: under the loop invariant no scan leaves the range. -/
theorem ipartitionLoop_in_range (pivot : Int) (l r : Nat) (fuel : Nat) :
    ∀ (s : SortStats) (a : List Int) (i j : Nat),
      l ≤ i → i < j → j + 1 ≤ r → r < a.length → a.getD (r - 1) 0 = pivot →
      (∀ k, l ≤ k → k ≤ i → a.getD k 0 ≤ pivot) →
      (∀ k, j ≤ k → k ≤ r → pivot ≤ a.getD k 0) → j - i ≤ fuel →
      partitionLoopIn l r pivot fuel s a i j = partitionLoop pivot fuel s a i j := by
  induction fuel with
  | zero => intro s a i j _ h _ _ _ _ _ h2; omega
  | succ fuel ih =>
    intro s a i j hli hij hjr hr hpv hlo hhi hf
    obtain ⟨s1, i1, hup, hu1, hu2, hu3, hu4⟩ :=
      scanUp_spec pivot a (a.length + 1) s i j hij (by omega) (hhi j (le_refl _) (by omega))
        (by omega)
    obtain ⟨s2, j1, hdown, hd1, hd2, hd3, hd4⟩ :=
      scanDown_spec pivot a (a.length + 1) s1 i j hij (by omega) (hlo i hli (le_refl _))
        (by omega)
    have hupIn := (scanUpIn_of_scanUp l r pivot a _ s i _ hup).2 (by omega)
      (by show (i1 : Int) ≤ r; omega)
    have hdownIn := (scanDownIn_of_scanDown l r pivot a _ s1 j _ hdown).2
      (by show (l : Int) ≤ j1; omega) (by omega)
    by_cases hcross : j1 ≤ i1
    · have hge : ((i1 : Int) ≥ (j1 : Int)) := by omega
      simp only [partitionLoop, partitionLoopIn, hup, hdown, hupIn, hdownIn,
        Option.bind_eq_bind, Option.some_bind]
      rw [if_pos hge, if_pos hge]
    · have hv := fun k => getD_swapL a i1 j1 k (by omega) (by omega)
      have hsw := swap_eq_swapL s2 a i1 j1 (by omega) (by omega) (by omega) (by omega)
      have e1 : ((i1 : Int)).toNat = i1 := by omega
      have e2 : ((j1 : Int)).toNat = j1 := by omega
      rw [e1, e2] at hsw
      have hrec :=
        ih { s2 with swaps := s2.swaps + 1 } (swapL a i1 j1) i1 j1 (by omega) (by omega)
          (by omega) (by rw [length_swapL]; exact hr)
          (by
            rw [hv (r - 1)]
            have h1 : r - 1 ≠ j1 := by omega
            have h2 : r - 1 ≠ i1 := by omega
            simp only [h1, h2, if_false]
            exact hpv)
          (by
            intro k hk1 hk2
            rw [hv k]
            have h1 : k ≠ j1 := by omega
            simp only [h1, if_false]
            by_cases h2 : k = i1
            · simp only [h2, if_true]; exact hd3
            · simp only [h2, if_false]
              by_cases hk : k ≤ i
              · exact hlo k hk1 hk
              · exact le_of_lt (hu4 k (by omega) (by omega)))
          (by
            intro k hk1 hk2
            rw [hv k]
            by_cases h1 : k = j1
            · simp only [h1, if_true]; exact hu3
            · have h2 : k ≠ i1 := by omega
              simp only [h1, h2, if_false]
              by_cases hk : j ≤ k
              · exact hhi k hk hk2
              · exact le_of_lt (hd4 k (by omega) (by omega)))
          (by omega)
      have hlt : ¬ ((i1 : Int) ≥ (j1 : Int)) := by omega
      simp only [partitionLoop, partitionLoopIn, hup, hdown, hupIn, hdownIn,
        Option.bind_eq_bind, Option.some_bind]
      rw [if_neg hlt, if_neg hlt]
      simp only [hsw, Option.bind_eq_bind, Option.some_bind]
      exact hrec

end IntroSort

namespace IntroSort

/-- Full specification of `IntroSort::partition` on a range of at least three elements: the
result of `ipartition_spec`, the identification of the pivot as the median of the three
sampled elements, and the agreement with the variant whose scans are range-checked. -/
theorem ipartition_full (s : SortStats) (a : List Int) (l r : Nat) (hlr : l + 2 ≤ r)
    (hr : r < a.length) :
    ∃ a1 s1 p, partition s a l r = some (a1, s1, ((p : Nat) : Int)) ∧
      partitionIn s a l r = some (a1, s1, ((p : Nat) : Int)) ∧ SameOutside a a1 l r ∧
      l < p ∧ p < r ∧ (∀ k, l ≤ k → k < p → a1.getD k 0 ≤ a1.getD p 0) ∧
      (∀ k, p < k → k ≤ r → a1.getD p 0 ≤ a1.getD k 0) ∧
      IsMedian3 (a1.getD p 0) (a.getD l 0) (a.getD (l + (r - l) / 2) 0) (a.getD r 0) := by
  obtain ⟨m, hm⟩ : ∃ m : Nat, m = l + (r - l) / 2 := ⟨_, rfl⟩
  have hmid : (l : Int) + cdiv ((r : Int) - l) 2 = (m : Int) := by
    rw [cdiv_of_nonneg _ _ (by omega) (by omega)]; omega
  have hlm : l < m := by omega
  have hmr : m < r := by omega
  rw [← hm]
  -- the three guarded exchanges
  obtain ⟨s1, h1⟩ := condSwap_spec s a r l l r (by omega) (by omega) (by omega) (by omega)
  have f1 := cswap_facts a l r (by omega) (by omega) (by omega)
  have v1 := cswap_vals a l r (by omega) (by omega) (by omega)
  generalize (if a.getD r 0 < a.getD l 0 then swapL a l r else a) = a1 at h1 f1 v1
  obtain ⟨g1, -, -, -, -, -, g7, g8, g9⟩ := f1
  obtain ⟨s2, h2⟩ := condSwap_spec s1 a1 m l l m (by omega) (by omega) (by omega) (by omega)
  have f2 := cswap_facts a1 l m (by omega) (by omega) (by omega)
  have v2 := cswap_vals a1 l m (by omega) (by omega) (by omega)
  generalize (if a1.getD m 0 < a1.getD l 0 then swapL a1 l m else a1) = a2 at h2 f2 v2
  obtain ⟨k1, -, k3, -, -, -, k7, k8, k9⟩ := f2
  obtain ⟨s3, h3⟩ := condSwap_spec s2 a2 r m m r (by omega) (by omega) (by omega) (by omega)
  have f3 := cswap_facts a2 m r (by omega) (by omega) (by omega)
  have v3 := cswap_vals a2 m r (by omega) (by omega) (by omega)
  generalize (if a2.getD r 0 < a2.getD m 0 then swapL a2 m r else a2) = a3 at h3 f3 v3
  obtain ⟨m1, m2, -, -, -, -, m7, m8, m9⟩ := f3
  have hl3 : a3.getD l 0 ≤ a3.getD m 0 := by
    have e1 : a3.getD l 0 = a2.getD l 0 := m7 l (by omega) (by omega)
    have e2 : a2.getD r 0 = a1.getD r 0 := k7 r (by omega) (by omega)
    rcases m2 with h | h <;> omega
  have hmed : IsMedian3 (a3.getD m 0) (a.getD l 0) (a.getD m 0) (a.getD r 0) := by
    have e1 : a1.getD m 0 = a.getD m 0 := g7 m (by omega) (by omega)
    have e2 : a2.getD r 0 = a1.getD r 0 := k7 r (by omega) (by omega)
    unfold IsMedian3
    omega
  have hso3 : SameOutside a a3 l r := by
    refine ⟨by omega, (m9.trans k9).trans g9, ?_⟩
    intro k hk
    rw [m7 k (by omega) (by omega), k7 k (by omega) (by omega), g7 k (by omega) (by omega)]
  -- the pivot goes to `r - 1`
  have hrd : rd a3 (m : Int) = some (a3.getD m 0) := by
    have := rd_eq_getD a3 m (by omega) (by omega)
    rwa [show ((m : Int)).toNat = m by omega] at this
  have hsw4 := swap_eq_swapL s3 a3 m ((r : Int) - 1) (by omega) (by omega) (by omega) (by omega)
  rw [show ((m : Int)).toNat = m by omega, show ((r : Int) - 1).toNat = r - 1 by omega] at hsw4
  have hv4 := fun k => getD_swapL a3 m (r - 1) k (by omega) (by omega)
  have inv0 : (swapL a3 m (r - 1)).getD (r - 1) 0 = a3.getD m 0 := by
    rw [hv4 (r - 1)]; simp only [if_true]
  have inv1 : ∀ k, l ≤ k → k ≤ l → (swapL a3 m (r - 1)).getD k 0 ≤ a3.getD m 0 := by
    intro k hk1 hk2
    have hk : k = l := by omega
    rw [hk, hv4 l]
    have e1 : l ≠ r - 1 := by omega
    have e2 : l ≠ m := by omega
    simp only [e1, e2, if_false]
    exact hl3
  have inv2 : ∀ k, r - 1 ≤ k → k ≤ r → a3.getD m 0 ≤ (swapL a3 m (r - 1)).getD k 0 := by
    intro k hk1 hk2
    rw [hv4 k]
    by_cases e1 : k = r - 1
    · simp only [e1, if_true]; exact le_refl _
    · have e2 : k = r := by omega
      have e3 : r ≠ r - 1 := by omega
      have e4 : r ≠ m := by omega
      simp only [e2, e3, e4, if_false]
      exact m1
  have hlen4 : r < (swapL a3 m (r - 1)).length := by rw [length_swapL]; omega
  obtain ⟨a5, s5, p, hrun, hso5, hp1, hp2, hp3, hp4, hp5, hp6⟩ :=
    ipartitionLoop_spec (a3.getD m 0) l r (a.length + 1) { s3 with swaps := s3.swaps + 1 }
      (swapL a3 m (r - 1)) l (r - 1) (le_refl _) (by omega) (by omega) hlen4 inv0 inv1 inv2
      (by omega)
  have hrunIn := ipartitionLoop_in_range (a3.getD m 0) l r (a.length + 1)
    { s3 with swaps := s3.swaps + 1 } (swapL a3 m (r - 1)) l (r - 1) (le_refl _) (by omega)
    (by omega) hlen4 inv0 inv1 inv2 (by omega)
  have hlen5 : a5.length = a.length := by rw [hso5.1, length_swapL]; omega
  have hsw6 := swap_eq_swapL s5 a5 p ((r : Int) - 1) (by omega) (by omega) (by omega) (by omega)
  rw [show ((p : Int)).toNat = p by omega, show ((r : Int) - 1).toNat = r - 1 by omega] at hsw6
  have hv6 := fun k => getD_swapL a5 p (r - 1) k (by omega) (by omega)
  have hpp : (swapL a5 p (r - 1)).getD p 0 = a3.getD m 0 := by
    rw [hv6 p]
    by_cases e : p = r - 1
    · rw [if_pos e]; rw [e]; exact hp3
    · simp only [e, if_false, if_true]; exact hp3
  have e5 : (r : Int) - 1 = ((r - 1 : Nat) : Int) := by omega
  rw [e5] at hsw4 hsw6
  have hplain : partition s a l r
      = some (swapL a5 p (r - 1), { s5 with swaps := s5.swaps + 1 }, ((p : Nat) : Int)) := by
    simp only [partition, hmid, h1, h2, h3, Option.bind_eq_bind, Option.some_bind, hrd, hsw4, e5,
      hso3.1, hrun, hsw6]
    rfl
  have hIn : partitionIn s a l r
      = some (swapL a5 p (r - 1), { s5 with swaps := s5.swaps + 1 }, ((p : Nat) : Int)) := by
    rw [hrun] at hrunIn
    simp only [partitionIn, hmid, h1, h2, h3, Option.bind_eq_bind, Option.some_bind, hrd, hsw4,
      e5, hso3.1, hrunIn, hsw6]
    rfl
  refine ⟨swapL a5 p (r - 1), { s5 with swaps := s5.swaps + 1 }, p, hplain, hIn, ?_, hp1,
    by omega, ?_, ?_, ?_⟩
  · refine sameOutside_trans a a3 _ l r hso3 ?_
    refine sameOutside_trans a3 (swapL a3 m (r - 1)) _ l r
      (sameOutside_swapL a3 l r m (r - 1) (by omega) (by omega) (by omega) (by omega)
        (by omega)) ?_
    refine sameOutside_trans _ a5 _ l r hso5 ?_
    exact sameOutside_swapL a5 l r p (r - 1) (by omega) (by omega) (by omega) (by omega)
      (by omega)
  · intro k hk1 hk2
    rw [hpp, hv6 k]
    have e1 : k ≠ r - 1 := by omega
    have e2 : k ≠ p := by omega
    simp only [e1, e2, if_false]
    exact hp4 k hk1 hk2
  · intro k hk1 hk2
    rw [hpp, hv6 k]
    by_cases e1 : k = r - 1
    · simp only [e1, if_true]; exact hp5
    · have e2 : k ≠ p := by omega
      simp only [e1, e2, if_false]
      exact hp6 k hk1 hk2
  · rw [hpp]
    exact hmed

end IntroSort

/-- C17: `IntroSort::partition` is a correct, in-bounds median-of-three partition.  For every
integer sequence `a` and indices `l`, `r` inside it with `r - l ≥ 2` the method returns; it
returns the same result when every read of its two unguarded scans is required to lie in
`l .. r` (so the scans never leave the range, and they terminate); the returned index `p`
satisfies `l < p < r`; `a1[p]` is the median of the original `a[l]`, `a[mid]`, `a[r]`,
`mid = l + (r - l) / 2`; every element of `l .. p-1` is at most `a1[p]`, every element of
`p+1 .. r` is at least `a1[p]`; the range `l .. r` is a permutation of its original content,
the length is kept and the positions outside the range are unchanged. -/
theorem introSort_partition_correct (s : SortStats) (a : List Int) (l r : Nat)
    (hlr : l + 2 ≤ r) (hr : r < a.length) :
    ∃ a1 s1 p, IntroSort.partition s a l r = some (a1, s1, ((p : Nat) : Int)) ∧
      IntroSort.partitionIn s a l r = some (a1, s1, ((p : Nat) : Int)) ∧
      l < p ∧ p < r ∧
      IsMedian3 (a1.getD p 0) (a.getD l 0) (a.getD (l + (r - l) / 2) 0) (a.getD r 0) ∧
      (∀ k, l ≤ k → k < p → a1.getD k 0 ≤ a1.getD p 0) ∧
      (∀ k, p < k → k ≤ r → a1.getD p 0 ≤ a1.getD k 0) ∧
      a1.length = a.length ∧ (seg a1 l r).Perm (seg a l r) ∧
      (∀ k, (k < l ∨ r < k) → a1.getD k 0 = a.getD k 0) := by
  obtain ⟨a1, s1, p, h1, h2, hso, h3, h4, h5, h6, h7⟩ := IntroSort.ipartition_full s a l r hlr hr
  obtain ⟨-, hperm⟩ := decomp_of_sameOutside a a1 l r (by omega) hr hso
  exact ⟨a1, s1, p, h1, h2, h3, h4, h7, h5, h6, hso.1, hperm, hso.2.2⟩

theorem introSort_partition_correct_witness :
    (0 + 2 ≤ 4 ∧ 4 < ([5, 1, 4, 2, 3] : List Int).length) ∧
    ∃ a1 s1 p, IntroSort.partition SortStats.zero [5, 1, 4, 2, 3] (0 : Nat) (4 : Nat)
        = some (a1, s1, ((p : Nat) : Int)) ∧
      IntroSort.partitionIn SortStats.zero [5, 1, 4, 2, 3] (0 : Nat) (4 : Nat)
        = some (a1, s1, ((p : Nat) : Int)) ∧
      0 < p ∧ p < 4 ∧
      IsMedian3 (a1.getD p 0) (([5, 1, 4, 2, 3] : List Int).getD 0 0)
        (([5, 1, 4, 2, 3] : List Int).getD (0 + (4 - 0) / 2) 0)
        (([5, 1, 4, 2, 3] : List Int).getD 4 0) ∧
      (∀ k, 0 ≤ k → k < p → a1.getD k 0 ≤ a1.getD p 0) ∧
      (∀ k, p < k → k ≤ 4 → a1.getD p 0 ≤ a1.getD k 0) ∧
      a1.length = ([5, 1, 4, 2, 3] : List Int).length ∧
      (seg a1 (0 : Nat) (4 : Nat)).Perm (seg [5, 1, 4, 2, 3] (0 : Nat) (4 : Nat)) ∧
      (∀ k, (k < 0 ∨ 4 < k) → a1.getD k 0 = ([5, 1, 4, 2, 3] : List Int).getD k 0) :=
  ⟨by decide, introSort_partition_correct SortStats.zero [5, 1, 4, 2, 3] 0 4 (by decide)
    (by decide)⟩

/-! ## The exchange count of merge sort -/

theorem floorLog2_eq_log (fuel : Nat) : ∀ n, n ≤ fuel → IntroSort.floorLog2 fuel n = Nat.log 2 n := by
  induction fuel with
  | zero =>
    intro n hn
    have : n = 0 := by omega
    subst this
    rw [Nat.log_zero_right]
    rfl
  | succ fuel ih =>
    intro n hn
    rw [IntroSort.floorLog2]
    by_cases h : n < 2
    · rw [if_pos h, Nat.log_of_lt h]
    · have e := Nat.log_of_one_lt_of_le (by decide : 1 < 2) (show 2 ≤ n by omega)
      rw [if_neg h, e, ih (n / 2) (by omega)]

theorem ilog2_eq_log (n : Nat) : ilog2 n = Nat.log 2 n := floorLog2_eq_log n n (le_refl _)

/-- The closed form at `m`, computed with the exponent `e` when `2^e ≤ m ≤ 2^(e+1)`: at a
power of two both admissible exponents give the same value. -/
theorem closed_with_exponent (m e : Nat) (h1 : 2 ^ e ≤ m) (h2 : m ≤ 2 ^ (e + 1)) :
    mergeExchangesClosed m = m * e + 2 * m - 2 ^ (e + 1) := by
  unfold mergeExchangesClosed
  rw [ilog2_eq_log]
  by_cases h : m < 2 ^ (e + 1)
  · rw [Nat.log_eq_of_pow_le_of_lt_pow h1 h]
  · have hm : m = 2 ^ (e + 1) := by omega
    rw [hm, Nat.log_pow (by decide)]
    have e1 : 2 ^ (e + 1 + 1) = 2 * 2 ^ (e + 1) := by rw [pow_succ, Nat.mul_comm]
    have e2 : 2 ^ (e + 1) * (e + 1) = 2 ^ (e + 1) * e + 2 ^ (e + 1) := by ring
    rw [e1, e2]
    omega

/-- The closed form satisfies the recurrence of `S`. -/
theorem closed_rec (n : Nat) (hn : 2 ≤ n) :
    mergeExchangesClosed n
      = n + mergeExchangesClosed ((n + 1) / 2) + mergeExchangesClosed (n / 2) := by
  have hL1 : 0 < Nat.log 2 n := Nat.log_pos (by decide) hn
  obtain ⟨e, he⟩ : ∃ e, Nat.log 2 n = e + 1 := ⟨Nat.log 2 n - 1, by omega⟩
  have hlo : 2 ^ (e + 1) ≤ n := by
    rw [← he]; exact Nat.pow_log_le_self 2 (by omega)
  have hhi : n < 2 ^ (e + 1 + 1) := by
    have := Nat.lt_pow_succ_log_self (by decide : 1 < 2) n
    rw [he] at this
    exact this
  have e1 : 2 ^ (e + 1) = 2 * 2 ^ e := by rw [pow_succ, Nat.mul_comm]
  have e2 : 2 ^ (e + 1 + 1) = 2 * 2 ^ (e + 1) := by rw [pow_succ, Nat.mul_comm]
  have hn0 : mergeExchangesClosed n = n * (e + 1) + 2 * n - 2 ^ (e + 1 + 1) :=
    closed_with_exponent n (e + 1) hlo (le_of_lt hhi)
  have ha : mergeExchangesClosed ((n + 1) / 2) = (n + 1) / 2 * e + 2 * ((n + 1) / 2) - 2 ^ (e + 1) :=
    closed_with_exponent _ e (by omega) (by omega)
  have hb : mergeExchangesClosed (n / 2) = n / 2 * e + 2 * (n / 2) - 2 ^ (e + 1) :=
    closed_with_exponent _ e (by omega) (by omega)
  rw [hn0, ha, hb]
  have hab : (n + 1) / 2 + n / 2 = n := by omega
  have e4 : n * e = (n + 1) / 2 * e + n / 2 * e := by rw [← Nat.add_mul, hab]
  have e3 : n * (e + 1) = (n + 1) / 2 * e + n / 2 * e + n := by
    rw [Nat.mul_succ, e4]
  rw [e3, e2]
  omega

theorem closed_small (n : Nat) (hn : n ≤ 1) : mergeExchangesClosed n = 0 := by
  have h : n = 0 ∨ n = 1 := by omega
  rcases h with h | h <;> subst h <;> decide

/-- The recursive number `S(n)` equals the closed form. -/
theorem mergeExchangesRec_eq_closed (fuel : Nat) :
    ∀ n, n ≤ fuel → mergeExchangesRec fuel n = mergeExchangesClosed n := by
  induction fuel with
  | zero =>
    intro n hn
    rw [closed_small n (by omega)]
    rfl
  | succ fuel ih =>
    intro n hn
    rw [mergeExchangesRec]
    by_cases h : n ≤ 1
    · rw [if_pos h, closed_small n h]
    · rw [if_neg h, ih _ (by omega), ih _ (by omega), ← closed_rec n (by omega)]

theorem mergeExchanges_eq_closed (n : Nat) : mergeExchanges n = mergeExchangesClosed n :=
  mergeExchangesRec_eq_closed n n (le_refl _)

theorem mergeExchanges_rec (n : Nat) (hn : 2 ≤ n) :
    mergeExchanges n = n + mergeExchanges ((n + 1) / 2) + mergeExchanges (n / 2) := by
  rw [mergeExchanges_eq_closed, mergeExchanges_eq_closed, mergeExchanges_eq_closed]
  exact closed_rec n hn

theorem mergeExchanges_small (n : Nat) (hn : n ≤ 1) : mergeExchanges n = 0 := by
  rw [mergeExchanges_eq_closed]
  exact closed_small n hn

theorem mergeExchanges_pow (k : Nat) : mergeExchanges (2 ^ k) = 2 ^ k * k := by
  rw [mergeExchanges_eq_closed]
  unfold mergeExchangesClosed
  rw [ilog2_eq_log, Nat.log_pow (by decide)]
  have e1 : 2 ^ (k + 1) = 2 * 2 ^ k := by rw [pow_succ, Nat.mul_comm]
  rw [e1]
  omega

namespace MergeSort

theorem leftFirst_swaps (s : SortStats) (a b : Int) : (leftFirst s a b).2.swaps = s.swaps := by
  unfold leftFirst
  simp only [SortingAlgorithm.compare]
  split <;> rfl

/-- The merging loop counts comparisons only. -/
theorem mergeLoop_swaps (mid right : Int) (fuel : Nat) :
    ∀ (arr temp : List Int) (s : SortStats) (i j k : Int)
      (r : List Int × SortStats × Int × Int × Int),
      mergeLoop mid right fuel arr temp s i j k = some r → r.2.1.swaps = s.swaps := by
  induction fuel with
  | zero =>
    intro arr temp s i j k r h
    simp [mergeLoop] at h
  | succ fuel ih =>
    intro arr temp s i j k r h
    rw [mergeLoop] at h
    by_cases hc : i ≤ mid ∧ j ≤ right
    · rw [if_pos hc] at h
      simp only [Option.bind_eq_bind] at h
      cases h1 : rd arr i with
      | none => rw [h1] at h; simp at h
      | some ai =>
        rw [h1] at h
        simp only [Option.some_bind] at h
        cases h2 : rd arr j with
        | none => rw [h2] at h; simp at h
        | some aj =>
          rw [h2] at h
          simp only [Option.some_bind] at h
          by_cases ht : (leftFirst s ai aj).1 = true
          · rw [if_pos ht] at h
            cases h3 : wr temp k ai with
            | none => rw [h3] at h; simp at h
            | some temp1 =>
              rw [h3] at h
              simp only [Option.some_bind] at h
              rw [ih _ _ _ _ _ _ r h, leftFirst_swaps]
          · rw [if_neg ht] at h
            cases h3 : wr temp k aj with
            | none => rw [h3] at h; simp at h
            | some temp1 =>
              rw [h3] at h
              simp only [Option.some_bind] at h
              rw [ih _ _ _ _ _ _ r h, leftFirst_swaps]
    · rw [if_neg hc] at h
      have := Option.some.inj h
      rw [← this]

/-- The copy-back loop counts one exchange for each position `i .. right`. -/
theorem copyBack_swaps (right : Int) (fuel : Nat) :
    ∀ (arr temp : List Int) (s : SortStats) (i : Int) (r : List Int × SortStats),
      copyBack right fuel arr temp s i = some r →
      r.2.swaps = s.swaps + (right + 1 - i).toNat := by
  induction fuel with
  | zero =>
    intro arr temp s i r h
    simp [copyBack] at h
  | succ fuel ih =>
    intro arr temp s i r h
    rw [copyBack] at h
    by_cases hc : i ≤ right
    · rw [if_pos hc] at h
      simp only [Option.bind_eq_bind] at h
      cases h1 : rd temp i with
      | none => rw [h1] at h; simp at h
      | some ti =>
        rw [h1] at h
        simp only [Option.some_bind] at h
        cases h2 : wr arr i ti with
        | none => rw [h2] at h; simp at h
        | some arr1 =>
          rw [h2] at h
          simp only [Option.some_bind] at h
          rw [ih _ _ _ _ r h]
          simp only
          omega
    · rw [if_neg hc] at h
      have := Option.some.inj h
      rw [← this]
      simp only
      omega

/-- One call of `merge` counts one exchange for each position of its range. -/
theorem merge_swaps (s : SortStats) (arr : List Int) (left mid right : Int) (temp : List Int)
    (r : List Int × List Int × SortStats) (h : merge s arr left mid right temp = some r) :
    r.2.2.swaps = s.swaps + (right + 1 - left).toNat := by
  unfold merge at h
  simp only [Option.bind_eq_bind] at h
  cases h1 : mergeLoop mid right ((right - left).toNat + 2) arr temp s left (mid + 1) left with
  | none => rw [h1] at h; simp at h
  | some r1 =>
    rw [h1] at h
    simp only [Option.some_bind] at h
    cases h2 : copyRest mid ((right - left).toNat + 2) arr r1.1 r1.2.2.1 r1.2.2.2.2 with
    | none => rw [h2] at h; simp at h
    | some r2 =>
      rw [h2] at h
      simp only [Option.some_bind] at h
      cases h3 : copyRest right ((right - left).toNat + 2) arr r2.1 r1.2.2.2.1 r2.2 with
      | none => rw [h3] at h; simp at h
      | some r3 =>
        rw [h3] at h
        simp only [Option.some_bind] at h
        cases h4 : copyBack right ((right - left).toNat + 2) arr r3.1 r1.2.1 left with
        | none => rw [h4] at h; simp at h
        | some r4 =>
          rw [h4] at h
          simp only [Option.some_bind] at h
          have := Option.some.inj h
          rw [← this]
          show r4.2.swaps = _
          rw [copyBack_swaps _ _ _ _ _ _ r4 h4, mergeLoop_swaps _ _ _ _ _ _ _ _ _ r1 h1]

/-- The recursion on a range of `n` positions counts `S(n)` exchanges, whatever the values. -/
theorem mergeSort_swaps (fuel : Nat) :
    ∀ (s : SortStats) (arr : List Int) (left right : Int) (temp : List Int)
      (r : List Int × List Int × SortStats),
      mergeSort fuel s arr left right temp = some r →
      r.2.2.swaps = s.swaps + mergeExchanges (right + 1 - left).toNat := by
  induction fuel with
  | zero =>
    intro s arr left right temp r h
    simp [mergeSort] at h
  | succ fuel ih =>
    intro s arr left right temp r h
    rw [mergeSort] at h
    by_cases hc : left < right
    · rw [if_pos hc] at h
      simp only [Option.bind_eq_bind] at h
      have hmid : left + cdiv (right - left) 2 = left + (right - left) / 2 := by
        rw [cdiv_of_nonneg _ _ (by omega) (by omega)]
      rw [hmid] at h
      cases h1 : mergeSort fuel s arr left (left + (right - left) / 2) temp with
      | none => rw [h1] at h; simp at h
      | some r1 =>
        rw [h1] at h
        simp only [Option.some_bind] at h
        cases h2 : mergeSort fuel r1.2.2 r1.1 (left + (right - left) / 2 + 1) right r1.2.1 with
        | none => rw [h2] at h; simp at h
        | some r2 =>
          rw [h2] at h
          simp only [Option.some_bind] at h
          rw [merge_swaps _ _ _ _ _ _ r h, ih _ _ _ _ _ r2 h2, ih _ _ _ _ _ r1 h1]
          obtain ⟨n, hn⟩ : ∃ n : Nat, (right + 1 - left).toNat = n := ⟨_, rfl⟩
          have ea : (left + (right - left) / 2 + 1 - left).toNat = (n + 1) / 2 := by omega
          have eb : (right + 1 - (left + (right - left) / 2 + 1)).toNat = n / 2 := by omega
          rw [hn, ea, eb, mergeExchanges_rec n (by omega)]
          omega
    · rw [if_neg hc] at h
      have := Option.some.inj h
      rw [← this, mergeExchanges_small _ (by omega)]
      rfl

/-- The exchanges counted by `MergeSort::sort` on a vector of `n` elements. -/
theorem sort_swaps (s : SortStats) (arr : List Int) :
    ∃ out s1, sort s arr = some (out, s1) ∧ s1.swaps = s.swaps + mergeExchanges arr.length := by
  obtain ⟨out, s1, hrun, -, -⟩ := msort_spec s arr
  refine ⟨out, s1, hrun, ?_⟩
  unfold sort at hrun
  by_cases h : arr.length ≤ 1
  · rw [if_pos h] at hrun
    have := Option.some.inj hrun
    rw [mergeExchanges_small _ h]
    have e : s1 = s := (Prod.mk.inj this).2.symm
    rw [e]
    rfl
  · rw [if_neg h] at hrun
    simp only [Option.bind_eq_bind] at hrun
    cases h1 : mergeSort (arr.length + 1) s arr 0 ((arr.length : Int) - 1)
        (List.replicate arr.length 0) with
    | none => rw [h1] at hrun; simp at hrun
    | some r =>
      rw [h1] at hrun
      simp only [Option.some_bind] at hrun
      have := Option.some.inj hrun
      have e : s1 = r.2.2 := (Prod.mk.inj this).2.symm
      rw [e, mergeSort_swaps _ _ _ _ _ _ r h1]
      have e2 : ((arr.length : Int) - 1 + 1 - 0).toNat = arr.length := by omega
      rw [e2]

end MergeSort

/-- C22: the exchange count of `MergeSort::sort` does not depend on the values.  On every
integer sequence of length `n` the method started with zeroed statistics returns with
`exchanges = S(n)`, where `S(1) = 0` and `S(n) = n + S(ceil(n/2)) + S(floor(n/2))` for
`n ≥ 2`; `S(n)` equals `n * floor(log2 n) + 2n - 2^(floor(log2 n) + 1)` for `n ≥ 1`, which is
`n * log2 n` when `n` is a power of two; two inputs of the same length give the same
exchange count. -/
theorem mergeSort_exchange_count (arr arr2 : List Int) (h : arr2.length = arr.length) :
    (∃ out s1, MergeSort.sort SortStats.zero arr = some (out, s1) ∧
      s1.swaps = mergeExchanges arr.length ∧
      ∃ out2 s2, MergeSort.sort SortStats.zero arr2 = some (out2, s2) ∧ s2.swaps = s1.swaps) ∧
    mergeExchanges 1 = 0 ∧
    (∀ n, 2 ≤ n → mergeExchanges n = n + mergeExchanges ((n + 1) / 2) + mergeExchanges (n / 2)) ∧
    (∀ n, 1 ≤ n → mergeExchanges n = n * ilog2 n + 2 * n - 2 ^ (ilog2 n + 1) ∧
      2 ^ ilog2 n ≤ n ∧ n < 2 ^ (ilog2 n + 1)) ∧
    (∀ k, mergeExchanges (2 ^ k) = 2 ^ k * k) := by
  refine ⟨?_, by decide, mergeExchanges_rec, ?_, mergeExchanges_pow⟩
  · obtain ⟨out, s1, hrun, hs⟩ := MergeSort.sort_swaps SortStats.zero arr
    obtain ⟨out2, s2, hrun2, hs2⟩ := MergeSort.sort_swaps SortStats.zero arr2
    refine ⟨out, s1, hrun, ?_, out2, s2, hrun2, ?_⟩
    · rw [hs]
      simp [SortStats.zero]
    · rw [hs, hs2, h]
  · intro n hn
    refine ⟨mergeExchanges_eq_closed n, ?_, ?_⟩
    · rw [ilog2_eq_log]
      exact Nat.pow_log_le_self 2 (by omega)
    · rw [ilog2_eq_log]
      exact Nat.lt_pow_succ_log_self (by decide) n

theorem mergeSort_exchange_count_witness :
    ([7, 7, 7] : List Int).length = ([3, 1, 2] : List Int).length ∧
    ((∃ out s1, MergeSort.sort SortStats.zero [3, 1, 2] = some (out, s1) ∧
      s1.swaps = mergeExchanges ([3, 1, 2] : List Int).length ∧
      ∃ out2 s2, MergeSort.sort SortStats.zero [7, 7, 7] = some (out2, s2) ∧
        s2.swaps = s1.swaps) ∧
    mergeExchanges 1 = 0 ∧
    (∀ n, 2 ≤ n → mergeExchanges n = n + mergeExchanges ((n + 1) / 2) + mergeExchanges (n / 2)) ∧
    (∀ n, 1 ≤ n → mergeExchanges n = n * ilog2 n + 2 * n - 2 ^ (ilog2 n + 1) ∧
      2 ^ ilog2 n ≤ n ∧ n < 2 ^ (ilog2 n + 1)) ∧
    (∀ k, mergeExchanges (2 ^ k) = 2 ^ k * k)) :=
  ⟨by decide, mergeSort_exchange_count [3, 1, 2] [7, 7, 7] (by decide)⟩

/-! ## The exchange count of insertion sort -/

theorem sorted_prefix_le (P Q : List Int) (key : Int) (hs : List.Sorted (· ≤ ·) (P ++ Q))
    (hP : ∀ p, P.getLast? = some p → ¬ key < p) : ∀ a ∈ P, a ≤ key := by
  unfold List.Sorted at hs
  rw [List.pairwise_append] at hs
  obtain ⟨hP1, -, -⟩ := hs
  intro a ha
  rcases List.eq_nil_or_concat P with h | ⟨P1, p, h⟩
  · subst h; simp at ha
  · rw [List.concat_eq_append] at h
    subst h
    have hp : ¬ key < p := hP p (by simp)
    rw [List.pairwise_append] at hP1
    rcases List.mem_append.1 ha with h | h
    · have := hP1.2.2 a h p (by simp)
      omega
    · simp at h; omega

theorem countP_gt_split (P Q : List Int) (key : Int) (hP : ∀ a ∈ P, a ≤ key)
    (hQ : ∀ q ∈ Q, key < q) :
    (P ++ Q).countP (fun b => decide (key < b)) = Q.length := by
  rw [List.countP_append]
  have h1 : P.countP (fun b => decide (key < b)) = 0 := by
    rw [List.countP_eq_zero]
    intro a ha
    have := hP a ha
    simp only [decide_eq_true_eq]
    omega
  have h2 : Q.countP (fun b => decide (key < b)) = Q.length := by
    rw [List.countP_eq_length]
    intro a ha
    simpa using hQ a ha
  omega

theorem inversionsAfter_perm (C : List Int) :
    ∀ O O2 : List Int, O.Perm O2 → inversionsAfter O C = inversionsAfter O2 C := by
  induction C with
  | nil => intro O O2 _; rfl
  | cons key rest ih =>
    intro O O2 hp
    rw [inversionsAfter, inversionsAfter, hp.countP_eq, ih (O ++ [key]) (O2 ++ [key])
      (hp.append_right [key])]

namespace InsertionSort

/-- Each shift moves `j` one position down and counts one exchange. -/
theorem shiftLoop_swaps (left key : Int) (fuel : Nat) :
    ∀ (arr : List Int) (s : SortStats) (j : Int) (r : List Int × SortStats × Int),
      shiftLoop left key fuel arr s j = some r →
      r.2.2 ≤ j ∧ r.2.1.swaps = s.swaps + (j - r.2.2).toNat := by
  induction fuel with
  | zero =>
    intro arr s j r h
    simp [shiftLoop] at h
  | succ fuel ih =>
    intro arr s j r h
    rw [shiftLoop] at h
    by_cases hc : left ≤ j
    · rw [if_pos hc] at h
      simp only [Option.bind_eq_bind] at h
      cases h1 : rd arr j with
      | none => rw [h1] at h; simp at h
      | some aj =>
        rw [h1] at h
        simp only [Option.some_bind] at h
        by_cases ht : (SortingAlgorithm.compare s key aj).1 = true
        · rw [if_pos ht] at h
          cases h2 : wr arr (j + 1) aj with
          | none => rw [h2] at h; simp at h
          | some arr1 =>
            rw [h2] at h
            simp only [Option.some_bind] at h
            obtain ⟨a1, a2⟩ := ih _ _ _ r h
            refine ⟨by omega, ?_⟩
            rw [a2]
            simp only [SortingAlgorithm.compare]
            omega
        · rw [if_neg ht] at h
          have := Option.some.inj h
          rw [← this]
          simp [SortingAlgorithm.compare]
    · rw [if_neg hc] at h
      have := Option.some.inj h
      rw [← this]
      simp

/-- The outer loop counts, for each element it inserts, the elements before it in the range
that are greater: the sorted block `B` holds them in another order. -/
theorem sortRangeLoop_count (left right : Int) (fuel : Nat) :
    ∀ (A B C1 C2 : List Int) (s : SortStats) (i : Int),
      (A.length : Int) = left → i = left + B.length → right = left + B.length + C1.length - 1 →
      C1.length < fuel → List.Sorted (· ≤ ·) B →
      ∃ B1 s1, sortRangeLoop left right fuel (A ++ B ++ C1 ++ C2) s i = some (A ++ B1 ++ C2, s1) ∧
        s1.swaps = s.swaps + inversionsAfter B C1 := by
  induction fuel with
  | zero => intro A B C1 C2 s i _ _ _ h; omega
  | succ fuel ih =>
    intro A B C1 C2 s i hA hi hr hf hB
    cases C1 with
    | nil =>
      refine ⟨B, s, ?_, rfl⟩
      have hlt : ¬ i ≤ right := by simp at hr; omega
      simp [sortRangeLoop, hlt]
    | cons key C1 =>
      have hle : i ≤ right := by simp at hr; omega
      have hrd : rd (A ++ B ++ key :: C1 ++ C2) i = some key := by
        have := rd_append_cons (A ++ B) (C1 ++ C2) key i (by simp; omega)
        simpa using this
      obtain ⟨P, Q, x1, s1, hPQ, hQ, hP, hrun⟩ :=
        shiftLoop_spec left key ((i - left).toNat + 1) A B [] (C1 ++ C2) key s (i - 1) hA
          (by omega) (by omega) (by simp)
      have hwr : wr (A ++ P ++ x1 :: (Q ++ []) ++ (C1 ++ C2)) (left + P.length - 1 + 1) key
          = some (A ++ (P ++ key :: Q) ++ C1 ++ C2) := by
        have := wr_append_cons (A ++ P) (Q ++ (C1 ++ C2)) x1 key (left + P.length - 1 + 1)
          (by simp; omega)
        simpa using this
      have hB1 : List.Sorted (· ≤ ·) (P ++ key :: Q) :=
        sorted_insert_mid P Q key (hPQ ▸ hB) (fun q hq => hQ q (by simpa using hq)) hP
      have hrun1 : shiftLoop left key ((i - left).toNat + 1) (A ++ B ++ key :: C1 ++ C2) s (i - 1)
          = some (A ++ P ++ x1 :: (Q ++ []) ++ (C1 ++ C2), s1, left + P.length - 1) := by
        rw [← hrun]; simp
      have hsw := (shiftLoop_swaps left key _ _ _ _ _ hrun1).2
      have hlenB : B.length = P.length + Q.length := by rw [hPQ, List.length_append]
      have hs1 : s1.swaps = s.swaps + Q.length := by
        rw [hsw]
        simp only
        omega
      have hcnt : B.countP (fun b => decide (key < b)) = Q.length := by
        rw [hPQ]
        exact countP_gt_split P Q key (sorted_prefix_le P Q key (hPQ ▸ hB) hP)
          (fun q hq => hQ q (by simpa using hq))
      have hperm : (P ++ key :: Q).Perm (B ++ [key]) := by
        rw [hPQ, List.append_assoc]
        exact List.Perm.append_left P (List.perm_append_singleton key Q).symm
      obtain ⟨B1, s2, hrun2, hs2⟩ :=
        ih A (P ++ key :: Q) C1 C2 s1 (i + 1) hA
          (by subst hPQ; simp at hi ⊢; omega) (by subst hPQ; simp at hr ⊢; omega)
          (by simp at hf; omega) hB1
      refine ⟨B1, s2, ?_, ?_⟩
      · simp only [sortRangeLoop, if_pos hle, hrd, Option.bind_eq_bind, Option.some_bind, hrun1,
          hwr]
        exact hrun2
      · rw [hs2, hs1, inversionsAfter, hcnt, inversionsAfter_perm C1 _ _ hperm]
        omega

/-- The exchanges counted by `sortRange` on a valid range. -/
theorem sortRange_count (s : SortStats) (arr : List Int) (left right : Int)
    (h0 : 0 ≤ left) (h1 : left ≤ right) (h2 : right < arr.length) :
    ∃ out s1, sortRange s arr left right = some (out, s1) ∧
      s1.swaps = s.swaps + inversionsAfter [] (seg arr left right) := by
  obtain ⟨hsplit, hlenA, hlenB⟩ := split3 arr left right h0 (by omega) h2
  cases hB : seg arr left right with
  | nil => rw [hB] at hlenB; simp at hlenB; omega
  | cons b0 C1 =>
    rw [hB] at hsplit hlenB
    obtain ⟨B1, s1, hrun, hs⟩ :=
      sortRangeLoop_count left right ((right - left).toNat + 1) (arr.take left.toNat) [b0] C1
        (arr.drop (right + 1).toNat) s (left + 1) hlenA (by simp) (by simp at hlenB ⊢; omega)
        (by simp at hlenB; omega) (by simp)
    refine ⟨arr.take left.toNat ++ B1 ++ arr.drop (right + 1).toNat, s1, ?_, ?_⟩
    · unfold sortRange
      rw [← hrun]
      congr 1
      simpa using hsplit
    · rw [hs, inversionsAfter]
      simp

end InsertionSort

theorem take_succ_getElem (X : List Int) (k : Nat) (hk : k < X.length) :
    X.take (k + 1) = X.take k ++ [X[k]] := by
  rw [List.take_succ, List.getElem?_eq_getElem hk]
  rfl

/-- The pairs counted by `inversionsAfter`, listed by the position of their later element. -/
theorem inversionsAfter_take_drop (X : List Int) (m : Nat) :
    ∀ k, k + m = X.length →
      inversionsAfter (X.take k) (X.drop k)
        = ((List.range' k m).map (fun (j : Nat) =>
            (X.take j).countP (fun b => decide (X.getD j 0 < b)))).sum := by
  induction m with
  | zero =>
    intro k hk
    rw [List.drop_eq_nil_of_le (by omega)]
    cases X.take k <;> rfl
  | succ m ih =>
    intro k hk
    have hlt : k < X.length := by omega
    rw [List.drop_eq_getElem_cons hlt, inversionsAfter, ← take_succ_getElem X k hlt,
      ih (k + 1) (by omega), List.range'_succ, List.map_cons, List.sum_cons,
      List.getD_eq_getElem _ _ hlt]

theorem map_getD_range' (arr : List Int) (l n : Nat) (h : l + n ≤ arr.length) :
    (List.range' l n).map (fun (i : Nat) => arr.getD i 0) = (arr.drop l).take n := by
  induction n with
  | zero => simp
  | succ n ih =>
    have hlt : n < (arr.drop l).length := by rw [List.length_drop]; omega
    rw [List.range'_1_concat, List.map_append, ih (by omega), take_succ_getElem _ n hlt,
      List.map_singleton, List.getElem_drop, List.getD_eq_getElem _ _ (by omega)]

theorem seg_nat (arr : List Int) (l r : Nat) :
    seg arr (l : Int) (r : Int) = (arr.drop l).take (r + 1 - l) := by
  unfold seg
  have e1 : ((l : Int)).toNat = l := by omega
  have e2 : ((r : Int) + 1 - (l : Int)).toNat = r + 1 - l := by omega
  rw [e1, e2]

/-- The count of `inversionsAfter` on a range is the number of inverted pairs of positions. -/
theorem inversionsAfter_eq_inversionCount (arr : List Int) (l r : Nat) (hlr : l ≤ r)
    (hr : r < arr.length) :
    inversionsAfter [] (seg arr (l : Int) (r : Int)) = inversionCount arr l r := by
  rw [seg_nat]
  obtain ⟨n, hn⟩ : ∃ n, r + 1 - l = n := ⟨_, rfl⟩
  have hX : ((arr.drop l).take n).length = n := by
    rw [List.length_take, List.length_drop]; omega
  have h0 := inversionsAfter_take_drop ((arr.drop l).take n) n 0 (by omega)
  rw [List.take_zero, List.drop_zero] at h0
  unfold inversionCount
  rw [hn, h0, List.range'_eq_map_range l n, ← List.range_eq_range', List.map_map]
  congr 1
  apply List.map_congr_left
  intro j hj
  rw [List.mem_range] at hj
  have e1 : l + j - l = j := by omega
  have e2 : ((arr.drop l).take n).take j = (arr.drop l).take j := by
    rw [List.take_take, Nat.min_eq_left (by omega)]
  have e3 : ((arr.drop l).take n).getD j 0 = arr.getD (l + j) 0 := by
    rw [List.getD_eq_getElem _ _ (by omega), List.getElem_take, List.getElem_drop,
      List.getD_eq_getElem _ _ (by omega)]
  simp only [Function.comp, e1]
  rw [e2, e3, ← map_getD_range' arr l j (by omega), List.countP_map]
  rfl

/-- No element is shifted when the range is already in order. -/
theorem inversionsAfter_sorted (C : List Int) :
    ∀ O : List Int, (∀ o ∈ O, ∀ c ∈ C, o ≤ c) → List.Sorted (· ≤ ·) C →
      inversionsAfter O C = 0 := by
  induction C with
  | nil => intro O _ _; rfl
  | cons key rest ih =>
    intro O hO hs
    have hs2 := List.pairwise_cons.1 hs
    have h1 : O.countP (fun b => decide (key < b)) = 0 := by
      rw [List.countP_eq_zero]
      intro a ha
      have := hO a ha key (List.mem_cons_self _ _)
      simp only [decide_eq_true_eq]
      omega
    rw [inversionsAfter, h1, ih (O ++ [key]) ?_ hs2.2]
    intro o ho c hc
    rcases List.mem_append.1 ho with h | h
    · exact hO o h c (List.mem_cons_of_mem _ hc)
    · rw [List.mem_singleton] at h
      rw [h]
      exact hs2.1 c hc

theorem triangle_step (n : Nat) : (n + 1) * n / 2 = n * (n - 1) / 2 + n := by
  cases n with
  | zero => rfl
  | succ d =>
    have := triangle_succ d
    have e1 : (d + 1 + 1) * (d + 1) = (d + 1) * (d + 2) := by ring
    have e2 : (d + 1) * (d + 1 - 1) = d * (d + 1) := by
      rw [Nat.add_sub_cancel, Nat.mul_comm]
    rw [e1, e2, this]

/-- Every element is shifted past all its predecessors when the range is in strictly
decreasing order. -/
theorem inversionsAfter_decreasing (C : List Int) :
    ∀ O : List Int, (∀ o ∈ O, ∀ c ∈ C, c < o) → List.Sorted (· > ·) C →
      inversionsAfter O C = C.length * O.length + C.length * (C.length - 1) / 2 := by
  induction C with
  | nil => intro O _ _; simp [inversionsAfter]
  | cons key rest ih =>
    intro O hO hs
    have hs2 := List.pairwise_cons.1 hs
    have h1 : O.countP (fun b => decide (key < b)) = O.length := by
      rw [List.countP_eq_length]
      intro a ha
      simpa using hO a ha key (List.mem_cons_self _ _)
    rw [inversionsAfter, h1, ih (O ++ [key]) ?_ hs2.2]
    · simp only [List.length_append, List.length_cons, List.length_nil, Nat.add_sub_cancel]
      have t := triangle_step rest.length
      have e1 : rest.length * (O.length + (0 + 1)) = rest.length * O.length + rest.length := by
        ring
      have e2 : (rest.length + 1) * O.length = rest.length * O.length + O.length := by ring
      rw [e1, e2, t]
      omega
    · intro o ho c hc
      rcases List.mem_append.1 ho with h | h
      · exact hO o h c (List.mem_cons_of_mem _ hc)
      · rw [List.mem_singleton] at h
        rw [h]
        exact hs2.1 c hc

/-- C21: the exchange count of insertion sort is the inversion count.  For every integer
sequence and range `0 ≤ left ≤ right < arr.size()`, `InsertionSort::sortRange` started with
zeroed statistics returns with `exchanges` equal to the number of pairs `(i, j)` with
`left ≤ i < j ≤ right` and `arr[i] > arr[j]` in the original sequence; so a range that is
already non-decreasing costs 0 exchanges and a strictly decreasing range of `n` elements
costs `n(n-1)/2`; for instance `[5,2,4,6,1,3]` has 9 inversions. -/
theorem insertionSort_exchanges_eq_inversions (arr : List Int) (left right : Nat)
    (hlr : left ≤ right) (hr : right < arr.length) :
    (∃ out s1, InsertionSort.sortRange SortStats.zero arr left right = some (out, s1) ∧
      s1.swaps = inversionCount arr left right ∧
      (List.Sorted (· ≤ ·) (seg arr left right) → s1.swaps = 0) ∧
      (List.Sorted (· > ·) (seg arr left right) →
        s1.swaps = (right + 1 - left) * (right + 1 - left - 1) / 2)) ∧
    inversionCount [5, 2, 4, 6, 1, 3] 0 5 = 9 := by
  refine ⟨?_, by decide⟩
  obtain ⟨out, s1, hrun, hs⟩ := InsertionSort.sortRange_count SortStats.zero arr left right
    (by omega) (by omega) (by omega)
  have hz : SortStats.zero.swaps = 0 := rfl
  rw [hz, Nat.zero_add] at hs
  refine ⟨out, s1, hrun, ?_, ?_, ?_⟩
  · rw [hs]
    exact inversionsAfter_eq_inversionCount arr left right hlr hr
  · intro hsorted
    rw [hs]
    exact inversionsAfter_sorted _ [] (by simp) hsorted
  · intro hdec
    rw [hs, inversionsAfter_decreasing _ [] (by simp) hdec]
    have hlen : (seg arr (left : Int) (right : Int)).length = right + 1 - left := by
      rw [seg_nat, List.length_take, List.length_drop]
      omega
    rw [hlen]
    simp

theorem insertionSort_exchanges_eq_inversions_witness :
    (0 ≤ 5 ∧ 5 < ([5, 2, 4, 6, 1, 3] : List Int).length) ∧
    ((∃ out s1, InsertionSort.sortRange SortStats.zero [5, 2, 4, 6, 1, 3] (0 : Nat) (5 : Nat)
        = some (out, s1) ∧
      s1.swaps = inversionCount [5, 2, 4, 6, 1, 3] 0 5 ∧
      (List.Sorted (· ≤ ·) (seg [5, 2, 4, 6, 1, 3] (0 : Nat) (5 : Nat)) → s1.swaps = 0) ∧
      (List.Sorted (· > ·) (seg [5, 2, 4, 6, 1, 3] (0 : Nat) (5 : Nat)) →
        s1.swaps = (5 + 1 - 0) * (5 + 1 - 0 - 1) / 2)) ∧
    inversionCount [5, 2, 4, 6, 1, 3] 0 5 = 9) :=
  ⟨by decide, insertionSort_exchanges_eq_inversions [5, 2, 4, 6, 1, 3] 0 5 (by decide)
    (by decide)⟩
